import Mathlib

/-!
# BayesGLMfMRI: the hyperparameter-estimation core (`src/rcpp_sparsechol.cpp`)

A shallow embedding of the C++ source in Lean, and the properties of it that the
specification states.

Conventions of the embedding.

* `double` is an element of an arbitrary linearly ordered field `α` (exact arithmetic).
  The definitions are computable for every such field; the results are stated for every
  such field where they hold there, and over `ℝ` where they speak of determinants,
  logarithms or positive definiteness.
* The C library and Eigen are not part of the source.  What the source takes from them
  (`sqrt`, `log`, `DBL_EPSILON`, `M_PI`, the sparse `LDLT` factorization) is passed to the
  definitions as an argument.
* An `Eigen::SparseMatrix<double>` is its dimensions together with its stored slots:
  `coeff i j = some v` when the slot `(i, j)` is stored with value `v` (which may be zero),
  `none` when the slot is a structural zero.
* Unbounded loops (`for(;;)`) carry a fuel argument; `none` means the fuel ran out.
* A local variable that the source reads before assigning it (`w` in the Brent search,
  `alpha` in the accelerator) is an argument of the definition, so that results hold for
  every value it may have.
-/

namespace BayesGLMfMRI

/-! ## Sparse matrices -/

/-- Model of `Eigen::SparseMatrix<double>`: dimensions and stored slots. -/
structure SparseMatrix (α : Type) where
  rows : Nat
  cols : Nat
  coeff : Nat → Nat → Option α

namespace SparseMatrix

variable {α : Type}

/-- The matrix `Eigen::SparseMatrix<double> Q(r, c)`: no stored slot. -/
def empty (r c : Nat) : SparseMatrix α :=
  { rows := r, cols := c, coeff := fun _ _ => none }

/-- The slot `(i, j)` is stored (it belongs to the sparsity pattern). -/
def stored (M : SparseMatrix α) (i j : Nat) : Prop :=
  (M.coeff i j).isSome = true

instance (M : SparseMatrix α) (i j : Nat) : Decidable (M.stored i j) := by
  unfold stored
  infer_instance

/-- Every stored slot lies inside the dimensions of the matrix. -/
def WF (M : SparseMatrix α) : Prop :=
  ∀ i j, M.stored i j → i < M.rows ∧ j < M.cols

/-- The entry `M(i, j)` as a number: the stored value, or zero for a structural zero. -/
def value [Zero α] (M : SparseMatrix α) (i j : Nat) : α :=
  (M.coeff i j).getD 0

/-- The expression `k * M`: every stored value is multiplied, the pattern is kept. -/
def smul [Mul α] (k : α) (M : SparseMatrix α) : SparseMatrix α :=
  { M with coeff := fun i j => (M.coeff i j).map (fun v => k * v) }

/-- The expression `M / k`: every stored value is divided, the pattern is kept. -/
def sdiv [Div α] (M : SparseMatrix α) (k : α) : SparseMatrix α :=
  { M with coeff := fun i j => (M.coeff i j).map (fun v => v / k) }

/-- The expression `A + B` evaluated into a sparse matrix: the result stores the union of
the two patterns (Eigen's sparse sum merges the stored slots and does not prune zeros). -/
def add [Add α] [Zero α] (A B : SparseMatrix α) : SparseMatrix α :=
  { rows := A.rows
    cols := A.cols
    coeff := fun i j =>
      match A.coeff i j, B.coeff i j with
      | some a, some b => some (a + b)
      | some a, none => some (a + 0)
      | none, some b => some (0 + b)
      | none, none => none }

/-- The statement `Q->coeffRef(i, j) = v`: the slot is created when it is not stored yet,
and its value is overwritten.  Eigen requires `(i, j)` to lie inside `Q` and checks it only
by an assertion; the model performs the assignment in either case. -/
def coeffRefAssign (Q : SparseMatrix α) (i j : Nat) (v : α) : SparseMatrix α :=
  { Q with coeff := fun r c => if r = i ∧ c = j then some v else Q.coeff r c }

/-- One step of an `InnerIterator` over column `k` of `B`: `body` runs when the slot
`(i, k)` is stored, with `it.row() = i`, `it.col() = k` and `it.value()`. -/
def visit {σ : Type} (B : SparseMatrix α) (body : σ → Nat → Nat → α → σ) (k : Nat) (acc : σ)
    (i : Nat) : σ :=
  match B.coeff i k with
  | some v => body acc i k v
  | none => acc

/-- The two nested loops `for (k < B.outerSize()) for (InnerIterator it(B, k); it; ++it)`
that visit the stored slots of `B` column by column, running `body` on each. -/
def forEachStored {σ : Type} (B : SparseMatrix α) (body : σ → Nat → Nat → α → σ) (init : σ) : σ :=
  (List.range B.cols).foldl
    (fun acc k => (List.range B.rows).foldl (B.visit body k) acc)
    init

end SparseMatrix

/-! ## The SPDE prior and the precision builder -/

/-- The list `spde` / `in_list` with its elements `Cmat`, `Gmat` and `GtCinvG`. -/
structure Spde (α : Type) where
  Cmat : SparseMatrix α
  Gmat : SparseMatrix α
  GtCinvG : SparseMatrix α

/-- The three matrices of the prior are `n` by `n` and store nothing outside. -/
def Spde.Dim {α : Type} (spde : Spde α) (n : Nat) : Prop :=
  (spde.Cmat.rows = n ∧ spde.Cmat.cols = n ∧ spde.Cmat.WF) ∧
  (spde.Gmat.rows = n ∧ spde.Gmat.cols = n ∧ spde.Gmat.WF) ∧
  (spde.GtCinvG.rows = n ∧ spde.GtCinvG.cols = n ∧ spde.GtCinvG.WF)

/-- The expression `kappa2 * Cmat + 2. * Gmat + GtCinvG / kappa2` of `logDetQt` (line 21)
and `makeQt` (line 31), evaluated into a sparse matrix. -/
def Precision {α : Type} [Field α] (kappa2 : α) (spde : Spde α) : SparseMatrix α :=
  ((SparseMatrix.smul kappa2 spde.Cmat).add (SparseMatrix.smul 2 spde.Gmat)).add
    (SparseMatrix.sdiv spde.GtCinvG kappa2)

/-- The function `makeQt(Q, kappa2, spde)`: the destination `Q` after the call. -/
def makeQt {α : Type} [Field α] (Q : SparseMatrix α) (kappa2 : α) (spde : Spde α) :
    SparseMatrix α :=
  let Qt := Precision kappa2 spde
  Qt.forEachStored (fun Q row col value => Q.coeffRefAssign row col value) Q

/-! ## What the source takes from the C library and from Eigen -/

/-- The C library as the source uses it: `sqrt`, `log`, and the constants `DBL_EPSILON`
and `M_PI`. -/
structure CLib (α : Type) where
  sqrt : α → α
  log : α → α
  DBL_EPSILON : α
  M_PI : α

/-- Eigen's `ComputationInfo`, the status a factorization object reports through `info()`. -/
inductive ComputationInfo where
  | Success
  | NumericalIssue
  | NoConvergence
  | InvalidInput
  deriving DecidableEq

/-- What a `SimplicialLDLT<SparseMatrix<double>>` object holds after its constructor ran:
the status `info()` and the diagonal `vectorD()` of the factor `D`. -/
structure SimplicialLDLT (α : Type) where
  info : ComputationInfo
  vectorD : List α

/-- The function `logDetQt(kappa2, in_list, n_sess)`.  The argument `ldlt` is the constructor
`SimplicialLDLT<...> cholQ(Q)`.  The body reads `cholQ.vectorD()` and never `cholQ.info()`. -/
def logDetQt {α : Type} [Field α] (lib : CLib α) (ldlt : SparseMatrix α → SimplicialLDLT α)
    (kappa2 : α) (in_list : Spde α) (n_sess : Int) : α :=
  let Q := Precision kappa2 in_list
  let cholQ := ldlt Q
  let lDQ := (n_sess : α) * (cholQ.vectorD.map lib.log).sum
  lDQ

/-- The call `logDetQt(kappa2, in_list, n_sess)` as its caller observes it: `Except.ok` with
the returned `double`, or `Except.error` when an exception leaves the call.  The body has no
`throw` and no test, and the factorization object reports a breakdown through `info()`
alone, so the call returns on every path. -/
def logDetQt_call {α : Type} [Field α] (lib : CLib α)
    (ldlt : SparseMatrix α → SimplicialLDLT α) (kappa2 : α) (in_list : Spde α) (n_sess : Int) :
    Except ComputationInfo α :=
  Except.ok (logDetQt lib ldlt kappa2 in_list n_sess)

/-- The function `kappa2Obj(kappa2, spde, a_star, b_star, n_sess)`. -/
def kappa2Obj {α : Type} [Field α] (lib : CLib α) (ldlt : SparseMatrix α → SimplicialLDLT α)
    (kappa2 : α) (spde : Spde α) (a_star b_star : α) (n_sess : Int) : α :=
  let lDQ := logDetQt lib ldlt kappa2 spde n_sess
  let out := a_star * kappa2 + b_star / kappa2 - lDQ
  out

/-! ## Dense vectors -/

/-- The entry `v[i]` of an `Eigen::VectorXd`. -/
def vecGet {α : Type} [Zero α] (v : List α) (i : Nat) : α :=
  v.getD i 0

/-- The block `v.segment(start, n)`. -/
def segment {α : Type} (v : List α) (start n : Nat) : List α :=
  (v.drop start).take n

/-- The product `a.transpose() * b` of two vectors. -/
def dot {α : Type} [Add α] [Mul α] [Zero α] (a b : List α) : α :=
  (List.zipWith (fun x y => x * y) a b).sum

/-- The product `M * x` of a sparse matrix and a dense vector. -/
def SparseMatrix.mulVec {α : Type} [Add α] [Mul α] [Zero α] (M : SparseMatrix α) (x : List α) :
    List α :=
  (List.range M.rows).map
    (fun i => ((List.range M.cols).map (fun j => M.value i j * vecGet x j)).sum)

/-- The function `kappa2InitObj(kappa2, phi, spde, beta_hat, n_sess)`. -/
def kappa2InitObj {α : Type} [Field α] (lib : CLib α) (ldlt : SparseMatrix α → SimplicialLDLT α)
    (kappa2 phi : α) (spde : Spde α) (beta_hat : List α) (n_sess : Int) : α :=
  let lDQ := logDetQt lib ldlt kappa2 spde n_sess
  let n_spde := spde.Cmat.rows
  let Qt := makeQt (SparseMatrix.empty n_spde n_spde) kappa2 spde
  let wQw := (List.range n_sess.toNat).foldl
    (fun wQw ns =>
      let wNs := segment beta_hat (ns * n_spde) n_spde
      let Qw := Qt.mulVec wNs
      wQw + dot wNs Qw)
    0
  let wQw := wQw / (4 * lib.M_PI * phi)
  let initObj := wQw - lDQ
  initObj

/-! ## The univariate minimizer (Brent) -/

/-- The variables of `kappa2Brent` / `kappa2BrentInit` that live across iterations of the
main loop. -/
structure BrentState (α : Type) where
  a : α
  b : α
  d : α
  e : α
  v : α
  w : α
  x : α
  fv : α
  fw : α
  fx : α

section Brent

variable {α : Type} [LinearOrderedField α]

/-- The state on entry to the main loop (lines 60-81 and 161-182).  The source assigns `x = v`
twice and never assigns `w` before the loop, so `w` holds an indeterminate value: it is the
argument `w0`. -/
def brentInit (lib : CLib α) (f : α → α) (w0 lower upper : α) : BrentState α :=
  let c := (3 - lib.sqrt 5) / 2
  let a := lower
  let b := upper
  let v := a + c * (b - a)
  let x := v
  let fx := f x
  { a := a, b := b, d := 0, e := 0, v := v, w := w0, x := x, fv := fx, fw := fx, fx := fx }

/-- The value `tol1 = eps * fabs(x) + tol3` of an iteration. -/
def brentTol1 (eps tol3 : α) (s : BrentState α) : α :=
  eps * |s.x| + tol3

/-- The stopping criterion `fabs(x - xm) <= t2 - (b - a) / 2.` (lines 89 and 190). -/
def brentStop (eps tol3 : α) (s : BrentState α) : Prop :=
  |s.x - (s.a + s.b) / 2| ≤ brentTol1 eps tol3 s * 2 - (s.b - s.a) / 2

instance (eps tol3 : α) (s : BrentState α) : Decidable (brentStop eps tol3 s) := by
  unfold brentStop
  infer_instance

/-- The values of `p`, `q`, `r` and `e` after the block `if (fabs(e) > tol1) { ... }` that
fits a parabola (lines 90-101 and 191-202). -/
structure BrentFit (α : Type) where
  p : α
  q : α
  r : α
  e : α

/-- The parabola fit through `(v, fv)`, `(w, fw)` and `(x, fx)` (lines 90-101 and
191-202). -/
def brentFit (tol1 : α) (s : BrentState α) : BrentFit α :=
  if |s.e| > tol1 then
    let r := (s.x - s.w) * (s.fx - s.fv)
    let q := (s.x - s.v) * (s.fx - s.fw)
    let p := (s.x - s.v) * q - (s.x - s.w) * r
    let q := (q - r) * 2
    { p := if q > 0 then -p else p
      q := if q > 0 then q else -q
      r := s.e
      e := s.d }
  else { p := 0, q := 0, r := 0, e := s.e }

/-- The test `fabs(p) >= fabs(q * .5 * r) || p <= q * (a - x) || p >= q * (b - x)` that
selects a golden-section step (lines 102-103 and 203-204). -/
def brentGolden (s : BrentState α) (ft : BrentFit α) : Prop :=
  |ft.p| ≥ |ft.q * (1 / 2) * ft.r| ∨ ft.p ≤ ft.q * (s.a - s.x) ∨ ft.p ≥ ft.q * (s.b - s.x)

instance (s : BrentState α) (ft : BrentFit α) : Decidable (brentGolden s ft) := by
  unfold brentGolden
  infer_instance

/-- The value of `e` after the step was chosen (lines 105 and 206): a golden-section step
assigns it, a parabolic step keeps the value the fit left. -/
def brentE (s : BrentState α) (ft : BrentFit α) : α :=
  let xm := (s.a + s.b) / 2
  if brentGolden s ft then (if s.x < xm then s.b - s.x else s.a - s.x) else ft.e

/-- The value of `d` after the step was chosen (lines 106-118 and 207-219). -/
def brentD (c tol1 : α) (s : BrentState α) (ft : BrentFit α) : α :=
  let xm := (s.a + s.b) / 2
  let t2 := tol1 * 2
  if brentGolden s ft then
    -- a golden-section step
    c * brentE s ft
  else
    -- a parabolic-interpolation step
    let d := ft.p / ft.q
    let u := s.x + d
    -- f must not be evaluated too close to ax or bx
    if u - s.a < t2 ∨ s.b - u < t2 then (if s.x ≥ xm then -tol1 else tol1) else d

/-- The point `u` at which the objective is evaluated (lines 123-128 and 224-229): `f` must
not be evaluated too close to `x`. -/
def brentU (tol1 x d : α) : α :=
  if |d| ≥ tol1 then x + d else if d > 0 then x + tol1 else x - tol1

/-- The values of `d`, `e` and `u` when the objective is about to be evaluated at `u`
(lines 90-128 and 191-229). -/
structure BrentTrial (α : Type) where
  d : α
  e : α
  u : α

/-- The part of an iteration between the stopping test and the evaluation of the objective:
the parabola fit, the choice between a golden-section and a parabolic step, and the
safeguards on `u`. -/
def brentTrial (c eps tol3 : α) (s : BrentState α) : BrentTrial α :=
  let tol1 := brentTol1 eps tol3 s
  let ft := brentFit tol1 s
  let d := brentD c tol1 s ft
  { d := d, e := brentE s ft, u := brentU tol1 s.x d }

/-- The update of `a`, `b`, `v`, `w` and `x` after the objective was evaluated at `u`
(lines 135-147 and 236-248). -/
def brentUpdate (s : BrentState α) (t : BrentTrial α) (fu : α) : BrentState α :=
  let u := t.u
  if fu ≤ s.fx then
    { a := if u < s.x then s.a else s.x
      b := if u < s.x then s.x else s.b
      d := t.d, e := t.e
      v := s.w, w := s.x, x := u
      fv := s.fw, fw := s.fx, fx := fu }
  else
    let a := if u < s.x then u else s.a
    let b := if u < s.x then s.b else u
    if fu ≤ s.fw ∨ s.w = s.x then
      { a := a, b := b, d := t.d, e := t.e
        v := s.w, fv := s.fw
        w := u, fw := fu
        x := s.x, fx := s.fx }
    else if fu ≤ s.fv ∨ s.v = s.x ∨ s.v = s.w then
      { a := a, b := b, d := t.d, e := t.e
        v := u, fv := fu
        w := s.w, fw := s.fw
        x := s.x, fx := s.fx }
    else
      { a := a, b := b, d := t.d, e := t.e
        v := s.v, fv := s.fv
        w := s.w, fw := s.fw
        x := s.x, fx := s.fx }

/-- One pass through the body of the main loop that does not leave through `break`:
exactly one evaluation of the objective. -/
def brentIter (c eps tol3 : α) (f : α → α) (s : BrentState α) : BrentState α :=
  let t := brentTrial c eps tol3 s
  brentUpdate s t (f t.u)

/-- The main loop `for(;;)` (lines 84-148 and 185-249), with the value returned after it.
Each unit of fuel pays for one test of the stopping criterion; `none` means that the fuel
ran out before the loop left through `break`. -/
def brentLoop (c eps tol3 : α) (f : α → α) : Nat → BrentState α → Option α
  | 0, _ => none
  | fuel + 1, s =>
    if brentStop eps tol3 s then some s.x
    else brentLoop c eps tol3 f fuel (brentIter c eps tol3 f s)

/-- The common body of `kappa2Brent` and `kappa2BrentInit`, which differ only in the
objective `f` they evaluate (lines 78 and 131 against lines 179 and 232). -/
def brentMin (lib : CLib α) (f : α → α) (fuel : Nat) (w0 lower upper tol : α) : Option α :=
  let c := (3 - lib.sqrt 5) / 2
  let eps := lib.sqrt lib.DBL_EPSILON
  let tol3 := tol / 3
  brentLoop c eps tol3 f fuel (brentInit lib f w0 lower upper)

/-- The function `kappa2Brent(lower, upper, spde, a_star, b_star, n_sess, tol)`. -/
def kappa2Brent (lib : CLib α) (ldlt : SparseMatrix α → SimplicialLDLT α) (fuel : Nat) (w0 : α)
    (lower upper : α) (spde : Spde α) (a_star b_star : α) (n_sess : Int) (tol : α) : Option α :=
  brentMin lib (fun x => kappa2Obj lib ldlt x spde a_star b_star n_sess) fuel w0 lower upper tol

/-- The function `kappa2BrentInit(lower, upper, phi, spde, beta_hat, n_sess, tol)`. -/
def kappa2BrentInit (lib : CLib α) (ldlt : SparseMatrix α → SimplicialLDLT α) (fuel : Nat)
    (w0 : α) (lower upper phi : α) (spde : Spde α) (beta_hat : List α) (n_sess : Int) (tol : α) :
    Option α :=
  brentMin lib (fun x => kappa2InitObj lib ldlt x phi spde beta_hat n_sess) fuel w0 lower upper tol

end Brent

/-! ## The fixed-point accelerator (SQUAREM) -/

/-- The struct `SquaremControl`. -/
structure SquaremControl (α : Type) where
  K : Int
  method : Int
  mstep : α
  maxiter : Nat
  square : Bool
  trace : Bool
  stepmin0 : α
  stepmax0 : α
  kr : α
  objfninc : α
  tol : α

/-- The global `SquaremDefault` with the member initializers of lines 256-268. -/
def SquaremDefault {α : Type} [Field α] : SquaremControl α :=
  { K := 1
    method := 3
    mstep := 4
    maxiter := 1500
    square := true
    trace := true
    stepmin0 := 1
    stepmax0 := 1
    kr := 1
    objfninc := 1
    tol := 1 / 10 ^ 7 }

/-- The struct `SquaremOutput`; `valueobjfn = none` stands for `NAN`. -/
structure SquaremOutput (α : Type) where
  par : List α
  valueobjfn : Option α
  iter : Nat
  pfevals : Nat
  objfevals : Nat
  convergence : Bool

/-- The global `sqobjnull`, which the source never assigns: an empty `par`, the member
initializers of lines 275-278, and a zero-initialized `valueobjfn`. -/
def sqobjnull {α : Type} [Zero α] : SquaremOutput α :=
  { par := [], valueobjfn := some 0, iter := 0, pfevals := 0, objfevals := 0,
    convergence := false }

/-- The local variables of `init_squarem2` / `theta_squarem2` that live across rounds of
the `while` loop. -/
structure SquaremState (α : Type) where
  pcpp : List α
  pnew : List α
  alpha : α
  stepmin : α
  stepmax : α
  iter : Nat
  feval : Nat
  extrap : Bool

/-- How one round of the `while` loop ends: `return sqobjnull`, `break`, or the end of the
body (also reached through `continue`) with the variables as they are then. -/
inductive SquaremStep (α : Type) where
  | abort : SquaremStep α
  | leave : SquaremState α → SquaremStep α
  | next : SquaremState α → SquaremStep α

/-- The value of a `double` expression that can leave the finite numbers through a division
by zero: a finite number, `+inf`, `-inf` or NaN. -/
inductive DoubleVal (α : Type) where
  | finite : α → DoubleVal α
  | posInf : DoubleVal α
  | negInf : DoubleVal α
  | nan : DoubleVal α

section DoubleArith

variable {α : Type} [LinearOrderedField α]

/-- The comparison `a < b` of two `double`: false as soon as one of them is NaN. -/
def DoubleVal.lt : DoubleVal α → DoubleVal α → Prop
  | DoubleVal.finite x, DoubleVal.finite y => x < y
  | DoubleVal.finite _, DoubleVal.posInf => True
  | DoubleVal.negInf, DoubleVal.finite _ => True
  | DoubleVal.negInf, DoubleVal.posInf => True
  | _, _ => False

instance : LT (DoubleVal α) := ⟨DoubleVal.lt⟩

instance (a b : DoubleVal α) : Decidable (a < b) := by
  show Decidable (DoubleVal.lt a b)
  cases a <;> cases b <;> unfold DoubleVal.lt <;> infer_instance

/-- The quotient `a / b` of two finite `double`, where a zero `b` is `+0`: a quotient in the
field when `b` is not zero, and otherwise `+inf`, `-inf` or NaN with the sign of `a`. -/
def DoubleVal.div (a b : α) : DoubleVal α :=
  if b = 0 then
    if 0 < a then DoubleVal.posInf else if a < 0 then DoubleVal.negInf else DoubleVal.nan
  else DoubleVal.finite (a / b)

/-- The function `sqrt` of `<cmath>` on a value that can be infinite or NaN. -/
def DoubleVal.sqrt (lib : CLib α) : DoubleVal α → DoubleVal α
  | DoubleVal.finite x => if x < 0 then DoubleVal.nan else DoubleVal.finite (lib.sqrt x)
  | DoubleVal.posInf => DoubleVal.posInf
  | DoubleVal.negInf => DoubleVal.nan
  | DoubleVal.nan => DoubleVal.nan

/-- The number held by a `double` that is finite; `stdClamp_finite` shows that the clamp of
lines 356 and 650 leaves a finite value, so that the other cases are not reached there. -/
def DoubleVal.get : DoubleVal α → α
  | DoubleVal.finite x => x
  | _ => 0

end DoubleArith

section Squarem

variable {α : Type} [LinearOrderedField α]

/-- The function `std::min(a, b)`: `b` if `b < a`, and `a` otherwise. -/
def stdMin {β : Type} [LT β] [DecidableRel (fun a b : β => a < b)] (a b : β) : β :=
  if b < a then b else a

/-- The function `std::max(a, b)`: `b` if `a < b`, and `a` otherwise. -/
def stdMax {β : Type} [LT β] [DecidableRel (fun a b : β => a < b)] (a b : β) : β :=
  if a < b then b else a

/-- The loop `acc = 0; for (int i = 0; i < len; i++) acc += term(i);`. -/
def sumLoop (len : Nat) (term : Nat → α) : α :=
  (List.range len).foldl (fun acc i => acc + term i) 0

/-- The `switch (SquaremDefault.method)` of lines 350-354 and 644-648: no `break` and no
`default`, so every case falls through to `case 3`, and any other value leaves `alpha`
as it was.  The quotients are those of `double`: `sv2_scalar`, a sum of squares, can be
zero, and then `sqrt(sr2_scalar / sv2_scalar)` is `+inf` or NaN.  The values of `case 1` and
`case 2` are overwritten before they are read. -/
def methodSwitch (lib : CLib α) (method : Int) (alpha : DoubleVal α)
    (sr2_scalar sv2_scalar srv_scalar : α) : DoubleVal α :=
  -- case 1:
  let alpha := if method = 1 then DoubleVal.div (-srv_scalar) sv2_scalar else alpha
  -- case 2:
  let alpha := if method = 1 ∨ method = 2 then DoubleVal.div (-sr2_scalar) srv_scalar else alpha
  -- case 3:
  let alpha := if method = 1 ∨ method = 2 ∨ method = 3 then
    DoubleVal.sqrt lib (DoubleVal.div sr2_scalar sv2_scalar) else alpha
  alpha

/-- The variables on entry to the `while` loop (lines 308-313 and 602-607); `alpha0` is the
indeterminate value of the local `alpha`, which is not assigned before the loop. -/
def squaremStart (ctl : SquaremControl α) (alpha0 : α) (par : List α) : SquaremState α :=
  { pcpp := par, pnew := par, alpha := alpha0, stepmin := ctl.stepmin0,
    stepmax := ctl.stepmax0, iter := 1, feval := 0, extrap := true }

/-- One round of the `while` loop of `init_squarem2` (lines 318-400); `fixptfn p` is the call
`init_fixptC(p, w, spde, n_sess, tol)`, `none` when it
throws.  The step length of lines 350-356 is computed as a `double`, which a zero
`sv2_scalar` makes `+inf` or NaN before the clamp. -/
def init_squarem2_round (lib : CLib α) (ctl : SquaremControl α)
    (fixptfn : List α → Option (List α)) (parvectorlength : Nat) (s : SquaremState α) :
    SquaremStep α :=
  -- Step 1
  match fixptfn s.pcpp with
  | none => SquaremStep.abort
  | some p1cpp =>
    let feval := s.feval + 1
    let sr2_scalar := sumLoop parvectorlength (fun i => (vecGet p1cpp i - vecGet s.pcpp i) ^ 2)
    if lib.sqrt sr2_scalar < ctl.tol then
      SquaremStep.leave { s with feval := feval, extrap := true }
    else
      -- Step 2
      match fixptfn p1cpp with
      | none => SquaremStep.abort
      | some p2cpp =>
        let feval := feval + 1
        let sq2_scalar := sumLoop parvectorlength (fun i => (vecGet p2cpp i - vecGet p1cpp i) ^ 2)
        let sq2_scalar := lib.sqrt sq2_scalar
        if sq2_scalar < ctl.tol then
          SquaremStep.leave { s with feval := feval, extrap := true }
        else
          let sv2_scalar := sumLoop parvectorlength
            (fun i => (vecGet p2cpp i - 2 * vecGet p1cpp i + vecGet s.pcpp i) ^ 2)
          let srv_scalar := sumLoop parvectorlength
            (fun i => (vecGet p2cpp i - 2 * vecGet p1cpp i + vecGet s.pcpp i)
              * (vecGet p1cpp i - vecGet s.pcpp i))
          -- Step 3 Proposing new value
          let alpha := methodSwitch lib ctl.method (DoubleVal.finite s.alpha) sr2_scalar
            sv2_scalar srv_scalar
          let alpha := stdMax (DoubleVal.finite s.stepmin)
            (stdMin (DoubleVal.finite s.stepmax) alpha)
          let alpha := alpha.get
          let pnew := (List.range parvectorlength).foldl
            (fun pnew i => pnew.set i
              (vecGet s.pcpp i + 2 * alpha * (vecGet p1cpp i - vecGet s.pcpp i)
                + alpha ^ 2 * (vecGet p2cpp i - 2 * vecGet p1cpp i + vecGet s.pcpp i)))
            s.pnew
          -- Step 4 stabilization
          if |alpha - 1| > 1 / 100 then
            match fixptfn pnew with
            | none =>
              -- the handler of lines 364-377
              let pnew := p2cpp
              let stepmax :=
                if alpha = s.stepmax then stdMax ctl.stepmax0 (s.stepmax / ctl.mstep)
                else s.stepmax
              let alpha := 1
              let stepmax := if alpha = stepmax then ctl.mstep * stepmax else stepmax
              let stepmin :=
                if s.stepmin < 0 ∧ alpha = s.stepmin then ctl.mstep * s.stepmin else s.stepmin
              SquaremStep.next
                { pcpp := pnew, pnew := pnew, alpha := alpha, stepmin := stepmin,
                  stepmax := stepmax, iter := s.iter + 1, feval := feval, extrap := false }
            | some ptmp =>
              let feval := feval + 1
              let res := sumLoop parvectorlength (fun i => (vecGet ptmp i - vecGet pnew i) ^ 2)
              let res := lib.sqrt res
              let parnorm := sumLoop parvectorlength (fun i => vecGet p2cpp i ^ 2)
              let parnorm := lib.sqrt (parnorm / (parvectorlength : α))
              let kres := ctl.kr * (1 + parnorm) + sq2_scalar
              if res ≤ kres then
                let pnew := ptmp
                let stepmax := if alpha = s.stepmax then ctl.mstep * s.stepmax else s.stepmax
                let stepmin :=
                  if s.stepmin < 0 ∧ alpha = s.stepmin then ctl.mstep * s.stepmin else s.stepmin
                SquaremStep.next
                  { pcpp := pnew, pnew := pnew, alpha := alpha, stepmin := stepmin,
                    stepmax := stepmax, iter := s.iter + 1, feval := feval, extrap := true }
              else
                let pnew := p2cpp
                let stepmax := if alpha = s.stepmax then ctl.mstep * s.stepmax else s.stepmax
                let alpha := 1
                let stepmax := if alpha = stepmax then ctl.mstep * stepmax else stepmax
                let stepmin :=
                  if s.stepmin < 0 ∧ alpha = s.stepmin then ctl.mstep * s.stepmin else s.stepmin
                SquaremStep.next
                  { pcpp := pnew, pnew := pnew, alpha := alpha, stepmin := stepmin,
                    stepmax := stepmax, iter := s.iter + 1, feval := feval, extrap := false }
          else
            let stepmax := if alpha = s.stepmax then ctl.mstep * s.stepmax else s.stepmax
            let stepmin :=
              if s.stepmin < 0 ∧ alpha = s.stepmin then ctl.mstep * s.stepmin else s.stepmin
            SquaremStep.next
              { pcpp := pnew, pnew := pnew, alpha := alpha, stepmin := stepmin,
                stepmax := stepmax, iter := s.iter + 1, feval := feval, extrap := true }

/-- The loop `while (feval < SquaremDefault.maxiter)` of `init_squarem2` (lines 317-401):
the variables when the loop is left, or `none` when a round ends in `return sqobjnull`.
Every round that does not leave the loop adds at least one to `feval`, so `maxiter` units
of fuel are never used up while `feval < maxiter` still holds. -/
def init_squarem2_loop (lib : CLib α) (ctl : SquaremControl α)
    (fixptfn : List α → Option (List α)) (parvectorlength : Nat) :
    Nat → SquaremState α → Option (SquaremState α)
  | 0, s => some s
  | fuel + 1, s =>
    if s.feval < ctl.maxiter then
      match init_squarem2_round lib ctl fixptfn parvectorlength s with
      | SquaremStep.abort => none
      | SquaremStep.leave s1 => some s1
      | SquaremStep.next s1 => init_squarem2_loop lib ctl fixptfn parvectorlength fuel s1
    else some s

/-- The variables of `init_squarem2` at the end of its `n`-th round, where `pcpp = pnew` has just
been assigned; `none` when the loop does not complete `n` rounds. -/
def init_squarem2_after (lib : CLib α) (ctl : SquaremControl α)
    (fixptfn : List α → Option (List α)) (parvectorlength : Nat) :
    Nat → SquaremState α → Option (SquaremState α)
  | 0, s => some s
  | n + 1, s =>
    match init_squarem2_after lib ctl fixptfn parvectorlength n s with
    | none => none
    | some s1 =>
      if s1.feval < ctl.maxiter then
        match init_squarem2_round lib ctl fixptfn parvectorlength s1 with
        | SquaremStep.next s2 => some s2
        | _ => none
      else none

/-- The function `init_squarem2` (lines 301-413), with `fixptfn` for the call of
`init_fixptC`, `ctl` for the global `SquaremDefault` as it is when the function is entered,
and `alpha0` for the indeterminate value of the unassigned local `alpha`. -/
def init_squarem2 (lib : CLib α) (ctl : SquaremControl α)
    (fixptfn : List α → Option (List α)) (alpha0 : α) (par : List α) : SquaremOutput α :=
  let s0 := squaremStart ctl alpha0 par
  let parvectorlength := par.length
  match init_squarem2_loop lib ctl fixptfn parvectorlength ctl.maxiter s0 with
  | none => sqobjnull
  | some s =>
    { par := s.pcpp
      valueobjfn := none
      iter := s.iter
      pfevals := s.feval
      objfevals := 0
      convergence := if s.feval ≥ ctl.maxiter then false else true }

/-- One round of the `while` loop of `theta_squarem2` (lines 612-694); `fixptfn p` is the call
`theta_fixpt(p, A, QK, cholSigInv, XpsiY, Xpsi, Vh, Avh, y, yy, spde, tol)`, `none` when it
throws.  The step length of lines 644-650 is computed as a `double`, which a zero
`sv2_scalar` makes `+inf` or NaN before the clamp. -/
def theta_squarem2_round (lib : CLib α) (ctl : SquaremControl α)
    (fixptfn : List α → Option (List α)) (parvectorlength : Nat) (s : SquaremState α) :
    SquaremStep α :=
  -- Step 1
  match fixptfn s.pcpp with
  | none => SquaremStep.abort
  | some p1cpp =>
    let feval := s.feval + 1
    let sr2_scalar := sumLoop parvectorlength (fun i => (vecGet p1cpp i - vecGet s.pcpp i) ^ 2)
    if lib.sqrt sr2_scalar < ctl.tol then
      SquaremStep.leave { s with feval := feval, extrap := true }
    else
      -- Step 2
      match fixptfn p1cpp with
      | none => SquaremStep.abort
      | some p2cpp =>
        let feval := feval + 1
        let sq2_scalar := sumLoop parvectorlength (fun i => (vecGet p2cpp i - vecGet p1cpp i) ^ 2)
        let sq2_scalar := lib.sqrt sq2_scalar
        if sq2_scalar < ctl.tol then
          SquaremStep.leave { s with feval := feval, extrap := true }
        else
          let sv2_scalar := sumLoop parvectorlength
            (fun i => (vecGet p2cpp i - 2 * vecGet p1cpp i + vecGet s.pcpp i) ^ 2)
          let srv_scalar := sumLoop parvectorlength
            (fun i => (vecGet p2cpp i - 2 * vecGet p1cpp i + vecGet s.pcpp i)
              * (vecGet p1cpp i - vecGet s.pcpp i))
          -- Step 3 Proposing new value
          let alpha := methodSwitch lib ctl.method (DoubleVal.finite s.alpha) sr2_scalar
            sv2_scalar srv_scalar
          let alpha := stdMax (DoubleVal.finite s.stepmin)
            (stdMin (DoubleVal.finite s.stepmax) alpha)
          let alpha := alpha.get
          let pnew := (List.range parvectorlength).foldl
            (fun pnew i => pnew.set i
              (vecGet s.pcpp i + 2 * alpha * (vecGet p1cpp i - vecGet s.pcpp i)
                + alpha ^ 2 * (vecGet p2cpp i - 2 * vecGet p1cpp i + vecGet s.pcpp i)))
            s.pnew
          -- Step 4 stabilization
          if |alpha - 1| > 1 / 100 then
            match fixptfn pnew with
            | none =>
              -- the handler of lines 658-671
              let pnew := p2cpp
              let stepmax :=
                if alpha = s.stepmax then stdMax ctl.stepmax0 (s.stepmax / ctl.mstep)
                else s.stepmax
              let alpha := 1
              let stepmax := if alpha = stepmax then ctl.mstep * stepmax else stepmax
              let stepmin :=
                if s.stepmin < 0 ∧ alpha = s.stepmin then ctl.mstep * s.stepmin else s.stepmin
              SquaremStep.next
                { pcpp := pnew, pnew := pnew, alpha := alpha, stepmin := stepmin,
                  stepmax := stepmax, iter := s.iter + 1, feval := feval, extrap := false }
            | some ptmp =>
              let feval := feval + 1
              let res := sumLoop parvectorlength (fun i => (vecGet ptmp i - vecGet pnew i) ^ 2)
              let res := lib.sqrt res
              let parnorm := sumLoop parvectorlength (fun i => vecGet p2cpp i ^ 2)
              let parnorm := lib.sqrt (parnorm / (parvectorlength : α))
              let kres := ctl.kr * (1 + parnorm) + sq2_scalar
              if res ≤ kres then
                let pnew := ptmp
                let stepmax := if alpha = s.stepmax then ctl.mstep * s.stepmax else s.stepmax
                let stepmin :=
                  if s.stepmin < 0 ∧ alpha = s.stepmin then ctl.mstep * s.stepmin else s.stepmin
                SquaremStep.next
                  { pcpp := pnew, pnew := pnew, alpha := alpha, stepmin := stepmin,
                    stepmax := stepmax, iter := s.iter + 1, feval := feval, extrap := true }
              else
                let pnew := p2cpp
                let stepmax := if alpha = s.stepmax then ctl.mstep * s.stepmax else s.stepmax
                let alpha := 1
                let stepmax := if alpha = stepmax then ctl.mstep * stepmax else stepmax
                let stepmin :=
                  if s.stepmin < 0 ∧ alpha = s.stepmin then ctl.mstep * s.stepmin else s.stepmin
                SquaremStep.next
                  { pcpp := pnew, pnew := pnew, alpha := alpha, stepmin := stepmin,
                    stepmax := stepmax, iter := s.iter + 1, feval := feval, extrap := false }
          else
            let stepmax := if alpha = s.stepmax then ctl.mstep * s.stepmax else s.stepmax
            let stepmin :=
              if s.stepmin < 0 ∧ alpha = s.stepmin then ctl.mstep * s.stepmin else s.stepmin
            SquaremStep.next
              { pcpp := pnew, pnew := pnew, alpha := alpha, stepmin := stepmin,
                stepmax := stepmax, iter := s.iter + 1, feval := feval, extrap := true }

/-- The loop `while (feval < SquaremDefault.maxiter)` of `theta_squarem2` (lines 611-695):
the variables when the loop is left, or `none` when a round ends in `return sqobjnull`.
Every round that does not leave the loop adds at least one to `feval`, so `maxiter` units
of fuel are never used up while `feval < maxiter` still holds. -/
def theta_squarem2_loop (lib : CLib α) (ctl : SquaremControl α)
    (fixptfn : List α → Option (List α)) (parvectorlength : Nat) :
    Nat → SquaremState α → Option (SquaremState α)
  | 0, s => some s
  | fuel + 1, s =>
    if s.feval < ctl.maxiter then
      match theta_squarem2_round lib ctl fixptfn parvectorlength s with
      | SquaremStep.abort => none
      | SquaremStep.leave s1 => some s1
      | SquaremStep.next s1 => theta_squarem2_loop lib ctl fixptfn parvectorlength fuel s1
    else some s

/-- The variables of `theta_squarem2` at the end of its `n`-th round, where `pcpp = pnew` has just
been assigned; `none` when the loop does not complete `n` rounds. -/
def theta_squarem2_after (lib : CLib α) (ctl : SquaremControl α)
    (fixptfn : List α → Option (List α)) (parvectorlength : Nat) :
    Nat → SquaremState α → Option (SquaremState α)
  | 0, s => some s
  | n + 1, s =>
    match theta_squarem2_after lib ctl fixptfn parvectorlength n s with
    | none => none
    | some s1 =>
      if s1.feval < ctl.maxiter then
        match theta_squarem2_round lib ctl fixptfn parvectorlength s1 with
        | SquaremStep.next s2 => some s2
        | _ => none
      else none

/-- The function `theta_squarem2` (lines 591-707), with `fixptfn` for the call of
`theta_fixpt`, `ctl` for the global `SquaremDefault` as it is when the function is entered,
and `alpha0` for the indeterminate value of the unassigned local `alpha`. -/
def theta_squarem2 (lib : CLib α) (ctl : SquaremControl α)
    (fixptfn : List α → Option (List α)) (alpha0 : α) (par : List α) : SquaremOutput α :=
  let s0 := squaremStart ctl alpha0 par
  let parvectorlength := par.length
  match theta_squarem2_loop lib ctl fixptfn parvectorlength ctl.maxiter s0 with
  | none => sqobjnull
  | some s =>
    { par := s.pcpp
      valueobjfn := none
      iter := s.iter
      pfevals := s.feval
      objfevals := 0
      convergence := if s.feval ≥ ctl.maxiter then false else true }

end Squarem

/-! ## The parts of a round of the accelerator, named for the proofs -/

section SquaremParts

variable {α : Type} [LinearOrderedField α]

/-- The sum `sr2_scalar` of a round: the squared norm of `p1 - p`. -/
def sqSr2 (len : Nat) (p p1 : List α) : α :=
  sumLoop len (fun i => (vecGet p1 i - vecGet p i) ^ 2)

/-- The value `sq2_scalar` of a round after line 633: the norm of `p2 - p1`. -/
def sqSq2 (lib : CLib α) (len : Nat) (p1 p2 : List α) : α :=
  lib.sqrt (sumLoop len (fun i => (vecGet p2 i - vecGet p1 i) ^ 2))

/-- The sum `sv2_scalar` of a round: the squared norm of `p2 - 2 p1 + p`. -/
def sqSv2 (len : Nat) (p p1 p2 : List α) : α :=
  sumLoop len (fun i => (vecGet p2 i - 2 * vecGet p1 i + vecGet p i) ^ 2)

/-- The sum `srv_scalar` of a round. -/
def sqSrv (len : Nat) (p p1 p2 : List α) : α :=
  sumLoop len (fun i => (vecGet p2 i - 2 * vecGet p1 i + vecGet p i) * (vecGet p1 i - vecGet p i))

/-- The step length of a round after the clamp of lines 356 and 650. -/
def sqAlpha (lib : CLib α) (ctl : SquaremControl α) (len : Nat) (s : SquaremState α)
    (p1 p2 : List α) : α :=
  (stdMax (DoubleVal.finite s.stepmin) (stdMin (DoubleVal.finite s.stepmax)
    (methodSwitch lib ctl.method (DoubleVal.finite s.alpha) (sqSr2 len s.pcpp p1)
      (sqSv2 len s.pcpp p1 p2) (sqSrv len s.pcpp p1 p2)))).get

/-- The proposed point `pnew` of a round (lines 358 and 652) for the step length `alpha`. -/
def sqPnew (len : Nat) (s : SquaremState α) (p1 p2 : List α) (alpha : α) : List α :=
  (List.range len).foldl
    (fun pnew i => pnew.set i
      (vecGet s.pcpp i + 2 * alpha * (vecGet p1 i - vecGet s.pcpp i)
        + alpha ^ 2 * (vecGet p2 i - 2 * vecGet p1 i + vecGet s.pcpp i)))
    s.pnew

/-- The residual `res` of the stabilization (lines 378-380 and 672-674). -/
def sqRes (lib : CLib α) (len : Nat) (ptmp pnew : List α) : α :=
  lib.sqrt (sumLoop len (fun i => (vecGet ptmp i - vecGet pnew i) ^ 2))

/-- The bound `kres` of the stabilization (lines 381-384 and 675-678). -/
def sqKres (lib : CLib α) (ctl : SquaremControl α) (len : Nat) (p1 p2 : List α) : α :=
  ctl.kr * (1 + lib.sqrt (sumLoop len (fun i => vecGet p2 i ^ 2) / (len : α)))
    + sqSq2 lib len p1 p2

/-- The end of a round (lines 395-400 and 689-694, and the same statements in the handler):
the two tests that move the step bounds, `pcpp = pnew` and `iter++`, entered with the step
length `alpha`, the upper bound `stepmax`, the next iterate `pnew`, the counter `feval` and
the flag `extrap`. -/
def sqTail (ctl : SquaremControl α) (s : SquaremState α) (alpha stepmax : α) (pnew : List α)
    (feval : Nat) (extrap : Bool) : SquaremState α :=
  { pcpp := pnew, pnew := pnew, alpha := alpha
    stepmin := if s.stepmin < 0 ∧ alpha = s.stepmin then ctl.mstep * s.stepmin else s.stepmin
    stepmax := if alpha = stepmax then ctl.mstep * stepmax else stepmax
    iter := s.iter + 1, feval := feval, extrap := extrap }

end SquaremParts

/-! ## Invariants of the Brent loop used in the proofs -/

/-- Both sides of the bracket around `x` are at least `g` long. -/
def BrentGap {α : Type} [LinearOrderedField α] (g : α) (s : BrentState α) : Prop :=
  g ≤ s.x - s.a ∧ g ≤ s.b - s.x

/-- The bracket contains the point `m`, and `fx` is the objective at `x`. -/
def BrentBracket {α : Type} [LinearOrderedField α] (f : α → α) (m : α) (s : BrentState α) :
    Prop :=
  s.a ≤ m ∧ m ≤ s.b ∧ s.fx = f s.x

/-! ## Dense views used to state the properties -/

/-- The `n` by `n` dense matrix with the same entries as the sparse matrix `M`. -/
def SparseMatrix.toMatrix {α : Type} [Zero α] (n : Nat) (M : SparseMatrix α) :
    Matrix (Fin n) (Fin n) α :=
  fun i j => M.value i j

/-- The list `D` is the diagonal of the factor `D` of an `LDLT` factorization of `Q`: for a
permutation `σ` and a lower triangular `L` with unit diagonal,
`P * Q * Pᵀ = L * diag(D) * Lᵀ`, which is what Eigen documents for `SimplicialLDLT`. -/
def IsLDLT {α : Type} [Field α] (n : Nat) (Q : Matrix (Fin n) (Fin n) α) (D : List α) : Prop :=
  D.length = n ∧
  ∃ (L : Matrix (Fin n) (Fin n) α) (σ : Equiv.Perm (Fin n)),
    (∀ i j, i < j → L i j = 0) ∧ (∀ i, L i i = 1) ∧
    Q.submatrix σ σ = L * Matrix.diagonal (fun i : Fin n => vecGet D i) * L.transpose

/-! ## Concrete inputs used in the examples -/

/-- The sparse matrix of dimension `n` whose slot `(i, j)` is `f i j`. -/
def SparseMatrix.ofFn {α : Type} (n : Nat) (f : Nat → Nat → Option α) : SparseMatrix α :=
  { rows := n, cols := n, coeff := fun i j => if i < n ∧ j < n then f i j else none }

/-- A prior on a mesh of two vertices: the lumped mass matrix `C = diag(1/2, 1/2)` (only the
diagonal is stored), the stiffness matrix `G = [[1, -1], [-1, 1]]`, and
`G * C⁻¹ * G = [[4, -4], [-4, 4]]`. -/
def exampleSpde (α : Type) [Field α] : Spde α :=
  { Cmat := SparseMatrix.ofFn 2 (fun i j => if i = j then some (1 / 2) else none)
    Gmat := SparseMatrix.ofFn 2 (fun i j => if i = j then some 1 else some (-1))
    GtCinvG := SparseMatrix.ofFn 2 (fun i j => if i = j then some 4 else some (-4)) }

/-- A destination of dimension three that stores the single slot `(2, 2)`, with value `7`. -/
def exampleQ (α : Type) [Field α] : SparseMatrix α :=
  SparseMatrix.ofFn 3 (fun i j => if i = 2 ∧ j = 2 then some 7 else none)

/-- A factorization object for `exampleSpde` at `kappa2 = 2`, where the precision is
`[[5, -4], [-4, 5]] = L * diag(5, 9/5) * Lᵀ` with `L = [[1, 0], [-4/5, 1]]`. -/
def exampleLDLT (α : Type) [Field α] : SparseMatrix α → SimplicialLDLT α :=
  fun _ => { info := ComputationInfo.Success, vectorD := [5, 9 / 5] }

/-- A fixed-point map on vectors of length one with a jump: `0 ↦ 10 ↦ 21 ↦ 31 ↦ 42`, and
every other point is sent to `1000`. -/
def exampleJumpMap {α : Type} [LinearOrderedField α] (p : List α) : Option (List α) :=
  some (p.map (fun x =>
    if x = 0 then 10 else if x = 10 then 21 else if x = 21 then 31 else if x = 31 then 42
    else 1000))

/-- The fixed-point map that halves every entry. -/
def exampleHalving {α : Type} [LinearOrderedField α] (p : List α) : Option (List α) :=
  some (p.map (fun x => x / 2))

/-- The state on entry to pass `n` of the main loop (counted from `0`); `none` when the loop
left through `break` before that pass.  It unfolds the loop as `brentLoop` does. -/
def brentAfter {α : Type} [LinearOrderedField α] (c eps tol3 : α) (f : α → α) :
    Nat → BrentState α → Option (BrentState α)
  | 0, s => some s
  | n + 1, s =>
    if brentStop eps tol3 s then none
    else brentAfter c eps tol3 f n (brentIter c eps tol3 f s)

/-- The bracket lies in `[lower, upper]` and `x` is strictly inside the bracket. -/
def BrentInside {α : Type} [LinearOrderedField α] (lower upper : α) (s : BrentState α) : Prop :=
  lower ≤ s.a ∧ s.b ≤ upper ∧ s.a < s.x ∧ s.x < s.b

/-- A prior on a mesh of a single vertex: `C = [1]`, `G = [0]` and `G * C⁻¹ * G = [0]`, so
that the precision at `kappa2` is `[kappa2]`. -/
def exampleUnitSpde (α : Type) [Field α] : Spde α :=
  { Cmat := SparseMatrix.ofFn 1 (fun _ _ => some 1)
    Gmat := SparseMatrix.ofFn 1 (fun _ _ => some 0)
    GtCinvG := SparseMatrix.ofFn 1 (fun _ _ => some 0) }

/-- The factorization object of a one by one matrix `[q]`: `L = [1]` and `D = [q]`. -/
def exampleUnitLDLT (α : Type) [Field α] : SparseMatrix α → SimplicialLDLT α :=
  fun M => { info := ComputationInfo.Success, vectorD := [M.value 0 0] }

/-- A fixed-point map on vectors of length one that never settles: a positive `x` is sent to
`-x` and every other `x` to `1 - x`, so that two applications send `x > 0` to `x + 1`; the
single exception is `-750`, which is a fixed point. -/
def exampleCountBreak {α : Type} [LinearOrderedField α] (p : List α) : Option (List α) :=
  some (p.map (fun x => if x = -750 then -750 else if 0 < x then -x else 1 - x))

/-- The same map without the fixed point and with a jump at `750`: `750 ↦ 1000 ↦ 1251`. -/
def exampleCountOver {α : Type} [LinearOrderedField α] (p : List α) : Option (List α) :=
  some (p.map (fun x =>
    if x = 750 then 1000 else if x = 1000 then 1251 else if 0 < x then -x else 1 - x))

/-- A fixed-point map on vectors of length one whose evaluation fails at `[117]`:
`0 ↦ 10 ↦ 21 ↦ 31 ↦ 42`, and every other entry is a fixed point. -/
def exampleFailingMap {α : Type} [LinearOrderedField α] (p : List α) : Option (List α) :=
  if p = [117] then none
  else some (p.map (fun x =>
    if x = 0 then 10 else if x = 10 then 21 else if x = 21 then 31 else if x = 31 then 42
    else x))

/-! ## The fixed-point map of the initial values -/

/-- The function `init_fixptC(theta, w, spde, n_sess, tol)` (lines 281-299).  `none` stands
for a call that does not return: the integer division `n_spde / n_sess` by zero, or the
minimizer running out of fuel.  The arguments `fuel` and `w0` are those of
`kappa2BrentInit`. -/
def init_fixptC {α : Type} [LinearOrderedField α] (lib : CLib α)
    (ldlt : SparseMatrix α → SimplicialLDLT α) (fuel : Nat) (w0 : α) (theta w : List α)
    (spde : Spde α) (n_sess : Int) (tol : α) : Option (List α) :=
  let n_spde : Int := w.length
  if n_sess = 0 then none
  else
    let n_spde := Int.tdiv n_spde n_sess
    let wQw : α := 0
    match kappa2BrentInit lib ldlt fuel w0 0 50 (vecGet theta 1) spde w n_sess tol with
    | none => none
    | some kappa2 =>
      let theta := theta.set 0 kappa2
      let Q := SparseMatrix.empty n_spde.toNat n_spde.toNat
      let Q := makeQt Q (vecGet theta 0) spde
      let wQw := (List.range n_sess.toNat).foldl
        (fun wQw ns =>
          let start_idx := ns * n_spde.toNat
          let wNs := segment w start_idx n_spde.toNat
          let Qw := Q.mulVec wNs
          wQw + dot wNs Qw)
        wQw
      let theta := theta.set 1 (wQw / (4 * lib.M_PI * (n_spde : α) * (n_sess : α)))
      some theta

/-- The sum over the sessions `s < n_sess` of the quadratic forms `w_sᵀ * M * w_s`, where
`w_s` is the block of `w` of length `n_spde` that starts at `s * n_spde`. -/
def sessionQuadForm {α : Type} [Add α] [Mul α] [Zero α] (M : SparseMatrix α) (w : List α)
    (n_spde n_sess : Nat) : α :=
  ((List.range n_sess).map (fun s =>
    dot (segment w (s * n_spde) n_spde) (M.mulVec (segment w (s * n_spde) n_spde)))).sum

/-! ## The EM fixed-point map -/

/-- The function `setSparseBlock_update(A, i, j, B)` (lines 452-459): the destination `A`
after the call. -/
def setSparseBlock_update {α : Type} (A : SparseMatrix α) (i j : Nat) (B : SparseMatrix α) :
    SparseMatrix α :=
  B.forEachStored (fun A row col value => A.coeffRefAssign (row + i) (col + j) value) A

/-- The block `M.block(start, 0, n, M.cols())` of an `Eigen::MatrixXd`, which is modelled
as the list of its columns. -/
def blockRows {α : Type} (M : List (List α)) (start n : Nat) : List (List α) :=
  M.map (fun col => segment col start n)

/-- The product `M * V` of a sparse matrix and an `Eigen::MatrixXd`. -/
def SparseMatrix.mulMat {α : Type} [Add α] [Mul α] [Zero α] (M : SparseMatrix α)
    (V : List (List α)) : List (List α) :=
  V.map M.mulVec

/-- The value `(P.transpose() * V).diagonal().sum()` for two `Eigen::MatrixXd` with the same
shape: the sum over the columns `j` of `P[:, j]ᵀ * V[:, j]`. -/
def diagSum {α : Type} [Add α] [Mul α] [Zero α] (P V : List (List α)) : α :=
  (List.zipWith dot P V).sum

section ThetaFixpt

variable {α : Type} [LinearOrderedField α]

/-- One pass `k` of the first loop of `theta_fixpt` (lines 490-497), on the pair of the
locals `Qk` and `QK`: `Qk` is rebuilt at `theta(k)` and scaled, and then stamped into the
block of every session. -/
def theta_fixpt_stamp (lib : CLib α) (theta : List α) (spde : Spde α) (K n_spde n_sess : Nat)
    (st : SparseMatrix α × SparseMatrix α) (k : Nat) : SparseMatrix α × SparseMatrix α :=
  let Qk := makeQt st.1 (vecGet theta k) spde
  let Qk := Qk.sdiv (4 * lib.M_PI * vecGet theta (k + K))
  let QK := (List.range n_sess).foldl
    (fun QK ns =>
      let start_i := k * n_spde + ns * K * n_spde
      setSparseBlock_update QK start_i start_i Qk)
    st.2
  (Qk, QK)

/-- The local copy `QK` of `theta_fixpt` after its first loop (lines 490-497). -/
def theta_fixpt_QK (lib : CLib α) (theta : List α) (A QK : SparseMatrix α) (spde : Spde α) :
    SparseMatrix α :=
  let K := (theta.length - 1) / 2
  let nKs := A.rows
  let n_spde := spde.Cmat.rows
  let n_sess := nKs / (n_spde * K)
  let Qk := SparseMatrix.empty n_spde n_spde
  ((List.range K).foldl (theta_fixpt_stamp lib theta spde K n_spde n_sess) (Qk, QK)).2

/-- The matrix `Sig_inv` that `theta_fixpt` passes to `cholSigInv.factorize` (lines
498-500). -/
def theta_fixpt_Sig_inv (lib : CLib α) (theta : List α) (A QK : SparseMatrix α)
    (spde : Spde α) : SparseMatrix α :=
  let sig2_ind := theta.length - 1
  let QK := theta_fixpt_QK lib theta A QK spde
  let AdivS2 := A.sdiv (vecGet theta sig2_ind)
  let Sig_inv := QK.add AdivS2
  Sig_inv

/-- The six sums that the loop over the sessions of a task accumulates (lines 525-553). -/
structure TaskSums (α : Type) where
  muCmu : α
  muGmu : α
  muGCGmu : α
  sumDiagPCVkn : α
  sumDiagPGVkn : α
  sumDiagPGCGVkn : α

/-- The loop over the sessions of task `k` (lines 517-553). -/
def theta_fixpt_sums (spde : Spde α) (mu : List α) (P Vh : List (List α))
    (K n_spde n_sess k : Nat) : TaskSums α :=
  (List.range n_sess).foldl
    (fun acc ns =>
      let idx_start := k * n_spde + ns * K * n_spde
      let muKns := segment mu idx_start n_spde
      let Cmu := spde.Cmat.mulVec muKns
      let muCmu := acc.muCmu + dot muKns Cmu
      let Gmu := spde.Gmat.mulVec muKns
      let muGmu := acc.muGmu + dot muKns Gmu
      let GCGmu := spde.GtCinvG.mulVec muKns
      let muGCGmu := acc.muGCGmu + dot muKns GCGmu
      let Pkn := blockRows P idx_start n_spde
      let Vkn := blockRows Vh idx_start n_spde
      let CVkn := spde.Cmat.mulMat Vkn
      let sumDiagPCVkn := acc.sumDiagPCVkn + diagSum Pkn CVkn
      let GVkn := spde.Gmat.mulMat Vkn
      let sumDiagPGVkn := acc.sumDiagPGVkn + diagSum Pkn GVkn
      let GCGVkn := spde.GtCinvG.mulMat Vkn
      let sumDiagPGCGVkn := acc.sumDiagPGCGVkn + diagSum Pkn GCGVkn
      { muCmu := muCmu, muGmu := muGmu, muGCGmu := muGCGmu, sumDiagPCVkn := sumDiagPCVkn
        sumDiagPGVkn := sumDiagPGVkn, sumDiagPGCGVkn := sumDiagPGCGVkn })
    { muCmu := 0, muGmu := 0, muGCGmu := 0, sumDiagPCVkn := 0, sumDiagPGVkn := 0
      sumDiagPGCGVkn := 0 }

/-- One pass `k` of the second loop of `theta_fixpt` (lines 516-576), on `theta_new`; `none`
when the call of `kappa2Brent` runs out of fuel. -/
def theta_fixpt_task (lib : CLib α) (ldlt : SparseMatrix α → SimplicialLDLT α) (fuel : Nat)
    (w0 : Nat → α) (theta : List α) (spde : Spde α) (mu : List α) (P Vh : List (List α))
    (tol : α) (K n_spde n_sess Ns : Nat) (phi_denom : α) (theta_new : List α) (k : Nat) :
    Option (List α) :=
  let sums := theta_fixpt_sums spde mu P Vh K n_spde n_sess k
  let muCmu := sums.muCmu
  let muGmu := sums.muGmu
  let muGCGmu := sums.muGCGmu
  let sumDiagPCVkn := sums.sumDiagPCVkn / (Ns : α)
  let sumDiagPGVkn := sums.sumDiagPGVkn / (Ns : α)
  let sumDiagPGCGVkn := sums.sumDiagPGCGVkn / (Ns : α)
  -- Update kappa2
  let a_star := (muCmu + sumDiagPCVkn) / (4 * lib.M_PI * vecGet theta (k + K))
  let b_star := (muGCGmu + sumDiagPGCGVkn) / (4 * lib.M_PI * vecGet theta (k + K))
  match kappa2Brent lib ldlt fuel (w0 k) 0 50 spde a_star b_star (n_sess : Int) tol with
  | none => none
  | some new_kappa2 =>
    let theta_new := theta_new.set k new_kappa2
    -- Update phi
    let phi_partA := sumDiagPCVkn + muCmu
    let phi_partA := phi_partA * new_kappa2
    let phi_partB := sumDiagPGVkn + muGmu
    let phi_partB := 2 * phi_partB
    let phi_partC := sumDiagPGCGVkn + muGCGmu
    let phi_partC := phi_partC / new_kappa2
    let TrQEww := phi_partA + phi_partB + phi_partC
    let phi_new := TrQEww / phi_denom
    some (theta_new.set (k + K) phi_new)

/-- The function `theta_fixpt` (lines 461-578).  The argument `llt S b` stands for
`cholSigInv.factorize(S)` followed by `cholSigInv.solve(b)`, and `w0 k` for the value that
the unassigned local `w` of the call of `kappa2Brent` for task `k` holds.  `none` stands for
a call that does not return: the integer division `nKs / (n_spde * K)` by zero, or a
minimizer that runs out of fuel. -/
def theta_fixpt (lib : CLib α) (ldlt : SparseMatrix α → SimplicialLDLT α)
    (llt : SparseMatrix α → List α → List α) (fuel : Nat) (w0 : Nat → α) (theta : List α)
    (A QK : SparseMatrix α) (XpsiY : List α) (Xpsi : SparseMatrix α) (Vh Avh : List (List α))
    (y : List α) (yy : α) (spde : Spde α) (tol : α) : Option (List α) :=
  -- Grab metadata
  let K := (theta.length - 1) / 2
  let sig2_ind := theta.length - 1
  let nKs := A.rows
  let ySize := y.length
  let n_spde := spde.Cmat.rows
  if n_spde * K = 0 then none
  else
    let n_sess := nKs / (n_spde * K)
    let Ns := Vh.length
    let theta_new := theta
    let phi_denom := 4 * lib.M_PI * (n_spde : α) * (n_sess : α)
    -- Begin update
    let Sig_inv := theta_fixpt_Sig_inv lib theta A QK spde
    let m := XpsiY.map (fun v => v / vecGet theta sig2_ind)
    let mu := llt Sig_inv m
    -- Solve for sigma_2
    let XpsiMu := Xpsi.mulVec mu
    let P := Vh.map (llt Sig_inv)
    let TrSigA := diagSum P Avh / (Ns : α)
    let Amu := A.mulVec mu
    let muAmu := dot mu Amu
    let TrAEww := muAmu + TrSigA
    let yXpsiMu := dot y XpsiMu
    let theta_new := theta_new.set sig2_ind ((yy - 2 * yXpsiMu + TrAEww) / (ySize : α))
    -- Update kappa2 and phi by task
    (List.range K).foldl
      (fun acc k => acc.bind
        (theta_fixpt_task lib ldlt fuel w0 theta spde mu P Vh tol K n_spde n_sess Ns phi_denom
          · k))
      (some theta_new)

end ThetaFixpt

/-- The joint precision of the claim: the matrix with the dimensions of `QK` whose diagonal
block number `k + ns * K` (of size `n`), for a task `k < K` and a session `ns < n_sess`,
holds `Precision(theta[k]) / (4 * pi * theta[K + k])` on the slots that the precision
stores, and whose other slots are those of `QK`. -/
def jointPrecision {α : Type} [Field α] (lib : CLib α) (theta : List α) (spde : Spde α)
    (K n n_sess : Nat) (QK : SparseMatrix α) : SparseMatrix α :=
  { rows := QK.rows
    cols := QK.cols
    coeff := fun r c =>
      if r / n = c / n ∧ r / n / K < n_sess ∧
          (Precision (vecGet theta (r / n % K)) spde).stored (r % n) (c % n) then
        some ((Precision (vecGet theta (r / n % K)) spde).value (r % n) (c % n)
          / (4 * lib.M_PI * vecGet theta (r / n % K + K)))
      else QK.coeff r c }

/-- The slots of the joint precision when only the blocks `(k, ns)` selected by `sel` have
been stamped. -/
def jointCoeff {α : Type} [Field α] (lib : CLib α) (theta : List α) (spde : Spde α)
    (K n : Nat) (sel : Nat → Nat → Bool) (QK : SparseMatrix α) (r c : Nat) : Option α :=
  if r / n = c / n ∧ sel (r / n % K) (r / n / K) = true ∧
      (Precision (vecGet theta (r / n % K)) spde).stored (r % n) (c % n) then
    some ((Precision (vecGet theta (r / n % K)) spde).value (r % n) (c % n)
      / (4 * lib.M_PI * vecGet theta (r / n % K + K)))
  else QK.coeff r c

/-- The matrix has the dimension `n` of the prior and stores nothing outside the pattern of
the prior. -/
def InPriorPattern {α : Type} (spde : Spde α) (n : Nat) (M : SparseMatrix α) : Prop :=
  M.rows = n ∧ M.cols = n ∧
  ∀ r c, M.stored r c → spde.Cmat.stored r c ∨ spde.Gmat.stored r c ∨ spde.GtCinvG.stored r c

/-- The posterior mean `mu = cholSigInv.solve(XpsiY / theta(sig2_ind))` of `theta_fixpt`
(lines 501-502). -/
def theta_fixpt_mu {α : Type} [LinearOrderedField α] (lib : CLib α)
    (llt : SparseMatrix α → List α → List α) (theta : List α) (A QK : SparseMatrix α)
    (XpsiY : List α) (spde : Spde α) : List α :=
  llt (theta_fixpt_Sig_inv lib theta A QK spde)
    (XpsiY.map (fun v => v / vecGet theta (theta.length - 1)))

/-- The matrix `P = cholSigInv.solve(Vh)` of `theta_fixpt` (line 505), column by column. -/
def theta_fixpt_P {α : Type} [LinearOrderedField α] (lib : CLib α)
    (llt : SparseMatrix α → List α → List α) (theta : List α) (A QK : SparseMatrix α)
    (Vh : List (List α)) (spde : Spde α) : List (List α) :=
  Vh.map (llt (theta_fixpt_Sig_inv lib theta A QK spde))

/-- The sum over the sessions `ns < n_sess` of `mu_ksᵀ * M * mu_ks`, where `mu_ks` is the
block of `mu` of task `k` and session `ns`. -/
def taskQuadForm {α : Type} [Add α] [Mul α] [Zero α] (M : SparseMatrix α) (mu : List α)
    (K n_spde n_sess k : Nat) : α :=
  ((List.range n_sess).map (fun ns =>
    dot (segment mu (k * n_spde + ns * K * n_spde) n_spde)
      (M.mulVec (segment mu (k * n_spde + ns * K * n_spde) n_spde)))).sum

/-- The sum over the sessions `ns < n_sess` of the sum of the diagonal of
`P_ksᵀ * M * Vh_ks`, where `P_ks` and `Vh_ks` are the row blocks of `P` and `Vh` of task `k`
and session `ns`. -/
def taskTraceSum {α : Type} [Add α] [Mul α] [Zero α] (M : SparseMatrix α)
    (P Vh : List (List α)) (K n_spde n_sess k : Nat) : α :=
  ((List.range n_sess).map (fun ns =>
    diagSum (blockRows P (k * n_spde + ns * K * n_spde) n_spde)
      (M.mulMat (blockRows Vh (k * n_spde + ns * K * n_spde) n_spde)))).sum

/-- The quadratic term `S_M` of task `k` in `theta_fixpt`, for `M` one of the three matrices
of the prior: the sum over the sessions of `mu_ksᵀ * M * mu_ks`. -/
def theta_fixpt_S {α : Type} [LinearOrderedField α] (lib : CLib α)
    (llt : SparseMatrix α → List α → List α) (theta : List α) (A QK : SparseMatrix α)
    (XpsiY : List α) (spde : Spde α) (M : SparseMatrix α) (k : Nat) : α :=
  taskQuadForm M (theta_fixpt_mu lib llt theta A QK XpsiY spde) ((theta.length - 1) / 2)
    spde.Cmat.rows (A.rows / (spde.Cmat.rows * ((theta.length - 1) / 2))) k

/-- The trace term `T_M` of task `k` in `theta_fixpt`: the sum over the sessions of the
diagonal of `P_ksᵀ * M * Vh_ks`, averaged over the `Ns` probe columns. -/
def theta_fixpt_T {α : Type} [LinearOrderedField α] (lib : CLib α)
    (llt : SparseMatrix α → List α → List α) (theta : List α) (A QK : SparseMatrix α)
    (Vh : List (List α)) (spde : Spde α) (M : SparseMatrix α) (k : Nat) : α :=
  taskTraceSum M (theta_fixpt_P lib llt theta A QK Vh spde) Vh ((theta.length - 1) / 2)
    spde.Cmat.rows (A.rows / (spde.Cmat.rows * ((theta.length - 1) / 2))) k / (Vh.length : α)

/-- The solver of a one by one system `[s] * x = b`. -/
def exampleUnitLLT (α : Type) [Field α] : SparseMatrix α → List α → List α :=
  fun S b => [vecGet b 0 / S.value 0 0]

/-- The vector `x` solves `S * x = b` for the `n` by `n` matrix `S`. -/
def SolvesWith {α : Type} [Field α] (n : Nat) (S : SparseMatrix α) (x b : List α) : Prop :=
  (S.toMatrix n).mulVec (fun j : Fin n => vecGet x j) = fun i : Fin n => vecGet b i

/-! ## The orchestrator -/

/-- The transpose `M.transpose()` of a sparse matrix. -/
def SparseMatrix.transpose {α : Type} (M : SparseMatrix α) : SparseMatrix α :=
  { rows := M.cols, cols := M.rows, coeff := fun i j => M.coeff j i }

/-- The product `A * B` of two sparse matrices evaluated into a sparse matrix: the slot
`(i, j)` is stored when some `k` has both `A(i, k)` and `B(k, j)` stored. -/
def SparseMatrix.mul {α : Type} [Add α] [Mul α] [Zero α] (A B : SparseMatrix α) :
    SparseMatrix α :=
  { rows := A.rows
    cols := B.cols
    coeff := fun i j =>
      if (List.range A.cols).any (fun k => (A.coeff i k).isSome && (B.coeff k j).isSome) then
        some (((List.range A.cols).map (fun k => A.value i k * B.value k j)).sum)
      else none }

/-- The list that `findTheta` returns. -/
structure FindThetaOutput (α : Type) where
  theta_new : List α
  kappa2_new : List α
  phi_new : List α
  sigma2_new : α
  mu : List α

/-- The function `findTheta` (lines 723-780).  The parameter `QK` of `theta_squarem2` and of
`theta_fixpt` is passed by value (lines 592 and 462), so every call of `theta_fixpt` stamps
its own copy and the `QK` of `findTheta` is never modified.  The calls
`cholSigInv.compute(Sig_inv)` and `cholSigInv.analyzePattern(Sig_inv)` of lines 738-739 act
on the factorization handle only.  The argument `ctl` is the global `SquaremDefault` as it
is when the function is entered, and `w0 p k` is the value that the unassigned local `w` of
`kappa2Brent` holds in the evaluation of `theta_fixpt` at `p` for task `k`.  `none` stands
for a call that does not return a list: `theta[sig2_ind]` read outside the vector, at
line 735 for an empty `theta`, or at line 768 after `return sqobjnull`, which is the model's
result also for an evaluation of `theta_fixpt` that does not return. -/
def findTheta {α : Type} [LinearOrderedField α] (lib : CLib α)
    (ldlt : SparseMatrix α → SimplicialLDLT α) (llt : SparseMatrix α → List α → List α)
    (ctl : SquaremControl α) (fuel : Nat) (w0 : List α → Nat → α) (alpha0 : α)
    (theta : List α) (spde : Spde α) (y : List α) (X QK Psi A : SparseMatrix α)
    (Vh : List (List α)) (tol : α) : Option (FindThetaOutput α) :=
  let K := theta.length
  let K := (K - 1) / 2
  let sig2_ind := 2 * K
  if theta.length ≤ sig2_ind then none
  else
  -- Initialize everything
  let Xpsi := X.mul Psi
  let XpsiY := Xpsi.transpose.mulVec y
  let Avh := A.mulMat Vh
  let yy := dot y y
  -- Using SQUAREM
  let ctl := { ctl with tol := tol }
  let SQ_result := theta_squarem2 lib ctl
    (fun p => theta_fixpt lib ldlt llt fuel (w0 p) p A QK XpsiY Xpsi Vh Avh y yy spde tol)
    alpha0 theta
  let theta := SQ_result.par
  -- Bring results together for output
  if theta.length ≤ sig2_ind then none
  else
    let AdivS2 := A.sdiv (vecGet theta sig2_ind)
    let Sig_inv := QK.add AdivS2
    let m := XpsiY.map (fun v => v / vecGet theta sig2_ind)
    let mu := llt Sig_inv m
    some
      { theta_new := theta
        kappa2_new := segment theta 0 K
        phi_new := segment theta K K
        sigma2_new := vecGet theta (2 * K)
        mu := mu }

/-- The one by one matrix `[1]`. -/
def exampleOne (α : Type) [Field α] : SparseMatrix α :=
  SparseMatrix.ofFn 1 (fun _ _ => some 1)

/-! ## The calls on the factorization handle -/

/-- The member functions of `SimplicialLLT` that the source calls on the handle
`cholSigInv`. -/
inductive CholCall where
  | compute : CholCall
  | analyzePattern : CholCall
  | factorize : CholCall
  | solve : CholCall

/-- The number of symbolic analyses of the sparsity pattern that a call performs.  In Eigen,
`compute(M)` runs the symbolic analysis and then the numeric factorization, which is
`analyzePattern(M)` followed by `factorize(M)`. -/
def CholCall.symbolic : CholCall → Nat
  | CholCall.compute => 1
  | CholCall.analyzePattern => 1
  | CholCall.factorize => 0
  | CholCall.solve => 0

/-- The number of numeric factorizations that a call performs. -/
def CholCall.numeric : CholCall → Nat
  | CholCall.compute => 1
  | CholCall.analyzePattern => 0
  | CholCall.factorize => 1
  | CholCall.solve => 0

/-- The calls on `cholSigInv` in one evaluation of `theta_fixpt`: `factorize(Sig_inv)`
(line 500), `solve(m)` (line 502) and `solve(Vh)` (line 505). -/
def theta_fixpt_calls : List CholCall :=
  [CholCall.factorize, CholCall.solve, CholCall.solve]

section HandleCalls

variable {α : Type} [LinearOrderedField α]

/-- The calls on `cholSigInv` in one round of the `while` loop of `theta_squarem2`: those of
the call of `theta_fixpt` of line 615, of the call of line 626 when the round reaches it,
and of the call of line 657 when the round runs the stabilization.  A call of `theta_fixpt`
that ends in the handler is listed like one that returns. -/
def theta_round_calls (lib : CLib α) (ctl : SquaremControl α)
    (fixptfn : List α → Option (List α)) (parvectorlength : Nat) (s : SquaremState α) :
    List CholCall :=
  -- Step 1
  match fixptfn s.pcpp with
  | none => theta_fixpt_calls
  | some p1cpp =>
    if lib.sqrt (sqSr2 parvectorlength s.pcpp p1cpp) < ctl.tol then theta_fixpt_calls
    else
      -- Step 2
      match fixptfn p1cpp with
      | none => theta_fixpt_calls ++ theta_fixpt_calls
      | some p2cpp =>
        if sqSq2 lib parvectorlength p1cpp p2cpp < ctl.tol then
          theta_fixpt_calls ++ theta_fixpt_calls
        -- Step 4 stabilization
        else if |sqAlpha lib ctl parvectorlength s p1cpp p2cpp - 1| > 1 / 100 then
          theta_fixpt_calls ++ theta_fixpt_calls ++ theta_fixpt_calls
        else theta_fixpt_calls ++ theta_fixpt_calls

/-- The calls on `cholSigInv` in the `while` loop of `theta_squarem2` (lines 611-695), round
after round as `theta_squarem2_loop` runs them. -/
def theta_squarem2_calls (lib : CLib α) (ctl : SquaremControl α)
    (fixptfn : List α → Option (List α)) (parvectorlength : Nat) :
    Nat → SquaremState α → List CholCall
  | 0, _ => []
  | fuel + 1, s =>
    if s.feval < ctl.maxiter then
      theta_round_calls lib ctl fixptfn parvectorlength s ++
        match theta_squarem2_round lib ctl fixptfn parvectorlength s with
        | SquaremStep.abort => []
        | SquaremStep.leave _ => []
        | SquaremStep.next s1 => theta_squarem2_calls lib ctl fixptfn parvectorlength fuel s1
    else []

/-- The calls on `cholSigInv` in a run of `findTheta` that reaches its last statement:
`compute` (line 738), `analyzePattern` (line 739), the calls of the run of `theta_squarem2`
(line 765), `factorize` (line 771) and `solve` (line 773).  The arguments are those of
`findTheta`. -/
def findTheta_calls (lib : CLib α)
    (ldlt : SparseMatrix α → SimplicialLDLT α) (llt : SparseMatrix α → List α → List α)
    (ctl : SquaremControl α) (fuel : Nat) (w0 : List α → Nat → α) (alpha0 : α)
    (theta : List α) (spde : Spde α) (y : List α) (X QK Psi A : SparseMatrix α)
    (Vh : List (List α)) (tol : α) : List CholCall :=
  let Xpsi := X.mul Psi
  let XpsiY := Xpsi.transpose.mulVec y
  let Avh := A.mulMat Vh
  let yy := dot y y
  let ctl := { ctl with tol := tol }
  [CholCall.compute, CholCall.analyzePattern]
    ++ theta_squarem2_calls lib ctl
        (fun p => theta_fixpt lib ldlt llt fuel (w0 p) p A QK XpsiY Xpsi Vh Avh y yy spde tol)
        theta.length ctl.maxiter (squaremStart ctl alpha0 theta)
    ++ [CholCall.factorize, CholCall.solve]

end HandleCalls

/-- The fixed-point map that adds one to every entry: its second differences are zero, so
that every round has `sv2 = 0`. -/
def exampleShift {α : Type} [LinearOrderedField α] (p : List α) : Option (List α) :=
  some (p.map (fun x => x + 1))

/-- The map `exampleShift` with an evaluation that fails at `[10]`. -/
def exampleShiftFailing {α : Type} [LinearOrderedField α] (p : List α) : Option (List α) :=
  if p = [10] then none else some (p.map (fun x => x + 1))

/-! # Properties -/

/-! ## The precision builder -/

section PrecisionBuilder

variable {α : Type}

theorem foldl_range_succ_apply {σ : Type} (f : σ → Nat → σ) (init : σ) (m : Nat) :
    (List.range (m + 1)).foldl f init = f ((List.range m).foldl f init) m := by
  rw [List.range_succ, List.foldl_append]
  rfl

/-- The body of the loops of `makeQt`: `Q->coeffRef(it.row(), it.col()) = it.value()`. -/
theorem visit_assign_coeff (B Q : SparseMatrix α) (k i : Nat) :
    (B.visit (fun Q row col value => SparseMatrix.coeffRefAssign Q row col value) k Q i).rows
        = Q.rows ∧
    (B.visit (fun Q row col value => SparseMatrix.coeffRefAssign Q row col value) k Q i).cols
        = Q.cols ∧
    ∀ r c, (B.visit (fun Q row col value => SparseMatrix.coeffRefAssign Q row col value)
        k Q i).coeff r c =
      if r = i ∧ c = k then (B.coeff r c).orElse (fun _ => Q.coeff r c) else Q.coeff r c := by
  unfold SparseMatrix.visit
  cases hB : B.coeff i k with
  | none =>
    refine ⟨rfl, rfl, fun r c => ?_⟩
    by_cases h : r = i ∧ c = k
    · obtain ⟨rfl, rfl⟩ := h
      simp [hB]
    · simp [h]
  | some v =>
    refine ⟨rfl, rfl, fun r c => ?_⟩
    by_cases h : r = i ∧ c = k
    · obtain ⟨rfl, rfl⟩ := h
      simp [hB, SparseMatrix.coeffRefAssign]
    · simp [h, SparseMatrix.coeffRefAssign]

/-- The inner loop of `forEachStored` with the body of `makeQt`: after the rows below `m`
of column `k`, the destination holds the stored values of `B` there and is otherwise as
before. -/
theorem inner_loop_coeff (B Q : SparseMatrix α) (k m : Nat) :
    ((List.range m).foldl
      (B.visit (fun Q row col value => SparseMatrix.coeffRefAssign Q row col value) k) Q).rows
        = Q.rows ∧
    ((List.range m).foldl
      (B.visit (fun Q row col value => SparseMatrix.coeffRefAssign Q row col value) k) Q).cols
        = Q.cols ∧
    ∀ r c, ((List.range m).foldl
      (B.visit (fun Q row col value => SparseMatrix.coeffRefAssign Q row col value) k) Q).coeff r c
        = if c = k ∧ r < m then (B.coeff r c).orElse (fun _ => Q.coeff r c)
          else Q.coeff r c := by
  induction m with
  | zero => simp
  | succ m ih =>
    obtain ⟨h1, h2, h3⟩ := ih
    rw [foldl_range_succ_apply]
    obtain ⟨g1, g2, g3⟩ := visit_assign_coeff B ((List.range m).foldl
      (B.visit (fun Q row col value => SparseMatrix.coeffRefAssign Q row col value) k) Q) k m
    refine ⟨g1.trans h1, g2.trans h2, fun r c => ?_⟩
    rw [g3 r c, h3 r c]
    by_cases hc : c = k
    · subst hc
      by_cases hrm : r = m
      · subst hrm
        simp
      · by_cases hr : r < m
        · have : r < m + 1 := by omega
          simp [hrm, hr, this]
        · have : ¬ r < m + 1 := by omega
          simp [hrm, hr, this]
    · simp [hc]

/-- The two loops of `forEachStored` with the body of `makeQt`, stopped after the columns
below `m`. -/
theorem outer_loop_coeff (B Q : SparseMatrix α) (m : Nat) :
    ((List.range m).foldl (fun acc k => (List.range B.rows).foldl
      (B.visit (fun Q row col value => SparseMatrix.coeffRefAssign Q row col value) k) acc)
        Q).rows = Q.rows ∧
    ((List.range m).foldl (fun acc k => (List.range B.rows).foldl
      (B.visit (fun Q row col value => SparseMatrix.coeffRefAssign Q row col value) k) acc)
        Q).cols = Q.cols ∧
    ∀ r c, ((List.range m).foldl (fun acc k => (List.range B.rows).foldl
      (B.visit (fun Q row col value => SparseMatrix.coeffRefAssign Q row col value) k) acc)
        Q).coeff r c =
      if r < B.rows ∧ c < m then (B.coeff r c).orElse (fun _ => Q.coeff r c)
      else Q.coeff r c := by
  induction m with
  | zero => simp
  | succ m ih =>
    obtain ⟨h1, h2, h3⟩ := ih
    rw [foldl_range_succ_apply]
    obtain ⟨g1, g2, g3⟩ := inner_loop_coeff B ((List.range m).foldl
      (fun acc k => (List.range B.rows).foldl
        (B.visit (fun Q row col value => SparseMatrix.coeffRefAssign Q row col value) k) acc)
      Q) m B.rows
    refine ⟨g1.trans h1, g2.trans h2, fun r c => ?_⟩
    rw [g3 r c, h3 r c]
    by_cases hr : r < B.rows
    · by_cases hc : c = m
      · subst hc
        simp [hr]
      · by_cases hcm : c < m
        · have : c < m + 1 := by omega
          simp [hr, hc, hcm, this]
        · have : ¬ c < m + 1 := by omega
          simp [hr, hc, hcm, this]
    · simp [hr]

/-- What `makeQt` leaves in the destination: the stored slots of the local `Qt` overwrite
those of `Q`, every other slot of `Q` is kept, and so are the dimensions of `Q`. -/
theorem makeQt_coeff [Field α] (Q : SparseMatrix α) (kappa2 : α) (spde : Spde α) :
    (makeQt Q kappa2 spde).rows = Q.rows ∧ (makeQt Q kappa2 spde).cols = Q.cols ∧
      ∀ r c, (makeQt Q kappa2 spde).coeff r c =
        if r < (Precision kappa2 spde).rows ∧ c < (Precision kappa2 spde).cols then
          ((Precision kappa2 spde).coeff r c).orElse (fun _ => Q.coeff r c)
        else Q.coeff r c :=
  outer_loop_coeff (Precision kappa2 spde) Q (Precision kappa2 spde).cols

/-- The stored slots of the expression `kappa2 * Cmat + 2. * Gmat + GtCinvG / kappa2` are
those of the three matrices together. -/
theorem Precision_stored [Field α] (kappa2 : α) (spde : Spde α) (i j : Nat) :
    (Precision kappa2 spde).stored i j ↔
      spde.Cmat.stored i j ∨ spde.Gmat.stored i j ∨ spde.GtCinvG.stored i j := by
  cases h1 : spde.Cmat.coeff i j <;> cases h2 : spde.Gmat.coeff i j <;>
    cases h3 : spde.GtCinvG.coeff i j <;>
    simp [Precision, SparseMatrix.stored, SparseMatrix.add, SparseMatrix.smul,
      SparseMatrix.sdiv, h1, h2, h3]

/-- The value of a stored slot of `kappa2 * Cmat + 2. * Gmat + GtCinvG / kappa2`. -/
theorem Precision_coeff [Field α] (kappa2 : α) (spde : Spde α) (i j : Nat)
    (h : spde.Cmat.stored i j ∨ spde.Gmat.stored i j ∨ spde.GtCinvG.stored i j) :
    (Precision kappa2 spde).coeff i j =
      some (kappa2 * spde.Cmat.value i j + 2 * spde.Gmat.value i j
        + spde.GtCinvG.value i j / kappa2) := by
  revert h
  cases h1 : spde.Cmat.coeff i j <;> cases h2 : spde.Gmat.coeff i j <;>
    cases h3 : spde.GtCinvG.coeff i j <;>
    simp [Precision, SparseMatrix.stored, SparseMatrix.add, SparseMatrix.smul,
      SparseMatrix.sdiv, SparseMatrix.value, h1, h2, h3]

/-- The value of every slot of `kappa2 * Cmat + 2. * Gmat + GtCinvG / kappa2`, stored or
not. -/
theorem Precision_value [Field α] (kappa2 : α) (spde : Spde α) (i j : Nat) :
    (Precision kappa2 spde).value i j =
      kappa2 * spde.Cmat.value i j + 2 * spde.Gmat.value i j
        + spde.GtCinvG.value i j / kappa2 := by
  cases h1 : spde.Cmat.coeff i j <;> cases h2 : spde.Gmat.coeff i j <;>
    cases h3 : spde.GtCinvG.coeff i j <;>
    simp [Precision, SparseMatrix.add, SparseMatrix.smul, SparseMatrix.sdiv,
      SparseMatrix.value, h1, h2, h3]

theorem Precision_rows [Field α] (kappa2 : α) (spde : Spde α) :
    (Precision kappa2 spde).rows = spde.Cmat.rows := rfl

theorem Precision_cols [Field α] (kappa2 : α) (spde : Spde α) :
    (Precision kappa2 spde).cols = spde.Cmat.cols := rfl

/-- For a prior of dimension `n` the expression stores nothing outside `n` by `n`. -/
theorem Precision_WF [Field α] (kappa2 : α) (spde : Spde α) (n : Nat) (hdim : spde.Dim n) :
    ∀ i j, (Precision kappa2 spde).stored i j → i < n ∧ j < n := by
  intro i j h
  obtain ⟨⟨c1, c2, c3⟩, ⟨g1, g2, g3⟩, ⟨t1, t2, t3⟩⟩ := hdim
  rcases (Precision_stored kappa2 spde i j).1 h with h | h | h
  · have := c3 i j h
    omega
  · have := g3 i j h
    omega
  · have := t3 i j h
    omega

theorem ofFn_WF (n : Nat) (f : Nat → Nat → Option α) : (SparseMatrix.ofFn n f).WF := by
  intro i j h
  unfold SparseMatrix.stored SparseMatrix.ofFn at h
  by_cases hij : i < n ∧ j < n
  · exact hij
  · simp [hij] at h

theorem exampleSpde_Dim [Field α] : (exampleSpde α).Dim 2 :=
  ⟨⟨rfl, rfl, ofFn_WF _ _⟩, ⟨rfl, rfl, ofFn_WF _ _⟩, ⟨rfl, rfl, ofFn_WF _ _⟩⟩

/-- C1. For every `kappa2 ≠ 0` and every prior of dimension `n`, after
`makeQt(Q, kappa2, prior)` every slot `(i, j)` in the pattern of `Cmat`, `Gmat` or `GtCinvG`
holds `kappa2 * Cmat(i,j) + 2 * Gmat(i,j) + GtCinvG(i,j) / kappa2`, every other slot of `Q`
is unchanged, and on an empty `n` by `n` destination the result is exactly the matrix
`Precision(kappa2)`. -/
theorem makeQt_entries [Field α] (n : Nat) (Q : SparseMatrix α) (kappa2 : α) (spde : Spde α)
    (_hk : kappa2 ≠ 0) (hdim : spde.Dim n) :
    (∀ i j, (spde.Cmat.stored i j ∨ spde.Gmat.stored i j ∨ spde.GtCinvG.stored i j) →
      (makeQt Q kappa2 spde).coeff i j =
        some (kappa2 * spde.Cmat.value i j + 2 * spde.Gmat.value i j
          + spde.GtCinvG.value i j / kappa2)) ∧
    (∀ i j, ¬ (spde.Cmat.stored i j ∨ spde.Gmat.stored i j ∨ spde.GtCinvG.stored i j) →
      (makeQt Q kappa2 spde).coeff i j = Q.coeff i j) ∧
    makeQt (SparseMatrix.empty n n) kappa2 spde = Precision kappa2 spde := by
  have hrows : (Precision kappa2 spde).rows = n := hdim.1.1
  have hcols : (Precision kappa2 spde).cols = n := hdim.1.2.1
  refine ⟨fun i j h => ?_, fun i j h => ?_, ?_⟩
  · have hin := Precision_WF kappa2 spde n hdim i j ((Precision_stored kappa2 spde i j).2 h)
    rw [(makeQt_coeff Q kappa2 spde).2.2 i j, hrows, hcols, if_pos hin,
      Precision_coeff kappa2 spde i j h]
    rfl
  · have hnone : (Precision kappa2 spde).coeff i j = none := by
      have := mt (Precision_stored kappa2 spde i j).1 h
      unfold SparseMatrix.stored at this
      simpa using this
    rw [(makeQt_coeff Q kappa2 spde).2.2 i j, hnone]
    simp
  · obtain ⟨h1, h2, h3⟩ := makeQt_coeff (SparseMatrix.empty n n) kappa2 spde
    have hc : (makeQt (SparseMatrix.empty n n) kappa2 spde).coeff
        = (Precision kappa2 spde).coeff := by
      funext r c
      rw [h3 r c, hrows, hcols]
      by_cases hin : r < n ∧ c < n
      · rw [if_pos hin]
        cases (Precision kappa2 spde).coeff r c <;> simp [SparseMatrix.empty]
      · rw [if_neg hin]
        have hns : ¬ (Precision kappa2 spde).stored r c :=
          fun hs => hin (Precision_WF kappa2 spde n hdim r c hs)
        unfold SparseMatrix.stored at hns
        cases hP : (Precision kappa2 spde).coeff r c with
        | none => rfl
        | some v => simp [hP] at hns
    have hr : (makeQt (SparseMatrix.empty n n) kappa2 spde).rows
        = (Precision kappa2 spde).rows := by rw [h1, hrows]; rfl
    have hcl : (makeQt (SparseMatrix.empty n n) kappa2 spde).cols
        = (Precision kappa2 spde).cols := by rw [h2, hcols]; rfl
    cases hM : makeQt (SparseMatrix.empty n n) kappa2 spde with
    | mk r1 c1 f1 =>
      cases hP : Precision kappa2 spde with
      | mk r2 c2 f2 =>
        rw [hM, hP] at hr hcl hc
        simp only at hr hcl hc
        subst hr hcl hc
        rfl

/-- C5. For every destination `Q`, prior and nonzero `kappa2_a`, `kappa2_b`, the stored
slots (and the dimensions) of `Q` after `makeQt(Q, kappa2_a, prior)` followed by
`makeQt(Q, kappa2_b, prior)` are those after the first call alone. -/
theorem makeQt_twice_pattern [Field α] (Q : SparseMatrix α) (kappa2_a kappa2_b : α)
    (spde : Spde α) (_ha : kappa2_a ≠ 0) (_hb : kappa2_b ≠ 0) :
    (∀ i j, (makeQt (makeQt Q kappa2_a spde) kappa2_b spde).stored i j ↔
      (makeQt Q kappa2_a spde).stored i j) ∧
    (makeQt (makeQt Q kappa2_a spde) kappa2_b spde).rows = (makeQt Q kappa2_a spde).rows ∧
    (makeQt (makeQt Q kappa2_a spde) kappa2_b spde).cols = (makeQt Q kappa2_a spde).cols := by
  obtain ⟨a1, a2, a3⟩ := makeQt_coeff Q kappa2_a spde
  obtain ⟨b1, b2, b3⟩ := makeQt_coeff (makeQt Q kappa2_a spde) kappa2_b spde
  refine ⟨fun i j => ?_, b1, b2⟩
  have hab : (Precision kappa2_b spde).stored i j ↔ (Precision kappa2_a spde).stored i j := by
    rw [Precision_stored, Precision_stored]
  unfold SparseMatrix.stored at hab ⊢
  rw [b3 i j, a3 i j]
  simp only [Precision_rows, Precision_cols]
  by_cases hin : i < spde.Cmat.rows ∧ j < spde.Cmat.cols
  · simp only [if_pos hin]
    cases hb : (Precision kappa2_b spde).coeff i j with
    | none =>
      simp
    | some v =>
      rw [hb] at hab
      cases ha : (Precision kappa2_a spde).coeff i j with
      | none => simp [ha] at hab
      | some w => simp
  · simp only [if_neg hin]

/-- Witness of C1: the prior `exampleSpde` at `kappa2 = 2`, written into `exampleQ`. -/
theorem makeQt_entries_witness :
    ((2 : ℚ) ≠ 0 ∧ (exampleSpde ℚ).Dim 2) ∧
    ((∀ i j, ((exampleSpde ℚ).Cmat.stored i j ∨ (exampleSpde ℚ).Gmat.stored i j ∨
        (exampleSpde ℚ).GtCinvG.stored i j) →
      (makeQt (exampleQ ℚ) 2 (exampleSpde ℚ)).coeff i j =
        some (2 * (exampleSpde ℚ).Cmat.value i j + 2 * (exampleSpde ℚ).Gmat.value i j
          + (exampleSpde ℚ).GtCinvG.value i j / 2)) ∧
    (∀ i j, ¬ ((exampleSpde ℚ).Cmat.stored i j ∨ (exampleSpde ℚ).Gmat.stored i j ∨
        (exampleSpde ℚ).GtCinvG.stored i j) →
      (makeQt (exampleQ ℚ) 2 (exampleSpde ℚ)).coeff i j = (exampleQ ℚ).coeff i j) ∧
    makeQt (SparseMatrix.empty 2 2) 2 (exampleSpde ℚ) = Precision 2 (exampleSpde ℚ)) :=
  ⟨⟨by norm_num, exampleSpde_Dim⟩,
    makeQt_entries 2 (exampleQ ℚ) 2 (exampleSpde ℚ) (by norm_num) exampleSpde_Dim⟩

/-- Witness of C5: `exampleSpde` written twice into `exampleQ`, at `kappa2 = 2` and then at
`kappa2 = 3`. -/
theorem makeQt_twice_pattern_witness :
    ((2 : ℚ) ≠ 0 ∧ (3 : ℚ) ≠ 0) ∧
    ((∀ i j, (makeQt (makeQt (exampleQ ℚ) 2 (exampleSpde ℚ)) 3 (exampleSpde ℚ)).stored i j ↔
      (makeQt (exampleQ ℚ) 2 (exampleSpde ℚ)).stored i j) ∧
    (makeQt (makeQt (exampleQ ℚ) 2 (exampleSpde ℚ)) 3 (exampleSpde ℚ)).rows
      = (makeQt (exampleQ ℚ) 2 (exampleSpde ℚ)).rows ∧
    (makeQt (makeQt (exampleQ ℚ) 2 (exampleSpde ℚ)) 3 (exampleSpde ℚ)).cols
      = (makeQt (exampleQ ℚ) 2 (exampleSpde ℚ)).cols) :=
  ⟨⟨by norm_num, by norm_num⟩,
    makeQt_twice_pattern (exampleQ ℚ) 2 3 (exampleSpde ℚ) (by norm_num) (by norm_num)⟩

end PrecisionBuilder

/-! ## The precision matrix over the reals -/

section PrecisionReal

open Matrix

theorem posSemidef_smul_real {n : Nat} (M : Matrix (Fin n) (Fin n) ℝ) (k : ℝ) (hk : 0 ≤ k)
    (hM : M.PosSemidef) : (k • M).PosSemidef := by
  refine ⟨?_, fun x => ?_⟩
  · have h := hM.1
    unfold Matrix.IsHermitian at h ⊢
    rw [Matrix.conjTranspose_smul, h]
    simp
  · rw [Matrix.smul_mulVec_assoc, Matrix.dotProduct_smul]
    exact mul_nonneg hk (hM.2 x)

theorem posDef_smul_real {n : Nat} (M : Matrix (Fin n) (Fin n) ℝ) (k : ℝ) (hk : 0 < k)
    (hM : M.PosDef) : (k • M).PosDef := by
  refine ⟨?_, fun x hx => ?_⟩
  · have h := hM.1
    unfold Matrix.IsHermitian at h ⊢
    rw [Matrix.conjTranspose_smul, h]
    simp
  · rw [Matrix.smul_mulVec_assoc, Matrix.dotProduct_smul]
    exact mul_pos hk (hM.2 x hx)

/-- The dense view of the expression `kappa2 * Cmat + 2. * Gmat + GtCinvG / kappa2`. -/
theorem Precision_toMatrix (n : Nat) (kappa2 : ℝ) (spde : Spde ℝ) :
    (Precision kappa2 spde).toMatrix n =
      kappa2 • spde.Cmat.toMatrix n + (2 : ℝ) • spde.Gmat.toMatrix n
        + (1 / kappa2) • spde.GtCinvG.toMatrix n := by
  ext i j
  simp only [SparseMatrix.toMatrix, Precision_value, Matrix.add_apply, Matrix.smul_apply,
    smul_eq_mul]
  ring

/-- Positive definiteness of the precision matrix, in the form shared by the results
below. -/
theorem Precision_posDef_aux (n : Nat) (kappa2 : ℝ) (spde : Spde ℝ) (hk : 0 < kappa2)
    (hC : (spde.Cmat.toMatrix n).PosDef) (hG : (spde.Gmat.toMatrix n).PosSemidef)
    (hGCG : spde.GtCinvG.toMatrix n
      = spde.Gmat.toMatrix n * (spde.Cmat.toMatrix n)⁻¹ * spde.Gmat.toMatrix n) :
    ((Precision kappa2 spde).toMatrix n).PosDef := by
  rw [Precision_toMatrix, hGCG]
  have h1 := posDef_smul_real _ kappa2 hk hC
  have h2 := posSemidef_smul_real _ 2 (by norm_num) hG
  have h3 : (spde.Gmat.toMatrix n * (spde.Cmat.toMatrix n)⁻¹ * spde.Gmat.toMatrix n).PosSemidef := by
    have := hC.inv.posSemidef.conjTranspose_mul_mul_same (spde.Gmat.toMatrix n)
    rwa [hG.1.eq] at this
  have h4 := posSemidef_smul_real _ (1 / kappa2) (by positivity) h3
  exact (h1.add_posSemidef h2).add_posSemidef h4

/-- C3. For every `kappa2 > 0` and every valid prior of dimension `n` (`Cmat` symmetric
positive definite, `Gmat` symmetric positive semidefinite, `GtCinvG = Gmat * Cmat⁻¹ * Gmat`),
the matrix `kappa2 * Cmat + 2 * Gmat + GtCinvG / kappa2` built by `logDetQt` and `makeQt` is
symmetric and positive definite. -/
theorem Precision_symm_posDef (n : Nat) (kappa2 : ℝ) (spde : Spde ℝ) (hk : 0 < kappa2)
    (_hdim : spde.Dim n)
    (hC : (spde.Cmat.toMatrix n).PosDef) (hG : (spde.Gmat.toMatrix n).PosSemidef)
    (hGCG : spde.GtCinvG.toMatrix n
      = spde.Gmat.toMatrix n * (spde.Cmat.toMatrix n)⁻¹ * spde.Gmat.toMatrix n) :
    ((Precision kappa2 spde).toMatrix n).IsSymm ∧
      ((Precision kappa2 spde).toMatrix n).PosDef := by
  have h := Precision_posDef_aux n kappa2 spde hk hC hG hGCG
  refine ⟨?_, h⟩
  have hH := h.1
  unfold Matrix.IsHermitian at hH
  rw [Matrix.conjTranspose_eq_transpose_of_trivial] at hH
  exact hH

theorem sum_map_eq_sum_fin (l : List ℝ) (f : ℝ → ℝ) :
    (l.map f).sum = ∑ i : Fin l.length, f (vecGet l i) := by
  unfold vecGet
  rw [← List.sum_ofFn]
  congr 1
  apply List.ext_getElem
  · simp
  · intro i h1 h2
    simp at h1
    simp [List.getD_eq_getElem?_getD, h1]

theorem det_of_ldlt {n : Nat} (Q L : Matrix (Fin n) (Fin n) ℝ) (d : Fin n → ℝ)
    (σ : Equiv.Perm (Fin n)) (hlow : ∀ i j, i < j → L i j = 0) (hone : ∀ i, L i i = 1)
    (h : Q.submatrix σ σ = L * Matrix.diagonal d * Lᵀ) : Q.det = ∏ i, d i := by
  have hL : L.det = 1 := by
    rw [Matrix.det_of_lowerTriangular L (fun i j hij => hlow i j hij)]
    simp [hone]
  rw [← Matrix.det_submatrix_equiv_self σ Q, h, Matrix.det_mul, Matrix.det_mul,
    Matrix.det_transpose, hL, Matrix.det_diagonal]
  simp

/-- C2. For every `kappa2 > 0`, every `n_sess` and every prior of dimension `n` for which
`Precision(kappa2)` is symmetric positive definite, `logDetQt(kappa2, prior, n_sess)` is
`n_sess` times the sum of the logarithms of the diagonal of the factor `D` of the `LDLT`
factorization of `Precision(kappa2)`, which is `n_sess * log(det(Precision(kappa2)))`. -/
theorem logDetQt_eq_log_det (n : Nat) (lib : CLib ℝ)
    (ldlt : SparseMatrix ℝ → SimplicialLDLT ℝ) (kappa2 : ℝ) (spde : Spde ℝ) (n_sess : Int)
    (hlog : lib.log = Real.log) (_hk : 0 < kappa2) (_hdim : spde.Dim n)
    (hPD : ((Precision kappa2 spde).toMatrix n).PosDef)
    (hD : IsLDLT n ((Precision kappa2 spde).toMatrix n) (ldlt (Precision kappa2 spde)).vectorD) :
    logDetQt lib ldlt kappa2 spde n_sess =
      (n_sess : ℝ) * ∑ i : Fin n, Real.log (vecGet (ldlt (Precision kappa2 spde)).vectorD i) ∧
    logDetQt lib ldlt kappa2 spde n_sess =
      (n_sess : ℝ) * Real.log (((Precision kappa2 spde).toMatrix n).det) := by
  obtain ⟨hlen, L, σ, hlow, hone, hfact⟩ := hD
  have hsum : logDetQt lib ldlt kappa2 spde n_sess =
      (n_sess : ℝ) * ∑ i : Fin n, Real.log (vecGet (ldlt (Precision kappa2 spde)).vectorD i) := by
    unfold logDetQt
    simp only [hlog]
    rw [sum_map_eq_sum_fin]
    subst hlen
    rfl
  refine ⟨hsum, ?_⟩
  rw [hsum]
  have hdet := det_of_ldlt _ L _ σ hlow hone hfact
  have hpos : 0 < ((Precision kappa2 spde).toMatrix n).det := hPD.det_pos
  rw [hdet] at hpos ⊢
  rw [Real.log_prod]
  intro i _ hi
  rw [Finset.prod_eq_zero (Finset.mem_univ i) hi] at hpos
  exact lt_irrefl _ hpos

theorem example_Cmat_toMatrix :
    (exampleSpde ℝ).Cmat.toMatrix 2 = Matrix.diagonal (fun _ => (1 / 2 : ℝ)) := by
  ext i j
  fin_cases i <;> fin_cases j <;>
    simp [SparseMatrix.toMatrix, SparseMatrix.value, exampleSpde, SparseMatrix.ofFn]

theorem example_Cmat_inv :
    ((exampleSpde ℝ).Cmat.toMatrix 2)⁻¹ = Matrix.diagonal (fun _ => (2 : ℝ)) := by
  rw [example_Cmat_toMatrix]
  apply Matrix.inv_eq_right_inv
  rw [Matrix.diagonal_mul_diagonal]
  ext i j
  fin_cases i <;> fin_cases j <;> simp

theorem example_Cmat_posDef : ((exampleSpde ℝ).Cmat.toMatrix 2).PosDef := by
  rw [example_Cmat_toMatrix]
  exact Matrix.PosDef.diagonal (fun _ => by norm_num)

theorem example_Gmat_posSemidef : ((exampleSpde ℝ).Gmat.toMatrix 2).PosSemidef := by
  refine ⟨?_, fun x => ?_⟩
  · ext i j
    fin_cases i <;> fin_cases j <;>
      simp [SparseMatrix.toMatrix, SparseMatrix.value, exampleSpde, SparseMatrix.ofFn]
  · simp [Matrix.dotProduct, Matrix.mulVec, Fin.sum_univ_two, SparseMatrix.toMatrix,
      SparseMatrix.value, exampleSpde, SparseMatrix.ofFn]
    nlinarith [sq_nonneg (x 0 - x 1)]

theorem example_GtCinvG :
    (exampleSpde ℝ).GtCinvG.toMatrix 2 = (exampleSpde ℝ).Gmat.toMatrix 2
      * ((exampleSpde ℝ).Cmat.toMatrix 2)⁻¹ * (exampleSpde ℝ).Gmat.toMatrix 2 := by
  rw [example_Cmat_inv]
  ext i j
  fin_cases i <;> fin_cases j <;>
    simp [Matrix.mul_apply, Fin.sum_univ_two, SparseMatrix.toMatrix,
      SparseMatrix.value, exampleSpde, SparseMatrix.ofFn, Matrix.diagonal] <;> norm_num

theorem example_Precision_toMatrix :
    (Precision 2 (exampleSpde ℝ)).toMatrix 2
      = fun i j => if i = j then (5 : ℝ) else -4 := by
  ext i j
  simp only [SparseMatrix.toMatrix, Precision_value]
  fin_cases i <;> fin_cases j <;>
    simp [SparseMatrix.value, exampleSpde, SparseMatrix.ofFn] <;> norm_num

theorem example_isLDLT :
    IsLDLT 2 ((Precision 2 (exampleSpde ℝ)).toMatrix 2)
      (exampleLDLT ℝ (Precision 2 (exampleSpde ℝ))).vectorD := by
  refine ⟨rfl, fun i j => if i = j then 1 else if j < i then -4 / 5 else 0, Equiv.refl _,
    ?_, ?_, ?_⟩
  · intro i j hij
    have h1 : i ≠ j := ne_of_lt hij
    have h2 : ¬ j < i := not_lt_of_gt hij
    simp [h1, h2]
  · intro i
    simp
  · rw [example_Precision_toMatrix]
    ext i j
    fin_cases i <;> fin_cases j <;>
      simp [Matrix.mul_apply, Fin.sum_univ_two, Matrix.diagonal_apply, exampleLDLT, vecGet] <;>
      norm_num

/-- Witness of C3: the prior `exampleSpde` at `kappa2 = 2`. -/
theorem Precision_symm_posDef_witness :
    ((0 : ℝ) < 2 ∧ (exampleSpde ℝ).Dim 2 ∧ ((exampleSpde ℝ).Cmat.toMatrix 2).PosDef ∧
      ((exampleSpde ℝ).Gmat.toMatrix 2).PosSemidef ∧
      (exampleSpde ℝ).GtCinvG.toMatrix 2 = (exampleSpde ℝ).Gmat.toMatrix 2
        * ((exampleSpde ℝ).Cmat.toMatrix 2)⁻¹ * (exampleSpde ℝ).Gmat.toMatrix 2) ∧
    (((Precision 2 (exampleSpde ℝ)).toMatrix 2).IsSymm ∧
      ((Precision 2 (exampleSpde ℝ)).toMatrix 2).PosDef) :=
  ⟨⟨by norm_num, exampleSpde_Dim, example_Cmat_posDef, example_Gmat_posSemidef,
      example_GtCinvG⟩,
    Precision_symm_posDef 2 2 (exampleSpde ℝ) (by norm_num) exampleSpde_Dim example_Cmat_posDef
      example_Gmat_posSemidef example_GtCinvG⟩

/-- Witness of C2: the prior `exampleSpde` at `kappa2 = 2` with three sessions, where the
factor `D` is `diag(5, 9/5)` and the determinant is `9`. -/
theorem logDetQt_eq_log_det_witness :
    ((⟨Real.sqrt, Real.log, 2⁻¹ ^ 52, Real.pi⟩ : CLib ℝ).log = Real.log ∧ (0 : ℝ) < 2 ∧
      (exampleSpde ℝ).Dim 2 ∧ ((Precision 2 (exampleSpde ℝ)).toMatrix 2).PosDef ∧
      IsLDLT 2 ((Precision 2 (exampleSpde ℝ)).toMatrix 2)
        (exampleLDLT ℝ (Precision 2 (exampleSpde ℝ))).vectorD) ∧
    (logDetQt ⟨Real.sqrt, Real.log, 2⁻¹ ^ 52, Real.pi⟩ (exampleLDLT ℝ) 2 (exampleSpde ℝ) 3 =
      ((3 : Int) : ℝ) * ∑ i : Fin 2,
        Real.log (vecGet (exampleLDLT ℝ (Precision 2 (exampleSpde ℝ))).vectorD i) ∧
    logDetQt ⟨Real.sqrt, Real.log, 2⁻¹ ^ 52, Real.pi⟩ (exampleLDLT ℝ) 2 (exampleSpde ℝ) 3 =
      ((3 : Int) : ℝ) * Real.log (((Precision 2 (exampleSpde ℝ)).toMatrix 2).det)) :=
  ⟨⟨rfl, by norm_num, exampleSpde_Dim,
      Precision_posDef_aux 2 2 (exampleSpde ℝ) (by norm_num) example_Cmat_posDef
        example_Gmat_posSemidef example_GtCinvG, example_isLDLT⟩,
    logDetQt_eq_log_det 2 ⟨Real.sqrt, Real.log, 2⁻¹ ^ 52, Real.pi⟩ (exampleLDLT ℝ) 2
      (exampleSpde ℝ) 3 rfl (by norm_num) exampleSpde_Dim
      (Precision_posDef_aux 2 2 (exampleSpde ℝ) (by norm_num) example_Cmat_posDef
        example_Gmat_posSemidef example_GtCinvG) example_isLDLT⟩

theorem example_Precision_neg_toMatrix :
    (Precision (-2) (exampleSpde ℝ)).toMatrix 2
      = fun i j => if i = j then (-1 : ℝ) else 0 := by
  ext i j
  simp only [SparseMatrix.toMatrix, Precision_value]
  fin_cases i <;> fin_cases j <;>
    simp [SparseMatrix.value, exampleSpde, SparseMatrix.ofFn] <;> norm_num

/-- C4, as stated, fails: at `kappa2 = -2` the precision of `exampleSpde` is `-I`, which is
not positive definite; its `LDLT` factorization has `D = diag(-1, -1)`, and the call of
`logDetQt` returns a number, twice the library's `log(-1)` per session, instead of
propagating an error.  The same happens when the factorization object reports
`NumericalIssue`. -/
theorem logDetQt_fails_counterexample :
    ¬ ((Precision (-2) (exampleSpde ℝ)).toMatrix 2).PosDef ∧
    IsLDLT 2 ((Precision (-2) (exampleSpde ℝ)).toMatrix 2) [-1, -1] ∧
    logDetQt_call ⟨Real.sqrt, Real.log, 2⁻¹ ^ 52, Real.pi⟩
        (fun _ => { info := ComputationInfo.Success, vectorD := [-1, -1] })
        (-2) (exampleSpde ℝ) 3
      = Except.ok (((3 : Int) : ℝ) * (Real.log (-1) + Real.log (-1))) ∧
    logDetQt_call ⟨Real.sqrt, Real.log, 2⁻¹ ^ 52, Real.pi⟩
        (fun _ => { info := ComputationInfo.NumericalIssue, vectorD := [-1, -1] })
        (-2) (exampleSpde ℝ) 3
      = Except.ok (((3 : Int) : ℝ) * (Real.log (-1) + Real.log (-1))) := by
  refine ⟨fun h => ?_, ⟨rfl, 1, Equiv.refl _, ?_, ?_, ?_⟩, ?_, ?_⟩
  · have hpos := h.2 (fun i => if i = 0 then 1 else 0) (by
      intro h0
      have := congrFun h0 0
      simp at this)
    rw [example_Precision_neg_toMatrix] at hpos
    simp [Matrix.dotProduct, Matrix.mulVec, Fin.sum_univ_two] at hpos
    linarith
  · intro i j hij
    exact Matrix.one_apply_ne (ne_of_lt hij)
  · intro i
    exact Matrix.one_apply_eq i
  · rw [example_Precision_neg_toMatrix]
    ext i j
    fin_cases i <;> fin_cases j <;>
      simp [Matrix.diagonal_apply, vecGet]
  · simp [logDetQt_call, logDetQt]
  · simp [logDetQt_call, logDetQt]

end PrecisionReal

/-! ## The call of `logDetQt` never fails -/

section LogDetCall

variable {α : Type} [Field α]

/-- C4, amended. The call of `logDetQt` has no failure path: for every `kappa2` (zero and
negative values included), every prior and every state of the factorization object, it
returns `n_sess` times the sum of the logarithms of whatever `vectorD()` holds, and the
status `info()` of the factorization has no influence on the outcome. -/
theorem logDetQt_call_returns (lib : CLib α) (ldlt : SparseMatrix α → SimplicialLDLT α)
    (kappa2 : α) (spde : Spde α) (n_sess : Int) (status : ComputationInfo) :
    logDetQt_call lib ldlt kappa2 spde n_sess =
      Except.ok ((n_sess : α) * ((ldlt (Precision kappa2 spde)).vectorD.map lib.log).sum) ∧
    logDetQt_call lib (fun Q => { ldlt Q with info := status }) kappa2 spde n_sess =
      logDetQt_call lib ldlt kappa2 spde n_sess :=
  ⟨rfl, rfl⟩

end LogDetCall

/-! ## The univariate minimizer -/

section BrentProps

variable {α : Type} [LinearOrderedField α]

theorem brentTol1_pos (eps tol3 : α) (s : BrentState α) (heps : 0 ≤ eps) (htol : 0 < tol3) :
    tol3 ≤ brentTol1 eps tol3 s ∧ 0 < brentTol1 eps tol3 s := by
  unfold brentTol1
  have := mul_nonneg heps (abs_nonneg s.x)
  constructor <;> linarith

/-- When the stopping criterion fails, the larger side of the bracket is longer than `t2`. -/
theorem not_brentStop (eps tol3 : α) (s : BrentState α) (h : ¬ brentStop eps tol3 s) :
    (s.x < (s.a + s.b) / 2 → brentTol1 eps tol3 s * 2 < s.b - s.x) ∧
    ((s.a + s.b) / 2 ≤ s.x → brentTol1 eps tol3 s * 2 < s.x - s.a) := by
  unfold brentStop at h
  rw [not_le] at h
  constructor
  · intro hx
    rw [abs_of_neg (by linarith)] at h
    linarith
  · intro hx
    rw [abs_of_nonneg (by linarith)] at h
    linarith

/-- When the stopping criterion holds, both sides of the bracket are at most `t2` long. -/
theorem of_brentStop (eps tol3 : α) (s : BrentState α) (h : brentStop eps tol3 s) :
    s.b - s.x ≤ brentTol1 eps tol3 s * 2 ∧ s.x - s.a ≤ brentTol1 eps tol3 s * 2 := by
  unfold brentStop at h
  have h1 := le_abs_self (s.x - (s.a + s.b) / 2)
  have h2 := neg_abs_le (s.x - (s.a + s.b) / 2)
  constructor <;> linarith

/-- The step `d` points into the longer side of the bracket and `x + d` keeps a distance
`tol1` from its end. -/
theorem brentD_dir (c tol1 : α) (s : BrentState α) (ft : BrentFit α)
    (hc0 : 0 < c) (hc1 : c ≤ 1 / 2) (htol : 0 < tol1)
    (hup : s.x < (s.a + s.b) / 2 → tol1 * 2 < s.b - s.x)
    (hdn : (s.a + s.b) / 2 ≤ s.x → tol1 * 2 < s.x - s.a) :
    (0 < brentD c tol1 s ft ∧ tol1 ≤ s.b - (s.x + brentD c tol1 s ft) ∧
        tol1 * 2 ≤ s.b - s.x) ∨
    (brentD c tol1 s ft ≤ 0 ∧ tol1 ≤ s.x + brentD c tol1 s ft - s.a ∧
        tol1 * 2 ≤ s.x - s.a) := by
  unfold brentD brentE
  by_cases hg : brentGolden s ft
  · simp only [if_pos hg]
    by_cases hx : s.x < (s.a + s.b) / 2
    · simp only [if_pos hx]
      have h := hup hx
      left
      refine ⟨by nlinarith, by nlinarith, by linarith⟩
    · simp only [if_neg hx]
      have h := hdn (not_lt.1 hx)
      right
      refine ⟨by nlinarith, by nlinarith, by linarith⟩
  · simp only [if_neg hg]
    by_cases hadj : s.x + ft.p / ft.q - s.a < tol1 * 2 ∨ s.b - (s.x + ft.p / ft.q) < tol1 * 2
    · simp only [if_pos hadj]
      by_cases hx : s.x < (s.a + s.b) / 2
      · have h := hup hx
        have hx' : ¬ (s.x ≥ (s.a + s.b) / 2) := not_le.2 hx
        simp only [if_neg hx']
        left
        refine ⟨htol, by linarith, by linarith⟩
      · have h := hdn (not_lt.1 hx)
        have hx' : s.x ≥ (s.a + s.b) / 2 := not_lt.1 hx
        simp only [if_pos hx']
        right
        refine ⟨by linarith, by linarith, by linarith⟩
    · simp only [if_neg hadj]
      rw [not_or, not_lt, not_lt] at hadj
      by_cases hd : 0 < ft.p / ft.q
      · left
        refine ⟨hd, by linarith, by linarith⟩
      · right
        rw [not_lt] at hd
        refine ⟨hd, by linarith, by linarith⟩

theorem brentU_up (tol1 x d b : α) (_htol : 0 < tol1) (hd : 0 < d) (h1 : tol1 ≤ b - (x + d))
    (h2 : tol1 * 2 ≤ b - x) : x + tol1 ≤ brentU tol1 x d ∧ brentU tol1 x d + tol1 ≤ b := by
  unfold brentU
  rw [abs_of_pos hd]
  by_cases h : d ≥ tol1
  · simp only [if_pos h]
    constructor <;> linarith
  · simp only [if_neg h, if_pos hd]
    constructor <;> linarith

theorem brentU_down (tol1 x d a : α) (_htol : 0 < tol1) (hd : d ≤ 0) (h1 : tol1 ≤ x + d - a)
    (h2 : tol1 * 2 ≤ x - a) : brentU tol1 x d ≤ x - tol1 ∧ a + tol1 ≤ brentU tol1 x d := by
  unfold brentU
  rw [abs_of_nonpos hd]
  by_cases h : -d ≥ tol1
  · simp only [if_pos h]
    constructor <;> linarith
  · have hd' : ¬ d > 0 := not_lt.2 hd
    simp only [if_neg h, if_neg hd']
    constructor <;> linarith

/-- The point at which the objective is evaluated: at a distance of at least `tol1` from `x`
and from the end of the bracket on its side. -/
theorem brentTrial_u (c eps tol3 : α) (s : BrentState α)
    (hc0 : 0 < c) (hc1 : c ≤ 1 / 2) (heps : 0 ≤ eps) (htol : 0 < tol3)
    (h : ¬ brentStop eps tol3 s) :
    (s.x + brentTol1 eps tol3 s ≤ (brentTrial c eps tol3 s).u ∧
      (brentTrial c eps tol3 s).u + brentTol1 eps tol3 s ≤ s.b) ∨
    ((brentTrial c eps tol3 s).u ≤ s.x - brentTol1 eps tol3 s ∧
      s.a + brentTol1 eps tol3 s ≤ (brentTrial c eps tol3 s).u) := by
  obtain ⟨hup, hdn⟩ := not_brentStop eps tol3 s h
  obtain ⟨_, hpos⟩ := brentTol1_pos eps tol3 s heps htol
  unfold brentTrial
  simp only
  rcases brentD_dir c (brentTol1 eps tol3 s) s (brentFit (brentTol1 eps tol3 s) s)
    hc0 hc1 hpos hup hdn with ⟨h1, h2, h3⟩ | ⟨h1, h2, h3⟩
  · left
    exact brentU_up _ _ _ _ hpos h1 h2 h3
  · right
    exact brentU_down _ _ _ _ hpos h1 h2 h3


/-- What `brentUpdate` does to `a`, `b`, `x` and `fx`. -/
theorem brentUpdate_abx (s : BrentState α) (t : BrentTrial α) (fu : α) :
    (fu ≤ s.fx →
      (brentUpdate s t fu).x = t.u ∧ (brentUpdate s t fu).fx = fu ∧
      (brentUpdate s t fu).a = (if t.u < s.x then s.a else s.x) ∧
      (brentUpdate s t fu).b = (if t.u < s.x then s.x else s.b)) ∧
    (¬ fu ≤ s.fx →
      (brentUpdate s t fu).x = s.x ∧ (brentUpdate s t fu).fx = s.fx ∧
      (brentUpdate s t fu).a = (if t.u < s.x then t.u else s.a) ∧
      (brentUpdate s t fu).b = (if t.u < s.x then s.b else t.u)) := by
  constructor
  · intro h
    simp [brentUpdate, h]
  · intro h
    unfold brentUpdate
    simp only [if_neg h]
    split_ifs <;> simp

/-- One pass through the loop body keeps both sides of the bracket at least `g` long and
cuts at least `g` off the bracket. -/
theorem brentIter_gap (c eps tol3 g : α) (f : α → α) (s : BrentState α)
    (hc0 : 0 < c) (hc1 : c ≤ 1 / 2) (heps : 0 ≤ eps) (htol : 0 < tol3)
    (hg : g ≤ tol3) (hgap : BrentGap g s) (h : ¬ brentStop eps tol3 s) :
    BrentGap g (brentIter c eps tol3 f s) ∧
    (brentIter c eps tol3 f s).b - (brentIter c eps tol3 f s).a ≤ s.b - s.a - g := by
  obtain ⟨htol1, _⟩ := brentTol1_pos eps tol3 s heps htol
  have hu := brentTrial_u c eps tol3 s hc0 hc1 heps htol h
  obtain ⟨hga, hgb⟩ := hgap
  unfold brentIter
  simp only
  generalize brentTrial c eps tol3 s = t at hu ⊢
  generalize f t.u = fu
  obtain ⟨hle, hgt⟩ := brentUpdate_abx s t fu
  unfold BrentGap
  by_cases hf : fu ≤ s.fx
  · obtain ⟨e1, _, e3, e4⟩ := hle hf
    rw [e1, e3, e4]
    rcases hu with ⟨h1, h2⟩ | ⟨h1, h2⟩
    · have hlt : ¬ t.u < s.x := by
        rw [not_lt]
        linarith
      simp only [if_neg hlt]
      refine ⟨⟨by linarith, by linarith⟩, by linarith⟩
    · have hlt : t.u < s.x := by linarith
      simp only [if_pos hlt]
      refine ⟨⟨by linarith, by linarith⟩, by linarith⟩
  · obtain ⟨e1, _, e3, e4⟩ := hgt hf
    rw [e1, e3, e4]
    rcases hu with ⟨h1, h2⟩ | ⟨h1, h2⟩
    · have hlt : ¬ t.u < s.x := by
        rw [not_lt]
        linarith
      simp only [if_neg hlt]
      refine ⟨⟨by linarith, by linarith⟩, by linarith⟩
    · have hlt : t.u < s.x := by linarith
      simp only [if_pos hlt]
      refine ⟨⟨by linarith, by linarith⟩, by linarith⟩

theorem sq_sub_lt_right (m p q : α) (h1 : m ≤ p) (h2 : p < q) : (p - m) ^ 2 < (q - m) ^ 2 := by
  have h : (q - m) ^ 2 - (p - m) ^ 2 = (q - p) * ((q - m) + (p - m)) := by ring
  have hpos : 0 < (q - p) * ((q - m) + (p - m)) :=
    mul_pos (by linarith) (by linarith)
  linarith

theorem sq_sub_lt_left (m p q : α) (h1 : q < p) (h2 : p ≤ m) : (p - m) ^ 2 < (q - m) ^ 2 := by
  have h : (q - m) ^ 2 - (p - m) ^ 2 = (p - q) * ((m - q) + (m - p)) := by ring
  have hpos : 0 < (p - q) * ((m - q) + (m - p)) :=
    mul_pos (by linarith) (by linarith)
  linarith

/-- For the objective `(x - m)^2` one pass through the loop body keeps `m` inside the
bracket. -/
theorem brentIter_bracket (c eps tol3 m : α) (s : BrentState α)
    (hc0 : 0 < c) (hc1 : c ≤ 1 / 2) (heps : 0 ≤ eps) (htol : 0 < tol3)
    (hb : BrentBracket (fun x => (x - m) ^ 2) m s) (h : ¬ brentStop eps tol3 s) :
    BrentBracket (fun x => (x - m) ^ 2) m (brentIter c eps tol3 (fun x => (x - m) ^ 2) s) := by
  obtain ⟨_, htol1⟩ := brentTol1_pos eps tol3 s heps htol
  have hu := brentTrial_u c eps tol3 s hc0 hc1 heps htol h
  obtain ⟨ha, hb, hfx⟩ := hb
  unfold brentIter
  simp only
  generalize brentTrial c eps tol3 s = t at hu ⊢
  obtain ⟨hle, hgt⟩ := brentUpdate_abx s t ((t.u - m) ^ 2)
  unfold BrentBracket
  by_cases hf : (t.u - m) ^ 2 ≤ s.fx
  · obtain ⟨e1, e2, e3, e4⟩ := hle hf
    rw [e1, e2, e3, e4]
    rw [hfx] at hf
    simp only at hf
    rcases hu with ⟨h1, h2⟩ | ⟨h1, h2⟩
    · have hlt : ¬ t.u < s.x := by
        rw [not_lt]
        linarith
      simp only [if_neg hlt]
      refine ⟨?_, hb, trivial⟩
      by_contra hcon
      rw [not_le] at hcon
      have := sq_sub_lt_right m s.x t.u (le_of_lt hcon) (by linarith)
      linarith
    · have hlt : t.u < s.x := by linarith
      simp only [if_pos hlt]
      refine ⟨ha, ?_, trivial⟩
      by_contra hcon
      rw [not_le] at hcon
      have := sq_sub_lt_left m s.x t.u hlt (le_of_lt hcon)
      linarith
  · obtain ⟨e1, e2, e3, e4⟩ := hgt hf
    rw [e1, e2, e3, e4]
    rw [hfx, not_le] at hf
    simp only at hf
    rcases hu with ⟨h1, h2⟩ | ⟨h1, h2⟩
    · have hlt : ¬ t.u < s.x := by
        rw [not_lt]
        linarith
      simp only [if_neg hlt]
      refine ⟨ha, ?_, hfx⟩
      by_contra hcon
      rw [not_le] at hcon
      have := sq_sub_lt_left m t.u s.x (by linarith) (le_of_lt hcon)
      linarith
    · have hlt : t.u < s.x := by linarith
      simp only [if_pos hlt]
      refine ⟨?_, hb, hfx⟩
      by_contra hcon
      rw [not_le] at hcon
      have := sq_sub_lt_right m t.u s.x (le_of_lt hcon) hlt
      linarith


theorem brentLoop_stop (c eps tol3 : α) (f : α → α) (s : BrentState α)
    (h : brentStop eps tol3 s) (fuel : Nat) (hfuel : 1 ≤ fuel) :
    brentLoop c eps tol3 f fuel s = some s.x := by
  obtain ⟨k, rfl⟩ : ∃ k, fuel = k + 1 := ⟨fuel - 1, by omega⟩
  simp [brentLoop, h]

theorem brentLoop_step (c eps tol3 : α) (f : α → α) (s : BrentState α)
    (h : ¬ brentStop eps tol3 s) (fuel : Nat) :
    brentLoop c eps tol3 f (fuel + 1) s
      = brentLoop c eps tol3 f fuel (brentIter c eps tol3 f s) := by
  simp [brentLoop, h]

/-- The main loop leaves through `break` within `n + 1` tests of the stopping criterion when
the bracket is at most `n * g` long, and an invariant of the loop body holds at the state
it returns from. -/
theorem brentLoop_run (c eps tol3 g : α) (f : α → α) (P : BrentState α → Prop)
    (hc0 : 0 < c) (hc1 : c ≤ 1 / 2) (heps : 0 ≤ eps) (htol : 0 < tol3)
    (hg0 : 0 < g) (hg : g ≤ tol3)
    (hP : ∀ s, P s → ¬ brentStop eps tol3 s → P (brentIter c eps tol3 f s)) :
    ∀ (n : Nat) (s : BrentState α), BrentGap g s → P s → s.b - s.a ≤ n * g →
      ∃ (N : Nat) (s1 : BrentState α), N ≤ n + 1 ∧ brentStop eps tol3 s1 ∧ P s1 ∧
        ∀ fuel, N ≤ fuel → brentLoop c eps tol3 f fuel s = some s1.x := by
  intro n
  induction n with
  | zero =>
    intro s hgap _ hw
    obtain ⟨h1, h2⟩ := hgap
    simp only [Nat.cast_zero, zero_mul] at hw
    linarith
  | succ n ih =>
    intro s hgap hPs hw
    by_cases hstop : brentStop eps tol3 s
    · exact ⟨1, s, by omega, hstop, hPs, fun fuel hf => brentLoop_stop c eps tol3 f s hstop fuel hf⟩
    · obtain ⟨hgap1, hw1⟩ := brentIter_gap c eps tol3 g f s hc0 hc1 heps htol hg hgap hstop
      have hw2 : (brentIter c eps tol3 f s).b - (brentIter c eps tol3 f s).a ≤ n * g := by
        push_cast at hw
        linarith
      obtain ⟨N, s1, hN, hs1, hP1, hrun⟩ := ih _ hgap1 (hP s hPs hstop) hw2
      refine ⟨N + 1, s1, by omega, hs1, hP1, fun fuel hf => ?_⟩
      obtain ⟨k, rfl⟩ : ∃ k, fuel = k + 1 := ⟨fuel - 1, by omega⟩
      rw [brentLoop_step c eps tol3 f s hstop k]
      exact hrun k (by omega)

/-- The state on entry to the main loop: `x` is strictly inside the bracket. -/
theorem brentInit_abx (lib : CLib α) (f : α → α) (w0 lower upper : α) :
    (brentInit lib f w0 lower upper).a = lower ∧ (brentInit lib f w0 lower upper).b = upper ∧
    (brentInit lib f w0 lower upper).x = lower + (3 - lib.sqrt 5) / 2 * (upper - lower) ∧
    (brentInit lib f w0 lower upper).fx = f (brentInit lib f w0 lower upper).x :=
  ⟨rfl, rfl, rfl, rfl⟩

/-- Termination of the main loop, with an invariant of the loop body carried to the state
the loop returns from. -/
theorem brentMin_run [Archimedean α] (lib : CLib α) (f : α → α) (w0 lower upper tol : α)
    (P : BrentState α → Prop)
    (hlt : lower < upper) (htol : 0 < tol)
    (h5 : 2 ≤ lib.sqrt 5) (h5' : lib.sqrt 5 < 3) (heps : 0 ≤ lib.sqrt lib.DBL_EPSILON)
    (hP0 : P (brentInit lib f w0 lower upper))
    (hP : ∀ s, P s → ¬ brentStop (lib.sqrt lib.DBL_EPSILON) (tol / 3) s →
      P (brentIter ((3 - lib.sqrt 5) / 2) (lib.sqrt lib.DBL_EPSILON) (tol / 3) f s)) :
    ∃ (N : Nat) (s1 : BrentState α),
      brentStop (lib.sqrt lib.DBL_EPSILON) (tol / 3) s1 ∧ P s1 ∧
      ∀ fuel, N ≤ fuel → brentMin lib f fuel w0 lower upper tol = some s1.x := by
  have hc0 : 0 < (3 - lib.sqrt 5) / 2 := by linarith
  have hc1 : (3 - lib.sqrt 5) / 2 ≤ 1 / 2 := by linarith
  have htol3 : 0 < tol / 3 := by linarith
  obtain ⟨ea, eb, ex, _⟩ := brentInit_abx lib f w0 lower upper
  have hxa : 0 < (brentInit lib f w0 lower upper).x - (brentInit lib f w0 lower upper).a := by
    rw [ex, ea]
    have := mul_pos hc0 (sub_pos.2 hlt)
    linarith
  have hbx : 0 < (brentInit lib f w0 lower upper).b - (brentInit lib f w0 lower upper).x := by
    rw [ex, eb]
    have : (3 - lib.sqrt 5) / 2 * (upper - lower) ≤ 1 / 2 * (upper - lower) :=
      mul_le_mul_of_nonneg_right hc1 (le_of_lt (sub_pos.2 hlt))
    linarith
  obtain ⟨g, hg⟩ : ∃ g, g = min (tol / 3)
      (min ((brentInit lib f w0 lower upper).x - (brentInit lib f w0 lower upper).a)
        ((brentInit lib f w0 lower upper).b - (brentInit lib f w0 lower upper).x)) := ⟨_, rfl⟩
  have hg0 : 0 < g := by
    rw [hg]
    exact lt_min htol3 (lt_min hxa hbx)
  have hg1 : g ≤ tol / 3 := by
    rw [hg]
    exact min_le_left _ _
  have hgap : BrentGap g (brentInit lib f w0 lower upper) := by
    constructor
    · rw [hg]
      exact le_trans (min_le_right _ _) (min_le_left _ _)
    · rw [hg]
      exact le_trans (min_le_right _ _) (min_le_right _ _)
  obtain ⟨n, hn⟩ := exists_nat_ge
    (((brentInit lib f w0 lower upper).b - (brentInit lib f w0 lower upper).a) / g)
  have hw : (brentInit lib f w0 lower upper).b - (brentInit lib f w0 lower upper).a ≤ n * g :=
    (div_le_iff₀ hg0).1 hn
  obtain ⟨N, s1, _, hs1, hP1, hrun⟩ :=
    brentLoop_run ((3 - lib.sqrt 5) / 2) (lib.sqrt lib.DBL_EPSILON) (tol / 3) g f P
      hc0 hc1 heps htol3 hg0 hg1 hP n _ hgap hP0 hw
  exact ⟨N, s1, hs1, hP1, fun fuel hf => hrun fuel hf⟩

/-- C7. For every `lower < upper`, every `tol > 0` and every objective, the main loop of
`kappa2Brent` and of `kappa2BrentInit` leaves through `break` after finitely many passes,
each of which evaluates the objective once, whatever the indeterminate initial value of `w`
is: from some amount of fuel on the function returns a value.  The library is required to
have `2 ≤ sqrt(5) < 3` and `0 ≤ sqrt(DBL_EPSILON)`; the field is Archimedean. -/
theorem brent_terminates [Archimedean α] (lib : CLib α) (f : α → α) (w0 lower upper tol : α)
    (hlt : lower < upper) (htol : 0 < tol)
    (h5 : 2 ≤ lib.sqrt 5) (h5' : lib.sqrt 5 < 3) (heps : 0 ≤ lib.sqrt lib.DBL_EPSILON) :
    (∃ (N : Nat) (x : α), ∀ fuel, N ≤ fuel → brentMin lib f fuel w0 lower upper tol = some x) ∧
    (∀ ldlt spde a_star b_star n_sess, ∃ (N : Nat) (x : α), ∀ fuel, N ≤ fuel →
      kappa2Brent lib ldlt fuel w0 lower upper spde a_star b_star n_sess tol = some x) ∧
    (∀ ldlt phi spde beta_hat n_sess, ∃ (N : Nat) (x : α), ∀ fuel, N ≤ fuel →
      kappa2BrentInit lib ldlt fuel w0 lower upper phi spde beta_hat n_sess tol = some x) := by
  have key : ∀ g : α → α, ∃ (N : Nat) (x : α), ∀ fuel, N ≤ fuel →
      brentMin lib g fuel w0 lower upper tol = some x := by
    intro g
    obtain ⟨N, s1, _, _, hrun⟩ := brentMin_run lib g w0 lower upper tol (fun _ => True)
      hlt htol h5 h5' heps trivial (fun _ _ _ => trivial)
    exact ⟨N, s1.x, hrun⟩
  exact ⟨key f, fun ldlt spde a_star b_star n_sess => key _,
    fun ldlt phi spde beta_hat n_sess => key _⟩

/-- C6, amended. For `lower < m < upper` and `tol > 0`, the Brent loop run with the objective
`f(x) = (x - m)^2` returns a point `x` with
`|x - m| ≤ 2 * (sqrt(DBL_EPSILON) * |x| + tol / 3)`, whatever the indeterminate initial value
of `w` is. -/
theorem brent_quadratic [Archimedean α] (lib : CLib α) (w0 lower upper m tol : α)
    (hlo : lower < m) (hup : m < upper) (htol : 0 < tol)
    (h5 : 2 ≤ lib.sqrt 5) (h5' : lib.sqrt 5 < 3) (heps : 0 ≤ lib.sqrt lib.DBL_EPSILON) :
    ∃ (N : Nat) (x : α),
      (∀ fuel, N ≤ fuel →
        brentMin lib (fun x => (x - m) ^ 2) fuel w0 lower upper tol = some x) ∧
      |x - m| ≤ 2 * (lib.sqrt lib.DBL_EPSILON * |x| + tol / 3) := by
  obtain ⟨N, s1, hstop, hbr, hrun⟩ := brentMin_run lib (fun x => (x - m) ^ 2) w0 lower upper tol
    (BrentBracket (fun x => (x - m) ^ 2) m) (lt_trans hlo hup) htol h5 h5' heps
    ⟨le_of_lt hlo, le_of_lt hup, rfl⟩
    (fun s hs hns => brentIter_bracket _ _ _ m s (by linarith) (by linarith) heps
      (by linarith) hs hns)
  refine ⟨N, s1.x, hrun, ?_⟩
  obtain ⟨h1, h2⟩ := of_brentStop _ _ s1 hstop
  obtain ⟨ha, hb, _⟩ := hbr
  unfold brentTol1 at h1 h2
  rw [abs_le]
  constructor <;> linarith

end BrentProps

section BrentReal

theorem real_sqrt_five : (2 : ℝ) ≤ Real.sqrt 5 ∧ Real.sqrt 5 < 3 := by
  constructor
  · rw [Real.le_sqrt' (by norm_num)]
    norm_num
  · rw [Real.sqrt_lt' (by norm_num)]
    norm_num

theorem real_sqrt_eps : Real.sqrt (2⁻¹ ^ 52) = 2⁻¹ ^ 26 := by
  rw [show (2⁻¹ : ℝ) ^ 52 = (2⁻¹ ^ 26) ^ 2 by norm_num]
  exact Real.sqrt_sq (by positivity)

/-- On the bracket `[2^30, 2^30 + 8]` with `tol = 1` the stopping criterion holds on entry to
the loop, for every objective, every value of the unassigned `w` and every amount of fuel:
the function returns its first point. -/
theorem brent_first_point (f : ℝ → ℝ) (w0 : ℝ) (fuel : Nat) :
    brentMin ⟨Real.sqrt, Real.log, 2⁻¹ ^ 52, Real.pi⟩ f (fuel + 1) w0 (2 ^ 30) (2 ^ 30 + 8) 1
      = some (2 ^ 30 + (3 - Real.sqrt 5) / 2 * (2 ^ 30 + 8 - 2 ^ 30)) := by
  obtain ⟨h5, h5'⟩ := real_sqrt_five
  unfold brentMin
  simp only
  rw [brentLoop_stop _ _ _ _ _ _ (fuel + 1) (by omega)]
  · rfl
  · unfold brentStop brentTol1
    simp only [brentInit, real_sqrt_eps]
    have hx : (0 : ℝ) ≤ 2 ^ 30 + (3 - Real.sqrt 5) / 2 * (2 ^ 30 + 8 - 2 ^ 30) := by
      norm_num
      nlinarith
    rw [abs_of_nonneg hx, abs_le]
    constructor <;> norm_num <;> nlinarith

/-- C6, as stated, fails: on the bracket `[2^30, 2^30 + 8]` with `tol = 1` and the objective
`(x - (2^30 + 7))^2` the stopping criterion already holds on entry to the loop, because
`sqrt(DBL_EPSILON) * |x|` is about `16`; the function returns its first point
`2^30 + 8 * (3 - sqrt 5) / 2`, which is more than `tol` away from the minimum. -/
theorem brent_quadratic_counterexample :
    ((2 ^ 30 : ℝ) < 2 ^ 30 + 7 ∧ (2 ^ 30 + 7 : ℝ) < 2 ^ 30 + 8 ∧ (0 : ℝ) < 1) ∧
    brentMin ⟨Real.sqrt, Real.log, 2⁻¹ ^ 52, Real.pi⟩ (fun x => (x - (2 ^ 30 + 7)) ^ 2)
        100 0 (2 ^ 30) (2 ^ 30 + 8) 1
      = some (2 ^ 30 + (3 - Real.sqrt 5) / 2 * (2 ^ 30 + 8 - 2 ^ 30)) ∧
    ¬ |(2 ^ 30 + (3 - Real.sqrt 5) / 2 * (2 ^ 30 + 8 - 2 ^ 30)) - (2 ^ 30 + 7)| ≤ (1 : ℝ) := by
  obtain ⟨h5, h5'⟩ := real_sqrt_five
  refine ⟨⟨by norm_num, by norm_num, by norm_num⟩, brent_first_point _ 0 99, ?_⟩
  rw [not_le, abs_of_neg (by norm_num; nlinarith)]
  norm_num
  nlinarith

/-- Witness of C7: the bracket `[0, 50]` of the source, `tol = 1/1000`, the objective
`(x - 7)^2 + 1`, with the real square root. -/
theorem brent_terminates_witness :
    ((0 : ℝ) < 50 ∧ (0 : ℝ) < 1 / 1000 ∧
      2 ≤ (⟨Real.sqrt, Real.log, 2⁻¹ ^ 52, Real.pi⟩ : CLib ℝ).sqrt 5 ∧
      (⟨Real.sqrt, Real.log, 2⁻¹ ^ 52, Real.pi⟩ : CLib ℝ).sqrt 5 < 3 ∧
      0 ≤ (⟨Real.sqrt, Real.log, 2⁻¹ ^ 52, Real.pi⟩ : CLib ℝ).sqrt
        (⟨Real.sqrt, Real.log, 2⁻¹ ^ 52, Real.pi⟩ : CLib ℝ).DBL_EPSILON) ∧
    ((∃ (N : Nat) (x : ℝ), ∀ fuel, N ≤ fuel →
      brentMin ⟨Real.sqrt, Real.log, 2⁻¹ ^ 52, Real.pi⟩ (fun x => (x - 7) ^ 2 + 1) fuel 0 0 50
        (1 / 1000) = some x) ∧
    (∀ ldlt spde a_star b_star n_sess, ∃ (N : Nat) (x : ℝ), ∀ fuel, N ≤ fuel →
      kappa2Brent ⟨Real.sqrt, Real.log, 2⁻¹ ^ 52, Real.pi⟩ ldlt fuel 0 0 50 spde a_star b_star
        n_sess (1 / 1000) = some x) ∧
    (∀ ldlt phi spde beta_hat n_sess, ∃ (N : Nat) (x : ℝ), ∀ fuel, N ≤ fuel →
      kappa2BrentInit ⟨Real.sqrt, Real.log, 2⁻¹ ^ 52, Real.pi⟩ ldlt fuel 0 0 50 phi spde
        beta_hat n_sess (1 / 1000) = some x)) :=
  ⟨⟨by norm_num, by norm_num, real_sqrt_five.1, real_sqrt_five.2, Real.sqrt_nonneg _⟩,
    brent_terminates ⟨Real.sqrt, Real.log, 2⁻¹ ^ 52, Real.pi⟩ (fun x => (x - 7) ^ 2 + 1) 0 0 50
      (1 / 1000) (by norm_num) (by norm_num) real_sqrt_five.1 real_sqrt_five.2
      (Real.sqrt_nonneg _)⟩

/-- Witness of C6, amended: the bracket `[0, 50]` of the source, `tol = 1/1000`, the minimum
at `7`, with the real square root. -/
theorem brent_quadratic_witness :
    ((0 : ℝ) < 7 ∧ (7 : ℝ) < 50 ∧ (0 : ℝ) < 1 / 1000 ∧
      2 ≤ (⟨Real.sqrt, Real.log, 2⁻¹ ^ 52, Real.pi⟩ : CLib ℝ).sqrt 5 ∧
      (⟨Real.sqrt, Real.log, 2⁻¹ ^ 52, Real.pi⟩ : CLib ℝ).sqrt 5 < 3 ∧
      0 ≤ (⟨Real.sqrt, Real.log, 2⁻¹ ^ 52, Real.pi⟩ : CLib ℝ).sqrt
        (⟨Real.sqrt, Real.log, 2⁻¹ ^ 52, Real.pi⟩ : CLib ℝ).DBL_EPSILON) ∧
    (∃ (N : Nat) (x : ℝ),
      (∀ fuel, N ≤ fuel →
        brentMin ⟨Real.sqrt, Real.log, 2⁻¹ ^ 52, Real.pi⟩ (fun x => (x - 7) ^ 2) fuel 0 0 50
          (1 / 1000) = some x) ∧
      |x - 7| ≤ 2 * ((⟨Real.sqrt, Real.log, 2⁻¹ ^ 52, Real.pi⟩ : CLib ℝ).sqrt
        (⟨Real.sqrt, Real.log, 2⁻¹ ^ 52, Real.pi⟩ : CLib ℝ).DBL_EPSILON * |x| + 1 / 1000 / 3)) :=
  ⟨⟨by norm_num, by norm_num, by norm_num, real_sqrt_five.1, real_sqrt_five.2,
      Real.sqrt_nonneg _⟩,
    brent_quadratic ⟨Real.sqrt, Real.log, 2⁻¹ ^ 52, Real.pi⟩ 0 0 50 7 (1 / 1000) (by norm_num)
      (by norm_num) (by norm_num) real_sqrt_five.1 real_sqrt_five.2 (Real.sqrt_nonneg _)⟩

end BrentReal

/-! ## The fixed-point accelerator -/

section SquaremProps

variable {α : Type} [LinearOrderedField α]

theorem init_round_eq_theta_round (lib : CLib α) (ctl : SquaremControl α)
    (fixptfn : List α → Option (List α)) (len : Nat) (s : SquaremState α) :
    init_squarem2_round lib ctl fixptfn len s = theta_squarem2_round lib ctl fixptfn len s :=
  rfl

theorem init_loop_eq_theta_loop (lib : CLib α) (ctl : SquaremControl α)
    (fixptfn : List α → Option (List α)) (len : Nat) (fuel : Nat) (s : SquaremState α) :
    init_squarem2_loop lib ctl fixptfn len fuel s = theta_squarem2_loop lib ctl fixptfn len fuel s := by
  induction fuel generalizing s with
  | zero => rfl
  | succ n ih =>
    unfold init_squarem2_loop theta_squarem2_loop
    rw [init_round_eq_theta_round]
    split_ifs with h
    · cases theta_squarem2_round lib ctl fixptfn len s with
      | abort => rfl
      | leave s1 => rfl
      | next s1 => exact ih s1
    · rfl

theorem init_eq_theta (lib : CLib α) (ctl : SquaremControl α)
    (fixptfn : List α → Option (List α)) (alpha0 : α) (par : List α) :
    init_squarem2 lib ctl fixptfn alpha0 par = theta_squarem2 lib ctl fixptfn alpha0 par := by
  unfold init_squarem2 theta_squarem2
  simp only [init_loop_eq_theta_loop]

theorem init_after_eq_theta_after (lib : CLib α) (ctl : SquaremControl α)
    (fixptfn : List α → Option (List α)) (len : Nat) (n : Nat) (s : SquaremState α) :
    init_squarem2_after lib ctl fixptfn len n s = theta_squarem2_after lib ctl fixptfn len n s := by
  induction n with
  | zero => rfl
  | succ n ih =>
    unfold init_squarem2_after theta_squarem2_after
    rw [ih]
    rfl

theorem sumLoop_zero (len : Nat) (term : Nat → α) (h : ∀ i, term i = 0) :
    sumLoop len term = 0 := by
  unfold sumLoop
  induction len with
  | zero => rfl
  | succ n ih =>
    rw [foldl_range_succ_apply, ih, h]
    simp

/-- A sum of nonnegative terms is nonnegative. -/
theorem sumLoop_nonneg (len : Nat) (term : Nat → α) (h : ∀ i, 0 ≤ term i) :
    0 ≤ sumLoop len term := by
  unfold sumLoop
  induction len with
  | zero => simp
  | succ n ih =>
    rw [foldl_range_succ_apply]
    exact add_nonneg ih (h n)

/-- The first round with the identity map: the loop is left after one evaluation. -/
theorem theta_round_identity (lib : CLib α) (ctl : SquaremControl α) (len : Nat)
    (s : SquaremState α) (hsqrt : lib.sqrt 0 = 0) (htol : 0 < ctl.tol) :
    theta_squarem2_round lib ctl (fun p => some p) len s
      = SquaremStep.leave { s with feval := s.feval + 1, extrap := true } := by
  unfold theta_squarem2_round
  simp only
  rw [sumLoop_zero len _ (fun i => by simp), hsqrt, if_pos htol]

theorem theta_identity (lib : CLib α) (ctl : SquaremControl α) (alpha0 : α) (p0 : List α)
    (hsqrt : lib.sqrt 0 = 0) (htol : 0 < ctl.tol) (hmax : 1 < ctl.maxiter) :
    theta_squarem2 lib ctl (fun p => some p) alpha0 p0 =
      { par := p0, valueobjfn := none, iter := 1, pfevals := 1, objfevals := 0,
        convergence := true } := by
  unfold theta_squarem2
  obtain ⟨k, hk⟩ : ∃ k, ctl.maxiter = k + 2 := ⟨ctl.maxiter - 2, by omega⟩
  simp only [hk]
  unfold theta_squarem2_loop
  have h0 : (squaremStart ctl alpha0 p0).feval < ctl.maxiter := by
    simp [squaremStart]; omega
  rw [if_pos h0, theta_round_identity lib ctl _ _ hsqrt htol]
  simp [squaremStart, hk]


/-- A round of `theta_squarem2`, written with the named parts. -/
theorem theta_round_view (lib : CLib α) (ctl : SquaremControl α)
    (fixptfn : List α → Option (List α)) (len : Nat) (s : SquaremState α) :
    theta_squarem2_round lib ctl fixptfn len s =
      match fixptfn s.pcpp with
      | none => SquaremStep.abort
      | some p1 =>
        if lib.sqrt (sqSr2 len s.pcpp p1) < ctl.tol then
          SquaremStep.leave { s with feval := s.feval + 1, extrap := true }
        else
          match fixptfn p1 with
          | none => SquaremStep.abort
          | some p2 =>
            if sqSq2 lib len p1 p2 < ctl.tol then
              SquaremStep.leave { s with feval := s.feval + 1 + 1, extrap := true }
            else if |sqAlpha lib ctl len s p1 p2 - 1| > 1 / 100 then
              match fixptfn (sqPnew len s p1 p2 (sqAlpha lib ctl len s p1 p2)) with
              | none =>
                SquaremStep.next (sqTail ctl s 1
                  (if sqAlpha lib ctl len s p1 p2 = s.stepmax
                    then stdMax ctl.stepmax0 (s.stepmax / ctl.mstep) else s.stepmax)
                  p2 (s.feval + 1 + 1) false)
              | some ptmp =>
                if sqRes lib len ptmp (sqPnew len s p1 p2 (sqAlpha lib ctl len s p1 p2))
                    ≤ sqKres lib ctl len p1 p2 then
                  SquaremStep.next (sqTail ctl s (sqAlpha lib ctl len s p1 p2) s.stepmax ptmp
                    (s.feval + 1 + 1 + 1) true)
                else
                  SquaremStep.next (sqTail ctl s 1
                    (if sqAlpha lib ctl len s p1 p2 = s.stepmax
                      then ctl.mstep * s.stepmax else s.stepmax)
                    p2 (s.feval + 1 + 1 + 1) false)
            else
              SquaremStep.next (sqTail ctl s (sqAlpha lib ctl len s p1 p2) s.stepmax
                (sqPnew len s p1 p2 (sqAlpha lib ctl len s p1 p2)) (s.feval + 1 + 1) true) :=
  rfl

/-- The comparison of two finite `double` is the one of the numbers. -/
theorem DoubleVal.finite_lt (x y : α) :
    (DoubleVal.finite x < DoubleVal.finite y) ↔ x < y :=
  Iff.rfl

/-- The clamp `std::max(lo, std::min(hi, x))` of a finite `x`. -/
theorem stdClamp_of_finite (lo hi v : α) :
    stdMax (DoubleVal.finite lo) (stdMin (DoubleVal.finite hi) (DoubleVal.finite v))
      = DoubleVal.finite (stdMax lo (stdMin hi v)) := by
  unfold stdMax stdMin
  by_cases h1 : v < hi
  · rw [if_pos ((DoubleVal.finite_lt v hi).2 h1), if_pos h1]
    by_cases h2 : lo < v
    · rw [if_pos ((DoubleVal.finite_lt lo v).2 h2), if_pos h2]
    · rw [if_neg (fun h => h2 ((DoubleVal.finite_lt lo v).1 h)), if_neg h2]
  · rw [if_neg (fun h => h1 ((DoubleVal.finite_lt v hi).1 h)), if_neg h1]
    by_cases h2 : lo < hi
    · rw [if_pos ((DoubleVal.finite_lt lo hi).2 h2), if_pos h2]
    · rw [if_neg (fun h => h2 ((DoubleVal.finite_lt lo hi).1 h)), if_neg h2]

/-- The clamp of `+inf`: `std::min(hi, +inf)` is `hi`. -/
theorem stdClamp_of_posInf (lo hi : α) :
    stdMax (DoubleVal.finite lo) (stdMin (DoubleVal.finite hi) DoubleVal.posInf)
      = DoubleVal.finite (stdMax lo hi) := by
  have h0 : ¬ ((DoubleVal.posInf : DoubleVal α) < DoubleVal.finite hi) := fun h => h
  unfold stdMax stdMin
  rw [if_neg h0]
  by_cases h2 : lo < hi
  · rw [if_pos ((DoubleVal.finite_lt lo hi).2 h2), if_pos h2]
  · rw [if_neg (fun h => h2 ((DoubleVal.finite_lt lo hi).1 h)), if_neg h2]

/-- The clamp of NaN: the comparison in `std::min(hi, NaN)` is false, which leaves `hi`. -/
theorem stdClamp_of_nan (lo hi : α) :
    stdMax (DoubleVal.finite lo) (stdMin (DoubleVal.finite hi) DoubleVal.nan)
      = DoubleVal.finite (stdMax lo hi) := by
  have h0 : ¬ ((DoubleVal.nan : DoubleVal α) < DoubleVal.finite hi) := fun h => h
  unfold stdMax stdMin
  rw [if_neg h0]
  by_cases h2 : lo < hi
  · rw [if_pos ((DoubleVal.finite_lt lo hi).2 h2), if_pos h2]
  · rw [if_neg (fun h => h2 ((DoubleVal.finite_lt lo hi).1 h)), if_neg h2]

/-- The clamp of `-inf`: `std::min(hi, -inf)` is `-inf`, and `std::max(lo, -inf)` is `lo`. -/
theorem stdClamp_of_negInf (lo hi : α) :
    stdMax (DoubleVal.finite lo) (stdMin (DoubleVal.finite hi) DoubleVal.negInf)
      = DoubleVal.finite lo := by
  have h0 : (DoubleVal.negInf : DoubleVal α) < DoubleVal.finite hi := trivial
  have h1 : ¬ (DoubleVal.finite lo < (DoubleVal.negInf : DoubleVal α)) := fun h => h
  unfold stdMax stdMin
  rw [if_pos h0, if_neg h1]

/-- The clamp between two finite bounds leaves a finite value, whatever it is applied to. -/
theorem stdClamp_finite (lo hi : α) (x : DoubleVal α) :
    ∃ y, stdMax (DoubleVal.finite lo) (stdMin (DoubleVal.finite hi) x) = DoubleVal.finite y := by
  cases x with
  | finite v => exact ⟨_, stdClamp_of_finite lo hi v⟩
  | posInf => exact ⟨_, stdClamp_of_posInf lo hi⟩
  | negInf => exact ⟨_, stdClamp_of_negInf lo hi⟩
  | nan => exact ⟨_, stdClamp_of_nan lo hi⟩

theorem stdClamp_bounds_finite (lo hi x : α) (h : lo ≤ hi) :
    lo ≤ stdMax lo (stdMin hi x) ∧ stdMax lo (stdMin hi x) ≤ hi := by
  unfold stdMax stdMin
  split_ifs <;> constructor <;> linarith

/-- The clamp between `lo ≤ hi` lies between the two, also when it is applied to an infinite
value or to NaN. -/
theorem stdClamp_bounds (lo hi : α) (x : DoubleVal α) (h : lo ≤ hi) :
    lo ≤ (stdMax (DoubleVal.finite lo) (stdMin (DoubleVal.finite hi) x)).get ∧
    (stdMax (DoubleVal.finite lo) (stdMin (DoubleVal.finite hi) x)).get ≤ hi := by
  have hm : lo ≤ stdMax lo hi ∧ stdMax lo hi ≤ hi := by
    unfold stdMax
    split_ifs <;> constructor <;> linarith
  cases x with
  | finite v =>
    rw [stdClamp_of_finite]
    exact stdClamp_bounds_finite lo hi v h
  | posInf =>
    rw [stdClamp_of_posInf]
    exact hm
  | negInf =>
    rw [stdClamp_of_negInf]
    exact ⟨le_refl _, h⟩
  | nan =>
    rw [stdClamp_of_nan]
    exact hm

/-- The `switch` on the method: for the methods `1`, `2` and `3` the last assignment is the
one of `case 3`. -/
theorem methodSwitch_eq (lib : CLib α) (m : Int) (hm : m = 1 ∨ m = 2 ∨ m = 3)
    (alpha : DoubleVal α) (sr2 sv2 srv : α) :
    methodSwitch lib m alpha sr2 sv2 srv = DoubleVal.sqrt lib (DoubleVal.div sr2 sv2) := by
  unfold methodSwitch
  simp only [if_pos hm]

/-- The clamped step length of a round with `sv2 ≠ 0`, for the methods `1`, `2` and `3`. -/
theorem sqAlpha_of_ne_zero (lib : CLib α) (ctl : SquaremControl α) (len : Nat)
    (s : SquaremState α) (p1 p2 : List α) (hm : ctl.method = 1 ∨ ctl.method = 2 ∨ ctl.method = 3)
    (hv : sqSv2 len s.pcpp p1 p2 ≠ 0)
    (hq : ¬ sqSr2 len s.pcpp p1 / sqSv2 len s.pcpp p1 p2 < 0) :
    sqAlpha lib ctl len s p1 p2
      = stdMax s.stepmin (stdMin s.stepmax
          (lib.sqrt (sqSr2 len s.pcpp p1 / sqSv2 len s.pcpp p1 p2))) := by
  unfold sqAlpha
  rw [methodSwitch_eq lib _ hm]
  unfold DoubleVal.div
  rw [if_neg hv]
  unfold DoubleVal.sqrt
  simp only [if_neg hq]
  rw [stdClamp_of_finite]
  rfl

/-- The clamped step length of a round with `sv2 = 0`, for the methods `1`, `2` and `3`:
`sqrt(sr2 / 0)` is `+inf` or NaN, and the clamp leaves `std::max(stepmin, stepmax)`. -/
theorem sqAlpha_of_zero (lib : CLib α) (ctl : SquaremControl α) (len : Nat)
    (s : SquaremState α) (p1 p2 : List α) (hm : ctl.method = 1 ∨ ctl.method = 2 ∨ ctl.method = 3)
    (hv : sqSv2 len s.pcpp p1 p2 = 0) :
    sqAlpha lib ctl len s p1 p2 = stdMax s.stepmin s.stepmax := by
  unfold sqAlpha
  rw [methodSwitch_eq lib _ hm]
  unfold DoubleVal.div
  rw [if_pos hv]
  by_cases h1 : 0 < sqSr2 len s.pcpp p1
  · rw [if_pos h1]
    unfold DoubleVal.sqrt
    simp only
    rw [stdClamp_of_posInf]
    rfl
  · rw [if_neg h1]
    by_cases h2 : sqSr2 len s.pcpp p1 < 0
    · rw [if_pos h2]
      unfold DoubleVal.sqrt
      simp only
      rw [stdClamp_of_nan]
      rfl
    · rw [if_neg h2]
      unfold DoubleVal.sqrt
      simp only
      rw [stdClamp_of_nan]
      rfl

theorem stdMax_left_le (a b : α) : a ≤ stdMax a b := by
  unfold stdMax
  split_ifs <;> linarith

/-- The end of a round keeps `stepmin = 1` and `1 ≤ stepmax`, and leaves the step length
between the two bounds. -/
theorem sqTail_bounds (ctl : SquaremControl α) (s : SquaremState α) (alpha stepmax : α)
    (pnew : List α) (feval : Nat) (extrap : Bool)
    (hmin : s.stepmin = 1) (hm : 1 ≤ ctl.mstep) (ha : 1 ≤ alpha) (hs : alpha ≤ stepmax) :
    (sqTail ctl s alpha stepmax pnew feval extrap).stepmin = 1 ∧
    1 ≤ (sqTail ctl s alpha stepmax pnew feval extrap).stepmax ∧
    (sqTail ctl s alpha stepmax pnew feval extrap).stepmin
      ≤ (sqTail ctl s alpha stepmax pnew feval extrap).alpha ∧
    (sqTail ctl s alpha stepmax pnew feval extrap).alpha
      ≤ (sqTail ctl s alpha stepmax pnew feval extrap).stepmax := by
  have hneg : ¬ (s.stepmin < 0 ∧ alpha = s.stepmin) := by
    rw [hmin]
    intro h
    linarith [h.1]
  have h1 : (0 : α) ≤ stepmax := by linarith
  have hgrow : stepmax ≤ ctl.mstep * stepmax := by nlinarith
  simp only [sqTail, if_neg hneg]
  refine ⟨hmin, ?_, ?_, ?_⟩
  · split_ifs <;> linarith
  · rw [hmin]
    exact ha
  · split_ifs <;> linarith

/-- The step bounds and the step length at the end of a round that assigns the next
iterate. -/
theorem theta_round_bounds (lib : CLib α) (ctl : SquaremControl α)
    (fixptfn : List α → Option (List α)) (len : Nat) (s s1 : SquaremState α)
    (hmin : s.stepmin = 1) (hmax : 1 ≤ s.stepmax) (hm : 1 ≤ ctl.mstep)
    (h0 : 1 ≤ ctl.stepmax0)
    (h : theta_squarem2_round lib ctl fixptfn len s = SquaremStep.next s1) :
    s1.stepmin = 1 ∧ 1 ≤ s1.stepmax ∧ s1.stepmin ≤ s1.alpha ∧ s1.alpha ≤ s1.stepmax := by
  rw [theta_round_view] at h
  split at h
  · cases h
  · rename_i p1 _
    split_ifs at h with c1
    split at h
    · cases h
    · rename_i p2 _
      obtain ⟨hlo, hhi⟩ := stdClamp_bounds s.stepmin s.stepmax
        (methodSwitch lib ctl.method (DoubleVal.finite s.alpha) (sqSr2 len s.pcpp p1)
          (sqSv2 len s.pcpp p1 p2) (sqSrv len s.pcpp p1 p2)) (by rw [hmin]; exact hmax)
      have hlo1 : 1 ≤ sqAlpha lib ctl len s p1 p2 := by
        rw [← hmin]
        exact hlo
      have hhi1 : sqAlpha lib ctl len s p1 p2 ≤ s.stepmax := hhi
      by_cases c2 : sqSq2 lib len p1 p2 < ctl.tol
      · rw [if_pos c2] at h
        cases h
      rw [if_neg c2] at h
      by_cases c3 : |sqAlpha lib ctl len s p1 p2 - 1| > 1 / 100
      · rw [if_pos c3] at h
        split at h
        · injection h with h
          subst h
          have hb : (1 : α) ≤ (if sqAlpha lib ctl len s p1 p2 = s.stepmax
              then stdMax ctl.stepmax0 (s.stepmax / ctl.mstep) else s.stepmax) := by
            split_ifs
            · exact le_trans h0 (stdMax_left_le _ _)
            · exact hmax
          exact sqTail_bounds ctl s 1 _ _ _ _ hmin hm (le_refl _) hb
        · rename_i ptmp _
          by_cases c4 : sqRes lib len ptmp (sqPnew len s p1 p2 (sqAlpha lib ctl len s p1 p2))
              ≤ sqKres lib ctl len p1 p2
          · rw [if_pos c4] at h
            injection h with h
            subst h
            exact sqTail_bounds ctl s _ _ _ _ _ hmin hm hlo1 hhi1
          · rw [if_neg c4] at h
            injection h with h
            subst h
            have hb : (1 : α) ≤ (if sqAlpha lib ctl len s p1 p2 = s.stepmax
                then ctl.mstep * s.stepmax else s.stepmax) := by
              split_ifs
              · nlinarith
              · exact hmax
            exact sqTail_bounds ctl s 1 _ _ _ _ hmin hm (le_refl _) hb
      · rw [if_neg c3] at h
        injection h with h
        subst h
        exact sqTail_bounds ctl s _ _ _ _ _ hmin hm hlo1 hhi1


/-- A round that assigns the next iterate has evaluated the map at least twice. -/
theorem theta_round_feval (lib : CLib α) (ctl : SquaremControl α)
    (fixptfn : List α → Option (List α)) (len : Nat) (s s1 : SquaremState α)
    (h : theta_squarem2_round lib ctl fixptfn len s = SquaremStep.next s1) :
    s.feval + 2 ≤ s1.feval ∧ s1.feval ≤ s.feval + 3 ∧ s1.iter = s.iter + 1 := by
  rw [theta_round_view] at h
  split at h
  · cases h
  · rename_i p1 _
    split_ifs at h with c1
    split at h
    · cases h
    · rename_i p2 _
      by_cases c2 : sqSq2 lib len p1 p2 < ctl.tol
      · rw [if_pos c2] at h
        cases h
      rw [if_neg c2] at h
      by_cases c3 : |sqAlpha lib ctl len s p1 p2 - 1| > 1 / 100
      · rw [if_pos c3] at h
        split at h
        · injection h with h
          subst h
          refine ⟨?_, ?_, rfl⟩ <;> dsimp only [sqTail] <;> omega
        · rename_i ptmp _
          by_cases c4 : sqRes lib len ptmp (sqPnew len s p1 p2 (sqAlpha lib ctl len s p1 p2))
              ≤ sqKres lib ctl len p1 p2
          · rw [if_pos c4] at h
            injection h with h
            subst h
            refine ⟨?_, ?_, rfl⟩ <;> dsimp only [sqTail] <;> omega
          · rw [if_neg c4] at h
            injection h with h
            subst h
            refine ⟨?_, ?_, rfl⟩ <;> dsimp only [sqTail] <;> omega
      · rw [if_neg c3] at h
        injection h with h
        subst h
        refine ⟨?_, ?_, rfl⟩ <;> dsimp only [sqTail] <;> omega

/-- The fuel of the `while` loop is adequate: once `maxiter ≤ feval + fuel`, more fuel does
not change what the loop returns, so the fuel never runs out while `feval < maxiter`. -/
theorem theta_loop_fuel (lib : CLib α) (ctl : SquaremControl α)
    (fixptfn : List α → Option (List α)) (len : Nat) :
    ∀ (fuel : Nat) (s : SquaremState α), ctl.maxiter ≤ s.feval + fuel →
      theta_squarem2_loop lib ctl fixptfn len (fuel + 1) s
        = theta_squarem2_loop lib ctl fixptfn len fuel s := by
  intro fuel
  induction fuel with
  | zero =>
    intro s h
    have hs : ¬ s.feval < ctl.maxiter := by omega
    simp [theta_squarem2_loop, hs]
  | succ n ih =>
    intro s h
    rw [theta_squarem2_loop, theta_squarem2_loop]
    by_cases hs : s.feval < ctl.maxiter
    · simp only [if_pos hs]
      cases hr : theta_squarem2_round lib ctl fixptfn len s with
      | abort => rfl
      | leave s1 => rfl
      | next s1 =>
        simp only
        obtain ⟨h1, _, _⟩ := theta_round_feval lib ctl fixptfn len s s1 hr
        exact ih s1 (by omega)
    · simp only [if_neg hs]


/-- With `maxiter` units of fuel, as `theta_squarem2` runs its loop, any additional fuel
leaves the result unchanged. -/
theorem theta_loop_fuel_add (lib : CLib α) (ctl : SquaremControl α)
    (fixptfn : List α → Option (List α)) (len : Nat) (s : SquaremState α) (k : Nat) :
    theta_squarem2_loop lib ctl fixptfn len (ctl.maxiter + k) s
      = theta_squarem2_loop lib ctl fixptfn len ctl.maxiter s := by
  induction k with
  | zero => rfl
  | succ k ih =>
    rw [← ih]
    exact theta_loop_fuel lib ctl fixptfn len (ctl.maxiter + k) s (by omega)

theorem sumLoop_one (term : Nat → α) : sumLoop 1 term = term 0 := by
  simp [sumLoop, List.range_succ]

theorem sqAlpha_eq_one (lib : CLib α) (ctl : SquaremControl α) (len : Nat)
    (s : SquaremState α) (p1 p2 : List α) (hmin : s.stepmin = 1) (hmax : s.stepmax = 1) :
    sqAlpha lib ctl len s p1 p2 = 1 := by
  obtain ⟨h1, h2⟩ := stdClamp_bounds s.stepmin s.stepmax
    (methodSwitch lib ctl.method (DoubleVal.finite s.alpha) (sqSr2 len s.pcpp p1)
      (sqSv2 len s.pcpp p1 p2) (sqSrv len s.pcpp p1 p2)) (by rw [hmin, hmax])
  have h3 : sqAlpha lib ctl len s p1 p2 ≤ s.stepmax := h2
  have h4 : s.stepmin ≤ sqAlpha lib ctl len s p1 p2 := h1
  rw [hmax] at h3
  rw [hmin] at h4
  exact le_antisymm h3 h4

/-- The step bounds after any number of completed rounds. -/
theorem theta_after_inv (lib : CLib α) (ctl : SquaremControl α)
    (fixptfn : List α → Option (List α)) (len : Nat) (s0 : SquaremState α)
    (hmin : s0.stepmin = 1) (hmax : 1 ≤ s0.stepmax) (hm : 1 ≤ ctl.mstep)
    (h0 : 1 ≤ ctl.stepmax0) :
    ∀ (n : Nat) (s : SquaremState α),
      theta_squarem2_after lib ctl fixptfn len n s0 = some s → s.stepmin = 1 ∧ 1 ≤ s.stepmax := by
  intro n
  induction n with
  | zero =>
    intro s h
    unfold theta_squarem2_after at h
    injection h with h
    subst h
    exact ⟨hmin, hmax⟩
  | succ n ih =>
    intro s h
    unfold theta_squarem2_after at h
    split at h
    · cases h
    · rename_i s1 hs1
      obtain ⟨i1, i2⟩ := ih s1 hs1
      split_ifs at h
      · split at h
        · rename_i s2 hs2
          injection h with h
          subst h
          obtain ⟨r1, r2, _, _⟩ := theta_round_bounds lib ctl fixptfn len s1 s2 i1 i2 hm h0 hs2
          exact ⟨r1, r2⟩
        · cases h

/-- The step length at the end of every completed round. -/
theorem theta_after_bounds (lib : CLib α) (ctl : SquaremControl α)
    (fixptfn : List α → Option (List α)) (len : Nat) (s0 : SquaremState α)
    (hmin : s0.stepmin = 1) (hmax : 1 ≤ s0.stepmax) (hm : 1 ≤ ctl.mstep)
    (h0 : 1 ≤ ctl.stepmax0) (n : Nat) (s : SquaremState α)
    (h : theta_squarem2_after lib ctl fixptfn len (n + 1) s0 = some s) :
    s.stepmin ≤ s.alpha ∧ s.alpha ≤ s.stepmax ∧ s.stepmin = 1 ∧ 1 ≤ s.stepmax := by
  unfold theta_squarem2_after at h
  split at h
  · cases h
  · rename_i s1 hs1
    obtain ⟨i1, i2⟩ := theta_after_inv lib ctl fixptfn len s0 hmin hmax hm h0 n s1 hs1
    split_ifs at h
    · split at h
      · rename_i s2 hs2
        injection h with h
        subst h
        obtain ⟨r1, r2, r3, r4⟩ :=
          theta_round_bounds lib ctl fixptfn len s1 s2 i1 i2 hm h0 hs2
        exact ⟨r3, r4, r1, r2⟩
      · cases h

/-- C8. For the identity map `F(p) = p`, every starting vector `p0`, every `tol > 0` and
every value of `method`, the accelerator (`theta_squarem2` and `init_squarem2` with `F` for
the fixed-point call) stops after one evaluation of `F` and returns `par = p0`,
`pfevals = 1`, `iter = 1` and `convergence = true`.  The library has `sqrt(0) = 0`, and the
evaluation budget `maxiter`, which is 1500 in the source, is at least two. -/
theorem squarem_identity (lib : CLib α) (ctl : SquaremControl α) (alpha0 : α) (p0 : List α)
    (hsqrt : lib.sqrt 0 = 0) (htol : 0 < ctl.tol) (hmax : 1 < ctl.maxiter) :
    theta_squarem2 lib ctl (fun p => some p) alpha0 p0 =
      { par := p0, valueobjfn := none, iter := 1, pfevals := 1, objfevals := 0,
        convergence := true } ∧
    init_squarem2 lib ctl (fun p => some p) alpha0 p0 =
      { par := p0, valueobjfn := none, iter := 1, pfevals := 1, objfevals := 0,
        convergence := true } := by
  have h := theta_identity lib ctl alpha0 p0 hsqrt htol hmax
  exact ⟨h, (init_eq_theta lib ctl _ alpha0 p0).trans h⟩

/-- C9. In every round of the accelerator (`theta_squarem2` and `init_squarem2`), at the point
where the next iterate is assigned (`pcpp = pnew`), the step length satisfies
`stepmin ≤ alpha ≤ stepmax`, after a plain clamp, after an accepted stabilization and after
a fallback that resets `alpha` to 1, and `1 = stepmin ≤ stepmax` holds there.  The settings
have `stepmin0 = 1`, `stepmax0 ≥ 1` and `mstep ≥ 1`, as `SquaremDefault` has.  The step
length is the clamp of the `double` value of `sqrt(sr2 / sv2)`, also in a round with
`sv2 = 0`, where this value is `+inf` or NaN and the clamp leaves `stepmax`. -/
theorem squarem_alpha_within_bounds (lib : CLib α) (ctl : SquaremControl α)
    (fixptfn : List α → Option (List α)) (alpha0 : α) (par : List α) (n : Nat)
    (s : SquaremState α)
    (hmin0 : ctl.stepmin0 = 1) (hmax0 : 1 ≤ ctl.stepmax0) (hm : 1 ≤ ctl.mstep)
    (hrun : theta_squarem2_after lib ctl fixptfn par.length (n + 1)
          (squaremStart ctl alpha0 par) = some s ∨
        init_squarem2_after lib ctl fixptfn par.length (n + 1)
          (squaremStart ctl alpha0 par) = some s) :
    s.stepmin ≤ s.alpha ∧ s.alpha ≤ s.stepmax ∧ s.stepmin = 1 ∧ 1 ≤ s.stepmax := by
  have h : theta_squarem2_after lib ctl fixptfn par.length (n + 1)
      (squaremStart ctl alpha0 par) = some s := by
    rcases hrun with h | h
    · exact h
    · rw [← init_after_eq_theta_after]
      exact h
  exact theta_after_bounds lib ctl fixptfn par.length (squaremStart ctl alpha0 par) hmin0 hmax0
    hm hmax0 n s h

end SquaremProps

section SquaremReal

theorem real_sqrt_of_mul_self (x y : ℝ) (hx : 0 ≤ x) (h : x * x = y) : Real.sqrt y = x := by
  rw [← h]
  exact Real.sqrt_mul_self hx

/-- The first round on `exampleJumpMap` started at `[0]`. -/
theorem example_jump_round_one :
    theta_squarem2_round ⟨Real.sqrt, Real.log, 2⁻¹ ^ 52, Real.pi⟩ SquaremDefault
      exampleJumpMap 1 (squaremStart SquaremDefault 0 [0])
    = SquaremStep.next (SquaremState.mk [21] [21] 1 1 4 2 2 true : SquaremState ℝ) := by
  rw [theta_round_view]
  have e1 : sqSr2 1 [0] [(10 : ℝ)] = 100 := by
    simp [sqSr2, sumLoop_one, vecGet]
    norm_num
  have e2 : sqSq2 ⟨Real.sqrt, Real.log, 2⁻¹ ^ 52, Real.pi⟩ 1 [(10 : ℝ)] [(21 : ℝ)] = 11 := by
    simp only [sqSq2, sumLoop_one, vecGet]
    exact real_sqrt_of_mul_self 11 _ (by norm_num) (by norm_num)
  have e3 : sqAlpha ⟨Real.sqrt, Real.log, 2⁻¹ ^ 52, Real.pi⟩ SquaremDefault 1
      (squaremStart SquaremDefault 0 [0]) [(10 : ℝ)] [(21 : ℝ)] = 1 :=
    sqAlpha_eq_one _ _ _ _ _ _ rfl rfl
  have e4 : sqPnew 1 (squaremStart SquaremDefault 0 [0]) [(10 : ℝ)] [(21 : ℝ)] 1 = [21] := by
    simp [sqPnew, squaremStart, vecGet, List.range_succ]
  have f1 : exampleJumpMap [(0 : ℝ)] = some [10] := by simp [exampleJumpMap]
  have f2 : exampleJumpMap [(10 : ℝ)] = some [21] := by simp [exampleJumpMap]
  have s100 : Real.sqrt 100 = 10 := real_sqrt_of_mul_self 10 _ (by norm_num) (by norm_num)
  simp only [squaremStart] at e1 e2 e3 e4 ⊢
  simp only [f1, f2, e1, e2, e3, e4, s100]
  simp [SquaremDefault, sqTail]
  norm_num

/-- The clamped step length of the second round on `exampleJumpMap`. -/
theorem example_jump_alpha_two :
    sqAlpha ⟨Real.sqrt, Real.log, 2⁻¹ ^ 52, Real.pi⟩ SquaremDefault 1
      (SquaremState.mk [21] [21] 1 1 4 2 2 true) [(31 : ℝ)] [(42 : ℝ)] = 4 := by
  have s100 : Real.sqrt 100 = 10 := real_sqrt_of_mul_self 10 _ (by norm_num) (by norm_num)
  have e1 : sqSr2 1 [21] [(31 : ℝ)] = 100 := by
    simp [sqSr2, sumLoop_one, vecGet]
    norm_num
  have v : sqSv2 1 [21] [(31 : ℝ)] [(42 : ℝ)] = 1 := by
    simp [sqSv2, sumLoop_one, vecGet]
    norm_num
  rw [sqAlpha_of_ne_zero _ _ _ _ _ _ (by simp [SquaremDefault]) (by rw [v]; norm_num)
    (by rw [e1, v]; norm_num)]
  simp only [e1, v]
  simp [s100, stdMax, stdMin]
  norm_num

/-- The residual of the stabilization in the second round on `exampleJumpMap`. -/
theorem example_jump_res :
    sqRes ⟨Real.sqrt, Real.log, 2⁻¹ ^ 52, Real.pi⟩ 1 [(1000 : ℝ)] [(117 : ℝ)] = 883 := by
  simp only [sqRes, sumLoop_one, vecGet]
  exact real_sqrt_of_mul_self 883 _ (by norm_num) (by norm_num)

/-- The bound `kres` of the stabilization in the second round on `exampleJumpMap`. -/
theorem example_jump_kres :
    sqKres ⟨Real.sqrt, Real.log, 2⁻¹ ^ 52, Real.pi⟩ SquaremDefault 1 [(31 : ℝ)] [(42 : ℝ)]
      = 54 := by
  have e2 : sqSq2 ⟨Real.sqrt, Real.log, 2⁻¹ ^ 52, Real.pi⟩ 1 [(31 : ℝ)] [(42 : ℝ)] = 11 := by
    simp only [sqSq2, sumLoop_one, vecGet]
    exact real_sqrt_of_mul_self 11 _ (by norm_num) (by norm_num)
  simp only [sqKres, e2, sumLoop_one, vecGet]
  rw [real_sqrt_of_mul_self 42 _ (by norm_num) (by norm_num)]
  simp [SquaremDefault]
  norm_num

/-- The second round on `exampleJumpMap`. -/
theorem example_jump_round_two :
    theta_squarem2_round ⟨Real.sqrt, Real.log, 2⁻¹ ^ 52, Real.pi⟩ SquaremDefault
      exampleJumpMap 1 (SquaremState.mk [21] [21] 1 1 4 2 2 true)
    = SquaremStep.next (SquaremState.mk [42] [42] 1 1 16 3 5 false : SquaremState ℝ) := by
  rw [theta_round_view]
  have s100 : Real.sqrt 100 = 10 := real_sqrt_of_mul_self 10 _ (by norm_num) (by norm_num)
  have e1 : sqSr2 1 [21] [(31 : ℝ)] = 100 := by
    simp [sqSr2, sumLoop_one, vecGet]
    norm_num
  have e2 : sqSq2 ⟨Real.sqrt, Real.log, 2⁻¹ ^ 52, Real.pi⟩ 1 [(31 : ℝ)] [(42 : ℝ)] = 11 := by
    simp only [sqSq2, sumLoop_one, vecGet]
    exact real_sqrt_of_mul_self 11 _ (by norm_num) (by norm_num)
  have e3 := example_jump_alpha_two
  have e4 : sqPnew 1 (SquaremState.mk [21] [21] 1 1 4 2 2 true) [(31 : ℝ)] [(42 : ℝ)] 4 = [117] := by
    simp [sqPnew, vecGet, List.range_succ]
    norm_num
  have e5 := example_jump_res
  have e6 := example_jump_kres
  have f1 : exampleJumpMap [(21 : ℝ)] = some [31] := by
    simp [exampleJumpMap]
  have f2 : exampleJumpMap [(31 : ℝ)] = some [42] := by
    simp [exampleJumpMap]
  have f3 : exampleJumpMap [(117 : ℝ)] = some [1000] := by
    simp [exampleJumpMap]
  simp only [f1, f2, e1, e2, e3, e4, f3, e5, e6, s100]
  simp [SquaremDefault, sqTail]
  norm_num

/-- The run on `exampleJumpMap` started at `[0]`, after one round. -/
theorem example_jump_after_one :
    theta_squarem2_after ⟨Real.sqrt, Real.log, 2⁻¹ ^ 52, Real.pi⟩ SquaremDefault
      exampleJumpMap 1 1 (squaremStart SquaremDefault 0 [0])
    = some (SquaremState.mk [21] [21] 1 1 4 2 2 true : SquaremState ℝ) := by
  unfold theta_squarem2_after theta_squarem2_after
  simp only
  rw [if_pos (by simp [squaremStart, SquaremDefault]), example_jump_round_one]

/-- The run on `exampleJumpMap` started at `[0]`, after two rounds. -/
theorem example_jump_after_two :
    theta_squarem2_after ⟨Real.sqrt, Real.log, 2⁻¹ ^ 52, Real.pi⟩ SquaremDefault
      exampleJumpMap 1 2 (squaremStart SquaremDefault 0 [0])
    = some (SquaremState.mk [42] [42] 1 1 16 3 5 false : SquaremState ℝ) := by
  unfold theta_squarem2_after
  rw [example_jump_after_one]
  simp only
  rw [if_pos (by simp [SquaremDefault]), example_jump_round_two]

/-- Witness of C8: the identity map started at `[3, 2, 1/2]` with the settings of
`SquaremDefault` and the real square root. -/
theorem squarem_identity_witness :
    ((⟨Real.sqrt, Real.log, 2⁻¹ ^ 52, Real.pi⟩ : CLib ℝ).sqrt 0 = 0 ∧
      0 < (SquaremDefault : SquaremControl ℝ).tol ∧
      1 < (SquaremDefault : SquaremControl ℝ).maxiter) ∧
    (theta_squarem2 ⟨Real.sqrt, Real.log, 2⁻¹ ^ 52, Real.pi⟩ SquaremDefault (fun p => some p) 0
        [3, 2, 1 / 2] =
      { par := [3, 2, 1 / 2], valueobjfn := none, iter := 1, pfevals := 1, objfevals := 0,
        convergence := true } ∧
    init_squarem2 ⟨Real.sqrt, Real.log, 2⁻¹ ^ 52, Real.pi⟩ SquaremDefault (fun p => some p) 0
        [3, 2, 1 / 2] =
      { par := [3, 2, 1 / 2], valueobjfn := none, iter := 1, pfevals := 1, objfevals := 0,
        convergence := true }) :=
  ⟨⟨Real.sqrt_zero, by simp [SquaremDefault], by simp [SquaremDefault]⟩,
    squarem_identity ⟨Real.sqrt, Real.log, 2⁻¹ ^ 52, Real.pi⟩ SquaremDefault 0 [3, 2, 1 / 2]
      Real.sqrt_zero (by simp [SquaremDefault]) (by simp [SquaremDefault])⟩

/-- C10, the code at the failing input: with the settings of `SquaremDefault` and the map
`exampleJumpMap` started at `[0]`, the first round ends with `stepmax = 4`; in the second
round the step length is `alpha = 4 = stepmax`, the stabilization is rejected
(`res = 883 > kres = 54`), the round falls back to `p2 = [42]` with `extrap = false`, and it
ends with `stepmax = 16`: the upper bound grew in a round whose stabilization was
rejected. -/
theorem squarem_rejected_round_grows_stepmax :
    theta_squarem2_after ⟨Real.sqrt, Real.log, 2⁻¹ ^ 52, Real.pi⟩ SquaremDefault
        exampleJumpMap 1 1 (squaremStart SquaremDefault 0 [0])
      = some (SquaremState.mk [21] [21] 1 1 4 2 2 true : SquaremState ℝ) ∧
    sqAlpha ⟨Real.sqrt, Real.log, 2⁻¹ ^ 52, Real.pi⟩ SquaremDefault 1
        (SquaremState.mk [21] [21] 1 1 4 2 2 true) [(31 : ℝ)] [(42 : ℝ)] = 4 ∧
    sqKres ⟨Real.sqrt, Real.log, 2⁻¹ ^ 52, Real.pi⟩ SquaremDefault 1 [(31 : ℝ)] [(42 : ℝ)]
      < sqRes ⟨Real.sqrt, Real.log, 2⁻¹ ^ 52, Real.pi⟩ 1 [(1000 : ℝ)] [(117 : ℝ)] ∧
    theta_squarem2_after ⟨Real.sqrt, Real.log, 2⁻¹ ^ 52, Real.pi⟩ SquaremDefault
        exampleJumpMap 1 2 (squaremStart SquaremDefault 0 [0])
      = some (SquaremState.mk [42] [42] 1 1 16 3 5 false : SquaremState ℝ) := by
  refine ⟨example_jump_after_one, example_jump_alpha_two, ?_, example_jump_after_two⟩
  rw [example_jump_res, example_jump_kres]
  norm_num

end SquaremReal

/-! ## Where the minimizer evaluates its objective -/

section BrentInsideProps

variable {α : Type} [LinearOrderedField α]

/-- The point at which a pass evaluates the objective is strictly inside the bracket. -/
theorem brentTrial_inside (c eps tol3 : α) (s : BrentState α)
    (hc0 : 0 < c) (hc1 : c ≤ 1 / 2) (heps : 0 ≤ eps) (htol : 0 < tol3)
    (hin : s.a < s.x ∧ s.x < s.b) (h : ¬ brentStop eps tol3 s) :
    s.a < (brentTrial c eps tol3 s).u ∧ (brentTrial c eps tol3 s).u < s.b := by
  obtain ⟨_, htol1⟩ := brentTol1_pos eps tol3 s heps htol
  rcases brentTrial_u c eps tol3 s hc0 hc1 heps htol h with ⟨h1, h2⟩ | ⟨h1, h2⟩
  · constructor <;> linarith
  · constructor <;> linarith

/-- One pass through the loop body keeps the bracket in `[lower, upper]` and `x` strictly
inside the bracket. -/
theorem brentIter_inside (c eps tol3 lower upper : α) (f : α → α) (s : BrentState α)
    (hc0 : 0 < c) (hc1 : c ≤ 1 / 2) (heps : 0 ≤ eps) (htol : 0 < tol3)
    (hin : BrentInside lower upper s) (h : ¬ brentStop eps tol3 s) :
    BrentInside lower upper (brentIter c eps tol3 f s) := by
  obtain ⟨_, htol1⟩ := brentTol1_pos eps tol3 s heps htol
  have hu := brentTrial_u c eps tol3 s hc0 hc1 heps htol h
  obtain ⟨hlo, hup, hax, hxb⟩ := hin
  unfold brentIter
  simp only
  generalize brentTrial c eps tol3 s = t at hu ⊢
  generalize f t.u = fu
  obtain ⟨hle, hgt⟩ := brentUpdate_abx s t fu
  unfold BrentInside
  by_cases hf : fu ≤ s.fx
  · obtain ⟨e1, _, e3, e4⟩ := hle hf
    rw [e1, e3, e4]
    rcases hu with ⟨h1, h2⟩ | ⟨h1, h2⟩
    · have hlt : ¬ t.u < s.x := by
        rw [not_lt]
        linarith
      simp only [if_neg hlt]
      refine ⟨by linarith, by linarith, by linarith, by linarith⟩
    · have hlt : t.u < s.x := by linarith
      simp only [if_pos hlt]
      refine ⟨by linarith, by linarith, by linarith, by linarith⟩
  · obtain ⟨e1, _, e3, e4⟩ := hgt hf
    rw [e1, e3, e4]
    rcases hu with ⟨h1, h2⟩ | ⟨h1, h2⟩
    · have hlt : ¬ t.u < s.x := by
        rw [not_lt]
        linarith
      simp only [if_neg hlt]
      refine ⟨by linarith, by linarith, by linarith, by linarith⟩
    · have hlt : t.u < s.x := by linarith
      simp only [if_pos hlt]
      refine ⟨by linarith, by linarith, by linarith, by linarith⟩

/-- The state on entry to the main loop has `x` strictly inside `[lower, upper]`. -/
theorem brentInit_inside (lib : CLib α) (f : α → α) (w0 lower upper : α)
    (hlt : lower < upper) (h5 : 2 ≤ lib.sqrt 5) (h5' : lib.sqrt 5 < 3) :
    BrentInside lower upper (brentInit lib f w0 lower upper) := by
  obtain ⟨ea, eb, ex, _⟩ := brentInit_abx lib f w0 lower upper
  unfold BrentInside
  rw [ea, eb, ex]
  have hc0 : 0 < (3 - lib.sqrt 5) / 2 := by linarith
  have hc1 : (3 - lib.sqrt 5) / 2 ≤ 1 / 2 := by linarith
  have h1 := mul_pos hc0 (sub_pos.2 hlt)
  have h2 : (3 - lib.sqrt 5) / 2 * (upper - lower) ≤ 1 / 2 * (upper - lower) :=
    mul_le_mul_of_nonneg_right hc1 (le_of_lt (sub_pos.2 hlt))
  refine ⟨le_refl _, le_refl _, by linarith, by linarith⟩

/-- Every state the main loop reaches keeps the invariant of the loop body. -/
theorem brentAfter_inside (c eps tol3 lower upper : α) (f : α → α)
    (hc0 : 0 < c) (hc1 : c ≤ 1 / 2) (heps : 0 ≤ eps) (htol : 0 < tol3) :
    ∀ (n : Nat) (s s1 : BrentState α), BrentInside lower upper s →
      brentAfter c eps tol3 f n s = some s1 → BrentInside lower upper s1 := by
  intro n
  induction n with
  | zero =>
    intro s s1 hin h
    simp only [brentAfter, Option.some.injEq] at h
    rw [← h]
    exact hin
  | succ n ih =>
    intro s s1 hin h
    by_cases hstop : brentStop eps tol3 s
    · simp [brentAfter, hstop] at h
    · simp only [brentAfter, if_neg hstop] at h
      exact ih _ s1 (brentIter_inside c eps tol3 lower upper f s hc0 hc1 heps htol hin hstop) h

/-- C18. For `lower < upper` and `tol > 0` and every objective `f` (for `kappa2Brent` the
objective `kappa2Obj`, for `kappa2BrentInit` the objective `kappa2InitObj`): the point of the
first evaluation, before the loop, is strictly between `lower` and `upper`; on every pass the
loop reaches, the point `u` at which the objective is evaluated is strictly between `lower`
and `upper`; and the loop returns a point strictly between `lower` and `upper`.  With
`lower = 0` no evaluation is at `kappa2 ≤ 0`.  The library is required to have
`2 ≤ sqrt(5) < 3` and `0 ≤ sqrt(DBL_EPSILON)`; the field is Archimedean. -/
theorem brent_points_inside [Archimedean α] (lib : CLib α) (f : α → α)
    (w0 lower upper tol : α) (hlt : lower < upper) (htol : 0 < tol)
    (h5 : 2 ≤ lib.sqrt 5) (h5' : lib.sqrt 5 < 3) (heps : 0 ≤ lib.sqrt lib.DBL_EPSILON) :
    (lower < (brentInit lib f w0 lower upper).x ∧ (brentInit lib f w0 lower upper).x < upper) ∧
    (∀ (n : Nat) (s : BrentState α),
      brentAfter ((3 - lib.sqrt 5) / 2) (lib.sqrt lib.DBL_EPSILON) (tol / 3) f n
        (brentInit lib f w0 lower upper) = some s →
      ¬ brentStop (lib.sqrt lib.DBL_EPSILON) (tol / 3) s →
      lower < (brentTrial ((3 - lib.sqrt 5) / 2) (lib.sqrt lib.DBL_EPSILON) (tol / 3) s).u ∧
      (brentTrial ((3 - lib.sqrt 5) / 2) (lib.sqrt lib.DBL_EPSILON) (tol / 3) s).u < upper) ∧
    (∃ (N : Nat) (x : α), (∀ fuel, N ≤ fuel → brentMin lib f fuel w0 lower upper tol = some x) ∧
      lower < x ∧ x < upper) := by
  have hc0 : 0 < (3 - lib.sqrt 5) / 2 := by linarith
  have hc1 : (3 - lib.sqrt 5) / 2 ≤ 1 / 2 := by linarith
  have htol3 : 0 < tol / 3 := by linarith
  have h0 := brentInit_inside lib f w0 lower upper hlt h5 h5'
  refine ⟨?_, ?_, ?_⟩
  · obtain ⟨h1, h2, h3, h4⟩ := h0
    constructor <;> linarith
  · intro n s hs hstop
    obtain ⟨h1, h2, h3, h4⟩ := brentAfter_inside _ _ _ lower upper f hc0 hc1 heps htol3 n _ s h0 hs
    obtain ⟨h5, h6⟩ := brentTrial_inside _ _ _ s hc0 hc1 heps htol3 ⟨h3, h4⟩ hstop
    constructor <;> linarith
  · obtain ⟨N, s1, _, ⟨h1, h2, h3, h4⟩, hrun⟩ := brentMin_run lib f w0 lower upper tol
      (BrentInside lower upper) hlt htol h5 h5' heps h0
      (fun s hs hns => brentIter_inside _ _ _ lower upper f s hc0 hc1 heps htol3 hs hns)
    exact ⟨N, s1.x, hrun, by linarith, by linarith⟩

end BrentInsideProps

/-- Witness of C18: the bracket `[0, 50]` of the source, `tol = 1/1000`, the objective of
`kappa2Brent` on the example prior, with the real square root. -/
theorem brent_points_inside_witness :
    ((0 : ℝ) < 50 ∧ (0 : ℝ) < 1 / 1000 ∧
      2 ≤ (⟨Real.sqrt, Real.log, 2⁻¹ ^ 52, Real.pi⟩ : CLib ℝ).sqrt 5 ∧
      (⟨Real.sqrt, Real.log, 2⁻¹ ^ 52, Real.pi⟩ : CLib ℝ).sqrt 5 < 3 ∧
      0 ≤ (⟨Real.sqrt, Real.log, 2⁻¹ ^ 52, Real.pi⟩ : CLib ℝ).sqrt
        (⟨Real.sqrt, Real.log, 2⁻¹ ^ 52, Real.pi⟩ : CLib ℝ).DBL_EPSILON) ∧
    ∃ (N : Nat) (x : ℝ), (∀ fuel, N ≤ fuel →
      kappa2Brent ⟨Real.sqrt, Real.log, 2⁻¹ ^ 52, Real.pi⟩ (exampleLDLT ℝ) fuel 0 0 50
        (exampleSpde ℝ) 1 1 1 (1 / 1000) = some x) ∧ 0 < x ∧ x < 50 :=
  ⟨⟨by norm_num, by norm_num, real_sqrt_five.1, real_sqrt_five.2, Real.sqrt_nonneg _⟩,
    (brent_points_inside ⟨Real.sqrt, Real.log, 2⁻¹ ^ 52, Real.pi⟩
      (fun x => kappa2Obj ⟨Real.sqrt, Real.log, 2⁻¹ ^ 52, Real.pi⟩ (exampleLDLT ℝ) x
        (exampleSpde ℝ) 1 1 1) 0 0 50
      (1 / 1000) (by norm_num) (by norm_num) real_sqrt_five.1 real_sqrt_five.2
      (Real.sqrt_nonneg _)).2.2⟩

/-! ## The variable `w` of the minimizer is read before it is assigned -/

section BrentUnassigned

variable {α : Type} [LinearOrderedField α]

/-- The first pass from the entry state on `[0, 50]` with `tol3 = 20/3`: a golden-section
step to the right whose value is worse; `w` keeps its indeterminate value when that value is
not the first point. -/
theorem brent_w_pass_one (c eps w0 : α) (f : α → α)
    (hc0 : 38 / 100 < c) (hc1 : c < 39 / 100) (he0 : 0 ≤ eps) (he1 : eps ≤ 1 / 1000)
    (hw : w0 ≠ 50 * c) (hf : f (50 * c) < f (50 * c + c * (50 - 50 * c))) :
    brentIter c eps (20 / 3) f
      { a := 0, b := 50, d := 0, e := 0, v := 50 * c, w := w0, x := 50 * c,
        fv := f (50 * c), fw := f (50 * c), fx := f (50 * c) }
    = { a := 0, b := 50 * c + c * (50 - 50 * c), d := c * (50 - 50 * c), e := 50 - 50 * c,
        v := 50 * c + c * (50 - 50 * c), w := w0, x := 50 * c,
        fv := f (50 * c + c * (50 - 50 * c)), fw := f (50 * c), fx := f (50 * c) } := by
  have hx : (0 : α) < 50 * c := by linarith
  have htol : 0 < eps * |50 * c| + 20 / 3 := by
    have := mul_nonneg he0 (abs_nonneg (50 * c))
    linarith
  have hfit : brentFit (eps * |50 * c| + 20 / 3)
      { a := 0, b := 50, d := 0, e := 0, v := 50 * c, w := w0, x := 50 * c,
        fv := f (50 * c), fw := f (50 * c), fx := f (50 * c) }
      = { p := 0, q := 0, r := 0, e := 0 } := by
    unfold brentFit
    rw [if_neg]
    simp only [abs_zero, gt_iff_lt, not_lt]
    exact le_of_lt htol
  have hd : eps * |50 * c| + 20 / 3 ≤ c * (50 - 50 * c) := by
    rw [abs_of_pos hx]
    nlinarith
  have hd0 : 0 < c * (50 - 50 * c) := lt_of_lt_of_le htol hd
  have hxu : ¬ (50 * c + c * (50 - 50 * c) < 50 * c) := by
    rw [not_lt]
    linarith
  unfold brentIter brentTrial
  simp only [brentTol1, hfit]
  have hg : brentGolden
      { a := 0, b := 50, d := 0, e := 0, v := 50 * c, w := w0, x := 50 * c,
        fv := f (50 * c), fw := f (50 * c), fx := f (50 * c) }
      { p := 0, q := 0, r := 0, e := 0 } := by
    left
    simp
  have hE : brentE
      { a := 0, b := 50, d := 0, e := 0, v := 50 * c, w := w0, x := 50 * c,
        fv := f (50 * c), fw := f (50 * c), fx := f (50 * c) }
      { p := 0, q := 0, r := 0, e := 0 } = 50 - 50 * c := by
    unfold brentE
    simp only [if_pos hg]
    rw [if_pos]
    linarith
  have hD : brentD c (eps * |50 * c| + 20 / 3)
      { a := 0, b := 50, d := 0, e := 0, v := 50 * c, w := w0, x := 50 * c,
        fv := f (50 * c), fw := f (50 * c), fx := f (50 * c) }
      { p := 0, q := 0, r := 0, e := 0 } = c * (50 - 50 * c) := by
    unfold brentD
    simp only [if_pos hg, hE]
  have hU : brentU (eps * |50 * c| + 20 / 3) (50 * c) (c * (50 - 50 * c))
      = 50 * c + c * (50 - 50 * c) := by
    unfold brentU
    rw [if_pos]
    rw [abs_of_pos hd0]
    exact hd
  rw [hE, hD, hU]
  unfold brentUpdate
  simp only [if_neg (not_le.2 hf), if_neg hxu, hw, or_false, true_or, or_true, if_true, if_false]

/-- The second pass when the indeterminate `w` is `0`: the parabola through `(v, fv)`,
`(w, fw)` and `(x, fx)` is accepted, its step `-(x - w) / 2` lands closer than `t2` to `a`,
and the objective is evaluated at `x - tol1`. -/
theorem brent_w_trial_zero (c eps F0 F1 : α)
    (hc0 : 38 / 100 < c) (hc1 : c < 39 / 100) (he0 : 0 ≤ eps) (he1 : eps ≤ 1 / 1000)
    (hF : F0 < F1) :
    (brentTrial c eps (20 / 3)
      { a := 0, b := 50 * c + c * (50 - 50 * c), d := c * (50 - 50 * c), e := 50 - 50 * c,
        v := 50 * c + c * (50 - 50 * c), w := 0, x := 50 * c,
        fv := F1, fw := F0, fx := F0 }).u = 50 * c - (eps * |50 * c| + 20 / 3) := by
  have hx : (0 : α) < 50 * c := by linarith
  have hax : |50 * c| = 50 * c := abs_of_pos hx
  have htol : 0 < eps * |50 * c| + 20 / 3 := by
    have := mul_nonneg he0 (abs_nonneg (50 * c))
    linarith
  have htolu : eps * |50 * c| + 20 / 3 ≤ 7 := by
    rw [hax]
    nlinarith
  have hD : 0 < F1 - F0 := sub_pos.2 hF
  have hq : 0 < 100 * c * (F1 - F0) := by positivity
  have hfit : brentFit (eps * |50 * c| + 20 / 3)
      { a := 0, b := 50 * c + c * (50 - 50 * c), d := c * (50 - 50 * c), e := 50 - 50 * c,
        v := 50 * c + c * (50 - 50 * c), w := 0, x := 50 * c,
        fv := F1, fw := F0, fx := F0 }
      = { p := -(2500 * c * c * (F1 - F0)), q := 100 * c * (F1 - F0), r := 50 - 50 * c,
          e := c * (50 - 50 * c) } := by
    unfold brentFit
    rw [if_pos]
    · simp only [sub_self, mul_zero, sub_zero, zero_sub]
      have e1 : -(50 * c * (F0 - F1)) * 2 = 100 * c * (F1 - F0) := by ring
      have e2 : -(50 * c * (50 * c * (F0 - F1))) = 2500 * c * c * (F1 - F0) := by ring
      rw [e1, e2]
      simp only [gt_iff_lt, if_pos hq]
    · show eps * |50 * c| + 20 / 3 < |50 - 50 * c|
      rw [hax, abs_of_pos (show (0 : α) < 50 - 50 * c by linarith)]
      rw [hax] at htolu
      linarith
  have hg : ¬ brentGolden
      { a := 0, b := 50 * c + c * (50 - 50 * c), d := c * (50 - 50 * c), e := 50 - 50 * c,
        v := 50 * c + c * (50 - 50 * c), w := 0, x := 50 * c,
        fv := F1, fw := F0, fx := F0 }
      { p := -(2500 * c * c * (F1 - F0)), q := 100 * c * (F1 - F0), r := 50 - 50 * c,
          e := c * (50 - 50 * c) } := by
    unfold brentGolden
    simp only [not_or, not_le, ge_iff_le, zero_sub]
    have hcc : 0 < c * (F1 - F0) := by positivity
    have hr : (0 : α) < 50 - 50 * c := by linarith
    have h1 := mul_pos hcc (show 0 < 1 - 2 * c by linarith)
    have h2 : 0 < c * (c * (F1 - F0)) := by positivity
    have h3 := mul_pos hcc (mul_pos (show 0 < c by linarith) hr)
    refine ⟨?_, ?_, ?_⟩
    · rw [abs_neg, abs_of_pos (by positivity),
        abs_of_pos (mul_pos (mul_pos hq (by norm_num)) hr)]
      linarith
    · linarith
    · linarith
  have hpq : -(2500 * c * c * (F1 - F0)) / (100 * c * (F1 - F0)) = -(25 * c) := by
    have h1 : c ≠ 0 := by linarith
    have h2 : F1 - F0 ≠ 0 := ne_of_gt hD
    field_simp
    ring
  have hDD : brentD c (eps * |50 * c| + 20 / 3)
      { a := 0, b := 50 * c + c * (50 - 50 * c), d := c * (50 - 50 * c), e := 50 - 50 * c,
        v := 50 * c + c * (50 - 50 * c), w := 0, x := 50 * c,
        fv := F1, fw := F0, fx := F0 }
      { p := -(2500 * c * c * (F1 - F0)), q := 100 * c * (F1 - F0), r := 50 - 50 * c,
          e := c * (50 - 50 * c) } = -(eps * |50 * c| + 20 / 3) := by
    unfold brentD
    simp only [if_neg hg, hpq]
    rw [if_pos, if_pos]
    · show 50 * c ≥ (0 + (50 * c + c * (50 - 50 * c))) / 2
      nlinarith
    · left
      have := mul_nonneg he0 (abs_nonneg (50 * c))
      linarith
  unfold brentTrial
  simp only [brentTol1, hfit, hDD]
  unfold brentU
  rw [if_pos]
  · ring
  · rw [abs_neg, abs_of_pos htol]


/-- The second pass when the indeterminate `w` is `100`: the parabola through `(v, fv)`,
`(w, fw)` and `(x, fx)` is rejected and a golden-section step to the left is taken. -/
theorem brent_w_trial_hundred (c eps F0 F1 : α)
    (hc0 : 38 / 100 < c) (hc1 : c < 39 / 100) (he1 : eps ≤ 1 / 1000)
    (hF : F0 < F1) :
    (brentTrial c eps (20 / 3)
      { a := 0, b := 50 * c + c * (50 - 50 * c), d := c * (50 - 50 * c), e := 50 - 50 * c,
        v := 50 * c + c * (50 - 50 * c), w := 100, x := 50 * c,
        fv := F1, fw := F0, fx := F0 }).u = 50 * c + c * (0 - 50 * c) := by
  have hx : (0 : α) < 50 * c := by linarith
  have hax : |50 * c| = 50 * c := abs_of_pos hx
  have htolu : eps * |50 * c| + 20 / 3 ≤ 7 := by
    rw [hax]
    nlinarith
  have hD : 0 < F1 - F0 := sub_pos.2 hF
  have hr : (0 : α) < 50 - 50 * c := by linarith
  have hm : (0 : α) < 100 - 50 * c := by linarith
  have hq : 0 < 2 * (100 - 50 * c) * (F1 - F0) := by positivity
  have hfit : brentFit (eps * |50 * c| + 20 / 3)
      { a := 0, b := 50 * c + c * (50 - 50 * c), d := c * (50 - 50 * c), e := 50 - 50 * c,
        v := 50 * c + c * (50 - 50 * c), w := 100, x := 50 * c,
        fv := F1, fw := F0, fx := F0 }
      = { p := (100 - 50 * c) * (100 - 50 * c) * (F1 - F0),
          q := 2 * (100 - 50 * c) * (F1 - F0), r := 50 - 50 * c,
          e := c * (50 - 50 * c) } := by
    unfold brentFit
    rw [if_pos]
    · simp only [sub_self, mul_zero, zero_sub]
      have e1 : -((50 * c - 100) * (F0 - F1)) * 2 = -(2 * (100 - 50 * c) * (F1 - F0)) := by
        ring
      have e2 : -((50 * c - 100) * ((50 * c - 100) * (F0 - F1)))
          = (100 - 50 * c) * (100 - 50 * c) * (F1 - F0) := by ring
      rw [e1, e2]
      have hn : ¬ (-(2 * (100 - 50 * c) * (F1 - F0)) > 0) := by
        rw [gt_iff_lt, not_lt]
        linarith
      simp only [if_neg hn, neg_neg]
    · show eps * |50 * c| + 20 / 3 < |50 - 50 * c|
      rw [abs_of_pos hr]
      linarith
  have hg : brentGolden
      { a := 0, b := 50 * c + c * (50 - 50 * c), d := c * (50 - 50 * c), e := 50 - 50 * c,
        v := 50 * c + c * (50 - 50 * c), w := 100, x := 50 * c,
        fv := F1, fw := F0, fx := F0 }
      { p := (100 - 50 * c) * (100 - 50 * c) * (F1 - F0),
        q := 2 * (100 - 50 * c) * (F1 - F0), r := 50 - 50 * c,
        e := c * (50 - 50 * c) } := by
    have hmD : 0 < (100 - 50 * c) * (F1 - F0) := by positivity
    have h1 := mul_pos hmD (show (0 : α) < 50 by norm_num)
    have hp : 0 < (100 - 50 * c) * (100 - 50 * c) * (F1 - F0) := by positivity
    unfold brentGolden
    left
    simp only
    rw [abs_of_pos hp, abs_of_pos (mul_pos (mul_pos hq (by norm_num)) hr)]
    linarith
  have hE : brentE
      { a := 0, b := 50 * c + c * (50 - 50 * c), d := c * (50 - 50 * c), e := 50 - 50 * c,
        v := 50 * c + c * (50 - 50 * c), w := 100, x := 50 * c,
        fv := F1, fw := F0, fx := F0 }
      { p := (100 - 50 * c) * (100 - 50 * c) * (F1 - F0),
        q := 2 * (100 - 50 * c) * (F1 - F0), r := 50 - 50 * c,
        e := c * (50 - 50 * c) } = 0 - 50 * c := by
    unfold brentE
    simp only [if_pos hg]
    rw [if_neg]
    rw [not_lt]
    nlinarith
  have hDD : brentD c (eps * |50 * c| + 20 / 3)
      { a := 0, b := 50 * c + c * (50 - 50 * c), d := c * (50 - 50 * c), e := 50 - 50 * c,
        v := 50 * c + c * (50 - 50 * c), w := 100, x := 50 * c,
        fv := F1, fw := F0, fx := F0 }
      { p := (100 - 50 * c) * (100 - 50 * c) * (F1 - F0),
        q := 2 * (100 - 50 * c) * (F1 - F0), r := 50 - 50 * c,
        e := c * (50 - 50 * c) } = c * (0 - 50 * c) := by
    unfold brentD
    simp only [if_pos hg, hE]
  unfold brentTrial
  simp only [brentTol1, hfit, hDD]
  unfold brentU
  have hcc : 0 < c * c := by positivity
  have hcc1 : (38 / 100) * (38 / 100) < c * c := by nlinarith
  have hce : eps * (50 * c) ≤ 1 / 1000 * (50 * c) := mul_le_mul_of_nonneg_right he1 (le_of_lt hx)
  rw [if_pos]
  rw [abs_of_neg (by linarith), hax]
  linarith

/-- The run on `[0, 50]` with `tol3 = 20/3` for an objective that is worse at the first
golden-section point and not worse at the point `u2` of the second pass: two passes, and the
third test of the stopping criterion returns `u2`. -/
theorem brent_w_run (c eps w0 u2 : α) (f : α → α)
    (hc0 : 38 / 100 < c) (hc1 : c < 39 / 100) (he0 : 0 ≤ eps) (he1 : eps ≤ 1 / 1000)
    (hw : w0 ≠ 50 * c) (hf : f (50 * c) < f (50 * c + c * (50 - 50 * c)))
    (hu : (brentTrial c eps (20 / 3)
      { a := 0, b := 50 * c + c * (50 - 50 * c), d := c * (50 - 50 * c), e := 50 - 50 * c,
        v := 50 * c + c * (50 - 50 * c), w := w0, x := 50 * c,
        fv := f (50 * c + c * (50 - 50 * c)), fw := f (50 * c), fx := f (50 * c) }).u = u2)
    (hu0 : 11 ≤ u2) (hu1 : u2 ≤ 13) (hf2 : f u2 ≤ f (50 * c)) (fuel : Nat) :
    brentLoop c eps (20 / 3) f (fuel + 3)
      { a := 0, b := 50, d := 0, e := 0, v := 50 * c, w := w0, x := 50 * c,
        fv := f (50 * c), fw := f (50 * c), fx := f (50 * c) } = some u2 := by
  have hx : (0 : α) < 50 * c := by linarith
  have hax : |50 * c| = 50 * c := abs_of_pos hx
  have htolu : eps * |50 * c| + 20 / 3 ≤ 7 := by
    rw [hax]
    nlinarith
  rw [brentLoop_step, brent_w_pass_one c eps w0 f hc0 hc1 he0 he1 hw hf, brentLoop_step,
    brentLoop_stop]
  · unfold brentIter
    simp only [hu]
    exact congrArg some (((brentUpdate_abx _ _ _).1 hf2).1.trans hu)
  · unfold brentIter
    simp only [hu]
    obtain ⟨e1, _, e3, e4⟩ := (brentUpdate_abx
      { a := 0, b := 50 * c + c * (50 - 50 * c), d := c * (50 - 50 * c), e := 50 - 50 * c,
        v := 50 * c + c * (50 - 50 * c), w := w0, x := 50 * c,
        fv := f (50 * c + c * (50 - 50 * c)), fw := f (50 * c), fx := f (50 * c) }
      (brentTrial c eps (20 / 3)
      { a := 0, b := 50 * c + c * (50 - 50 * c), d := c * (50 - 50 * c), e := 50 - 50 * c,
        v := 50 * c + c * (50 - 50 * c), w := w0, x := 50 * c,
        fv := f (50 * c + c * (50 - 50 * c)), fw := f (50 * c), fx := f (50 * c) })
      (f u2)).1 hf2
    unfold brentStop brentTol1
    rw [e1, e3, e4, hu]
    simp only [if_pos (show u2 < 50 * c by linarith)]
    have := mul_nonneg he0 (abs_nonneg u2)
    rw [abs_le]
    constructor <;> linarith
  · omega
  · unfold brentStop brentTol1
    simp only
    rw [not_le]
    have h0 := abs_nonneg (50 * c - (0 + (50 * c + c * (50 - 50 * c))) / 2)
    have : c * (50 - 50 * c) ≥ 11 := by nlinarith
    linarith
  · unfold brentStop brentTol1
    simp only
    rw [not_le]
    have h0 := abs_nonneg (50 * c - (0 + 50) / 2)
    linarith

end BrentUnassigned

section BrentUnassignedReal

theorem real_sqrt_five_fine : (222 / 100 : ℝ) < Real.sqrt 5 ∧ Real.sqrt 5 < 224 / 100 := by
  constructor
  · rw [Real.lt_sqrt (by norm_num)]
    norm_num
  · rw [Real.sqrt_lt' (by norm_num)]
    norm_num

/-- On the one-vertex prior the objective `kappa2Obj` with `a_star = 2`, `b_star = 0` and one
session is `2 * kappa2 - log(kappa2)`. -/
theorem example_unit_obj (x : ℝ) :
    kappa2Obj ⟨Real.sqrt, Real.log, 2⁻¹ ^ 52, Real.pi⟩ (exampleUnitLDLT ℝ) x (exampleUnitSpde ℝ)
      2 0 1 = 2 * x - Real.log x := by
  unfold kappa2Obj logDetQt exampleUnitLDLT
  simp only [Precision_value]
  simp [exampleUnitSpde, SparseMatrix.ofFn, SparseMatrix.value]

/-- The objective `2 * kappa2 - log(kappa2)` increases on `[1, ∞)`. -/
theorem example_unit_obj_lt (u x : ℝ) (hu : 1 ≤ u) (hux : u < x) :
    2 * u - Real.log u < 2 * x - Real.log x := by
  have hu0 : 0 < u := by linarith
  have hx0 : 0 < x := by linarith
  have h1 : Real.log (x / u) ≤ x / u - 1 := Real.log_le_sub_one_of_pos (div_pos hx0 hu0)
  rw [Real.log_div (ne_of_gt hx0) (ne_of_gt hu0)] at h1
  have h2 : x / u - 1 ≤ x - u := by
    rw [div_sub_one (ne_of_gt hu0), div_le_iff₀ hu0]
    nlinarith
  linarith

/-- The run of `kappa2Brent` on the one-vertex prior with `a_star = 2`, `b_star = 0`, one
session, the bracket `[0, 50]` and `tol = 20`, when the unassigned `w` holds a value other
than the first point and the second pass evaluates the objective at `u2`. -/
theorem example_unit_run (w0 u2 : ℝ) (hw : w0 ≠ 50 * ((3 - Real.sqrt 5) / 2))
    (hu : (brentTrial ((3 - Real.sqrt 5) / 2) (2⁻¹ ^ 26) (20 / 3)
      { a := 0
        b := 50 * ((3 - Real.sqrt 5) / 2)
          + (3 - Real.sqrt 5) / 2 * (50 - 50 * ((3 - Real.sqrt 5) / 2))
        d := (3 - Real.sqrt 5) / 2 * (50 - 50 * ((3 - Real.sqrt 5) / 2))
        e := 50 - 50 * ((3 - Real.sqrt 5) / 2)
        v := 50 * ((3 - Real.sqrt 5) / 2)
          + (3 - Real.sqrt 5) / 2 * (50 - 50 * ((3 - Real.sqrt 5) / 2))
        w := w0, x := 50 * ((3 - Real.sqrt 5) / 2)
        fv := 2 * (50 * ((3 - Real.sqrt 5) / 2)
            + (3 - Real.sqrt 5) / 2 * (50 - 50 * ((3 - Real.sqrt 5) / 2)))
          - Real.log (50 * ((3 - Real.sqrt 5) / 2)
            + (3 - Real.sqrt 5) / 2 * (50 - 50 * ((3 - Real.sqrt 5) / 2)))
        fw := 2 * (50 * ((3 - Real.sqrt 5) / 2)) - Real.log (50 * ((3 - Real.sqrt 5) / 2))
        fx := 2 * (50 * ((3 - Real.sqrt 5) / 2))
          - Real.log (50 * ((3 - Real.sqrt 5) / 2)) }).u = u2)
    (hu0 : 11 ≤ u2) (hu1 : u2 ≤ 13) (fuel : Nat) :
    kappa2Brent ⟨Real.sqrt, Real.log, 2⁻¹ ^ 52, Real.pi⟩ (exampleUnitLDLT ℝ) (fuel + 3) w0 0 50
      (exampleUnitSpde ℝ) 2 0 1 20 = some u2 := by
  obtain ⟨h5, h5'⟩ := real_sqrt_five_fine
  have hc0 : (38 / 100 : ℝ) < (3 - Real.sqrt 5) / 2 := by linarith
  have hc1 : (3 - Real.sqrt 5) / 2 < (39 / 100 : ℝ) := by linarith
  have hx : (0 : ℝ) + (3 - Real.sqrt 5) / 2 * (50 - 0) = 50 * ((3 - Real.sqrt 5) / 2) := by
    ring
  unfold kappa2Brent brentMin
  simp only [brentInit, real_sqrt_eps, hx, example_unit_obj]
  refine brent_w_run ((3 - Real.sqrt 5) / 2) (2⁻¹ ^ 26) w0 u2 (fun x => 2 * x - Real.log x)
    hc0 hc1 (by positivity) (by norm_num) hw ?_ hu hu0 hu1 ?_ fuel
  · exact example_unit_obj_lt _ _ (by linarith) (by nlinarith)
  · exact le_of_lt (example_unit_obj_lt _ _ (by linarith) (by linarith))


/-- C19, defect of the code. `kappa2Brent` (lines 171-173) and `kappa2BrentInit` (lines
70-72) assign `v = a + c * (b - a); x = v; x = v;`: the variable `w` is never assigned before
the loop reads it, in `w == x` (lines 141 and 242) and in the parabola fit `r = (x - w) *
(fx - fv)` (lines 94 and 195).  The returned value is not a function of the arguments alone:
on the one-vertex prior with `a_star = 2`, `b_star = 0`, one session, the bracket `[0, 50]`
and `tol = 20`, the call returns `50 c - (sqrt(DBL_EPSILON) * |50 c| + 20/3)`, about `12.43`,
when `w` happens to hold `0`, and `50 c - 50 c^2`, about `11.80`, when `w` happens to hold
`100`, where `c = (3 - sqrt 5) / 2`. -/
theorem brent_result_depends_on_unassigned_w :
    kappa2Brent ⟨Real.sqrt, Real.log, 2⁻¹ ^ 52, Real.pi⟩ (exampleUnitLDLT ℝ) 3 0 0 50
        (exampleUnitSpde ℝ) 2 0 1 20
      = some (50 * ((3 - Real.sqrt 5) / 2)
          - (2⁻¹ ^ 26 * |50 * ((3 - Real.sqrt 5) / 2)| + 20 / 3)) ∧
    kappa2Brent ⟨Real.sqrt, Real.log, 2⁻¹ ^ 52, Real.pi⟩ (exampleUnitLDLT ℝ) 3 100 0 50
        (exampleUnitSpde ℝ) 2 0 1 20
      = some (50 * ((3 - Real.sqrt 5) / 2)
          + (3 - Real.sqrt 5) / 2 * (0 - 50 * ((3 - Real.sqrt 5) / 2))) ∧
    50 * ((3 - Real.sqrt 5) / 2) + (3 - Real.sqrt 5) / 2 * (0 - 50 * ((3 - Real.sqrt 5) / 2))
      < 50 * ((3 - Real.sqrt 5) / 2)
          - (2⁻¹ ^ 26 * |50 * ((3 - Real.sqrt 5) / 2)| + 20 / 3) := by
  obtain ⟨h5, h5'⟩ := real_sqrt_five_fine
  have hc0 : (38 / 100 : ℝ) < (3 - Real.sqrt 5) / 2 := by linarith
  have hc1 : (3 - Real.sqrt 5) / 2 < (39 / 100 : ℝ) := by linarith
  have hax : |50 * ((3 - Real.sqrt 5) / 2)| = 50 * ((3 - Real.sqrt 5) / 2) :=
    abs_of_pos (by linarith)
  have he : (2⁻¹ : ℝ) ^ 26 ≤ 1 / 1000 := by norm_num
  have hee : (2⁻¹ : ℝ) ^ 26 * (50 * ((3 - Real.sqrt 5) / 2))
      ≤ 1 / 1000 * (50 * ((3 - Real.sqrt 5) / 2)) :=
    mul_le_mul_of_nonneg_right he (by linarith)
  have hcc : (38 / 100 : ℝ) * (38 / 100)
      < (3 - Real.sqrt 5) / 2 * ((3 - Real.sqrt 5) / 2) := by nlinarith
  have hcc' : (3 - Real.sqrt 5) / 2 * ((3 - Real.sqrt 5) / 2)
      < (39 / 100 : ℝ) * (39 / 100) := by nlinarith
  refine ⟨?_, ?_, ?_⟩
  · refine example_unit_run 0 _ (by linarith) ?_ ?_ ?_ 0
    · exact brent_w_trial_zero _ _ _ _ hc0 hc1 (by positivity) he
        (example_unit_obj_lt _ _ (by linarith) (by nlinarith))
    · rw [hax]
      linarith
    · rw [hax]
      have : (0 : ℝ) ≤ 2⁻¹ ^ 26 * (50 * ((3 - Real.sqrt 5) / 2)) := by positivity
      linarith
  · refine example_unit_run 100 _ (by linarith) ?_ ?_ ?_ 0
    · exact brent_w_trial_hundred _ _ _ _ hc0 hc1 he
        (example_unit_obj_lt _ _ (by linarith) (by nlinarith))
    · linarith
    · linarith
  · rw [hax]
    linarith

end BrentUnassignedReal

/-! ## How the accelerator leaves its loop -/

section SquaremExit

variable {α : Type} [LinearOrderedField α]

/-- A round that leaves through `break` has evaluated the map once or twice and keeps the
iterate and the round counter. -/
theorem theta_round_leave (lib : CLib α) (ctl : SquaremControl α)
    (fixptfn : List α → Option (List α)) (len : Nat) (s s1 : SquaremState α)
    (h : theta_squarem2_round lib ctl fixptfn len s = SquaremStep.leave s1) :
    (s1.feval = s.feval + 1 ∨ s1.feval = s.feval + 2) ∧ s1.pcpp = s.pcpp ∧ s1.iter = s.iter ∧
    ∃ p1, fixptfn s.pcpp = some p1 ∧
      (lib.sqrt (sqSr2 len s.pcpp p1) < ctl.tol ∨
        ∃ p2, fixptfn p1 = some p2 ∧ sqSq2 lib len p1 p2 < ctl.tol) := by
  rw [theta_round_view] at h
  split at h
  · cases h
  · rename_i p1 hp1
    by_cases c1 : lib.sqrt (sqSr2 len s.pcpp p1) < ctl.tol
    · rw [if_pos c1] at h
      injection h with h
      subst h
      exact ⟨Or.inl rfl, rfl, rfl, p1, hp1, Or.inl c1⟩
    · rw [if_neg c1] at h
      split at h
      · cases h
      · rename_i p2 hp2
        by_cases c2 : sqSq2 lib len p1 p2 < ctl.tol
        · rw [if_pos c2] at h
          injection h with h
          subst h
          exact ⟨Or.inr rfl, rfl, rfl, p1, hp1, Or.inr ⟨p2, hp2, c2⟩⟩
        · rw [if_neg c2] at h
          by_cases c3 : |sqAlpha lib ctl len s p1 p2 - 1| > 1 / 100
          · rw [if_pos c3] at h
            split at h
            · cases h
            · split_ifs at h
          · rw [if_neg c3] at h
            cases h

/-- The first completed round taken off the front of a run. -/
theorem theta_after_shift (lib : CLib α) (ctl : SquaremControl α)
    (fixptfn : List α → Option (List α)) (len : Nat) (s0 s1 : SquaremState α)
    (hg : s0.feval < ctl.maxiter)
    (hr : theta_squarem2_round lib ctl fixptfn len s0 = SquaremStep.next s1) :
    ∀ n, theta_squarem2_after lib ctl fixptfn len (n + 1) s0
      = theta_squarem2_after lib ctl fixptfn len n s1 := by
  intro n
  induction n with
  | zero =>
    unfold theta_squarem2_after theta_squarem2_after
    simp only [if_pos hg, hr]
  | succ n ih =>
    rw [theta_squarem2_after, ih]
    rfl

/-- The loop run from the start and the loop run from the state after `n` completed
rounds return the same. -/
theorem theta_loop_of_after (lib : CLib α) (ctl : SquaremControl α)
    (fixptfn : List α → Option (List α)) (len : Nat) (s0 : SquaremState α) :
    ∀ (n : Nat) (s : SquaremState α),
      theta_squarem2_after lib ctl fixptfn len n s0 = some s →
      ∀ fuel, theta_squarem2_loop lib ctl fixptfn len (fuel + n) s0
        = theta_squarem2_loop lib ctl fixptfn len fuel s := by
  intro n
  induction n with
  | zero =>
    intro s h fuel
    unfold theta_squarem2_after at h
    injection h with h
    subst h
    rfl
  | succ n ih =>
    intro s h fuel
    unfold theta_squarem2_after at h
    split at h
    · cases h
    · rename_i s1 hs1
      split_ifs at h with hg
      split at h
      · rename_i s2 hs2
        injection h with h
        subst h
        have e := ih s1 hs1 (fuel + 1)
        rw [show fuel + (n + 1) = fuel + 1 + n by omega, e, theta_squarem2_loop]
        simp only [if_pos hg, hs2]
      · cases h

/-- After `n` completed rounds the map was evaluated at least `2 n` times. -/
theorem theta_after_feval (lib : CLib α) (ctl : SquaremControl α)
    (fixptfn : List α → Option (List α)) (len : Nat) (s0 : SquaremState α) :
    ∀ (n : Nat) (s : SquaremState α),
      theta_squarem2_after lib ctl fixptfn len n s0 = some s →
      s0.feval + 2 * n ≤ s.feval := by
  intro n
  induction n with
  | zero =>
    intro s h
    unfold theta_squarem2_after at h
    injection h with h
    subst h
    omega
  | succ n ih =>
    intro s h
    unfold theta_squarem2_after at h
    split at h
    · cases h
    · rename_i s1 hs1
      have := ih s1 hs1
      split_ifs at h with hg
      split at h
      · rename_i s2 hs2
        injection h with h
        subst h
        obtain ⟨h1, _, _⟩ := theta_round_feval lib ctl fixptfn len s1 _ hs2
        omega
      · cases h

/-- What the loop of `theta_squarem2` returns when a round started after `n` completed
rounds ends in `return sqobjnull` or in `break`. -/
theorem theta_loop_at_round (lib : CLib α) (ctl : SquaremControl α)
    (fixptfn : List α → Option (List α)) (len : Nat) (s0 s : SquaremState α) (n : Nat)
    (h0 : s0.feval = 0)
    (ha : theta_squarem2_after lib ctl fixptfn len n s0 = some s)
    (hg : s.feval < ctl.maxiter) :
    theta_squarem2_loop lib ctl fixptfn len ctl.maxiter s0 =
      match theta_squarem2_round lib ctl fixptfn len s with
      | SquaremStep.abort => none
      | SquaremStep.leave s1 => some s1
      | SquaremStep.next s1 =>
        theta_squarem2_loop lib ctl fixptfn len (ctl.maxiter - n - 1) s1 := by
  have hf := theta_after_feval lib ctl fixptfn len s0 n s ha
  obtain ⟨k, hk⟩ : ∃ k, ctl.maxiter = k + 1 + n := ⟨ctl.maxiter - n - 1, by omega⟩
  have e := theta_loop_of_after lib ctl fixptfn len s0 n s ha (k + 1)
  rw [hk, e, theta_squarem2_loop]
  simp only [if_pos hg]
  have e2 : k + 1 + n - n - 1 = k := by omega
  simp only [e2]

/-- A loop that returns with `feval < maxiter` has left through `break`, in a round
started after some number of completed rounds. -/
theorem theta_loop_break (lib : CLib α) (ctl : SquaremControl α)
    (fixptfn : List α → Option (List α)) (len : Nat) :
    ∀ (fuel : Nat) (s0 sf : SquaremState α), ctl.maxiter ≤ s0.feval + fuel →
      theta_squarem2_loop lib ctl fixptfn len fuel s0 = some sf → sf.feval < ctl.maxiter →
      ∃ (n : Nat) (s : SquaremState α),
        theta_squarem2_after lib ctl fixptfn len n s0 = some s ∧ s.feval < ctl.maxiter ∧
        theta_squarem2_round lib ctl fixptfn len s = SquaremStep.leave sf := by
  intro fuel
  induction fuel with
  | zero =>
    intro s0 sf hfuel h hlt
    unfold theta_squarem2_loop at h
    injection h with h
    subst h
    omega
  | succ fuel ih =>
    intro s0 sf hfuel h hlt
    unfold theta_squarem2_loop at h
    by_cases hg : s0.feval < ctl.maxiter
    · rw [if_pos hg] at h
      cases hr : theta_squarem2_round lib ctl fixptfn len s0 with
      | abort =>
        rw [hr] at h
        cases h
      | leave s1 =>
        rw [hr] at h
        injection h with h
        subst h
        exact ⟨0, s0, rfl, hg, hr⟩
      | next s1 =>
        rw [hr] at h
        simp only at h
        obtain ⟨h1, _, _⟩ := theta_round_feval lib ctl fixptfn len s0 s1 hr
        obtain ⟨n, s, e1, e2, e3⟩ := ih s1 sf (by omega) h hlt
        refine ⟨n + 1, s, ?_, e2, e3⟩
        rw [theta_after_shift lib ctl fixptfn len s0 s1 hg hr n]
        exact e1
    · rw [if_neg hg] at h
      injection h with h
      subst h
      exact absurd hlt hg

/-- However the loop is left, the map was evaluated at most `maxiter + 2` times. -/
theorem theta_loop_feval_le (lib : CLib α) (ctl : SquaremControl α)
    (fixptfn : List α → Option (List α)) (len : Nat) :
    ∀ (fuel : Nat) (s0 sf : SquaremState α), s0.feval ≤ ctl.maxiter + 2 →
      theta_squarem2_loop lib ctl fixptfn len fuel s0 = some sf →
      sf.feval ≤ ctl.maxiter + 2 := by
  intro fuel
  induction fuel with
  | zero =>
    intro s0 sf h0 h
    unfold theta_squarem2_loop at h
    injection h with h
    subst h
    exact h0
  | succ fuel ih =>
    intro s0 sf h0 h
    unfold theta_squarem2_loop at h
    by_cases hg : s0.feval < ctl.maxiter
    · rw [if_pos hg] at h
      cases hr : theta_squarem2_round lib ctl fixptfn len s0 with
      | abort =>
        rw [hr] at h
        cases h
      | leave s1 =>
        rw [hr] at h
        injection h with h
        subst h
        obtain ⟨h1, _⟩ := theta_round_leave lib ctl fixptfn len s0 s1 hr
        omega
      | next s1 =>
        rw [hr] at h
        simp only at h
        obtain ⟨_, h2, _⟩ := theta_round_feval lib ctl fixptfn len s0 s1 hr
        exact ih s1 sf (by omega) h
    · rw [if_neg hg] at h
      injection h with h
      subst h
      exact h0

end SquaremExit

section SquaremCount

/-- A round on a map that sends `[p]` to `[-p]` and `[-p]` to `[p + 1]`, for `p > 0`: both
residuals are at least `1`, the step length is clamped to `1`, no stabilization is run, and
the round ends at `[p + 1]` after two evaluations. -/
theorem count_round (lib : CLib ℝ) (hs : lib.sqrt = Real.sqrt) (ctl : SquaremControl ℝ)
    (hm : ctl.method = 3) (htol : ctl.tol ≤ 1) (fixptfn : List ℝ → Option (List ℝ))
    (p a M : ℝ) (it fe : Nat) (ex : Bool) (hp : 1 ≤ p)
    (h1 : fixptfn [p] = some [-p]) (h2 : fixptfn [-p] = some [p + 1]) :
    theta_squarem2_round lib ctl fixptfn 1 (SquaremState.mk [p] [p] a 1 M it fe ex)
      = SquaremStep.next (SquaremState.mk [p + 1] [p + 1] 1 1
          (if 1 = M then ctl.mstep * M else M) (it + 1) (fe + 1 + 1) true) := by
  rw [theta_round_view]
  have e1 : lib.sqrt (sqSr2 1 [p] [-p]) = 2 * p := by
    rw [hs]
    simp only [sqSr2, sumLoop_one, vecGet, List.getD_cons_zero]
    exact real_sqrt_of_mul_self (2 * p) _ (by linarith) (by ring)
  have e2 : sqSq2 lib 1 [-p] [p + 1] = 2 * p + 1 := by
    rw [sqSq2, hs]
    simp only [sumLoop_one, vecGet, List.getD_cons_zero]
    exact real_sqrt_of_mul_self (2 * p + 1) _ (by linarith) (by ring)
  have e3 : sqAlpha lib ctl 1 (SquaremState.mk [p] [p] a 1 M it fe ex) [-p] [p + 1] = 1 := by
    have hv : sqSv2 1 [p] [-p] [p + 1] ≠ 0 := by
      simp only [sqSv2, sumLoop_one, vecGet, List.getD_cons_zero]
      have h4 : 0 < p + 1 - 2 * -p + p := by linarith
      positivity
    have hq : ¬ sqSr2 1 [p] [-p] / sqSv2 1 [p] [-p] [p + 1] < 0 := by
      simp only [sqSr2, sqSv2, sumLoop_one, vecGet, List.getD_cons_zero]
      exact not_lt.2 (by positivity)
    have hy : lib.sqrt (sqSr2 1 [p] [-p] / sqSv2 1 [p] [-p] [p + 1]) ≤ 1 := by
      simp only [hs]
      simp only [sqSr2, sqSv2, sumLoop_one, vecGet, List.getD_cons_zero]
      norm_num
      rw [div_le_one (by positivity)]
      nlinarith
    rw [sqAlpha_of_ne_zero lib ctl 1 (SquaremState.mk [p] [p] a 1 M it fe ex) [-p] [p + 1]
      (Or.inr (Or.inr hm)) hv hq]
    simp only
    generalize lib.sqrt (sqSr2 1 [p] [-p] / sqSv2 1 [p] [-p] [p + 1]) = y at hy
    unfold stdMax stdMin
    split_ifs <;> linarith
  have e4 : sqPnew 1 (SquaremState.mk [p] [p] a 1 M it fe ex) [-p] [p + 1] 1
      = [p + 1] := by
    simp [sqPnew, vecGet, List.range_succ]
    ring
  simp only [h1, h2, e1, e2, e3, e4]
  rw [if_neg (by linarith), if_neg (by linarith), if_neg (by norm_num)]
  simp [sqTail]

/-- Any number of rounds on a map that sends `[x]` to `[-x]` and `[-x]` to `[x + 1]` at the
points `x = p, p + 1, ...` the run visits: `n` rounds take `2 n` evaluations and end at
`[p + n]`. -/
theorem count_after (lib : CLib ℝ) (hs : lib.sqrt = Real.sqrt) (ctl : SquaremControl ℝ)
    (hm : ctl.method = 3) (htol : ctl.tol ≤ 1) (fixptfn : List ℝ → Option (List ℝ)) (M : ℝ)
    (hM : 1 < M) :
    ∀ (n : Nat) (p : ℝ) (it fe : Nat), 1 ≤ p →
      (∀ k : Nat, k < n → fixptfn [p + k] = some [-(p + k)] ∧
        fixptfn [-(p + k)] = some [p + k + 1]) →
      fe + 2 * n ≤ ctl.maxiter + 1 →
      theta_squarem2_after lib ctl fixptfn 1 n (SquaremState.mk [p] [p] 1 1 M it fe true)
        = some (SquaremState.mk [p + n] [p + n] 1 1 M (it + n) (fe + 2 * n) true) := by
  intro n
  induction n with
  | zero =>
    intro p it fe _ _ _
    simp [theta_squarem2_after]
  | succ n ih =>
    intro p it fe hp hF hfe
    obtain ⟨h1, h2⟩ := hF 0 (by omega)
    simp only [Nat.cast_zero, add_zero] at h1 h2
    have hr := count_round lib hs ctl hm htol fixptfn p 1 M it fe true hp h1 h2
    rw [if_neg (ne_of_lt hM)] at hr
    rw [theta_after_shift lib ctl fixptfn 1 _ _ (show fe < ctl.maxiter by omega) hr n]
    rw [ih (p + 1) (it + 1) (fe + 1 + 1) (by linarith) ?_ (by omega)]
    · congr 2
      · push_cast
        ring_nf
      · push_cast
        ring_nf
      · omega
      · omega
    · intro k hk
      obtain ⟨h3, h4⟩ := hF (k + 1) (by omega)
      push_cast at h3 h4
      rw [show p + ((k : ℝ) + 1) = p + 1 + k by ring] at h3 h4
      exact ⟨h3, h4⟩

end SquaremCount
section SquaremFlag

variable {α : Type} [LinearOrderedField α]

/-- C11, amended. The flag `convergence` of `theta_squarem2` is `true` exactly when the
loop was left with `feval < maxiter` (and no evaluation of the first two of a round failed).
A run that reports `convergence = true` has left the loop through `break`, in a round in
which `‖p1 - p‖ < tol` or `‖p2 - p1‖ < tol`; the converse fails, because a round that
breaks on a residual with `feval = maxiter` reports `false`. -/
theorem squarem_convergence_flag (lib : CLib α) (ctl : SquaremControl α)
    (fixptfn : List α → Option (List α)) (alpha0 : α) (par : List α) :
    ((theta_squarem2 lib ctl fixptfn alpha0 par).convergence = true ↔
      ∃ s, theta_squarem2_loop lib ctl fixptfn par.length ctl.maxiter
          (squaremStart ctl alpha0 par) = some s ∧ s.feval < ctl.maxiter) ∧
    ((theta_squarem2 lib ctl fixptfn alpha0 par).convergence = true →
      ∃ (n : Nat) (s : SquaremState α) (p1 : List α),
        theta_squarem2_after lib ctl fixptfn par.length n (squaremStart ctl alpha0 par)
          = some s ∧
        s.feval < ctl.maxiter ∧ (theta_squarem2 lib ctl fixptfn alpha0 par).par = s.pcpp ∧
        fixptfn s.pcpp = some p1 ∧
        (lib.sqrt (sqSr2 par.length s.pcpp p1) < ctl.tol ∨
          ∃ p2, fixptfn p1 = some p2 ∧ sqSq2 lib par.length p1 p2 < ctl.tol)) := by
  have key : (theta_squarem2 lib ctl fixptfn alpha0 par).convergence = true ↔
      ∃ s, theta_squarem2_loop lib ctl fixptfn par.length ctl.maxiter
          (squaremStart ctl alpha0 par) = some s ∧ s.feval < ctl.maxiter := by
    unfold theta_squarem2
    simp only
    cases h : theta_squarem2_loop lib ctl fixptfn par.length ctl.maxiter
      (squaremStart ctl alpha0 par) with
    | none => simp [sqobjnull]
    | some s =>
      by_cases hs : s.feval ≥ ctl.maxiter
      · simp only [if_pos hs]
        constructor
        · intro hc
          cases hc
        · rintro ⟨s1, e1, e2⟩
          injection e1 with e1
          subst e1
          omega
      · simp only [if_neg hs]
        constructor
        · intro _
          exact ⟨s, rfl, by omega⟩
        · intro _
          trivial
  refine ⟨key, fun hc => ?_⟩
  obtain ⟨sf, hsf, hlt⟩ := key.1 hc
  obtain ⟨n, s, e1, e2, e3⟩ := theta_loop_break lib ctl fixptfn par.length ctl.maxiter
    (squaremStart ctl alpha0 par) sf (by omega) hsf hlt
  obtain ⟨_, hp, _, p1, hp1, hres⟩ := theta_round_leave lib ctl fixptfn par.length s sf e3
  refine ⟨n, s, p1, e1, e2, ?_, hp1, hres⟩
  unfold theta_squarem2
  simp only [hsf]
  exact hp

end SquaremFlag

section SquaremBudget

variable {α : Type} [LinearOrderedField α]

/-- With a total map no round ends in `return sqobjnull`. -/
theorem theta_round_total (lib : CLib α) (ctl : SquaremControl α) (F : List α → List α)
    (len : Nat) (s : SquaremState α) :
    theta_squarem2_round lib ctl (fun p => some (F p)) len s ≠ SquaremStep.abort := by
  rw [theta_round_view]
  simp only
  split_ifs <;> simp

/-- With a total map the loop returns a state. -/
theorem theta_loop_total (lib : CLib α) (ctl : SquaremControl α) (F : List α → List α)
    (len : Nat) :
    ∀ (fuel : Nat) (s0 : SquaremState α),
      ∃ sf, theta_squarem2_loop lib ctl (fun p => some (F p)) len fuel s0 = some sf := by
  intro fuel
  induction fuel with
  | zero =>
    intro s0
    exact ⟨s0, rfl⟩
  | succ fuel ih =>
    intro s0
    unfold theta_squarem2_loop
    by_cases hg : s0.feval < ctl.maxiter
    · rw [if_pos hg]
      cases hr : theta_squarem2_round lib ctl (fun p => some (F p)) len s0 with
      | abort => exact absurd hr (theta_round_total lib ctl F len s0)
      | leave s1 => exact ⟨s1, rfl⟩
      | next s1 => exact ih s1
    · rw [if_neg hg]
      exact ⟨s0, rfl⟩

/-- C12, amended. For every total fixed-point map `F`, starting vector and `maxiter`, the
loop of the accelerator (`theta_squarem2` and `init_squarem2`) terminates: with `maxiter`
units of fuel, and with any larger amount, it returns the same state `sf`, reached either
with the guard `feval < maxiter` false or through `break`.  The number of evaluations it
reports is at most `maxiter + 2`: the guard is tested only at the start of a round, and a
round evaluates the map up to three times. -/
theorem squarem_evaluations_bound (lib : CLib α) (ctl : SquaremControl α)
    (F : List α → List α) (alpha0 : α) (par : List α) :
    ∃ sf : SquaremState α,
      (∀ k, theta_squarem2_loop lib ctl (fun p => some (F p)) par.length (ctl.maxiter + k)
        (squaremStart ctl alpha0 par) = some sf) ∧
      (ctl.maxiter ≤ sf.feval ∨
        ∃ (n : Nat) (s : SquaremState α),
          theta_squarem2_after lib ctl (fun p => some (F p)) par.length n
            (squaremStart ctl alpha0 par) = some s ∧ s.feval < ctl.maxiter ∧
          theta_squarem2_round lib ctl (fun p => some (F p)) par.length s
            = SquaremStep.leave sf) ∧
      (theta_squarem2 lib ctl (fun p => some (F p)) alpha0 par).pfevals = sf.feval ∧
      (init_squarem2 lib ctl (fun p => some (F p)) alpha0 par).pfevals = sf.feval ∧
      sf.feval ≤ ctl.maxiter + 2 := by
  obtain ⟨sf, hsf⟩ := theta_loop_total lib ctl F par.length ctl.maxiter
    (squaremStart ctl alpha0 par)
  have hp : (theta_squarem2 lib ctl (fun p => some (F p)) alpha0 par).pfevals = sf.feval := by
    unfold theta_squarem2
    simp only [hsf]
  refine ⟨sf, fun k => ?_, ?_, hp, ?_, ?_⟩
  · rw [theta_loop_fuel_add, hsf]
  · by_cases hlt : sf.feval < ctl.maxiter
    · right
      exact theta_loop_break lib ctl _ par.length ctl.maxiter (squaremStart ctl alpha0 par) sf
        (by omega) hsf hlt
    · left
      omega
  · rw [init_eq_theta, hp]
  · exact theta_loop_feval_le lib ctl _ par.length ctl.maxiter (squaremStart ctl alpha0 par) sf
      (by simp [squaremStart]) hsf

end SquaremBudget

section SquaremFailure

variable {α : Type} [LinearOrderedField α]

/-- C13, amended. In a round of `theta_squarem2` that the run reaches (after `n` completed
rounds, with `feval < maxiter`): if the first evaluation `F(p)` fails, or the first residual
is not below `tol` and the second evaluation `F(p1)` fails, the run returns `sqobjnull`
(and so does `init_squarem2`).  If the stabilization evaluation `F(pnew)` fails, the run is
not aborted: the handler of lines 658-671 falls back to `p2` with `alpha = 1` and
`extrap = false`, does not count the failed evaluation, and the loop goes on with the next
round.  The stabilization is the one the code runs: `alpha` is the clamp of the `double`
value of `sqrt(sr2 / sv2)`, which for `sv2 = 0` is `+inf` or NaN and is clamped to
`max(stepmin, stepmax)`.  The divisor `mstep` of line 661, which is `4` in the source, is
not zero. -/
theorem squarem_failed_evaluation (lib : CLib α) (ctl : SquaremControl α)
    (fixptfn : List α → Option (List α)) (alpha0 : α) (par : List α) (n : Nat)
    (s : SquaremState α)
    (ha : theta_squarem2_after lib ctl fixptfn par.length n (squaremStart ctl alpha0 par)
      = some s)
    (hg : s.feval < ctl.maxiter) :
    (fixptfn s.pcpp = none →
      theta_squarem2 lib ctl fixptfn alpha0 par = sqobjnull ∧
      init_squarem2 lib ctl fixptfn alpha0 par = sqobjnull) ∧
    (∀ p1, fixptfn s.pcpp = some p1 → ¬ lib.sqrt (sqSr2 par.length s.pcpp p1) < ctl.tol →
      fixptfn p1 = none →
      theta_squarem2 lib ctl fixptfn alpha0 par = sqobjnull ∧
      init_squarem2 lib ctl fixptfn alpha0 par = sqobjnull) ∧
    (∀ p1 p2, fixptfn s.pcpp = some p1 → ¬ lib.sqrt (sqSr2 par.length s.pcpp p1) < ctl.tol →
      fixptfn p1 = some p2 → ¬ sqSq2 lib par.length p1 p2 < ctl.tol →
      |sqAlpha lib ctl par.length s p1 p2 - 1| > 1 / 100 →
      fixptfn (sqPnew par.length s p1 p2 (sqAlpha lib ctl par.length s p1 p2)) = none →
      ctl.mstep ≠ 0 →
      theta_squarem2_round lib ctl fixptfn par.length s =
        SquaremStep.next (sqTail ctl s 1
          (if sqAlpha lib ctl par.length s p1 p2 = s.stepmax
            then stdMax ctl.stepmax0 (s.stepmax / ctl.mstep) else s.stepmax)
          p2 (s.feval + 1 + 1) false) ∧
      init_squarem2_round lib ctl fixptfn par.length s =
        SquaremStep.next (sqTail ctl s 1
          (if sqAlpha lib ctl par.length s p1 p2 = s.stepmax
            then stdMax ctl.stepmax0 (s.stepmax / ctl.mstep) else s.stepmax)
          p2 (s.feval + 1 + 1) false)) ∧
    (∀ p1 p2, (ctl.method = 1 ∨ ctl.method = 2 ∨ ctl.method = 3) →
      (sqSv2 par.length s.pcpp p1 p2 = 0 →
        sqAlpha lib ctl par.length s p1 p2 = stdMax s.stepmin s.stepmax) ∧
      (sqSv2 par.length s.pcpp p1 p2 ≠ 0 →
        sqAlpha lib ctl par.length s p1 p2
          = stdMax s.stepmin (stdMin s.stepmax
              (lib.sqrt (sqSr2 par.length s.pcpp p1 / sqSv2 par.length s.pcpp p1 p2))))) := by
  have key : theta_squarem2_round lib ctl fixptfn par.length s = SquaremStep.abort →
      theta_squarem2 lib ctl fixptfn alpha0 par = sqobjnull ∧
      init_squarem2 lib ctl fixptfn alpha0 par = sqobjnull := by
    intro hr
    have h : theta_squarem2 lib ctl fixptfn alpha0 par = sqobjnull := by
      unfold theta_squarem2
      simp only
      rw [theta_loop_at_round lib ctl fixptfn par.length _ s n rfl ha hg, hr]
    exact ⟨h, (init_eq_theta lib ctl fixptfn alpha0 par).trans h⟩
  refine ⟨fun h1 => key ?_, fun p1 h1 c1 h2 => key ?_,
    fun p1 p2 h1 c1 h2 c2 c3 h3 _ => ⟨?_, ?_⟩, fun p1 p2 hm => ⟨fun hv => ?_, fun hv => ?_⟩⟩
  · rw [theta_round_view]
    simp only [h1]
  · rw [theta_round_view]
    simp only [h1, h2, if_neg c1]
  · rw [theta_round_view]
    simp only [h1, h2, h3, if_neg c1, if_neg c2, if_pos c3]
  · rw [init_round_eq_theta_round, theta_round_view]
    simp only [h1, h2, h3, if_neg c1, if_neg c2, if_pos c3]
  · exact sqAlpha_of_zero lib ctl par.length s p1 p2 hm hv
  · have a1 : 0 ≤ sqSr2 par.length s.pcpp p1 := sumLoop_nonneg _ _ (fun i => sq_nonneg _)
    have a2 : 0 ≤ sqSv2 par.length s.pcpp p1 p2 := sumLoop_nonneg _ _ (fun i => sq_nonneg _)
    exact sqAlpha_of_ne_zero lib ctl par.length s p1 p2 hm hv (not_lt.2 (div_nonneg a1 a2))

end SquaremFailure

section SquaremCountReal

/-- The map `exampleCountBreak` at a point `x ≥ 1` other than `750`. -/
theorem example_break_rule (x : ℝ) (h1 : 1 ≤ x) (h2 : x < 750) :
    exampleCountBreak [x] = some [-x] ∧ exampleCountBreak [-x] = some [x + 1] := by
  have e1 : ¬ x = -750 := by
    intro h
    linarith
  have e2 : ¬ -x = -750 := by
    intro h
    linarith
  have e3 : ¬ 0 < -x := by linarith
  constructor
  · simp [exampleCountBreak, e1, show 0 < x by linarith]
  · simp only [exampleCountBreak, List.map, e2, e3, if_false]
    rw [show 1 - -x = x + 1 by ring]

/-- The run on `exampleCountBreak` started at `[1]` with the settings of `SquaremDefault`:
after 749 rounds the iterate is `[750]` and the map was evaluated 1498 times. -/
theorem example_break_after (alpha0 : ℝ) :
    theta_squarem2_after ⟨Real.sqrt, Real.log, 2⁻¹ ^ 52, Real.pi⟩ SquaremDefault
      exampleCountBreak 1 749 (squaremStart SquaremDefault alpha0 [1])
    = some (SquaremState.mk [750] [750] 1 1 4 750 1498 true : SquaremState ℝ) := by
  have htol : (SquaremDefault : SquaremControl ℝ).tol ≤ 1 := by
    simp only [SquaremDefault]
    norm_num
  obtain ⟨h1, h2⟩ := example_break_rule 1 (le_refl _) (by norm_num)
  have hr := count_round ⟨Real.sqrt, Real.log, 2⁻¹ ^ 52, Real.pi⟩ rfl SquaremDefault rfl htol
    exampleCountBreak 1 alpha0 1 1 0 true (le_refl _) h1 h2
  rw [theta_after_shift _ _ _ 1 (squaremStart SquaremDefault alpha0 [1]) _
    (by simp [squaremStart, SquaremDefault]) hr 748]
  have hc := count_after ⟨Real.sqrt, Real.log, 2⁻¹ ^ 52, Real.pi⟩ rfl SquaremDefault rfl htol
    exampleCountBreak 4 (by norm_num) 748 2 2 2 (by norm_num) ?_ (by simp [SquaremDefault])
  · simp only [SquaremDefault] at hc ⊢
    norm_num at hc ⊢
    exact hc
  · intro k hk
    have hk' : (k : ℝ) < 748 := by exact_mod_cast hk
    have hk0 : (0 : ℝ) ≤ k := Nat.cast_nonneg k
    exact example_break_rule (2 + k) (by linarith) (by linarith)

/-- Round 750 of the run on `exampleCountBreak`: the first residual is `1500`, the second
evaluation returns its argument, the second residual is `0`, and the round leaves the loop
through `break` with `feval = 1500`. -/
theorem example_break_round :
    theta_squarem2_round ⟨Real.sqrt, Real.log, 2⁻¹ ^ 52, Real.pi⟩ SquaremDefault
      exampleCountBreak 1 (SquaremState.mk [750] [750] 1 1 4 750 1498 true)
    = SquaremStep.leave (SquaremState.mk [750] [750] 1 1 4 750 1500 true : SquaremState ℝ) := by
  rw [theta_round_view]
  have f1 : exampleCountBreak [(750 : ℝ)] = some [-750] := by
    simp only [exampleCountBreak, List.map]
    norm_num
  have f2 : exampleCountBreak [(-750 : ℝ)] = some [-750] := by
    simp [exampleCountBreak]
  have e1 : Real.sqrt (sqSr2 1 [750] [(-750 : ℝ)]) = 1500 := by
    simp only [sqSr2, sumLoop_one, vecGet, List.getD_cons_zero]
    exact real_sqrt_of_mul_self 1500 _ (by norm_num) (by norm_num)
  have e2 : sqSq2 ⟨Real.sqrt, Real.log, 2⁻¹ ^ 52, Real.pi⟩ 1 [(-750 : ℝ)] [(-750 : ℝ)] = 0 := by
    simp [sqSq2, sumLoop_one, vecGet]
  simp only [f1, f2, e1, e2]
  simp [SquaremDefault]
  norm_num

/-- The second residual of round 750 of the run on `exampleCountBreak` is below `tol`. -/
theorem example_break_residual :
    sqSq2 ⟨Real.sqrt, Real.log, 2⁻¹ ^ 52, Real.pi⟩ 1 [(-750 : ℝ)] [(-750 : ℝ)]
      < (SquaremDefault : SquaremControl ℝ).tol := by
  simp [sqSq2, sumLoop_one, vecGet, SquaremDefault]

/-- C11, as stated, fails. With the settings of `SquaremDefault` (`maxiter = 1500`,
`tol = 1e-7`) and the map `exampleCountBreak` started at `[1]`, the first 749 rounds take two
evaluations each and end at `[750]`; round 750 starts with `feval = 1498 < maxiter`,
evaluates `F([750]) = [-750]` and `F([-750]) = [-750]`, and leaves the loop through `break`
because the residual `‖p2 - p1‖ = 0` is below `tol`.  Since `feval = 1500 ≥ maxiter` at that
point, line 697 sets the flag: the run stopped on a residual and reports
`convergence = false`. -/
theorem squarem_break_reports_false_counterexample :
    theta_squarem2_after ⟨Real.sqrt, Real.log, 2⁻¹ ^ 52, Real.pi⟩ SquaremDefault
        exampleCountBreak 1 749 (squaremStart SquaremDefault 0 [1])
      = some (SquaremState.mk [750] [750] 1 1 4 750 1498 true : SquaremState ℝ) ∧
    theta_squarem2_round ⟨Real.sqrt, Real.log, 2⁻¹ ^ 52, Real.pi⟩ SquaremDefault
        exampleCountBreak 1 (SquaremState.mk [750] [750] 1 1 4 750 1498 true)
      = SquaremStep.leave (SquaremState.mk [750] [750] 1 1 4 750 1500 true : SquaremState ℝ) ∧
    sqSq2 ⟨Real.sqrt, Real.log, 2⁻¹ ^ 52, Real.pi⟩ 1 [(-750 : ℝ)] [(-750 : ℝ)]
      < (SquaremDefault : SquaremControl ℝ).tol ∧
    theta_squarem2 ⟨Real.sqrt, Real.log, 2⁻¹ ^ 52, Real.pi⟩ SquaremDefault exampleCountBreak 0
        [(1 : ℝ)]
      = { par := [750], valueobjfn := none, iter := 750, pfevals := 1500, objfevals := 0,
          convergence := false } := by
  refine ⟨example_break_after 0, example_break_round, example_break_residual, ?_⟩
  unfold theta_squarem2
  simp only [List.length_singleton]
  rw [theta_loop_at_round _ _ _ 1 _ _ 749 rfl (example_break_after 0)
    (by simp [SquaremDefault]), example_break_round]
  simp [SquaremDefault]

/-- Witness of C11, amended: the identity map started at `[3, 2, 1/2]` with the settings of
`SquaremDefault` reports `convergence = true`, and so its loop was left with
`feval < maxiter`. -/
theorem squarem_convergence_flag_witness :
    ∃ s, theta_squarem2_loop ⟨Real.sqrt, Real.log, 2⁻¹ ^ 52, Real.pi⟩ SquaremDefault
        (fun p => some p) [(3 : ℝ), 2, 1 / 2].length (SquaremDefault : SquaremControl ℝ).maxiter
        (squaremStart SquaremDefault 0 [3, 2, 1 / 2]) = some s ∧
      s.feval < (SquaremDefault : SquaremControl ℝ).maxiter :=
  (squarem_convergence_flag ⟨Real.sqrt, Real.log, 2⁻¹ ^ 52, Real.pi⟩ SquaremDefault
    (fun p => some p) 0 [3, 2, 1 / 2]).1.1
    (by rw [theta_identity _ _ _ _ Real.sqrt_zero (by simp [SquaremDefault])
      (by simp [SquaremDefault])])

/-- The map `exampleCountOver` at a point `x ≥ 1` below `750`. -/
theorem example_over_rule (x : ℝ) (h1 : 1 ≤ x) (h2 : x < 750) :
    exampleCountOver [x] = some [-x] ∧ exampleCountOver [-x] = some [x + 1] := by
  have e1 : ¬ x = 750 := ne_of_lt h2
  have e2 : ¬ x = 1000 := by
    intro h
    linarith
  have e3 : ¬ -x = 750 := by
    intro h
    linarith
  have e4 : ¬ -x = 1000 := by
    intro h
    linarith
  have e5 : ¬ 0 < -x := by linarith
  constructor
  · simp [exampleCountOver, e1, e2, show 0 < x by linarith]
  · simp only [exampleCountOver, List.map, e3, e4, e5, if_false]
    rw [show 1 - -x = x + 1 by ring]

/-- The run on `exampleCountOver` started at `[1]` with the settings of `SquaremDefault`:
after 749 rounds the iterate is `[750]` and the map was evaluated 1498 times. -/
theorem example_over_after (alpha0 : ℝ) :
    theta_squarem2_after ⟨Real.sqrt, Real.log, 2⁻¹ ^ 52, Real.pi⟩ SquaremDefault
      exampleCountOver 1 749 (squaremStart SquaremDefault alpha0 [1])
    = some (SquaremState.mk [750] [750] 1 1 4 750 1498 true : SquaremState ℝ) := by
  have htol : (SquaremDefault : SquaremControl ℝ).tol ≤ 1 := by
    simp only [SquaremDefault]
    norm_num
  obtain ⟨h1, h2⟩ := example_over_rule 1 (le_refl _) (by norm_num)
  have hr := count_round ⟨Real.sqrt, Real.log, 2⁻¹ ^ 52, Real.pi⟩ rfl SquaremDefault rfl htol
    exampleCountOver 1 alpha0 1 1 0 true (le_refl _) h1 h2
  rw [theta_after_shift _ _ _ 1 (squaremStart SquaremDefault alpha0 [1]) _
    (by simp [squaremStart, SquaremDefault]) hr 748]
  have hc := count_after ⟨Real.sqrt, Real.log, 2⁻¹ ^ 52, Real.pi⟩ rfl SquaremDefault rfl htol
    exampleCountOver 4 (by norm_num) 748 2 2 2 (by norm_num) ?_ (by simp [SquaremDefault])
  · simp only [SquaremDefault] at hc ⊢
    norm_num at hc ⊢
    exact hc
  · intro k hk
    have hk' : (k : ℝ) < 748 := by exact_mod_cast hk
    have hk0 : (0 : ℝ) ≤ k := Nat.cast_nonneg k
    exact example_over_rule (2 + k) (by linarith) (by linarith)

/-- Round 750 of the run on `exampleCountOver`: it starts with `feval = 1498`, the step
length is `4`, the stabilization evaluates the map a third time and is rejected
(`res = 5532 > kres = 1503`), and the round ends with `feval = 1501`. -/
theorem example_over_round :
    theta_squarem2_round ⟨Real.sqrt, Real.log, 2⁻¹ ^ 52, Real.pi⟩ SquaremDefault
      exampleCountOver 1 (SquaremState.mk [750] [750] 1 1 4 750 1498 true)
    = SquaremStep.next (SquaremState.mk [1251] [1251] 1 1 16 751 1501 false :
        SquaremState ℝ) := by
  rw [theta_round_view]
  have f1 : exampleCountOver [(750 : ℝ)] = some [1000] := by
    simp [exampleCountOver]
  have f2 : exampleCountOver [(1000 : ℝ)] = some [1251] := by
    simp only [exampleCountOver, List.map]
    norm_num
  have f3 : exampleCountOver [(2766 : ℝ)] = some [-2766] := by
    simp only [exampleCountOver, List.map]
    norm_num
  have s250 : Real.sqrt 62500 = 250 :=
    real_sqrt_of_mul_self 250 _ (by norm_num) (by norm_num)
  have e1 : sqSr2 1 [750] [(1000 : ℝ)] = 62500 := by
    simp [sqSr2, sumLoop_one, vecGet]
    norm_num
  have e2 : sqSq2 ⟨Real.sqrt, Real.log, 2⁻¹ ^ 52, Real.pi⟩ 1 [(1000 : ℝ)] [(1251 : ℝ)]
      = 251 := by
    simp only [sqSq2, sumLoop_one, vecGet]
    exact real_sqrt_of_mul_self 251 _ (by norm_num) (by norm_num)
  have v : sqSv2 1 [750] [(1000 : ℝ)] [(1251 : ℝ)] = 1 := by
    simp [sqSv2, sumLoop_one, vecGet]
    norm_num
  have e3 : sqAlpha ⟨Real.sqrt, Real.log, 2⁻¹ ^ 52, Real.pi⟩ SquaremDefault 1
      (SquaremState.mk [750] [750] 1 1 4 750 1498 true) [(1000 : ℝ)] [(1251 : ℝ)] = 4 := by
    rw [sqAlpha_of_ne_zero _ _ _ _ _ _ (by simp [SquaremDefault]) (by rw [v]; norm_num)
      (by rw [e1, v]; norm_num)]
    simp only [e1, v]
    simp [s250, stdMax, stdMin]
    norm_num
  have e4 : sqPnew 1 (SquaremState.mk [750] [750] 1 1 4 750 1498 true) [(1000 : ℝ)]
      [(1251 : ℝ)] 4 = [2766] := by
    simp [sqPnew, vecGet, List.range_succ]
    norm_num
  have e5 : sqRes ⟨Real.sqrt, Real.log, 2⁻¹ ^ 52, Real.pi⟩ 1 [(-2766 : ℝ)] [(2766 : ℝ)]
      = 5532 := by
    simp only [sqRes, sumLoop_one, vecGet]
    exact real_sqrt_of_mul_self 5532 _ (by norm_num) (by norm_num)
  have e6 : sqKres ⟨Real.sqrt, Real.log, 2⁻¹ ^ 52, Real.pi⟩ SquaremDefault 1 [(1000 : ℝ)]
      [(1251 : ℝ)] = 1503 := by
    simp only [sqKres, e2, sumLoop_one, vecGet]
    rw [real_sqrt_of_mul_self 1251 _ (by norm_num) (by norm_num)]
    simp [SquaremDefault]
    norm_num
  simp only [f1, f2, e1, e2, e3, e4, f3, e5, e6, s250]
  simp [SquaremDefault, sqTail]
  norm_num

/-- C12, as stated, fails. With the settings of `SquaremDefault` (`maxiter = 1500`) and the
total map `exampleCountOver` started at `[1]`, the first 749 rounds take two evaluations
each; round 750 starts with `feval = 1498 < maxiter` and evaluates the map three times
(`F(p)`, `F(p1)` and the stabilization `F(pnew)`), so the run reports `pfevals = 1501`, more
than `maxiter`. -/
theorem squarem_pfevals_exceeds_maxiter_counterexample :
    theta_squarem2 ⟨Real.sqrt, Real.log, 2⁻¹ ^ 52, Real.pi⟩ SquaremDefault exampleCountOver 0
        [(1 : ℝ)]
      = { par := [1251], valueobjfn := none, iter := 751, pfevals := 1501, objfevals := 0,
          convergence := false } ∧
    (SquaremDefault : SquaremControl ℝ).maxiter < 1501 := by
  refine ⟨?_, by simp [SquaremDefault]⟩
  unfold theta_squarem2
  simp only [List.length_singleton]
  rw [theta_loop_at_round _ _ _ 1 _ _ 749 rfl (example_over_after 0)
    (by simp [SquaremDefault]), example_over_round]
  simp [SquaremDefault, theta_squarem2_loop]

/-- The first round on `exampleFailingMap` started at `[0]`. -/
theorem example_failing_round_one :
    theta_squarem2_round ⟨Real.sqrt, Real.log, 2⁻¹ ^ 52, Real.pi⟩ SquaremDefault
      exampleFailingMap 1 (squaremStart SquaremDefault 0 [0])
    = SquaremStep.next (SquaremState.mk [21] [21] 1 1 4 2 2 true : SquaremState ℝ) := by
  rw [theta_round_view]
  have e1 : sqSr2 1 [0] [(10 : ℝ)] = 100 := by
    simp [sqSr2, sumLoop_one, vecGet]
    norm_num
  have e2 : sqSq2 ⟨Real.sqrt, Real.log, 2⁻¹ ^ 52, Real.pi⟩ 1 [(10 : ℝ)] [(21 : ℝ)] = 11 := by
    simp only [sqSq2, sumLoop_one, vecGet]
    exact real_sqrt_of_mul_self 11 _ (by norm_num) (by norm_num)
  have e3 : sqAlpha ⟨Real.sqrt, Real.log, 2⁻¹ ^ 52, Real.pi⟩ SquaremDefault 1
      (squaremStart SquaremDefault 0 [0]) [(10 : ℝ)] [(21 : ℝ)] = 1 :=
    sqAlpha_eq_one _ _ _ _ _ _ rfl rfl
  have e4 : sqPnew 1 (squaremStart SquaremDefault 0 [0]) [(10 : ℝ)] [(21 : ℝ)] 1 = [21] := by
    simp [sqPnew, squaremStart, vecGet, List.range_succ]
  have f1 : exampleFailingMap [(0 : ℝ)] = some [10] := by simp [exampleFailingMap]
  have f2 : exampleFailingMap [(10 : ℝ)] = some [21] := by simp [exampleFailingMap]
  have s100 : Real.sqrt 100 = 10 := real_sqrt_of_mul_self 10 _ (by norm_num) (by norm_num)
  simp only [squaremStart] at e1 e2 e3 e4 ⊢
  simp only [f1, f2, e1, e2, e3, e4, s100]
  simp [SquaremDefault, sqTail]
  norm_num

/-- The proposed point of the second round on `exampleFailingMap` is `[117]`. -/
theorem example_failing_pnew :
    sqPnew 1 (SquaremState.mk [21] [21] 1 1 4 2 2 true) [(31 : ℝ)] [(42 : ℝ)] 4 = [117] := by
  simp [sqPnew, vecGet, List.range_succ]
  norm_num

/-- The second round on `exampleFailingMap`: the stabilization evaluation `F([117])` fails
and the round goes on to its end with the fallback `p2 = [42]`. -/
theorem example_failing_round_two :
    theta_squarem2_round ⟨Real.sqrt, Real.log, 2⁻¹ ^ 52, Real.pi⟩ SquaremDefault
      exampleFailingMap 1 (SquaremState.mk [21] [21] 1 1 4 2 2 true)
    = SquaremStep.next (SquaremState.mk [42] [42] 1 1 4 3 4 false : SquaremState ℝ) := by
  rw [theta_round_view]
  have s100 : Real.sqrt 100 = 10 := real_sqrt_of_mul_self 10 _ (by norm_num) (by norm_num)
  have e1 : sqSr2 1 [21] [(31 : ℝ)] = 100 := by
    simp [sqSr2, sumLoop_one, vecGet]
    norm_num
  have e2 : sqSq2 ⟨Real.sqrt, Real.log, 2⁻¹ ^ 52, Real.pi⟩ 1 [(31 : ℝ)] [(42 : ℝ)] = 11 := by
    simp only [sqSq2, sumLoop_one, vecGet]
    exact real_sqrt_of_mul_self 11 _ (by norm_num) (by norm_num)
  have e3 := example_jump_alpha_two
  have e4 := example_failing_pnew
  have f1 : exampleFailingMap [(21 : ℝ)] = some [31] := by
    simp [exampleFailingMap]
  have f2 : exampleFailingMap [(31 : ℝ)] = some [42] := by
    simp [exampleFailingMap]
  have f3 : exampleFailingMap [(117 : ℝ)] = none := by
    simp [exampleFailingMap]
  simp only [f1, f2, e1, e2, e3, e4, f3, s100]
  simp [SquaremDefault, sqTail, stdMax]
  norm_num

/-- The third round on `exampleFailingMap`: `[42]` is a fixed point and the round leaves the
loop through `break` after one evaluation. -/
theorem example_failing_round_three :
    theta_squarem2_round ⟨Real.sqrt, Real.log, 2⁻¹ ^ 52, Real.pi⟩ SquaremDefault
      exampleFailingMap 1 (SquaremState.mk [42] [42] 1 1 4 3 4 false)
    = SquaremStep.leave (SquaremState.mk [42] [42] 1 1 4 3 5 true : SquaremState ℝ) := by
  rw [theta_round_view]
  have f1 : exampleFailingMap [(42 : ℝ)] = some [42] := by
    simp only [exampleFailingMap, List.map]
    norm_num
  have e1 : sqSr2 1 [42] [(42 : ℝ)] = 0 := by
    simp [sqSr2, sumLoop_one, vecGet]
  simp only [f1, e1]
  simp [SquaremDefault]

/-- The run on `exampleFailingMap` started at `[0]`, after two rounds. -/
theorem example_failing_after_two :
    theta_squarem2_after ⟨Real.sqrt, Real.log, 2⁻¹ ^ 52, Real.pi⟩ SquaremDefault
      exampleFailingMap 1 2 (squaremStart SquaremDefault 0 [0])
    = some (SquaremState.mk [42] [42] 1 1 4 3 4 false : SquaremState ℝ) := by
  rw [theta_after_shift _ _ _ 1 _ _ (by simp [squaremStart, SquaremDefault])
    example_failing_round_one 1]
  unfold theta_squarem2_after theta_squarem2_after
  simp only
  rw [if_pos (by simp [SquaremDefault]), example_failing_round_two]

/-- C13, as stated, fails. With the settings of `SquaremDefault` and the map
`exampleFailingMap` started at `[0]`, the second round proposes `pnew = [117]` with
`alpha = 4`, and the stabilization evaluation `F([117])` fails.  The run is not aborted: the
handler falls back to `p2 = [42]`, the third round finds the fixed point, and the function
returns `par = [42]`, `iter = 3`, `pfevals = 5`, `convergence = true`, not `sqobjnull`. -/
theorem squarem_failed_stabilization_counterexample :
    sqAlpha ⟨Real.sqrt, Real.log, 2⁻¹ ^ 52, Real.pi⟩ SquaremDefault 1
        (SquaremState.mk [21] [21] 1 1 4 2 2 true) [(31 : ℝ)] [(42 : ℝ)] = 4 ∧
    sqPnew 1 (SquaremState.mk [21] [21] 1 1 4 2 2 true) [(31 : ℝ)] [(42 : ℝ)] 4 = [117] ∧
    exampleFailingMap [(117 : ℝ)] = none ∧
    theta_squarem2_round ⟨Real.sqrt, Real.log, 2⁻¹ ^ 52, Real.pi⟩ SquaremDefault
        exampleFailingMap 1 (SquaremState.mk [21] [21] 1 1 4 2 2 true)
      = SquaremStep.next (SquaremState.mk [42] [42] 1 1 4 3 4 false : SquaremState ℝ) ∧
    theta_squarem2 ⟨Real.sqrt, Real.log, 2⁻¹ ^ 52, Real.pi⟩ SquaremDefault exampleFailingMap 0
        [(0 : ℝ)]
      = { par := [42], valueobjfn := none, iter := 3, pfevals := 5, objfevals := 0,
          convergence := true } ∧
    theta_squarem2 ⟨Real.sqrt, Real.log, 2⁻¹ ^ 52, Real.pi⟩ SquaremDefault exampleFailingMap 0
        [(0 : ℝ)] ≠ sqobjnull := by
  have h : theta_squarem2 ⟨Real.sqrt, Real.log, 2⁻¹ ^ 52, Real.pi⟩ SquaremDefault
      exampleFailingMap 0 [(0 : ℝ)]
      = { par := [42], valueobjfn := none, iter := 3, pfevals := 5, objfevals := 0,
          convergence := true } := by
    unfold theta_squarem2
    simp only [List.length_singleton]
    rw [theta_loop_at_round _ _ _ 1 _ _ 2 rfl example_failing_after_two
      (by simp [SquaremDefault]), example_failing_round_three]
    simp [SquaremDefault]
  refine ⟨example_jump_alpha_two, example_failing_pnew, by simp [exampleFailingMap],
    example_failing_round_two, h, ?_⟩
  rw [h]
  simp [sqobjnull]

end SquaremCountReal

/-! ## The fixed-point map of the initial values -/

section InitFixpt

variable {α : Type} [LinearOrderedField α]

/-- A loop that adds one term per pass computes the sum of the terms. -/
theorem foldl_add_eq_sum (f : Nat → α) (n : Nat) :
    (List.range n).foldl (fun acc i => acc + f i) 0 = ((List.range n).map f).sum := by
  induction n with
  | zero => simp
  | succ n ih =>
    rw [List.range_succ, List.foldl_append, ih]
    simp

/-- Two sparse matrices with the same dimensions and the same slots are equal. -/
theorem SparseMatrix.eq_of_coeff {β : Type} (M N : SparseMatrix β) (hr : M.rows = N.rows)
    (hc : M.cols = N.cols) (h : ∀ r c, M.coeff r c = N.coeff r c) : M = N := by
  cases M
  cases N
  simp only [SparseMatrix.mk.injEq]
  exact ⟨hr, hc, funext fun r => funext fun c => h r c⟩

/-- On an empty destination of the dimension of the prior, `makeQt` leaves the precision
matrix. -/
theorem makeQt_empty (n : Nat) (kappa2 : α) (spde : Spde α) (hdim : spde.Dim n) :
    makeQt (SparseMatrix.empty n n) kappa2 spde = Precision kappa2 spde := by
  obtain ⟨h1, h2, h3⟩ := makeQt_coeff (SparseMatrix.empty n n) kappa2 spde
  have hr : (Precision kappa2 spde).rows = n := by
    rw [Precision_rows]
    exact hdim.1.1
  have hc : (Precision kappa2 spde).cols = n := by
    rw [Precision_cols]
    exact hdim.1.2.1
  refine SparseMatrix.eq_of_coeff _ _ (h1.trans hr.symm) (h2.trans hc.symm) (fun r c => ?_)
  rw [h3 r c]
  by_cases hin : r < (Precision kappa2 spde).rows ∧ c < (Precision kappa2 spde).cols
  · rw [if_pos hin]
    cases (Precision kappa2 spde).coeff r c <;> rfl
  · rw [if_neg hin]
    cases hP : (Precision kappa2 spde).coeff r c with
    | none => rfl
    | some v =>
      exfalso
      apply hin
      rw [hr, hc]
      exact Precision_WF kappa2 spde n hdim r c (by simp [SparseMatrix.stored, hP])

/-- C16. For `theta = (kappa2, phi)`, `n_sess ≥ 1`, a prior of dimension `n` and `w` of
length `n * n_sess`: once the fuel suffices, `kappa2BrentInit` on `[0, 50]` with `phi` at its
incoming value returns a point `kappa2'`, and `init_fixptC` returns `(kappa2', phi')` with
`phi' = (sum over sessions of w_sᵀ * Precision(kappa2') * w_s) / (4 * pi * n * n_sess)`,
whatever the incoming `kappa2` is.  The objective that `kappa2BrentInit` minimizes is
`kappa2 ↦ (sum over sessions of w_sᵀ * Precision(kappa2) * w_s) / (4 * pi * phi)
- logDetQt(kappa2, spde, n_sess)`.  The tolerance is positive, the library has
`2 ≤ sqrt(5) < 3` and `0 ≤ sqrt(DBL_EPSILON)`, and the field is Archimedean. -/
theorem init_fixptC_result [Archimedean α] (lib : CLib α)
    (ldlt : SparseMatrix α → SimplicialLDLT α) (w0 kappa2 phi : α) (w : List α)
    (spde : Spde α) (n : Nat) (n_sess : Int) (tol : α)
    (hdim : spde.Dim n) (hsess : 1 ≤ n_sess) (hw : w.length = n * n_sess.toNat)
    (htol : 0 < tol)
    (h5 : 2 ≤ lib.sqrt 5) (h5' : lib.sqrt 5 < 3) (heps : 0 ≤ lib.sqrt lib.DBL_EPSILON) :
    (∃ (N : Nat) (kappa2' : α), ∀ fuel, N ≤ fuel →
      kappa2BrentInit lib ldlt fuel w0 0 50 phi spde w n_sess tol = some kappa2' ∧
      init_fixptC lib ldlt fuel w0 [kappa2, phi] w spde n_sess tol
        = some [kappa2', sessionQuadForm (Precision kappa2' spde) w n n_sess.toNat
            / (4 * lib.M_PI * (n : α) * (n_sess : α))] ∧
      ∀ kappa2_other, init_fixptC lib ldlt fuel w0 [kappa2_other, phi] w spde n_sess tol
        = init_fixptC lib ldlt fuel w0 [kappa2, phi] w spde n_sess tol) ∧
    (∀ x, kappa2InitObj lib ldlt x phi spde w n_sess
      = sessionQuadForm (Precision x spde) w n n_sess.toNat / (4 * lib.M_PI * phi)
        - logDetQt lib ldlt x spde n_sess) := by
  have hn : spde.Cmat.rows = n := hdim.1.1
  have hs0 : ¬ n_sess = 0 := by omega
  have hdiv : Int.tdiv (w.length : Int) n_sess = n := by
    rw [hw]
    push_cast
    rw [Int.toNat_of_nonneg (by omega)]
    exact Int.mul_tdiv_cancel _ hs0
  have hval : ∀ (fuel : Nat) (k0 x : α),
      kappa2BrentInit lib ldlt fuel w0 0 50 phi spde w n_sess tol = some x →
      init_fixptC lib ldlt fuel w0 [k0, phi] w spde n_sess tol
        = some [x, sessionQuadForm (Precision x spde) w n n_sess.toNat
            / (4 * lib.M_PI * (n : α) * (n_sess : α))] := by
    intro fuel k0 x hx
    unfold init_fixptC
    simp only [if_neg hs0, hdiv, vecGet, List.getD_cons_succ, List.getD_cons_zero, hx,
      List.set_cons_zero, List.set_cons_succ, Int.toNat_ofNat, Int.cast_natCast]
    rw [makeQt_empty n x spde hdim, sessionQuadForm, ← foldl_add_eq_sum]
  refine ⟨?_, fun x => ?_⟩
  · obtain ⟨N, s1, _, _, hrun⟩ := brentMin_run lib
      (fun x => kappa2InitObj lib ldlt x phi spde w n_sess) w0 0 50 tol (fun _ => True)
      (by norm_num) htol h5 h5' heps trivial (fun _ _ _ => trivial)
    refine ⟨N, s1.x, fun fuel hf => ⟨hrun fuel hf, hval fuel kappa2 s1.x (hrun fuel hf), ?_⟩⟩
    intro k0
    rw [hval fuel k0 s1.x (hrun fuel hf), hval fuel kappa2 s1.x (hrun fuel hf)]
  · unfold kappa2InitObj
    simp only [hn]
    rw [makeQt_empty n x spde hdim, sessionQuadForm, ← foldl_add_eq_sum]

end InitFixpt

theorem exampleUnitSpde_Dim : (exampleUnitSpde ℝ).Dim 1 := by
  refine ⟨⟨rfl, rfl, ofFn_WF _ _⟩, ⟨rfl, rfl, ofFn_WF _ _⟩, ⟨rfl, rfl, ofFn_WF _ _⟩⟩

/-- Witness of C16: the one-vertex prior, one session, `w = [3]`, `theta = (2, 1)` and
`tol = 1/1000`, with the real square root. -/
theorem init_fixptC_result_witness :
    ((exampleUnitSpde ℝ).Dim 1 ∧ (1 : Int) ≤ 1 ∧ [(3 : ℝ)].length = 1 * (1 : Int).toNat ∧
      (0 : ℝ) < 1 / 1000 ∧
      2 ≤ (⟨Real.sqrt, Real.log, 2⁻¹ ^ 52, Real.pi⟩ : CLib ℝ).sqrt 5 ∧
      (⟨Real.sqrt, Real.log, 2⁻¹ ^ 52, Real.pi⟩ : CLib ℝ).sqrt 5 < 3 ∧
      0 ≤ (⟨Real.sqrt, Real.log, 2⁻¹ ^ 52, Real.pi⟩ : CLib ℝ).sqrt
        (⟨Real.sqrt, Real.log, 2⁻¹ ^ 52, Real.pi⟩ : CLib ℝ).DBL_EPSILON) ∧
    ∃ (N : Nat) (kappa2' : ℝ), ∀ fuel, N ≤ fuel →
      kappa2BrentInit ⟨Real.sqrt, Real.log, 2⁻¹ ^ 52, Real.pi⟩ (exampleUnitLDLT ℝ) fuel 0 0 50 1
        (exampleUnitSpde ℝ) [3] 1 (1 / 1000) = some kappa2' ∧
      init_fixptC ⟨Real.sqrt, Real.log, 2⁻¹ ^ 52, Real.pi⟩ (exampleUnitLDLT ℝ) fuel 0 [2, 1] [3]
          (exampleUnitSpde ℝ) 1 (1 / 1000)
        = some [kappa2', sessionQuadForm (Precision kappa2' (exampleUnitSpde ℝ)) [3] 1
            (1 : Int).toNat
            / (4 * (⟨Real.sqrt, Real.log, 2⁻¹ ^ 52, Real.pi⟩ : CLib ℝ).M_PI * ((1 : Nat) : ℝ)
              * ((1 : Int) : ℝ))] ∧
      ∀ kappa2_other,
        init_fixptC ⟨Real.sqrt, Real.log, 2⁻¹ ^ 52, Real.pi⟩ (exampleUnitLDLT ℝ) fuel 0
          [kappa2_other, 1] [3] (exampleUnitSpde ℝ) 1 (1 / 1000)
        = init_fixptC ⟨Real.sqrt, Real.log, 2⁻¹ ^ 52, Real.pi⟩ (exampleUnitLDLT ℝ) fuel 0 [2, 1]
          [3] (exampleUnitSpde ℝ) 1 (1 / 1000) :=
  ⟨⟨exampleUnitSpde_Dim, le_refl _, rfl, by norm_num, real_sqrt_five.1, real_sqrt_five.2,
      Real.sqrt_nonneg _⟩,
    (init_fixptC_result ⟨Real.sqrt, Real.log, 2⁻¹ ^ 52, Real.pi⟩ (exampleUnitLDLT ℝ) 0 2 1 [3]
      (exampleUnitSpde ℝ) 1 1 (1 / 1000) exampleUnitSpde_Dim (le_refl _) rfl (by norm_num)
      real_sqrt_five.1 real_sqrt_five.2 (Real.sqrt_nonneg _)).1⟩



/-! ## The joint precision that the EM fixed-point map assembles -/

section StampBlock

variable {α : Type}

/-- The body of the loops of `setSparseBlock_update`:
`A->coeffRef(it.row() + i, it.col() + j) = it.value()`. -/
theorem visit_stamp_coeff (B Q : SparseMatrix α) (i j k m : Nat) :
    (B.visit (fun A row col value => SparseMatrix.coeffRefAssign A (row + i) (col + j) value)
        k Q m).rows = Q.rows ∧
    (B.visit (fun A row col value => SparseMatrix.coeffRefAssign A (row + i) (col + j) value)
        k Q m).cols = Q.cols ∧
    ∀ r c, (B.visit (fun A row col value =>
        SparseMatrix.coeffRefAssign A (row + i) (col + j) value) k Q m).coeff r c =
      if r = m + i ∧ c = k + j then (B.coeff m k).orElse (fun _ => Q.coeff r c)
      else Q.coeff r c := by
  unfold SparseMatrix.visit
  cases hB : B.coeff m k with
  | none =>
    refine ⟨rfl, rfl, fun r c => ?_⟩
    by_cases h : r = m + i ∧ c = k + j
    · simp [h]
    · simp [h]
  | some v =>
    refine ⟨rfl, rfl, fun r c => ?_⟩
    by_cases h : r = m + i ∧ c = k + j
    · simp [h, SparseMatrix.coeffRefAssign]
    · simp [h, SparseMatrix.coeffRefAssign]

/-- The inner loop of `setSparseBlock_update` over column `k` of `B`, stopped after the rows
below `m`. -/
theorem inner_stamp_coeff (B Q : SparseMatrix α) (i j k m : Nat) :
    ((List.range m).foldl (B.visit (fun A row col value =>
      SparseMatrix.coeffRefAssign A (row + i) (col + j) value) k) Q).rows = Q.rows ∧
    ((List.range m).foldl (B.visit (fun A row col value =>
      SparseMatrix.coeffRefAssign A (row + i) (col + j) value) k) Q).cols = Q.cols ∧
    ∀ r c, ((List.range m).foldl (B.visit (fun A row col value =>
      SparseMatrix.coeffRefAssign A (row + i) (col + j) value) k) Q).coeff r c =
      if c = k + j ∧ i ≤ r ∧ r - i < m then (B.coeff (r - i) k).orElse (fun _ => Q.coeff r c)
      else Q.coeff r c := by
  induction m with
  | zero => simp
  | succ m ih =>
    obtain ⟨h1, h2, h3⟩ := ih
    rw [foldl_range_succ_apply]
    obtain ⟨g1, g2, g3⟩ := visit_stamp_coeff B ((List.range m).foldl
      (B.visit (fun A row col value =>
        SparseMatrix.coeffRefAssign A (row + i) (col + j) value) k) Q) i j k m
    refine ⟨g1.trans h1, g2.trans h2, fun r c => ?_⟩
    rw [g3 r c, h3 r c]
    by_cases hc : c = k + j
    · by_cases hrm : r = m + i
      · subst hrm
        have e1 : m + i - i = m := by omega
        simp [hc, e1]
      · by_cases hr : i ≤ r ∧ r - i < m
        · have : i ≤ r ∧ r - i < m + 1 := ⟨hr.1, by omega⟩
          simp [hc, hrm, hr, this]
        · have : ¬ (i ≤ r ∧ r - i < m + 1) := by
            intro h
            apply hr
            refine ⟨h.1, ?_⟩
            omega
          simp [hc, hrm, hr, this]
    · simp [hc]

/-- The two loops of `setSparseBlock_update`, stopped after the columns below `m`. -/
theorem outer_stamp_coeff (B Q : SparseMatrix α) (i j m : Nat) :
    ((List.range m).foldl (fun acc k => (List.range B.rows).foldl (B.visit (fun A row col value
      => SparseMatrix.coeffRefAssign A (row + i) (col + j) value) k) acc) Q).rows = Q.rows ∧
    ((List.range m).foldl (fun acc k => (List.range B.rows).foldl (B.visit (fun A row col value
      => SparseMatrix.coeffRefAssign A (row + i) (col + j) value) k) acc) Q).cols = Q.cols ∧
    ∀ r c, ((List.range m).foldl (fun acc k => (List.range B.rows).foldl
      (B.visit (fun A row col value =>
        SparseMatrix.coeffRefAssign A (row + i) (col + j) value) k) acc) Q).coeff r c =
      if (i ≤ r ∧ r - i < B.rows) ∧ (j ≤ c ∧ c - j < m) then
        (B.coeff (r - i) (c - j)).orElse (fun _ => Q.coeff r c)
      else Q.coeff r c := by
  induction m with
  | zero => simp
  | succ m ih =>
    obtain ⟨h1, h2, h3⟩ := ih
    rw [foldl_range_succ_apply]
    obtain ⟨g1, g2, g3⟩ := inner_stamp_coeff B ((List.range m).foldl
      (fun acc k => (List.range B.rows).foldl (B.visit (fun A row col value =>
        SparseMatrix.coeffRefAssign A (row + i) (col + j) value) k) acc) Q) i j m B.rows
    refine ⟨g1.trans h1, g2.trans h2, fun r c => ?_⟩
    rw [g3 r c, h3 r c]
    by_cases hr : i ≤ r ∧ r - i < B.rows
    · by_cases hc : c = m + j
      · subst hc
        have e1 : m + j - j = m := by omega
        simp [hr, e1]
      · by_cases hcm : j ≤ c ∧ c - j < m
        · have : j ≤ c ∧ c - j < m + 1 := ⟨hcm.1, by omega⟩
          simp [hr, hc, hcm, this]
        · have : ¬ (j ≤ c ∧ c - j < m + 1) := by
            intro h
            apply hcm
            refine ⟨h.1, ?_⟩
            omega
          simp [hr, hc, hcm, this]
    · have hr' : ¬ (m + j = c ∧ i ≤ r ∧ r - i < B.rows) := fun h => hr h.2
      have hr'' : ¬ (c = m + j ∧ i ≤ r ∧ r - i < B.rows) := fun h => hr h.2
      simp [hr, hr'']

/-- What `setSparseBlock_update` leaves in the destination, for a block `B` that stores
nothing outside its dimensions: the stored slots of `B`, moved by `(i, j)`, overwrite those
of `A`; every other slot of `A` is kept, and so are its dimensions. -/
theorem setSparseBlock_update_coeff (A B : SparseMatrix α) (i j : Nat) (hB : B.WF) :
    (setSparseBlock_update A i j B).rows = A.rows ∧
    (setSparseBlock_update A i j B).cols = A.cols ∧
    ∀ r c, (setSparseBlock_update A i j B).coeff r c =
      if i ≤ r ∧ j ≤ c then (B.coeff (r - i) (c - j)).orElse (fun _ => A.coeff r c)
      else A.coeff r c := by
  obtain ⟨h1, h2, h3⟩ := outer_stamp_coeff B A i j B.cols
  refine ⟨h1, h2, fun r c => ?_⟩
  unfold setSparseBlock_update SparseMatrix.forEachStored
  rw [h3 r c]
  by_cases h : i ≤ r ∧ j ≤ c
  · rw [if_pos h]
    by_cases hin : (i ≤ r ∧ r - i < B.rows) ∧ (j ≤ c ∧ c - j < B.cols)
    · rw [if_pos hin]
    · rw [if_neg hin]
      cases hc : B.coeff (r - i) (c - j) with
      | none => rfl
      | some v =>
        exfalso
        apply hin
        obtain ⟨w1, w2⟩ := hB (r - i) (c - j) (by simp [SparseMatrix.stored, hc])
        exact ⟨⟨h.1, w1⟩, ⟨h.2, w2⟩⟩
  · rw [if_neg h, if_neg]
    intro hin
    exact h ⟨hin.1.1, hin.2.1⟩

end StampBlock

section JointPrecision

variable {α : Type} [LinearOrderedField α]

/-- On a destination of the dimension of the prior that stores nothing outside the pattern
of the prior, `makeQt` leaves the precision matrix: every stored value is overwritten. -/
theorem makeQt_in_pattern (n : Nat) (M : SparseMatrix α) (kappa2 : α) (spde : Spde α)
    (hdim : spde.Dim n) (hM : InPriorPattern spde n M) :
    makeQt M kappa2 spde = Precision kappa2 spde := by
  obtain ⟨h1, h2, h3⟩ := makeQt_coeff M kappa2 spde
  obtain ⟨m1, m2, m3⟩ := hM
  have hr : (Precision kappa2 spde).rows = n := by
    rw [Precision_rows]
    exact hdim.1.1
  have hc : (Precision kappa2 spde).cols = n := by
    rw [Precision_cols]
    exact hdim.1.2.1
  have hnone : ∀ r c, (Precision kappa2 spde).coeff r c = none → M.coeff r c = none := by
    intro r c hP
    cases hMc : M.coeff r c with
    | none => rfl
    | some v =>
      exfalso
      have hs := (Precision_stored kappa2 spde r c).2 (m3 r c (by simp [SparseMatrix.stored, hMc]))
      simp [SparseMatrix.stored, hP] at hs
  refine SparseMatrix.eq_of_coeff _ _ (h1.trans (m1.trans hr.symm)) (h2.trans (m2.trans hc.symm))
    (fun r c => ?_)
  rw [h3 r c]
  cases hP : (Precision kappa2 spde).coeff r c with
  | none =>
    rw [hnone r c hP]
    simp
  | some v =>
    have hs : (Precision kappa2 spde).stored r c := by simp [SparseMatrix.stored, hP]
    obtain ⟨w1, w2⟩ := Precision_WF kappa2 spde n hdim r c hs
    rw [if_pos ⟨by rw [hr]; exact w1, by rw [hc]; exact w2⟩]
    rfl

/-- The scaled precision matrix has the dimension and the pattern of the prior. -/
theorem sdiv_in_pattern (n : Nat) (kappa2 d : α) (spde : Spde α) (hdim : spde.Dim n) :
    InPriorPattern spde n ((Precision kappa2 spde).sdiv d) := by
  refine ⟨hdim.1.1, hdim.1.2.1, fun r c h => ?_⟩
  apply (Precision_stored kappa2 spde r c).1
  unfold SparseMatrix.stored SparseMatrix.sdiv at h
  unfold SparseMatrix.stored
  cases hP : (Precision kappa2 spde).coeff r c with
  | none => simp [hP] at h
  | some v => rfl

/-- The scaled precision matrix stores nothing outside its dimensions. -/
theorem sdiv_WF (n : Nat) (kappa2 d : α) (spde : Spde α) (hdim : spde.Dim n) :
    ((Precision kappa2 spde).sdiv d).WF := by
  intro r c h
  have hs : (Precision kappa2 spde).stored r c := by
    unfold SparseMatrix.stored SparseMatrix.sdiv at h
    unfold SparseMatrix.stored
    cases hP : (Precision kappa2 spde).coeff r c with
    | none => simp [hP] at h
    | some v => rfl
  obtain ⟨w1, w2⟩ := Precision_WF kappa2 spde n hdim r c hs
  have e1 : ((Precision kappa2 spde).sdiv d).rows = n := hdim.1.1
  have e2 : ((Precision kappa2 spde).sdiv d).cols = n := hdim.1.2.1
  rw [e1, e2]
  exact ⟨w1, w2⟩

/-- The rows of the diagonal block number `b` of size `n`. -/
theorem block_index (n b r : Nat) (hn : 0 < n) :
    (b * n ≤ r ∧ r - b * n < n) ↔ r / n = b := by
  constructor
  · rintro ⟨h1, h2⟩
    apply Nat.le_antisymm
    · have : r < (b + 1) * n := by
        rw [Nat.add_mul, Nat.one_mul]
        omega
      exact Nat.lt_succ_iff.1 ((Nat.div_lt_iff_lt_mul hn).2 this)
    · exact (Nat.le_div_iff_mul_le hn).2 h1
  · intro h
    have h1 := Nat.div_add_mod r n
    have h2 := Nat.mod_lt r hn
    rw [h, Nat.mul_comm] at h1
    constructor <;> omega

theorem block_offset (n b r : Nat) (h : r / n = b) : r % n = r - b * n := by
  have h1 := Nat.div_add_mod r n
  rw [h, Nat.mul_comm] at h1
  omega

theorem block_task (K m j : Nat) (hm : m < K) : (m + j * K) % K = m ∧ (m + j * K) / K = j := by
  constructor
  · rw [Nat.add_mul_mod_self_right]
    exact Nat.mod_eq_of_lt hm
  · rw [Nat.add_mul_div_right _ _ (by omega), Nat.div_eq_of_lt hm]
    omega

/-- The slots of the scaled precision matrix. -/
theorem sdiv_coeff (kappa2 d : α) (spde : Spde α) (i j : Nat) :
    ((Precision kappa2 spde).sdiv d).coeff i j =
      if (Precision kappa2 spde).stored i j then
        some ((Precision kappa2 spde).value i j / d)
      else none := by
  by_cases hs : (Precision kappa2 spde).stored i j
  · rw [if_pos hs]
    unfold SparseMatrix.stored at hs
    obtain ⟨v, hv⟩ := Option.isSome_iff_exists.1 hs
    simp [SparseMatrix.sdiv, SparseMatrix.value, hv]
  · rw [if_neg hs]
    unfold SparseMatrix.stored at hs
    have hv : (Precision kappa2 spde).coeff i j = none := by
      cases h : (Precision kappa2 spde).coeff i j with
      | none => rfl
      | some v => simp [h] at hs
    simp [SparseMatrix.sdiv, hv]

/-- Stamping the block of task `m` and session `j` adds that block to the blocks stamped so
far. -/
theorem stamp_step (lib : CLib α) (theta : List α) (spde : Spde α) (K n : Nat)
    (hn : 0 < n) (hdim : spde.Dim n) (sel : Nat → Nat → Bool) (QK0 Q : SparseMatrix α)
    (m j : Nat) (hm : m < K)
    (hQ : ∀ r c, Q.coeff r c = jointCoeff lib theta spde K n sel QK0 r c) :
    ∀ r c, (setSparseBlock_update Q (m * n + j * K * n) (m * n + j * K * n)
        ((Precision (vecGet theta m) spde).sdiv (4 * lib.M_PI * vecGet theta (m + K)))).coeff r c
      = jointCoeff lib theta spde K n
          (fun k ns => sel k ns || (decide (k = m) && decide (ns = j))) QK0 r c := by
  intro r c
  obtain ⟨_, _, h3⟩ := setSparseBlock_update_coeff Q
    ((Precision (vecGet theta m) spde).sdiv (4 * lib.M_PI * vecGet theta (m + K)))
    (m * n + j * K * n) (m * n + j * K * n) (sdiv_WF n _ _ spde hdim)
  rw [h3 r c, sdiv_coeff]
  have hoff : m * n + j * K * n = (m + j * K) * n := by ring
  obtain ⟨t1, t2⟩ := block_task K m j hm
  by_cases hit : (m * n + j * K * n ≤ r ∧ m * n + j * K * n ≤ c) ∧
      (Precision (vecGet theta m) spde).stored (r - (m * n + j * K * n))
        (c - (m * n + j * K * n))
  · obtain ⟨⟨hr, hc⟩, hs⟩ := hit
    obtain ⟨w1, w2⟩ := Precision_WF _ spde n hdim _ _ hs
    rw [hoff] at hr hc w1 w2
    have br := (block_index n (m + j * K) r hn).1 ⟨hr, w1⟩
    have bc := (block_index n (m + j * K) c hn).1 ⟨hc, w2⟩
    have mr := block_offset n _ r br
    have mc := block_offset n _ c bc
    rw [if_pos ⟨by rw [hoff]; exact hr, by rw [hoff]; exact hc⟩, if_pos hs]
    unfold jointCoeff
    rw [br, bc, t1, t2, mr, mc, ← hoff]
    rw [if_pos ⟨rfl, by simp, hs⟩]
    rfl
  · have hkeep : (if m * n + j * K * n ≤ r ∧ m * n + j * K * n ≤ c then
          (if (Precision (vecGet theta m) spde).stored (r - (m * n + j * K * n))
              (c - (m * n + j * K * n)) then
            some ((Precision (vecGet theta m) spde).value (r - (m * n + j * K * n))
              (c - (m * n + j * K * n)) / (4 * lib.M_PI * vecGet theta (m + K)))
          else none).orElse (fun _ => Q.coeff r c)
        else Q.coeff r c) = Q.coeff r c := by
      by_cases h1 : m * n + j * K * n ≤ r ∧ m * n + j * K * n ≤ c
      · rw [if_pos h1, if_neg (fun hs => hit ⟨h1, hs⟩)]
        rfl
      · rw [if_neg h1]
    rw [hkeep, hQ r c]
    unfold jointCoeff
    have hno : ¬ (r / n = c / n ∧ (r / n % K = m ∧ r / n / K = j) ∧
        (Precision (vecGet theta (r / n % K)) spde).stored (r % n) (c % n)) := by
      rintro ⟨e1, ⟨e2, e3⟩, e4⟩
      have hb : r / n = m + j * K := by
        have := Nat.mod_add_div (r / n) K
        rw [e2, e3, Nat.mul_comm] at this
        exact this.symm
      have hbc : c / n = m + j * K := by rw [← e1, hb]
      obtain ⟨p1, p2⟩ := (block_index n _ r hn).2 hb
      obtain ⟨q1, _⟩ := (block_index n _ c hn).2 hbc
      apply hit
      rw [hoff]
      refine ⟨⟨p1, q1⟩, ?_⟩
      rw [← block_offset n _ r hb, ← block_offset n _ c hbc, ← e2]
      exact e4
    by_cases hc1 : r / n = c / n ∧ sel (r / n % K) (r / n / K) = true ∧
        (Precision (vecGet theta (r / n % K)) spde).stored (r % n) (c % n)
    · rw [if_pos hc1, if_pos ⟨hc1.1, by simp [hc1.2.1], hc1.2.2⟩]
    · rw [if_neg hc1, if_neg]
      rintro ⟨e1, e2, e3⟩
      simp only [Bool.or_eq_true, Bool.and_eq_true, decide_eq_true_eq] at e2
      rcases e2 with e2 | e2
      · exact hc1 ⟨e1, e2, e3⟩
      · exact hno ⟨e1, e2, e3⟩

/-- The loop over the sessions of task `m` (lines 493-496), stopped after the sessions below
`j`. -/
theorem stamp_sessions (lib : CLib α) (theta : List α) (spde : Spde α) (K n : Nat)
    (hn : 0 < n) (hdim : spde.Dim n) (sel : Nat → Nat → Bool) (QK0 Q : SparseMatrix α)
    (m : Nat) (hm : m < K)
    (hQ : ∀ r c, Q.coeff r c = jointCoeff lib theta spde K n sel QK0 r c) (j : Nat) :
    ((List.range j).foldl (fun QK ns => setSparseBlock_update QK (m * n + ns * K * n)
      (m * n + ns * K * n)
      ((Precision (vecGet theta m) spde).sdiv (4 * lib.M_PI * vecGet theta (m + K)))) Q).rows
      = Q.rows ∧
    ((List.range j).foldl (fun QK ns => setSparseBlock_update QK (m * n + ns * K * n)
      (m * n + ns * K * n)
      ((Precision (vecGet theta m) spde).sdiv (4 * lib.M_PI * vecGet theta (m + K)))) Q).cols
      = Q.cols ∧
    ∀ r c, ((List.range j).foldl (fun QK ns => setSparseBlock_update QK (m * n + ns * K * n)
      (m * n + ns * K * n)
      ((Precision (vecGet theta m) spde).sdiv (4 * lib.M_PI * vecGet theta (m + K)))) Q).coeff
        r c
      = jointCoeff lib theta spde K n
          (fun k ns => sel k ns || (decide (k = m) && decide (ns < j))) QK0 r c := by
  induction j with
  | zero =>
    refine ⟨rfl, rfl, fun r c => ?_⟩
    simp only [List.range_zero, List.foldl_nil, Nat.not_lt_zero, decide_False, Bool.and_false,
      Bool.or_false]
    exact hQ r c
  | succ j ih =>
    obtain ⟨h1, h2, h3⟩ := ih
    rw [foldl_range_succ_apply]
    obtain ⟨g1, g2, _⟩ := setSparseBlock_update_coeff
      ((List.range j).foldl (fun QK ns => setSparseBlock_update QK (m * n + ns * K * n)
        (m * n + ns * K * n)
        ((Precision (vecGet theta m) spde).sdiv (4 * lib.M_PI * vecGet theta (m + K)))) Q)
      ((Precision (vecGet theta m) spde).sdiv (4 * lib.M_PI * vecGet theta (m + K)))
      (m * n + j * K * n) (m * n + j * K * n) (sdiv_WF n _ _ spde hdim)
    refine ⟨g1.trans h1, g2.trans h2, fun r c => ?_⟩
    rw [stamp_step lib theta spde K n hn hdim _ QK0 _ m j hm h3 r c]
    have hsel : (fun k ns => (sel k ns || (decide (k = m) && decide (ns < j)))
          || (decide (k = m) && decide (ns = j)))
        = (fun k ns => sel k ns || (decide (k = m) && decide (ns < j + 1))) := by
      funext k ns
      by_cases a1 : k = m <;> by_cases a2 : ns < j <;> by_cases a3 : ns = j <;>
        simp [a1, a2, a3] <;> omega
    rw [hsel]

/-- The first loop of `theta_fixpt` (lines 490-497), stopped after the tasks below `m`: the
local `Qk` has the pattern of the prior, and the blocks of the tasks below `m` are stamped
into `QK`. -/
theorem stamp_tasks (lib : CLib α) (theta : List α) (spde : Spde α) (K n n_sess : Nat)
    (hn : 0 < n) (hdim : spde.Dim n) (QK0 : SparseMatrix α) (m : Nat) (hm : m ≤ K) :
    InPriorPattern spde n ((List.range m).foldl (theta_fixpt_stamp lib theta spde K n n_sess)
      (SparseMatrix.empty n n, QK0)).1 ∧
    ((List.range m).foldl (theta_fixpt_stamp lib theta spde K n n_sess)
      (SparseMatrix.empty n n, QK0)).2.rows = QK0.rows ∧
    ((List.range m).foldl (theta_fixpt_stamp lib theta spde K n n_sess)
      (SparseMatrix.empty n n, QK0)).2.cols = QK0.cols ∧
    ∀ r c, ((List.range m).foldl (theta_fixpt_stamp lib theta spde K n n_sess)
      (SparseMatrix.empty n n, QK0)).2.coeff r c
      = jointCoeff lib theta spde K n (fun k ns => decide (k < m) && decide (ns < n_sess))
          QK0 r c := by
  induction m with
  | zero =>
    refine ⟨⟨rfl, rfl, fun r c h => ?_⟩, rfl, rfl, fun r c => ?_⟩
    · simp [SparseMatrix.stored, SparseMatrix.empty] at h
    · simp [jointCoeff]
  | succ m ih =>
    obtain ⟨i1, i2, i3, i4⟩ := ih (by omega)
    rw [foldl_range_succ_apply]
    generalize (List.range m).foldl (theta_fixpt_stamp lib theta spde K n n_sess)
      (SparseMatrix.empty n n, QK0) = st at i1 i2 i3 i4
    unfold theta_fixpt_stamp
    simp only
    rw [makeQt_in_pattern n st.1 (vecGet theta m) spde hdim i1]
    obtain ⟨g1, g2, g3⟩ := stamp_sessions lib theta spde K n hn hdim _ QK0 st.2 m (by omega) i4
      n_sess
    refine ⟨sdiv_in_pattern n _ _ spde hdim, g1.trans i2, g2.trans i3, fun r c => ?_⟩
    rw [g3 r c]
    have hsel : (fun k ns => (decide (k < m) && decide (ns < n_sess))
          || (decide (k = m) && decide (ns < n_sess)))
        = (fun k ns => decide (k < m + 1) && decide (ns < n_sess)) := by
      funext k ns
      by_cases a1 : k < m <;> by_cases a2 : k = m <;> by_cases a3 : ns < n_sess <;>
        simp [a1, a2, a3] <;> omega
    rw [hsel]

/-- The local copy `QK` after the first loop of `theta_fixpt` is the joint precision. -/
theorem theta_fixpt_QK_eq (lib : CLib α) (theta : List α) (A QK : SparseMatrix α)
    (spde : Spde α) (K n : Nat) (hlen : theta.length = 2 * K + 1) (hK : 0 < K) (hn : 0 < n)
    (hdim : spde.Dim n) :
    theta_fixpt_QK lib theta A QK spde
      = jointPrecision lib theta spde K n (A.rows / (n * K)) QK := by
  have hK' : (theta.length - 1) / 2 = K := by omega
  have hn' : spde.Cmat.rows = n := hdim.1.1
  unfold theta_fixpt_QK
  simp only [hK', hn']
  obtain ⟨_, h2, h3, h4⟩ := stamp_tasks lib theta spde K n (A.rows / (n * K)) hn hdim QK K
    (le_refl K)
  refine SparseMatrix.eq_of_coeff _ _ h2 h3 (fun r c => ?_)
  rw [h4 r c]
  unfold jointCoeff jointPrecision
  simp only
  have hlt : r / n % K < K := Nat.mod_lt _ hK
  simp [hlt]

/-- The entries of a sum of two sparse matrices. -/
theorem add_value (X Y : SparseMatrix α) (r c : Nat) :
    (X.add Y).value r c = X.value r c + Y.value r c := by
  unfold SparseMatrix.add SparseMatrix.value
  simp only
  cases X.coeff r c <;> cases Y.coeff r c <;> simp

/-- The entries of a sparse matrix divided by a scalar. -/
theorem sdiv_value (X : SparseMatrix α) (d : α) (r c : Nat) :
    (X.sdiv d).value r c = X.value r c / d := by
  unfold SparseMatrix.sdiv SparseMatrix.value
  simp only
  cases X.coeff r c <;> simp

/-- C20. For `theta` of length `2 K + 1` with `K ≥ 1` tasks, a prior of dimension `n ≥ 1` and
`n_sess = nKs / (n * K)`: the matrix `Sig_inv` that `theta_fixpt` factorizes is the sum of
its local `QK` and `A / sigma2`, where `sigma2 = theta[2 K]`, so that every entry is
`QK(r, c) + A(r, c) / sigma2`.  For every task `k < K` and session `ns < n_sess` the block
of `QK` at the offset `(k + ns * K) * n` holds `Precision(theta[k]) / (4 * pi * theta[K + k])`
on every slot that the precision stores, whatever was stamped before; every slot of `QK`
that is no such slot is the one of the incoming `QK`; the dimensions are those of the
incoming `QK`. -/
theorem theta_fixpt_Sig_inv_blocks (lib : CLib α) (theta : List α) (A QK : SparseMatrix α)
    (spde : Spde α) (K n : Nat) (hlen : theta.length = 2 * K + 1) (hK : 0 < K) (hn : 0 < n)
    (hdim : spde.Dim n) :
    theta_fixpt_Sig_inv lib theta A QK spde
      = (theta_fixpt_QK lib theta A QK spde).add (A.sdiv (vecGet theta (2 * K))) ∧
    (∀ r c, (theta_fixpt_Sig_inv lib theta A QK spde).value r c
      = (theta_fixpt_QK lib theta A QK spde).value r c + A.value r c / vecGet theta (2 * K)) ∧
    theta_fixpt_QK lib theta A QK spde
      = jointPrecision lib theta spde K n (A.rows / (n * K)) QK ∧
    (∀ k ns i j, k < K → ns < A.rows / (n * K) →
      (Precision (vecGet theta k) spde).stored i j →
      (theta_fixpt_QK lib theta A QK spde).coeff ((k + ns * K) * n + i) ((k + ns * K) * n + j)
        = some ((Precision (vecGet theta k) spde).value i j
            / (4 * lib.M_PI * vecGet theta (K + k)))) ∧
    (∀ r c, (∀ k ns i j, k < K → ns < A.rows / (n * K) →
        (Precision (vecGet theta k) spde).stored i j →
        ¬ (r = (k + ns * K) * n + i ∧ c = (k + ns * K) * n + j)) →
      (theta_fixpt_QK lib theta A QK spde).coeff r c = QK.coeff r c) ∧
    (theta_fixpt_QK lib theta A QK spde).rows = QK.rows ∧
    (theta_fixpt_QK lib theta A QK spde).cols = QK.cols := by
  have hsig : theta.length - 1 = 2 * K := by omega
  have h1 : theta_fixpt_Sig_inv lib theta A QK spde
      = (theta_fixpt_QK lib theta A QK spde).add (A.sdiv (vecGet theta (2 * K))) := by
    unfold theta_fixpt_Sig_inv
    simp only [hsig]
  have h3 := theta_fixpt_QK_eq lib theta A QK spde K n hlen hK hn hdim
  refine ⟨h1, fun r c => ?_, h3, ?_, ?_, ?_, ?_⟩
  · rw [h1, add_value, sdiv_value]
  · intro k ns i j hk hns hs
    obtain ⟨w1, w2⟩ := Precision_WF _ spde n hdim i j hs
    have br : ((k + ns * K) * n + i) / n = k + ns * K :=
      (block_index n _ _ hn).1 ⟨by omega, by omega⟩
    have bc : ((k + ns * K) * n + j) / n = k + ns * K :=
      (block_index n _ _ hn).1 ⟨by omega, by omega⟩
    have mr : ((k + ns * K) * n + i) % n = i := by
      rw [block_offset n _ _ br]
      omega
    have mc : ((k + ns * K) * n + j) % n = j := by
      rw [block_offset n _ _ bc]
      omega
    obtain ⟨t1, t2⟩ := block_task K k ns hk
    rw [h3]
    unfold jointPrecision
    simp only [br, bc, mr, mc, t1, t2]
    rw [if_pos ⟨trivial, hns, hs⟩, Nat.add_comm k K]
  · intro r c hout
    rw [h3]
    unfold jointPrecision
    simp only
    rw [if_neg]
    rintro ⟨e1, e2, e3⟩
    apply hout (r / n % K) (r / n / K) (r % n) (c % n) (Nat.mod_lt _ hK) e2 e3
    have hb : r / n % K + r / n / K * K = r / n := by
      rw [Nat.mul_comm]
      exact Nat.mod_add_div _ _
    rw [hb]
    constructor
    · rw [Nat.mul_comm]
      exact (Nat.div_add_mod r n).symm
    · rw [e1, Nat.mul_comm]
      exact (Nat.div_add_mod c n).symm
  · rw [h3]
    rfl
  · rw [h3]
    rfl

end JointPrecision

/-! ## The updates of the EM fixed-point map -/

section ThetaFixptProps

variable {α : Type} [LinearOrderedField α]

/-- Reading a vector after one entry was assigned. -/
theorem vecGet_set (v : List α) (i j : Nat) (x : α) :
    vecGet (v.set i x) j = if i = j ∧ i < v.length then x else vecGet v j := by
  unfold vecGet
  rw [List.getD_eq_getElem?_getD, List.getD_eq_getElem?_getD, List.getElem?_set]
  by_cases h : i = j
  · subst h
    by_cases hl : i < v.length
    · simp [hl]
    · have hnone : v[i]? = none := List.getElem?_eq_none (by omega)
      simp [hl, hnone]
  · simp [h]

/-- The number of tests of the stopping criterion that the minimizer needs is bounded
whatever the objective and the indeterminate initial value of `w` are. -/
theorem brentMin_uniform [Archimedean α] (lib : CLib α) (lower upper tol : α)
    (hlt : lower < upper) (htol : 0 < tol)
    (h5 : 2 ≤ lib.sqrt 5) (h5' : lib.sqrt 5 < 3) (heps : 0 ≤ lib.sqrt lib.DBL_EPSILON) :
    ∃ N : Nat, ∀ (f : α → α) (w0 : α), ∃ x : α, lower < x ∧ x < upper ∧
      ∀ fuel, N ≤ fuel → brentMin lib f fuel w0 lower upper tol = some x := by
  have hc0 : 0 < (3 - lib.sqrt 5) / 2 := by linarith
  have hc1 : (3 - lib.sqrt 5) / 2 ≤ 1 / 2 := by linarith
  have htol3 : 0 < tol / 3 := by linarith
  have hxa : 0 < (3 - lib.sqrt 5) / 2 * (upper - lower) := mul_pos hc0 (sub_pos.2 hlt)
  have hbx : (3 - lib.sqrt 5) / 2 * (upper - lower) ≤ 1 / 2 * (upper - lower) :=
    mul_le_mul_of_nonneg_right hc1 (le_of_lt (sub_pos.2 hlt))
  obtain ⟨g, hg⟩ : ∃ g, g = min (tol / 3)
      (min ((3 - lib.sqrt 5) / 2 * (upper - lower))
        (upper - lower - (3 - lib.sqrt 5) / 2 * (upper - lower))) := ⟨_, rfl⟩
  have hg0 : 0 < g := by
    rw [hg]
    exact lt_min htol3 (lt_min hxa (by linarith))
  have hg1 : g ≤ tol / 3 := by
    rw [hg]
    exact min_le_left _ _
  obtain ⟨n, hn⟩ := exists_nat_ge ((upper - lower) / g)
  have hw : upper - lower ≤ n * g := (div_le_iff₀ hg0).1 hn
  refine ⟨n + 1, fun f w0 => ?_⟩
  obtain ⟨ea, eb, ex, _⟩ := brentInit_abx lib f w0 lower upper
  have hga : g ≤ (3 - lib.sqrt 5) / 2 * (upper - lower) := by
    rw [hg]
    exact le_trans (min_le_right _ _) (min_le_left _ _)
  have hgb : g ≤ upper - lower - (3 - lib.sqrt 5) / 2 * (upper - lower) := by
    rw [hg]
    exact le_trans (min_le_right _ _) (min_le_right _ _)
  have hgap : BrentGap g (brentInit lib f w0 lower upper) := by
    unfold BrentGap
    rw [ex, ea, eb]
    constructor <;> linarith
  obtain ⟨N, s1, hN, _, ⟨i1, i2, i3, i4⟩, hrun⟩ :=
    brentLoop_run ((3 - lib.sqrt 5) / 2) (lib.sqrt lib.DBL_EPSILON) (tol / 3) g f
      (BrentInside lower upper) hc0 hc1 heps htol3 hg0 hg1
      (fun s hs hns => brentIter_inside _ _ _ lower upper f s hc0 hc1 heps htol3 hs hns)
      n _ hgap (brentInit_inside lib f w0 lower upper hlt h5 h5') (by rw [ea, eb]; exact hw)
  exact ⟨s1.x, by linarith, by linarith, fun fuel hf => hrun fuel (by omega)⟩

/-- A solution of `S * x = b` for an invertible `S` is `S⁻¹ * b`. -/
theorem solvesWith_inv (n : Nat) (S : SparseMatrix α) (x b : List α)
    (h : SolvesWith n S x b) (hdet : IsUnit (S.toMatrix n).det) :
    (fun i : Fin n => vecGet x i) = (S.toMatrix n)⁻¹.mulVec (fun i : Fin n => vecGet b i) := by
  unfold SolvesWith at h
  rw [← h, Matrix.mulVec_mulVec, Matrix.nonsing_inv_mul _ hdet, Matrix.one_mulVec]

/-- The loop over the sessions of a task computes the six sums. -/
theorem theta_fixpt_sums_eq (spde : Spde α) (mu : List α) (P Vh : List (List α))
    (K n_spde n_sess k : Nat) :
    theta_fixpt_sums spde mu P Vh K n_spde n_sess k =
      { muCmu := taskQuadForm spde.Cmat mu K n_spde n_sess k
        muGmu := taskQuadForm spde.Gmat mu K n_spde n_sess k
        muGCGmu := taskQuadForm spde.GtCinvG mu K n_spde n_sess k
        sumDiagPCVkn := taskTraceSum spde.Cmat P Vh K n_spde n_sess k
        sumDiagPGVkn := taskTraceSum spde.Gmat P Vh K n_spde n_sess k
        sumDiagPGCGVkn := taskTraceSum spde.GtCinvG P Vh K n_spde n_sess k } := by
  unfold theta_fixpt_sums taskQuadForm taskTraceSum
  induction n_sess with
  | zero => simp
  | succ m ih =>
    rw [foldl_range_succ_apply, ih]
    simp only [List.range_succ, List.map_append, List.sum_append, List.map_cons, List.map_nil,
      List.sum_cons, List.sum_nil, add_zero]

/-- The loop over the tasks: when pass `k` assigns `theta_new[k]` and `theta_new[k + K]`,
the loop returns a vector of the same length in which exactly the first `2 K` entries were
assigned. -/
theorem tasks_fold (K : Nat) (step : List α → Nat → Option (List α)) (kap ph : Nat → α)
    (hstep : ∀ k, k < K → ∀ t, step t k = some ((t.set k (kap k)).set (k + K) (ph k)))
    (t1 : List α) (hlen : t1.length = 2 * K + 1) :
    ∀ m, m ≤ K → ∃ t, (List.range m).foldl (fun acc k => acc.bind (step · k)) (some t1) = some t ∧
      t.length = 2 * K + 1 ∧
      ∀ i, vecGet t i = if i < m then kap i
        else if K ≤ i ∧ i < K + m then ph (i - K) else vecGet t1 i := by
  intro m
  induction m with
  | zero =>
    intro _
    refine ⟨t1, rfl, hlen, fun i => ?_⟩
    have h1 : ¬ (K ≤ i ∧ i < K + 0) := by omega
    rw [if_neg (Nat.not_lt_zero i), if_neg h1]
  | succ m ih =>
    intro hm
    obtain ⟨t, e1, e2, e3⟩ := ih (by omega)
    rw [foldl_range_succ_apply, e1]
    refine ⟨(t.set m (kap m)).set (m + K) (ph m), ?_, ?_, fun i => ?_⟩
    · simp only [Option.bind]
      exact hstep m (by omega) t
    · rw [List.length_set, List.length_set, e2]
    · rw [vecGet_set, vecGet_set, List.length_set, e3 i, e2]
      by_cases a1 : i = m
      · subst a1
        have : ¬ (i + K = i ∧ i + K < 2 * K + 1) := by omega
        rw [if_neg this, if_pos ⟨rfl, by omega⟩, if_pos (by omega)]
      · by_cases a2 : i = m + K
        · subst a2
          have b2 : ¬ (m + K < m + 1) := by omega
          have b3 : K ≤ m + K ∧ m + K < K + (m + 1) := by omega
          have b4 : m + K - K = m := by omega
          rw [if_pos ⟨rfl, by omega⟩, if_neg b2, if_pos b3, b4]
        · have b1 : ¬ (m + K = i ∧ m + K < 2 * K + 1) := by omega
          have b2 : ¬ (m = i ∧ m < 2 * K + 1) := by omega
          rw [if_neg b1, if_neg b2]
          by_cases a3 : i < m
          · have : i < m + 1 := by omega
            simp [a3, this]
          · have b3 : ¬ i < m + 1 := by omega
            rw [if_neg a3, if_neg b3]
            by_cases a4 : K ≤ i ∧ i < K + m
            · rw [if_pos a4, if_pos ⟨a4.1, by omega⟩]
            · rw [if_neg a4, if_neg (by omega)]

/-- What `theta_fixpt` returns when the call of `kappa2Brent` of every task `k` returns
`kap k`: the last entry is the update of `sigma2`, entry `k` is `kap k`, and entry `k + K`
is the update of `phi` of task `k`. -/
theorem theta_fixpt_eval (lib : CLib α) (ldlt : SparseMatrix α → SimplicialLDLT α)
    (llt : SparseMatrix α → List α → List α) (fuel : Nat) (w0 : Nat → α) (theta : List α)
    (A QK : SparseMatrix α) (XpsiY : List α) (Xpsi : SparseMatrix α) (Vh Avh : List (List α))
    (y : List α) (yy : α) (spde : Spde α) (tol : α) (K : Nat)
    (hlen : theta.length = 2 * K + 1) (hK : 0 < K) (hn : 0 < spde.Cmat.rows)
    (kap : Nat → α)
    (hkap : ∀ k, k < K → kappa2Brent lib ldlt fuel (w0 k) 0 50 spde
      ((theta_fixpt_S lib llt theta A QK XpsiY spde spde.Cmat k
          + theta_fixpt_T lib llt theta A QK Vh spde spde.Cmat k)
        / (4 * lib.M_PI * vecGet theta (k + K)))
      ((theta_fixpt_S lib llt theta A QK XpsiY spde spde.GtCinvG k
          + theta_fixpt_T lib llt theta A QK Vh spde spde.GtCinvG k)
        / (4 * lib.M_PI * vecGet theta (k + K)))
      ((A.rows / (spde.Cmat.rows * K) : Nat) : Int) tol = some (kap k)) :
    ∃ t, theta_fixpt lib ldlt llt fuel w0 theta A QK XpsiY Xpsi Vh Avh y yy spde tol = some t ∧
      t.length = 2 * K + 1 ∧
      vecGet t (2 * K) =
        (yy - 2 * dot y (Xpsi.mulVec (theta_fixpt_mu lib llt theta A QK XpsiY spde))
          + (dot (theta_fixpt_mu lib llt theta A QK XpsiY spde)
              (A.mulVec (theta_fixpt_mu lib llt theta A QK XpsiY spde))
            + diagSum (theta_fixpt_P lib llt theta A QK Vh spde) Avh / (Vh.length : α)))
          / (y.length : α) ∧
      ∀ k, k < K → vecGet t k = kap k ∧
        vecGet t (k + K) =
          ((theta_fixpt_T lib llt theta A QK Vh spde spde.Cmat k
              + theta_fixpt_S lib llt theta A QK XpsiY spde spde.Cmat k) * kap k
            + 2 * (theta_fixpt_T lib llt theta A QK Vh spde spde.Gmat k
              + theta_fixpt_S lib llt theta A QK XpsiY spde spde.Gmat k)
            + (theta_fixpt_T lib llt theta A QK Vh spde spde.GtCinvG k
              + theta_fixpt_S lib llt theta A QK XpsiY spde spde.GtCinvG k) / kap k)
          / (4 * lib.M_PI * (spde.Cmat.rows : α) * ((A.rows / (spde.Cmat.rows * K) : Nat) : α))
      := by
  have hK' : (theta.length - 1) / 2 = K := by omega
  have hsig : theta.length - 1 = 2 * K := by omega
  have hnz : ¬ spde.Cmat.rows * K = 0 := by
    intro h
    rcases Nat.mul_eq_zero.1 h with h | h <;> omega
  obtain ⟨t, e1, e2, e3⟩ := tasks_fold K
    (fun t k => theta_fixpt_task lib ldlt fuel w0 theta spde
      (theta_fixpt_mu lib llt theta A QK XpsiY spde) (theta_fixpt_P lib llt theta A QK Vh spde)
      Vh tol K spde.Cmat.rows (A.rows / (spde.Cmat.rows * K)) Vh.length
      (4 * lib.M_PI * (spde.Cmat.rows : α) * ((A.rows / (spde.Cmat.rows * K) : Nat) : α)) t k)
    kap
    (fun k => ((theta_fixpt_T lib llt theta A QK Vh spde spde.Cmat k
              + theta_fixpt_S lib llt theta A QK XpsiY spde spde.Cmat k) * kap k
            + 2 * (theta_fixpt_T lib llt theta A QK Vh spde spde.Gmat k
              + theta_fixpt_S lib llt theta A QK XpsiY spde spde.Gmat k)
            + (theta_fixpt_T lib llt theta A QK Vh spde spde.GtCinvG k
              + theta_fixpt_S lib llt theta A QK XpsiY spde spde.GtCinvG k) / kap k)
          / (4 * lib.M_PI * (spde.Cmat.rows : α) * ((A.rows / (spde.Cmat.rows * K) : Nat) : α)))
    (fun k hk t => by
      have hb := hkap k hk
      unfold theta_fixpt_S theta_fixpt_T at hb ⊢
      rw [hK'] at hb ⊢
      unfold theta_fixpt_task
      simp only [theta_fixpt_sums_eq, Int.natCast_ediv, hb]
      simp only [Int.natCast_ediv] at hb
      rw [hb])
    (theta.set (2 * K)
      ((yy - 2 * dot y (Xpsi.mulVec (theta_fixpt_mu lib llt theta A QK XpsiY spde))
          + (dot (theta_fixpt_mu lib llt theta A QK XpsiY spde)
              (A.mulVec (theta_fixpt_mu lib llt theta A QK XpsiY spde))
            + diagSum (theta_fixpt_P lib llt theta A QK Vh spde) Avh / (Vh.length : α)))
          / (y.length : α)))
    (by rw [List.length_set, hlen]) K (le_refl K)
  refine ⟨t, ?_, e2, ?_, fun k hk => ⟨?_, ?_⟩⟩
  · have h2 : 2 * K / 2 = K := by omega
    unfold theta_fixpt
    simp only [hsig, h2, if_neg hnz]
    unfold theta_fixpt_mu theta_fixpt_P at e1
    rw [hsig] at e1
    exact e1
  · rw [e3 (2 * K), if_neg (by omega), if_neg (by omega), vecGet_set, if_pos ⟨rfl, by omega⟩]
  · rw [e3 k, if_pos hk]
  · rw [e3 (k + K), if_neg (by omega), if_pos ⟨by omega, by omega⟩]
    rw [show k + K - K = k by omega]

/-- The diagonal sum of `Pᵀ * (A * Vh)` for `P = solve(Vh)`, probe column by probe column. -/
theorem diagSum_probe (solve : List α → List α) (A : SparseMatrix α) (Vh : List (List α)) :
    diagSum (Vh.map solve) (A.mulMat Vh)
      = (Vh.map (fun v => dot (solve v) (A.mulVec v))).sum := by
  unfold diagSum SparseMatrix.mulMat
  rw [List.zipWith_map, List.zipWith_same]

/-- C14. For `theta` of length `2 K + 1` with `K ≥ 1` tasks, a non-empty mesh and `tol > 0`,
called as `findTheta` calls it (`yy = yᵀ y` and `Avh = A * Vh`): once the fuel of the
minimizer suffices, `theta_fixpt` returns a vector `t` of the length of `theta` whose last
entry is `(yᵀ y - 2 yᵀ (Xpsi mu) + muᵀ A mu + T) / length(y)`, where
`mu = solve(Sig_inv, XpsiY / sigma2)` with the incoming `sigma2 = theta[2 K]`, `Sig_inv` is
the matrix of C20, and `T = (sum over the probe columns v of solve(Sig_inv, v)ᵀ (A v)) / Ns`.
When the solver returns a solution of `Sig_inv * mu = XpsiY / sigma2` and `Sig_inv` is
invertible, `mu = Sig_inv⁻¹ * XpsiY / sigma2`.  The library is required to have
`2 ≤ sqrt(5) < 3` and `0 ≤ sqrt(DBL_EPSILON)`; the field is Archimedean. -/
theorem theta_fixpt_sigma2 [Archimedean α] (lib : CLib α)
    (ldlt : SparseMatrix α → SimplicialLDLT α) (llt : SparseMatrix α → List α → List α)
    (w0 : Nat → α) (theta : List α) (A QK : SparseMatrix α) (XpsiY : List α)
    (Xpsi : SparseMatrix α) (Vh Avh : List (List α)) (y : List α) (yy : α) (spde : Spde α)
    (tol : α) (K : Nat)
    (hlen : theta.length = 2 * K + 1) (hK : 0 < K) (hn : 0 < spde.Cmat.rows) (htol : 0 < tol)
    (h5 : 2 ≤ lib.sqrt 5) (h5' : lib.sqrt 5 < 3) (heps : 0 ≤ lib.sqrt lib.DBL_EPSILON)
    (hyy : yy = dot y y) (hAvh : Avh = A.mulMat Vh) :
    (∃ N : Nat, ∀ fuel, N ≤ fuel → ∃ t,
      theta_fixpt lib ldlt llt fuel w0 theta A QK XpsiY Xpsi Vh Avh y yy spde tol = some t ∧
      t.length = theta.length ∧
      vecGet t (2 * K) =
        (dot y y - 2 * dot y (Xpsi.mulVec (theta_fixpt_mu lib llt theta A QK XpsiY spde))
          + dot (theta_fixpt_mu lib llt theta A QK XpsiY spde)
              (A.mulVec (theta_fixpt_mu lib llt theta A QK XpsiY spde))
          + (Vh.map (fun v => dot (llt (theta_fixpt_Sig_inv lib theta A QK spde) v)
              (A.mulVec v))).sum / (Vh.length : α))
        / (y.length : α)) ∧
    theta_fixpt_mu lib llt theta A QK XpsiY spde
      = llt (theta_fixpt_Sig_inv lib theta A QK spde)
          (XpsiY.map (fun v => v / vecGet theta (2 * K))) ∧
    (SolvesWith A.rows (theta_fixpt_Sig_inv lib theta A QK spde)
        (theta_fixpt_mu lib llt theta A QK XpsiY spde)
        (XpsiY.map (fun v => v / vecGet theta (2 * K))) →
      IsUnit ((theta_fixpt_Sig_inv lib theta A QK spde).toMatrix A.rows).det →
      (fun i : Fin A.rows => vecGet (theta_fixpt_mu lib llt theta A QK XpsiY spde) i)
        = ((theta_fixpt_Sig_inv lib theta A QK spde).toMatrix A.rows)⁻¹.mulVec
            (fun i : Fin A.rows => vecGet (XpsiY.map (fun v => v / vecGet theta (2 * K))) i))
    := by
  have hsig : theta.length - 1 = 2 * K := by omega
  refine ⟨?_, ?_, fun hs hd => solvesWith_inv _ _ _ _ hs hd⟩
  · obtain ⟨N, hN⟩ := brentMin_uniform lib 0 50 tol (by norm_num) htol h5 h5' heps
    choose X hX using hN
    refine ⟨N, fun fuel hf => ?_⟩
    obtain ⟨t, e1, e2, e3, _⟩ := theta_fixpt_eval lib ldlt llt fuel w0 theta A QK XpsiY Xpsi Vh
      Avh y yy spde tol K hlen hK hn
      (fun k => X (fun x => kappa2Obj lib ldlt x spde
        ((theta_fixpt_S lib llt theta A QK XpsiY spde spde.Cmat k
            + theta_fixpt_T lib llt theta A QK Vh spde spde.Cmat k)
          / (4 * lib.M_PI * vecGet theta (k + K)))
        ((theta_fixpt_S lib llt theta A QK XpsiY spde spde.GtCinvG k
            + theta_fixpt_T lib llt theta A QK Vh spde spde.GtCinvG k)
          / (4 * lib.M_PI * vecGet theta (k + K)))
        ((A.rows / (spde.Cmat.rows * K) : Nat) : Int)) (w0 k))
      (fun k _ => (hX _ (w0 k)).2.2 fuel hf)
    refine ⟨t, e1, by rw [e2, hlen], ?_⟩
    rw [e3, hyy, hAvh]
    unfold theta_fixpt_P
    rw [diagSum_probe]
    ring
  · unfold theta_fixpt_mu
    rw [hsig]

/-- C15. For `theta` of length `2 K + 1` with `K ≥ 1` tasks, a non-empty mesh and `tol > 0`:
once the fuel of the minimizer suffices, `theta_fixpt` returns a vector `t` such that for
every task `k < K` the entry `t[k]` is the point `kappa2_new` that `kappa2Brent` returns on
`[0, 50]` for `a* = (S_C + T_C) / (4 pi phi_k)` and `b* = (S_GCG + T_GCG) / (4 pi phi_k)` with
the incoming `phi_k = theta[K + k]`, a point strictly between `0` and `50`, and
`t[K + k] = (kappa2_new (S_C + T_C) + 2 (S_G + T_G) + (S_GCG + T_GCG) / kappa2_new)
/ (4 pi n_spde n_sess)`.  The objective of `kappa2Brent` is
`a* kappa2 + b* / kappa2 - logDetQt(kappa2)`.  The library is required to have
`2 ≤ sqrt(5) < 3` and `0 ≤ sqrt(DBL_EPSILON)`; the field is Archimedean. -/
theorem theta_fixpt_tasks [Archimedean α] (lib : CLib α)
    (ldlt : SparseMatrix α → SimplicialLDLT α) (llt : SparseMatrix α → List α → List α)
    (w0 : Nat → α) (theta : List α) (A QK : SparseMatrix α) (XpsiY : List α)
    (Xpsi : SparseMatrix α) (Vh Avh : List (List α)) (y : List α) (yy : α) (spde : Spde α)
    (tol : α) (K : Nat)
    (hlen : theta.length = 2 * K + 1) (hK : 0 < K) (hn : 0 < spde.Cmat.rows) (htol : 0 < tol)
    (h5 : 2 ≤ lib.sqrt 5) (h5' : lib.sqrt 5 < 3) (heps : 0 ≤ lib.sqrt lib.DBL_EPSILON) :
    (∃ N : Nat, ∀ fuel, N ≤ fuel → ∃ t,
      theta_fixpt lib ldlt llt fuel w0 theta A QK XpsiY Xpsi Vh Avh y yy spde tol = some t ∧
      ∀ k, k < K → ∃ kappa2_new : α,
        kappa2Brent lib ldlt fuel (w0 k) 0 50 spde
          ((theta_fixpt_S lib llt theta A QK XpsiY spde spde.Cmat k
              + theta_fixpt_T lib llt theta A QK Vh spde spde.Cmat k)
            / (4 * lib.M_PI * vecGet theta (K + k)))
          ((theta_fixpt_S lib llt theta A QK XpsiY spde spde.GtCinvG k
              + theta_fixpt_T lib llt theta A QK Vh spde spde.GtCinvG k)
            / (4 * lib.M_PI * vecGet theta (K + k)))
          ((A.rows / (spde.Cmat.rows * K) : Nat) : Int) tol = some kappa2_new ∧
        0 < kappa2_new ∧ kappa2_new < 50 ∧
        vecGet t k = kappa2_new ∧
        vecGet t (K + k) =
          (kappa2_new * (theta_fixpt_S lib llt theta A QK XpsiY spde spde.Cmat k
              + theta_fixpt_T lib llt theta A QK Vh spde spde.Cmat k)
            + 2 * (theta_fixpt_S lib llt theta A QK XpsiY spde spde.Gmat k
              + theta_fixpt_T lib llt theta A QK Vh spde spde.Gmat k)
            + (theta_fixpt_S lib llt theta A QK XpsiY spde spde.GtCinvG k
              + theta_fixpt_T lib llt theta A QK Vh spde spde.GtCinvG k) / kappa2_new)
          / (4 * lib.M_PI * (spde.Cmat.rows : α)
              * ((A.rows / (spde.Cmat.rows * K) : Nat) : α))) ∧
    (∀ x a_star b_star n_sess, kappa2Obj lib ldlt x spde a_star b_star n_sess
      = a_star * x + b_star / x - logDetQt lib ldlt x spde n_sess) := by
  refine ⟨?_, fun x a_star b_star n_sess => rfl⟩
  obtain ⟨N, hN⟩ := brentMin_uniform lib 0 50 tol (by norm_num) htol h5 h5' heps
  choose X hX using hN
  refine ⟨N, fun fuel hf => ?_⟩
  obtain ⟨t, e1, _, _, e4⟩ := theta_fixpt_eval lib ldlt llt fuel w0 theta A QK XpsiY Xpsi Vh
    Avh y yy spde tol K hlen hK hn
    (fun k => X (fun x => kappa2Obj lib ldlt x spde
      ((theta_fixpt_S lib llt theta A QK XpsiY spde spde.Cmat k
          + theta_fixpt_T lib llt theta A QK Vh spde spde.Cmat k)
        / (4 * lib.M_PI * vecGet theta (k + K)))
      ((theta_fixpt_S lib llt theta A QK XpsiY spde spde.GtCinvG k
          + theta_fixpt_T lib llt theta A QK Vh spde spde.GtCinvG k)
        / (4 * lib.M_PI * vecGet theta (k + K)))
      ((A.rows / (spde.Cmat.rows * K) : Nat) : Int)) (w0 k))
    (fun k _ => (hX _ (w0 k)).2.2 fuel hf)
  refine ⟨t, e1, fun k hk => ?_⟩
  obtain ⟨g1, g2⟩ := e4 k hk
  obtain ⟨b1, b2, b3⟩ := hX (fun x => kappa2Obj lib ldlt x spde
      ((theta_fixpt_S lib llt theta A QK XpsiY spde spde.Cmat k
          + theta_fixpt_T lib llt theta A QK Vh spde spde.Cmat k)
        / (4 * lib.M_PI * vecGet theta (k + K)))
      ((theta_fixpt_S lib llt theta A QK XpsiY spde spde.GtCinvG k
          + theta_fixpt_T lib llt theta A QK Vh spde spde.GtCinvG k)
        / (4 * lib.M_PI * vecGet theta (k + K)))
      ((A.rows / (spde.Cmat.rows * K) : Nat) : Int)) (w0 k)
  rw [Nat.add_comm K k]
  refine ⟨_, b3 fuel hf, b1, b2, g1, ?_⟩
  rw [g2]
  ring

end ThetaFixptProps

section ThetaFixptReal

theorem example_unit_dot : (9 : ℝ) = dot [3] [3] := by
  simp [dot]
  norm_num

theorem example_unit_Avh :
    [[(1 : ℝ)]] = ((exampleUnitSpde ℝ).Cmat).mulMat [[1]] := by
  simp [SparseMatrix.mulMat, SparseMatrix.mulVec, exampleUnitSpde, SparseMatrix.ofFn,
    SparseMatrix.value, vecGet, List.range_succ]

/-- Witness of C14: one task on the one-vertex prior, one observation `y = [3]`, one probe
column, `theta = (2, 1, 1)` and `tol = 1/1000`, with the real square root. -/
theorem theta_fixpt_sigma2_witness :
    ([(2 : ℝ), 1, 1].length = 2 * 1 + 1 ∧ 0 < 1 ∧ 0 < (exampleUnitSpde ℝ).Cmat.rows ∧
      (0 : ℝ) < 1 / 1000 ∧
      2 ≤ (⟨Real.sqrt, Real.log, 2⁻¹ ^ 52, Real.pi⟩ : CLib ℝ).sqrt 5 ∧
      (⟨Real.sqrt, Real.log, 2⁻¹ ^ 52, Real.pi⟩ : CLib ℝ).sqrt 5 < 3 ∧
      0 ≤ (⟨Real.sqrt, Real.log, 2⁻¹ ^ 52, Real.pi⟩ : CLib ℝ).sqrt
        (⟨Real.sqrt, Real.log, 2⁻¹ ^ 52, Real.pi⟩ : CLib ℝ).DBL_EPSILON ∧
      (9 : ℝ) = dot [3] [3] ∧ [[(1 : ℝ)]] = ((exampleUnitSpde ℝ).Cmat).mulMat [[1]]) ∧
    ∃ N : Nat, ∀ fuel, N ≤ fuel → ∃ t,
      theta_fixpt ⟨Real.sqrt, Real.log, 2⁻¹ ^ 52, Real.pi⟩ (exampleUnitLDLT ℝ)
        (exampleUnitLLT ℝ) fuel (fun _ => 0) [2, 1, 1] (exampleUnitSpde ℝ).Cmat
        (SparseMatrix.empty 1 1) [3] (exampleUnitSpde ℝ).Cmat [[1]] [[1]] [3] 9
        (exampleUnitSpde ℝ) (1 / 1000) = some t ∧
      t.length = [(2 : ℝ), 1, 1].length :=
  ⟨⟨rfl, by norm_num, by simp [exampleUnitSpde, SparseMatrix.ofFn], by norm_num,
      real_sqrt_five.1, real_sqrt_five.2, Real.sqrt_nonneg _, example_unit_dot,
      example_unit_Avh⟩,
    Exists.imp (fun _ h fuel hf => Exists.imp (fun _ ht => ⟨ht.1, ht.2.1⟩) (h fuel hf))
      (theta_fixpt_sigma2 ⟨Real.sqrt, Real.log, 2⁻¹ ^ 52, Real.pi⟩ (exampleUnitLDLT ℝ)
        (exampleUnitLLT ℝ) (fun _ => 0) [2, 1, 1] (exampleUnitSpde ℝ).Cmat
        (SparseMatrix.empty 1 1) [3] (exampleUnitSpde ℝ).Cmat [[1]] [[1]] [3] 9
        (exampleUnitSpde ℝ) (1 / 1000) 1 rfl (by norm_num)
        (by simp [exampleUnitSpde, SparseMatrix.ofFn]) (by norm_num)
        real_sqrt_five.1 real_sqrt_five.2 (Real.sqrt_nonneg _) example_unit_dot
        example_unit_Avh).1⟩

/-- Witness of C15: the same input as for C14. -/
theorem theta_fixpt_tasks_witness :
    ([(2 : ℝ), 1, 1].length = 2 * 1 + 1 ∧ 0 < 1 ∧ 0 < (exampleUnitSpde ℝ).Cmat.rows ∧
      (0 : ℝ) < 1 / 1000 ∧
      2 ≤ (⟨Real.sqrt, Real.log, 2⁻¹ ^ 52, Real.pi⟩ : CLib ℝ).sqrt 5 ∧
      (⟨Real.sqrt, Real.log, 2⁻¹ ^ 52, Real.pi⟩ : CLib ℝ).sqrt 5 < 3 ∧
      0 ≤ (⟨Real.sqrt, Real.log, 2⁻¹ ^ 52, Real.pi⟩ : CLib ℝ).sqrt
        (⟨Real.sqrt, Real.log, 2⁻¹ ^ 52, Real.pi⟩ : CLib ℝ).DBL_EPSILON) ∧
    ∃ N : Nat, ∀ fuel, N ≤ fuel → ∃ t,
      theta_fixpt ⟨Real.sqrt, Real.log, 2⁻¹ ^ 52, Real.pi⟩ (exampleUnitLDLT ℝ)
        (exampleUnitLLT ℝ) fuel (fun _ => 0) [2, 1, 1] (exampleUnitSpde ℝ).Cmat
        (SparseMatrix.empty 1 1) [3] (exampleUnitSpde ℝ).Cmat [[1]] [[1]] [3] 9
        (exampleUnitSpde ℝ) (1 / 1000) = some t ∧
      0 < vecGet t 0 ∧ vecGet t 0 < 50 :=
  ⟨⟨rfl, by norm_num, by simp [exampleUnitSpde, SparseMatrix.ofFn], by norm_num,
      real_sqrt_five.1, real_sqrt_five.2, Real.sqrt_nonneg _⟩,
    Exists.imp
      (fun _ h fuel hf => Exists.imp
        (fun _ ht => ⟨ht.1, by
          obtain ⟨x, _, h1, h2, h3, _⟩ := ht.2 0 (by norm_num)
          rw [h3]
          exact ⟨h1, h2⟩⟩)
        (h fuel hf))
      (theta_fixpt_tasks ⟨Real.sqrt, Real.log, 2⁻¹ ^ 52, Real.pi⟩ (exampleUnitLDLT ℝ)
        (exampleUnitLLT ℝ) (fun _ => 0) [2, 1, 1] (exampleUnitSpde ℝ).Cmat
        (SparseMatrix.empty 1 1) [3] (exampleUnitSpde ℝ).Cmat [[1]] [[1]] [3] 9
        (exampleUnitSpde ℝ) (1 / 1000) 1 rfl (by norm_num)
        (by simp [exampleUnitSpde, SparseMatrix.ofFn]) (by norm_num)
        real_sqrt_five.1 real_sqrt_five.2 (Real.sqrt_nonneg _)).1⟩

/-- Witness of C20: one task on the two-vertex prior `exampleSpde`, `theta = (2, 1, 1)`, a
two by two `A` and an empty incoming `QK`. -/
theorem theta_fixpt_Sig_inv_blocks_witness :
    ([(2 : ℝ), 1, 1].length = 2 * 1 + 1 ∧ 0 < 1 ∧ 0 < 2 ∧ (exampleSpde ℝ).Dim 2) ∧
    theta_fixpt_QK ⟨Real.sqrt, Real.log, 2⁻¹ ^ 52, Real.pi⟩ [2, 1, 1] (exampleSpde ℝ).Gmat
        (SparseMatrix.empty 2 2) (exampleSpde ℝ)
      = jointPrecision ⟨Real.sqrt, Real.log, 2⁻¹ ^ 52, Real.pi⟩ [2, 1, 1] (exampleSpde ℝ) 1 2
          ((exampleSpde ℝ).Gmat.rows / (2 * 1)) (SparseMatrix.empty 2 2) :=
  ⟨⟨rfl, by norm_num, by norm_num, exampleSpde_Dim⟩,
    (theta_fixpt_Sig_inv_blocks ⟨Real.sqrt, Real.log, 2⁻¹ ^ 52, Real.pi⟩ [2, 1, 1]
      (exampleSpde ℝ).Gmat (SparseMatrix.empty 2 2) (exampleSpde ℝ) 1 2 rfl (by norm_num)
      (by norm_num) exampleSpde_Dim).2.2.1⟩

end ThetaFixptReal

/-! ## The posterior mean that `findTheta` returns -/

section FindThetaReal

/-- On the bracket `[0, 50]` with `tol = 100` the stopping criterion holds on entry to the
loop, for every objective and every value of the unassigned `w`: the minimizer returns its
first point. -/
theorem brent_first_point_wide (f : ℝ → ℝ) (w0 : ℝ) (fuel : Nat) :
    brentMin ⟨Real.sqrt, Real.log, 2⁻¹ ^ 52, Real.pi⟩ f (fuel + 1) w0 0 50 100
      = some (0 + (3 - Real.sqrt 5) / 2 * (50 - 0)) := by
  obtain ⟨h5, h5'⟩ := real_sqrt_five
  unfold brentMin
  simp only
  rw [brentLoop_stop _ _ _ _ _ _ (fuel + 1) (by omega)]
  · rfl
  · unfold brentStop brentTol1
    simp only [brentInit, real_sqrt_eps]
    have hx : (0 : ℝ) ≤ 0 + (3 - Real.sqrt 5) / 2 * (50 - 0) := by linarith
    rw [abs_of_nonneg hx, abs_le]
    constructor <;> norm_num <;> linarith

theorem exampleUnitSpde_Dim_one {α : Type} [Field α] : (exampleUnitSpde α).Dim 1 := by
  refine ⟨⟨rfl, rfl, ofFn_WF _ _⟩, ⟨rfl, rfl, ofFn_WF _ _⟩, ⟨rfl, rfl, ofFn_WF _ _⟩⟩

/-- The entry of `Sig_inv` for one task on the one-vertex prior with `A = [1]`: the sum of
`kappa2 / (4 pi phi)` and `1 / sigma2`, whatever the incoming `QK` holds. -/
theorem example_unit_Sig_inv (kap phi s : ℝ) (QK : SparseMatrix ℝ) :
    (theta_fixpt_Sig_inv ⟨Real.sqrt, Real.log, 2⁻¹ ^ 52, Real.pi⟩ [kap, phi, s] (exampleOne ℝ)
      QK (exampleUnitSpde ℝ)).value 0 0 = kap / (4 * Real.pi * phi) + 1 / s := by
  have hst : (Precision kap (exampleUnitSpde ℝ)).stored 0 0 := by
    rw [Precision_stored]
    left
    simp [SparseMatrix.stored, exampleUnitSpde, SparseMatrix.ofFn]
  have hq := theta_fixpt_QK_eq ⟨Real.sqrt, Real.log, 2⁻¹ ^ 52, Real.pi⟩ [kap, phi, s]
    (exampleOne ℝ) QK (exampleUnitSpde ℝ) 1 1 rfl (by norm_num) (by norm_num)
    exampleUnitSpde_Dim_one
  have hv : (theta_fixpt_QK ⟨Real.sqrt, Real.log, 2⁻¹ ^ 52, Real.pi⟩ [kap, phi, s]
      (exampleOne ℝ) QK (exampleUnitSpde ℝ)).value 0 0
      = (Precision kap (exampleUnitSpde ℝ)).value 0 0 / (4 * Real.pi * phi) := by
    rw [hq]
    unfold jointPrecision SparseMatrix.value
    simp only [Nat.zero_div, Nat.zero_mod, vecGet, List.getD_cons_zero, List.getD_cons_succ,
      Nat.zero_add]
    rw [if_pos ⟨trivial, by simp [exampleOne, SparseMatrix.ofFn], hst⟩]
    rfl
  unfold theta_fixpt_Sig_inv
  simp only [List.length_cons, List.length_nil]
  rw [add_value, sdiv_value, hv, Precision_value]
  simp [SparseMatrix.value, exampleUnitSpde, exampleOne, SparseMatrix.ofFn, vecGet]

theorem list_eq_of_length_three (t : List ℝ) (h : t.length = 3) :
    t = [vecGet t 0, vecGet t 1, vecGet t 2] := by
  match t, h with
  | [a, b, c], _ => rfl

/-- The posterior mean of `theta_fixpt` for one task on the one-vertex prior with `A = [1]`
and `XpsiY = [40]`, at a `theta` whose prior precision `kappa2 / (4 pi phi)` is
`1 / sigma2`. -/
theorem example_unit_mu (kap phi s : ℝ) (QK : SparseMatrix ℝ) (hs : 0 < s)
    (hu : kap / (4 * Real.pi * phi) = 1 / s) :
    theta_fixpt_mu ⟨Real.sqrt, Real.log, 2⁻¹ ^ 52, Real.pi⟩ (exampleUnitLLT ℝ) [kap, phi, s]
      (exampleOne ℝ) QK [40] (exampleUnitSpde ℝ) = [20] := by
  unfold theta_fixpt_mu exampleUnitLLT
  rw [example_unit_Sig_inv, hu]
  have hne : s ≠ 0 := ne_of_gt hs
  have e : (40 : ℝ) / s / (1 / s + 1 / s) = 20 := by
    have h2 : s * (1 / s + 1 / s) = 2 := by
      field_simp
      ring
    rw [div_div, h2]
    norm_num
  simp only [vecGet, List.map, List.length_cons, List.length_nil, List.getD_cons_zero,
    List.getD_cons_succ]
  exact congrArg (fun v => [v]) e

/-- The matrix `P` of `theta_fixpt` for the same input and the single probe column `[1]`. -/
theorem example_unit_P (kap phi s : ℝ) (QK : SparseMatrix ℝ)
    (hu : kap / (4 * Real.pi * phi) = 1 / s) :
    theta_fixpt_P ⟨Real.sqrt, Real.log, 2⁻¹ ^ 52, Real.pi⟩ (exampleUnitLLT ℝ) [kap, phi, s]
      (exampleOne ℝ) QK [[1]] (exampleUnitSpde ℝ) = [[s / 2]] := by
  unfold theta_fixpt_P exampleUnitLLT
  rw [example_unit_Sig_inv, hu]
  have e : (1 : ℝ) / (1 / s + 1 / s) = s / 2 := by
    have h2 : 1 / s + 1 / s = 2 / s := by ring
    rw [h2, one_div_div]
  simp only [vecGet, List.map, List.getD_cons_zero]
  exact congrArg (fun v => [[v]]) e

/-- The EM fixed-point map for one task on the one-vertex prior with `A = Xpsi = [1]`,
`y = [40]`, one probe column and `tol = 100`, at a `theta` whose prior precision
`kappa2 / (4 pi phi)` is `1 / sigma2`: the new `kappa2` is the first point of the minimizer,
the new `sigma2` is `400 + sigma2 / 2`, and the new prior precision is again the inverse of
the new `sigma2`. -/
theorem example_unit_fixpt (kap phi s : ℝ) (QK Xpsi : SparseMatrix ℝ) (w0 : Nat → ℝ)
    (fuel : Nat) (hs : 0 < s) (hu : kap / (4 * Real.pi * phi) = 1 / s)
    (hX : ∀ v : ℝ, Xpsi.mulVec [v] = [v]) :
    theta_fixpt ⟨Real.sqrt, Real.log, 2⁻¹ ^ 52, Real.pi⟩ (exampleUnitLDLT ℝ) (exampleUnitLLT ℝ)
      (fuel + 1) w0 [kap, phi, s] (exampleOne ℝ) QK [40] Xpsi [[1]] [[1]] [40] 1600
      (exampleUnitSpde ℝ) 100
    = some [0 + (3 - Real.sqrt 5) / 2 * (50 - 0),
        (400 + s / 2) * (0 + (3 - Real.sqrt 5) / 2 * (50 - 0)) / (4 * Real.pi),
        400 + s / 2] := by
  obtain ⟨t, e1, e2, e3, e4⟩ := theta_fixpt_eval ⟨Real.sqrt, Real.log, 2⁻¹ ^ 52, Real.pi⟩
    (exampleUnitLDLT ℝ) (exampleUnitLLT ℝ) (fuel + 1) w0 [kap, phi, s] (exampleOne ℝ) QK [40]
    Xpsi [[1]] [[1]] [40] 1600 (exampleUnitSpde ℝ) 100 1 rfl (by norm_num)
    (by simp [exampleUnitSpde, SparseMatrix.ofFn])
    (fun _ => 0 + (3 - Real.sqrt 5) / 2 * (50 - 0))
    (fun k _ => brent_first_point_wide _ (w0 k) fuel)
  obtain ⟨e5, e6⟩ := e4 0 (by norm_num)
  have hmu := example_unit_mu kap phi s QK hs hu
  have hP := example_unit_P kap phi s QK hu
  have hSC : theta_fixpt_S ⟨Real.sqrt, Real.log, 2⁻¹ ^ 52, Real.pi⟩ (exampleUnitLLT ℝ)
      [kap, phi, s] (exampleOne ℝ) QK [40] (exampleUnitSpde ℝ) (exampleUnitSpde ℝ).Cmat 0
      = 400 := by
    unfold theta_fixpt_S
    rw [hmu]
    simp [taskQuadForm, segment, dot, SparseMatrix.mulVec, SparseMatrix.value,
      exampleUnitSpde, exampleOne, SparseMatrix.ofFn, vecGet, List.range_succ]
    norm_num
  have hSG : theta_fixpt_S ⟨Real.sqrt, Real.log, 2⁻¹ ^ 52, Real.pi⟩ (exampleUnitLLT ℝ)
      [kap, phi, s] (exampleOne ℝ) QK [40] (exampleUnitSpde ℝ) (exampleUnitSpde ℝ).Gmat 0
      = 0 := by
    unfold theta_fixpt_S
    rw [hmu]
    simp [taskQuadForm, segment, dot, SparseMatrix.mulVec, SparseMatrix.value,
      exampleUnitSpde, exampleOne, SparseMatrix.ofFn, vecGet, List.range_succ]
  have hSGCG : theta_fixpt_S ⟨Real.sqrt, Real.log, 2⁻¹ ^ 52, Real.pi⟩ (exampleUnitLLT ℝ)
      [kap, phi, s] (exampleOne ℝ) QK [40] (exampleUnitSpde ℝ) (exampleUnitSpde ℝ).GtCinvG 0
      = 0 := by
    unfold theta_fixpt_S
    rw [hmu]
    simp [taskQuadForm, segment, dot, SparseMatrix.mulVec, SparseMatrix.value,
      exampleUnitSpde, exampleOne, SparseMatrix.ofFn, vecGet, List.range_succ]
  have hTC : theta_fixpt_T ⟨Real.sqrt, Real.log, 2⁻¹ ^ 52, Real.pi⟩ (exampleUnitLLT ℝ)
      [kap, phi, s] (exampleOne ℝ) QK [[1]] (exampleUnitSpde ℝ) (exampleUnitSpde ℝ).Cmat 0
      = s / 2 := by
    unfold theta_fixpt_T
    rw [hP]
    simp [taskTraceSum, diagSum, blockRows, SparseMatrix.mulMat, segment, dot,
      SparseMatrix.mulVec, SparseMatrix.value, exampleUnitSpde, exampleOne, SparseMatrix.ofFn,
      vecGet, List.range_succ]
  have hTG : theta_fixpt_T ⟨Real.sqrt, Real.log, 2⁻¹ ^ 52, Real.pi⟩ (exampleUnitLLT ℝ)
      [kap, phi, s] (exampleOne ℝ) QK [[1]] (exampleUnitSpde ℝ) (exampleUnitSpde ℝ).Gmat 0
      = 0 := by
    unfold theta_fixpt_T
    rw [hP]
    simp [taskTraceSum, diagSum, blockRows, SparseMatrix.mulMat, segment, dot,
      SparseMatrix.mulVec, SparseMatrix.value, exampleUnitSpde, exampleOne, SparseMatrix.ofFn,
      vecGet, List.range_succ]
  have hTGCG : theta_fixpt_T ⟨Real.sqrt, Real.log, 2⁻¹ ^ 52, Real.pi⟩ (exampleUnitLLT ℝ)
      [kap, phi, s] (exampleOne ℝ) QK [[1]] (exampleUnitSpde ℝ) (exampleUnitSpde ℝ).GtCinvG 0
      = 0 := by
    unfold theta_fixpt_T
    rw [hP]
    simp [taskTraceSum, diagSum, blockRows, SparseMatrix.mulMat, segment, dot,
      SparseMatrix.mulVec, SparseMatrix.value, exampleUnitSpde, exampleOne, SparseMatrix.ofFn,
      vecGet, List.range_succ]
  rw [e1, list_eq_of_length_three t e2]
  rw [hmu, hP, hX] at e3
  rw [hSC, hSG, hSGCG, hTC, hTG, hTGCG] at e6
  have e3' : vecGet t 2 = 400 + s / 2 := by
    rw [e3]
    simp [dot, diagSum, SparseMatrix.mulVec, SparseMatrix.value, exampleOne, SparseMatrix.ofFn,
      vecGet, List.range_succ]
    norm_num
  have e6' : vecGet t 1
      = (400 + s / 2) * (0 + (3 - Real.sqrt 5) / 2 * (50 - 0)) / (4 * Real.pi) := by
    have h : vecGet t 1 = _ := e6
    rw [h]
    simp [exampleUnitSpde, exampleOne, SparseMatrix.ofFn]
    ring
  rw [e5, e6', e3']

/-- The bounds `19 < kappa < 39/2` on the first point of the minimizer on `[0, 50]`. -/
theorem example_first_point_bounds :
    (19 : ℝ) < 0 + (3 - Real.sqrt 5) / 2 * (50 - 0) ∧
    0 + (3 - Real.sqrt 5) / 2 * (50 - 0) < (39 / 2 : ℝ) := by
  obtain ⟨h1, h2⟩ := real_sqrt_five_fine
  constructor <;> linarith

/-- The EM fixed-point map of the example at the point `(kappa, s * kappa / (4 pi), s)`,
where `kappa` is the first point of the minimizer: the image is the point of the same form
for `400 + s / 2`. -/
theorem example_unit_fixpt_pt (s : ℝ) (QK Xpsi : SparseMatrix ℝ) (w0 : Nat → ℝ)
    (fuel : Nat) (hs : 0 < s) (hX : ∀ v : ℝ, Xpsi.mulVec [v] = [v]) :
    theta_fixpt ⟨Real.sqrt, Real.log, 2⁻¹ ^ 52, Real.pi⟩ (exampleUnitLDLT ℝ) (exampleUnitLLT ℝ)
      (fuel + 1) w0
      [0 + (3 - Real.sqrt 5) / 2 * (50 - 0),
        s * (0 + (3 - Real.sqrt 5) / 2 * (50 - 0)) / (4 * Real.pi), s]
      (exampleOne ℝ) QK [40] Xpsi [[1]] [[1]] [40] 1600 (exampleUnitSpde ℝ) 100
    = some [0 + (3 - Real.sqrt 5) / 2 * (50 - 0),
        (400 + s / 2) * (0 + (3 - Real.sqrt 5) / 2 * (50 - 0)) / (4 * Real.pi),
        400 + s / 2] := by
  obtain ⟨h1, _⟩ := example_first_point_bounds
  apply example_unit_fixpt _ _ s QK Xpsi w0 fuel hs _ hX
  have hpi : Real.pi ≠ 0 := ne_of_gt Real.pi_pos
  have hk : (0 : ℝ) + (3 - Real.sqrt 5) / 2 * (50 - 0) ≠ 0 := by linarith
  have hs' : s ≠ 0 := ne_of_gt hs
  generalize (0 : ℝ) + (3 - Real.sqrt 5) / 2 * (50 - 0) = k at hk ⊢
  field_simp
  ring

/-- The EM fixed-point map of the example at the initial `theta = (1, 1 / (4 pi), 1)`. -/
theorem example_unit_fixpt_start (QK Xpsi : SparseMatrix ℝ) (w0 : Nat → ℝ)
    (fuel : Nat) (hX : ∀ v : ℝ, Xpsi.mulVec [v] = [v]) :
    theta_fixpt ⟨Real.sqrt, Real.log, 2⁻¹ ^ 52, Real.pi⟩ (exampleUnitLDLT ℝ) (exampleUnitLLT ℝ)
      (fuel + 1) w0 [1, 1 / (4 * Real.pi), 1]
      (exampleOne ℝ) QK [40] Xpsi [[1]] [[1]] [40] 1600 (exampleUnitSpde ℝ) 100
    = some [0 + (3 - Real.sqrt 5) / 2 * (50 - 0),
        (400 + 1 / 2) * (0 + (3 - Real.sqrt 5) / 2 * (50 - 0)) / (4 * Real.pi),
        400 + 1 / 2] := by
  apply example_unit_fixpt _ _ 1 QK Xpsi w0 fuel (by norm_num) _ hX
  have hpi : Real.pi ≠ 0 := ne_of_gt Real.pi_pos
  field_simp

/-- With the step length `1` the proposed point is `p2`, for vectors of length three. -/
theorem sqPnew_one_three (s : SquaremState ℝ) (a0 a1 a2 b0 b1 b2 c0 c1 c2 : ℝ)
    (hp : s.pcpp = [a0, a1, a2]) (hn : s.pnew = [a0, a1, a2]) :
    sqPnew 3 s [b0, b1, b2] [c0, c1, c2] 1 = [c0, c1, c2] := by
  simp only [sqPnew, hp, hn, List.range_succ, List.range_zero, List.nil_append,
    List.cons_append, List.foldl_cons, List.foldl_nil, vecGet, List.getD_cons_zero,
    List.getD_cons_succ, List.set_cons_zero, List.set_cons_succ]
  congr 1
  · ring
  · congr 1
    · ring
    · congr 1
      ring

/-- The two rounds of a run of `theta_squarem2` with the settings of `SquaremDefault` and the
tolerance `tol` in which the first round finds both residuals at least `tol` and the second
round breaks on its second residual. -/
theorem squarem_two_rounds_steps (tol alpha0 : ℝ) (F : List ℝ → Option (List ℝ))
    (a0 a1 a2 b0 b1 b2 c0 c1 c2 : ℝ) (p3 p4 : List ℝ)
    (h1 : F [a0, a1, a2] = some [b0, b1, b2]) (h2 : F [b0, b1, b2] = some [c0, c1, c2])
    (h3 : F [c0, c1, c2] = some p3) (h4 : F p3 = some p4)
    (r1 : tol ≤ Real.sqrt (sqSr2 3 [a0, a1, a2] [b0, b1, b2]))
    (r2 : tol ≤ sqSq2 ⟨Real.sqrt, Real.log, 2⁻¹ ^ 52, Real.pi⟩ 3 [b0, b1, b2] [c0, c1, c2])
    (r3 : tol ≤ Real.sqrt (sqSr2 3 [c0, c1, c2] p3))
    (r4 : sqSq2 ⟨Real.sqrt, Real.log, 2⁻¹ ^ 52, Real.pi⟩ 3 p3 p4 < tol) :
    theta_squarem2_round ⟨Real.sqrt, Real.log, 2⁻¹ ^ 52, Real.pi⟩
        { (SquaremDefault : SquaremControl ℝ) with tol := tol } F 3
        (squaremStart { (SquaremDefault : SquaremControl ℝ) with tol := tol } alpha0
          [a0, a1, a2])
      = SquaremStep.next (SquaremState.mk [c0, c1, c2] [c0, c1, c2] 1 1 4 2 2 true) ∧
    theta_squarem2_round ⟨Real.sqrt, Real.log, 2⁻¹ ^ 52, Real.pi⟩
        { (SquaremDefault : SquaremControl ℝ) with tol := tol } F 3
        (SquaremState.mk [c0, c1, c2] [c0, c1, c2] 1 1 4 2 2 true)
      = SquaremStep.leave (SquaremState.mk [c0, c1, c2] [c0, c1, c2] 1 1 4 2 4 true) := by
  constructor
  · rw [theta_round_view]
    have e3 : sqAlpha ⟨Real.sqrt, Real.log, 2⁻¹ ^ 52, Real.pi⟩
        { (SquaremDefault : SquaremControl ℝ) with tol := tol } 3
        (squaremStart { (SquaremDefault : SquaremControl ℝ) with tol := tol } alpha0
          [a0, a1, a2]) [b0, b1, b2] [c0, c1, c2] = 1 :=
      sqAlpha_eq_one _ _ _ _ _ _ rfl rfl
    have e4 := sqPnew_one_three
      (squaremStart { (SquaremDefault : SquaremControl ℝ) with tol := tol } alpha0 [a0, a1, a2])
      a0 a1 a2 b0 b1 b2 c0 c1 c2 rfl rfl
    have c1' : ¬ Real.sqrt (sqSr2 3 [a0, a1, a2] [b0, b1, b2]) < tol := not_lt.2 r1
    have c2' : ¬ sqSq2 ⟨Real.sqrt, Real.log, 2⁻¹ ^ 52, Real.pi⟩ 3 [b0, b1, b2] [c0, c1, c2]
        < tol := not_lt.2 r2
    simp only [squaremStart] at e3 e4 ⊢
    simp only [h1, h2, e3, e4, if_neg c1', if_neg c2']
    simp [SquaremDefault, sqTail]
    norm_num
  · rw [theta_round_view]
    have c3' : ¬ Real.sqrt (sqSr2 3 [c0, c1, c2] p3) < tol := not_lt.2 r3
    simp only [h3, h4, if_neg c3', if_pos r4]

/-- A run of `theta_squarem2` with the settings of `SquaremDefault` and the tolerance `tol`
in which the first round finds both residuals at least `tol` and the second round breaks
on its second residual: the result is `p2 = F(F(p0))` after four evaluations. -/
theorem squarem_two_rounds (tol alpha0 : ℝ) (F : List ℝ → Option (List ℝ))
    (a0 a1 a2 b0 b1 b2 c0 c1 c2 : ℝ) (p3 p4 : List ℝ)
    (h1 : F [a0, a1, a2] = some [b0, b1, b2]) (h2 : F [b0, b1, b2] = some [c0, c1, c2])
    (h3 : F [c0, c1, c2] = some p3) (h4 : F p3 = some p4)
    (r1 : tol ≤ Real.sqrt (sqSr2 3 [a0, a1, a2] [b0, b1, b2]))
    (r2 : tol ≤ sqSq2 ⟨Real.sqrt, Real.log, 2⁻¹ ^ 52, Real.pi⟩ 3 [b0, b1, b2] [c0, c1, c2])
    (r3 : tol ≤ Real.sqrt (sqSr2 3 [c0, c1, c2] p3))
    (r4 : sqSq2 ⟨Real.sqrt, Real.log, 2⁻¹ ^ 52, Real.pi⟩ 3 p3 p4 < tol) :
    theta_squarem2 ⟨Real.sqrt, Real.log, 2⁻¹ ^ 52, Real.pi⟩
        { (SquaremDefault : SquaremControl ℝ) with tol := tol } F alpha0 [a0, a1, a2]
      = { par := [c0, c1, c2], valueobjfn := none, iter := 2, pfevals := 4, objfevals := 0,
          convergence := true } := by
  obtain ⟨hr1, hr2⟩ := squarem_two_rounds_steps tol alpha0 F a0 a1 a2 b0 b1 b2 c0 c1 c2 p3 p4
    h1 h2 h3 h4 r1 r2 r3 r4
  have ha : theta_squarem2_after ⟨Real.sqrt, Real.log, 2⁻¹ ^ 52, Real.pi⟩
      { (SquaremDefault : SquaremControl ℝ) with tol := tol } F 3 1
      (squaremStart { (SquaremDefault : SquaremControl ℝ) with tol := tol } alpha0 [a0, a1, a2])
      = some (SquaremState.mk [c0, c1, c2] [c0, c1, c2] 1 1 4 2 2 true) := by
    unfold theta_squarem2_after theta_squarem2_after
    simp only
    rw [if_pos (by simp [squaremStart, SquaremDefault]), hr1]
  unfold theta_squarem2
  simp only [List.length_cons, List.length_nil]
  rw [theta_loop_at_round _ _ _ 3 _ _ 1 rfl ha (by simp [SquaremDefault]), hr2]
  simp [SquaremDefault]

/-- The products that `findTheta` forms once for the example: `X * Psi` acts as the
identity, `(X * Psi)ᵀ * y = [40]`, `A * Vh = [[1]]` and `yᵀ * y = 1600`. -/
theorem example_one_products :
    (∀ v : ℝ, ((exampleOne ℝ).mul (exampleOne ℝ)).mulVec [v] = [v]) ∧
    ((exampleOne ℝ).mul (exampleOne ℝ)).transpose.mulVec [40] = [(40 : ℝ)] ∧
    (exampleOne ℝ).mulMat [[1]] = [[(1 : ℝ)]] ∧
    dot [(40 : ℝ)] [40] = 1600 := by
  refine ⟨fun v => ?_, ?_, ?_, ?_⟩
  · simp [SparseMatrix.mul, SparseMatrix.mulVec, SparseMatrix.value, exampleOne,
      SparseMatrix.ofFn, vecGet, List.range_succ]
  · simp [SparseMatrix.mul, SparseMatrix.transpose, SparseMatrix.mulVec, SparseMatrix.value,
      exampleOne, SparseMatrix.ofFn, vecGet, List.range_succ]
  · simp [SparseMatrix.mulMat, SparseMatrix.mulVec, SparseMatrix.value, exampleOne,
      SparseMatrix.ofFn, vecGet, List.range_succ]
  · simp [dot]
    norm_num

/-- The ratio `kappa / (4 pi)` of the example lies in `[1, 8/5]`. -/
theorem example_ratio_bounds :
    1 ≤ (0 + (3 - Real.sqrt 5) / 2 * (50 - 0)) / (4 * Real.pi) ∧
    (0 + (3 - Real.sqrt 5) / 2 * (50 - 0)) / (4 * Real.pi) ≤ 8 / 5 := by
  obtain ⟨h1, h2⟩ := example_first_point_bounds
  have p1 := Real.pi_gt_d2
  have p2 := Real.pi_lt_d2
  have hp : (0 : ℝ) < 4 * Real.pi := by linarith
  constructor
  · rw [le_div_iff₀ hp]
    linarith
  · rw [div_le_iff₀ hp]
    linarith

/-- The four residuals of the run of the accelerator on the example, against `tol = 100`:
the two of the first round and the first of the second round are at least `100`, the
second of the second round is below `100`. -/
theorem example_unit_residuals :
    (100 : ℝ) ≤ Real.sqrt (sqSr2 3 [1, 1 / (4 * Real.pi), 1]
      [0 + (3 - Real.sqrt 5) / 2 * (50 - 0),
        (400 + 1 / 2) * (0 + (3 - Real.sqrt 5) / 2 * (50 - 0)) / (4 * Real.pi), 400 + 1 / 2]) ∧
    (100 : ℝ) ≤ sqSq2 ⟨Real.sqrt, Real.log, 2⁻¹ ^ 52, Real.pi⟩ 3
      [0 + (3 - Real.sqrt 5) / 2 * (50 - 0),
        (400 + 1 / 2) * (0 + (3 - Real.sqrt 5) / 2 * (50 - 0)) / (4 * Real.pi), 400 + 1 / 2]
      [0 + (3 - Real.sqrt 5) / 2 * (50 - 0),
        (400 + (400 + 1 / 2) / 2) * (0 + (3 - Real.sqrt 5) / 2 * (50 - 0)) / (4 * Real.pi),
        400 + (400 + 1 / 2) / 2] ∧
    (100 : ℝ) ≤ Real.sqrt (sqSr2 3
      [0 + (3 - Real.sqrt 5) / 2 * (50 - 0),
        (400 + (400 + 1 / 2) / 2) * (0 + (3 - Real.sqrt 5) / 2 * (50 - 0)) / (4 * Real.pi),
        400 + (400 + 1 / 2) / 2]
      [0 + (3 - Real.sqrt 5) / 2 * (50 - 0),
        (400 + (400 + (400 + 1 / 2) / 2) / 2) * (0 + (3 - Real.sqrt 5) / 2 * (50 - 0))
          / (4 * Real.pi),
        400 + (400 + (400 + 1 / 2) / 2) / 2]) ∧
    sqSq2 ⟨Real.sqrt, Real.log, 2⁻¹ ^ 52, Real.pi⟩ 3
      [0 + (3 - Real.sqrt 5) / 2 * (50 - 0),
        (400 + (400 + (400 + 1 / 2) / 2) / 2) * (0 + (3 - Real.sqrt 5) / 2 * (50 - 0))
          / (4 * Real.pi),
        400 + (400 + (400 + 1 / 2) / 2) / 2]
      [0 + (3 - Real.sqrt 5) / 2 * (50 - 0),
        (400 + (400 + (400 + (400 + 1 / 2) / 2) / 2) / 2)
          * (0 + (3 - Real.sqrt 5) / 2 * (50 - 0)) / (4 * Real.pi),
        400 + (400 + (400 + (400 + 1 / 2) / 2) / 2) / 2] < 100 := by
  obtain ⟨q1, q2⟩ := example_ratio_bounds
  have hmul : ∀ a : ℝ, a * (0 + (3 - Real.sqrt 5) / 2 * (50 - 0)) / (4 * Real.pi)
      = a * ((0 + (3 - Real.sqrt 5) / 2 * (50 - 0)) / (4 * Real.pi)) :=
    fun a => mul_div_assoc _ _ _
  simp only [hmul]
  generalize (0 + (3 - Real.sqrt 5) / 2 * (50 - 0)) / (4 * Real.pi) = q at q1 q2
  generalize (0 : ℝ) + (3 - Real.sqrt 5) / 2 * (50 - 0) = k
  generalize (1 : ℝ) / (4 * Real.pi) = z
  have hq : 1 ≤ q ^ 2 := by nlinarith
  have hq' : q ^ 2 ≤ 64 / 25 := by nlinarith
  refine ⟨?_, ?_, ?_, ?_⟩
  · apply Real.le_sqrt_of_sq_le
    simp only [sqSr2, sumLoop, List.range_succ, List.range_zero, List.nil_append,
      List.cons_append, List.foldl_cons, List.foldl_nil, vecGet, List.getD_cons_zero,
      List.getD_cons_succ]
    nlinarith [sq_nonneg (k - 1), sq_nonneg ((400 + 1 / 2) * q - z)]
  · unfold sqSq2
    apply Real.le_sqrt_of_sq_le
    simp only [sumLoop, List.range_succ, List.range_zero, List.nil_append,
      List.cons_append, List.foldl_cons, List.foldl_nil, vecGet, List.getD_cons_zero,
      List.getD_cons_succ]
    nlinarith [sq_nonneg (k - k), sq_nonneg ((400 + (400 + 1 / 2) / 2) * q - (400 + 1 / 2) * q)]
  · apply Real.le_sqrt_of_sq_le
    simp only [sqSr2, sumLoop, List.range_succ, List.range_zero, List.nil_append,
      List.cons_append, List.foldl_cons, List.foldl_nil, vecGet, List.getD_cons_zero,
      List.getD_cons_succ]
    have e : ((400 + (400 + (400 + 1 / 2) / 2) / 2) * q - (400 + (400 + 1 / 2) / 2) * q) ^ 2
        = (799 / 8) ^ 2 * q ^ 2 := by ring
    rw [e]
    nlinarith
  · unfold sqSq2
    rw [Real.sqrt_lt' (by norm_num)]
    simp only [sumLoop, List.range_succ, List.range_zero, List.nil_append,
      List.cons_append, List.foldl_cons, List.foldl_nil, vecGet, List.getD_cons_zero,
      List.getD_cons_succ]
    have e : ((400 + (400 + (400 + (400 + 1 / 2) / 2) / 2) / 2) * q
        - (400 + (400 + (400 + 1 / 2) / 2) / 2) * q) ^ 2 = (799 / 16) ^ 2 * q ^ 2 := by ring
    rw [e]
    nlinarith

/-- The run of `findTheta` on the one-vertex prior with `X = Psi = A = QK = [1]`, `y = [40]`,
one probe column `[1]`, `tol = 100` and the initial `theta = (1, 1 / (4 pi), 1)`. -/
theorem example_unit_findTheta :
    findTheta ⟨Real.sqrt, Real.log, 2⁻¹ ^ 52, Real.pi⟩ (exampleUnitLDLT ℝ) (exampleUnitLLT ℝ)
        SquaremDefault 1 (fun _ _ => 0) 0 [1, 1 / (4 * Real.pi), 1] (exampleUnitSpde ℝ) [40]
        (exampleOne ℝ) (exampleOne ℝ) (exampleOne ℝ) (exampleOne ℝ) [[1]] 100
      = some
        { theta_new := [0 + (3 - Real.sqrt 5) / 2 * (50 - 0),
            (400 + (400 + 1 / 2) / 2) * (0 + (3 - Real.sqrt 5) / 2 * (50 - 0)) / (4 * Real.pi),
            400 + (400 + 1 / 2) / 2]
          kappa2_new := [0 + (3 - Real.sqrt 5) / 2 * (50 - 0)]
          phi_new := [(400 + (400 + 1 / 2) / 2) * (0 + (3 - Real.sqrt 5) / 2 * (50 - 0))
            / (4 * Real.pi)]
          sigma2_new := 400 + (400 + 1 / 2) / 2
          mu := [32 / 481] } := by
  obtain ⟨hX, hXY, hAvh, hyy⟩ := example_one_products
  obtain ⟨r1, r2, r3, r4⟩ := example_unit_residuals
  unfold findTheta
  simp only [List.length_cons, List.length_nil, hXY, hAvh, hyy]
  rw [squarem_two_rounds 100 0 _ _ _ _ _ _ _ _ _ _ _ _
    (example_unit_fixpt_start _ _ _ 0 hX)
    (example_unit_fixpt_pt (400 + 1 / 2) _ _ _ 0 (by norm_num) hX)
    (example_unit_fixpt_pt (400 + (400 + 1 / 2) / 2) _ _ _ 0 (by norm_num) hX)
    (example_unit_fixpt_pt (400 + (400 + (400 + 1 / 2) / 2) / 2) _ _ _ 0 (by norm_num) hX)
    r1 r2 r3 r4]
  simp only [List.length_cons, List.length_nil]
  simp [segment, vecGet, exampleUnitLLT, SparseMatrix.add, SparseMatrix.sdiv,
    SparseMatrix.value, exampleOne, SparseMatrix.ofFn]
  norm_num

/-- C17, defect of the code.  The parameter `QK` of `theta_squarem2` and of `theta_fixpt` is
passed by value, so the matrix `QK` of `findTheta` is never stamped and the final solve of
lines 769-773 uses the incoming `QK` together with the returned `sigma2`.  On the one-vertex
prior with `X = Psi = A = [1]`, `y = [40]`, one probe column `[1]`, `tol = 100`, the initial
`theta = (1, 1 / (4 pi), 1)` and the incoming `QK = [1]`, which is the prior precision at
the initial `theta`, the accelerator returns after two rounds and four evaluations the
vector `theta_new = (kappa, s kappa / (4 pi), s)` with `s = 2401 / 4`, and `findTheta`
returns `mu = [32 / 481]`; the posterior mean at the returned `theta`, with the joint
precision `Precision(kappa) / (4 pi phi) = [1 / s]` of the returned `kappa` and `phi`, is
`[20]`. -/
theorem findTheta_mu_uses_incoming_QK :
    findTheta ⟨Real.sqrt, Real.log, 2⁻¹ ^ 52, Real.pi⟩ (exampleUnitLDLT ℝ) (exampleUnitLLT ℝ)
        SquaremDefault 1 (fun _ _ => 0) 0 [1, 1 / (4 * Real.pi), 1] (exampleUnitSpde ℝ) [40]
        (exampleOne ℝ) (exampleOne ℝ) (exampleOne ℝ) (exampleOne ℝ) [[1]] 100
      = some
        { theta_new := [0 + (3 - Real.sqrt 5) / 2 * (50 - 0),
            (400 + (400 + 1 / 2) / 2) * (0 + (3 - Real.sqrt 5) / 2 * (50 - 0)) / (4 * Real.pi),
            400 + (400 + 1 / 2) / 2]
          kappa2_new := [0 + (3 - Real.sqrt 5) / 2 * (50 - 0)]
          phi_new := [(400 + (400 + 1 / 2) / 2) * (0 + (3 - Real.sqrt 5) / 2 * (50 - 0))
            / (4 * Real.pi)]
          sigma2_new := 400 + (400 + 1 / 2) / 2
          mu := [32 / 481] } ∧
    exampleUnitLLT ℝ
        ((jointPrecision ⟨Real.sqrt, Real.log, 2⁻¹ ^ 52, Real.pi⟩
            [0 + (3 - Real.sqrt 5) / 2 * (50 - 0),
              (400 + (400 + 1 / 2) / 2) * (0 + (3 - Real.sqrt 5) / 2 * (50 - 0))
                / (4 * Real.pi),
              400 + (400 + 1 / 2) / 2]
            (exampleUnitSpde ℝ) 1 1 1 (exampleOne ℝ)).add
          ((exampleOne ℝ).sdiv (400 + (400 + 1 / 2) / 2)))
        ([(40 : ℝ)].map (fun v => v / (400 + (400 + 1 / 2) / 2)))
      = [20] ∧
    jointPrecision ⟨Real.sqrt, Real.log, 2⁻¹ ^ 52, Real.pi⟩ [1, 1 / (4 * Real.pi), 1]
        (exampleUnitSpde ℝ) 1 1 1 (exampleOne ℝ) = exampleOne ℝ ∧
    (400 + (400 + 1 / 2) / 2 : ℝ) = 2401 / 4 ∧ (32 / 481 : ℝ) ≠ 20 := by
  refine ⟨example_unit_findTheta, ?_, ?_, by norm_num, by norm_num⟩
  · have hk := example_first_point_bounds.1
    have h := example_unit_mu (0 + (3 - Real.sqrt 5) / 2 * (50 - 0))
      ((400 + (400 + 1 / 2) / 2) * (0 + (3 - Real.sqrt 5) / 2 * (50 - 0)) / (4 * Real.pi))
      (400 + (400 + 1 / 2) / 2) (exampleOne ℝ) (by norm_num)
      (by
        have hpi : Real.pi ≠ 0 := ne_of_gt Real.pi_pos
        have hk' : (0 : ℝ) + (3 - Real.sqrt 5) / 2 * (50 - 0) ≠ 0 := by linarith
        generalize (0 : ℝ) + (3 - Real.sqrt 5) / 2 * (50 - 0) = k at hk' ⊢
        field_simp
        ring)
    unfold theta_fixpt_mu theta_fixpt_Sig_inv at h
    rw [theta_fixpt_QK_eq ⟨Real.sqrt, Real.log, 2⁻¹ ^ 52, Real.pi⟩
      [0 + (3 - Real.sqrt 5) / 2 * (50 - 0),
        (400 + (400 + 1 / 2) / 2) * (0 + (3 - Real.sqrt 5) / 2 * (50 - 0)) / (4 * Real.pi),
        400 + (400 + 1 / 2) / 2] (exampleOne ℝ) (exampleOne ℝ) (exampleUnitSpde ℝ) 1 1 rfl
      (by norm_num) (by norm_num) exampleUnitSpde_Dim_one] at h
    exact h
  · refine SparseMatrix.eq_of_coeff _ _ (by rfl) (by rfl) (fun r c => ?_)
    have hpi : Real.pi ≠ 0 := ne_of_gt Real.pi_pos
    unfold jointPrecision
    simp only [Nat.div_one, Nat.mod_one, vecGet, List.getD_cons_zero, List.getD_cons_succ,
      Nat.zero_add]
    by_cases h : r = c ∧ r < 1 ∧ (Precision (1 : ℝ) (exampleUnitSpde ℝ)).stored 0 0
    · rw [if_pos h, Precision_value]
      obtain ⟨h1, h2, _⟩ := h
      subst h1
      have hr : r = 0 := by omega
      subst hr
      simp [SparseMatrix.value, exampleUnitSpde, exampleOne, SparseMatrix.ofFn]
      field_simp
      ring
    · rw [if_neg h]

end FindThetaReal

/-! ## The two copies of the accelerator, and the method setting -/

section SquaremSame

variable {α : Type} [LinearOrderedField α]

/-- C25. The functions `init_squarem2` and `theta_squarem2` are the same accelerator: for
every fixed-point map `F` put in the place of the call of `init_fixptC` in the first and of
`theta_fixpt` in the second, every starting vector, every value of the unassigned `alpha`
and all control settings, the two return the same output (`par`, `iter`, `pfevals`,
`convergence` and the other members), their rounds end in the same way on every state, and
after every number `n` of completed rounds they hold the same variables, among them the
step bounds `stepmin` and `stepmax`. -/
theorem squarem_init_theta_same (lib : CLib α) (ctl : SquaremControl α)
    (F : List α → Option (List α)) (alpha0 : α) (par : List α) :
    init_squarem2 lib ctl F alpha0 par = theta_squarem2 lib ctl F alpha0 par ∧
    (init_squarem2 lib ctl F alpha0 par).par = (theta_squarem2 lib ctl F alpha0 par).par ∧
    (init_squarem2 lib ctl F alpha0 par).iter = (theta_squarem2 lib ctl F alpha0 par).iter ∧
    (init_squarem2 lib ctl F alpha0 par).pfevals
      = (theta_squarem2 lib ctl F alpha0 par).pfevals ∧
    (init_squarem2 lib ctl F alpha0 par).convergence
      = (theta_squarem2 lib ctl F alpha0 par).convergence ∧
    (∀ s, init_squarem2_round lib ctl F par.length s
      = theta_squarem2_round lib ctl F par.length s) ∧
    (∀ n, init_squarem2_after lib ctl F par.length n (squaremStart ctl alpha0 par)
      = theta_squarem2_after lib ctl F par.length n (squaremStart ctl alpha0 par)) ∧
    (∀ n, (init_squarem2_after lib ctl F par.length n (squaremStart ctl alpha0 par)).map
        (fun s => (s.stepmin, s.stepmax))
      = (theta_squarem2_after lib ctl F par.length n (squaremStart ctl alpha0 par)).map
        (fun s => (s.stepmin, s.stepmax))) := by
  have h := init_eq_theta lib ctl F alpha0 par
  refine ⟨h, ?_, ?_, ?_, ?_, fun s => init_round_eq_theta_round lib ctl F _ s,
    fun n => init_after_eq_theta_after lib ctl F _ n _, fun n => ?_⟩
  · rw [h]
  · rw [h]
  · rw [h]
  · rw [h]
  · rw [init_after_eq_theta_after]

/-- The step length after the clamp, for the methods `1`, `2` and `3`. -/
theorem sqAlpha_method (lib : CLib α) (ctl : SquaremControl α) (m : Int)
    (hm : m = 1 ∨ m = 2 ∨ m = 3) (len : Nat) (s : SquaremState α) (p1 p2 : List α) :
    sqAlpha lib { ctl with method := m } len s p1 p2
      = (stdMax (DoubleVal.finite s.stepmin) (stdMin (DoubleVal.finite s.stepmax)
          (DoubleVal.sqrt lib
            (DoubleVal.div (sqSr2 len s.pcpp p1) (sqSv2 len s.pcpp p1 p2))))).get := by
  unfold sqAlpha
  rw [methodSwitch_eq lib _ hm]

/-- A round does not depend on which of the methods `1`, `2`, `3` is configured. -/
theorem theta_round_method (lib : CLib α) (ctl : SquaremControl α) (m m' : Int)
    (hm : m = 1 ∨ m = 2 ∨ m = 3) (hm' : m' = 1 ∨ m' = 2 ∨ m' = 3)
    (F : List α → Option (List α)) (len : Nat) (s : SquaremState α) :
    theta_squarem2_round lib { ctl with method := m } F len s
      = theta_squarem2_round lib { ctl with method := m' } F len s := by
  rw [theta_round_view, theta_round_view]
  simp only [sqAlpha_method lib ctl m hm, sqAlpha_method lib ctl m' hm']
  rfl

/-- The loop does not depend on which of the methods `1`, `2`, `3` is configured. -/
theorem theta_loop_method (lib : CLib α) (ctl : SquaremControl α) (m m' : Int)
    (hm : m = 1 ∨ m = 2 ∨ m = 3) (hm' : m' = 1 ∨ m' = 2 ∨ m' = 3)
    (F : List α → Option (List α)) (len : Nat) :
    ∀ (fuel : Nat) (s : SquaremState α),
      theta_squarem2_loop lib { ctl with method := m } F len fuel s
        = theta_squarem2_loop lib { ctl with method := m' } F len fuel s := by
  intro fuel
  induction fuel with
  | zero => intro s; rfl
  | succ n ih =>
    intro s
    unfold theta_squarem2_loop
    rw [theta_round_method lib ctl m m' hm hm']
    by_cases hg : s.feval < ctl.maxiter
    · rw [if_pos hg, if_pos hg]
      cases theta_squarem2_round lib { ctl with method := m' } F len s with
      | abort => rfl
      | leave s1 => rfl
      | next s1 => exact ih s1
    · rw [if_neg hg, if_neg hg]

/-- C22. For every configured method in `{1, 2, 3}` the `switch` leaves in `alpha` the value
of the `double` expression `sqrt(sr2 / sv2)`, where in a round `sr2 = ‖p1 - p‖²` and
`sv2 = ‖p2 - 2 p1 + p‖²`, whatever `alpha` held before and whatever `srv` is.  For
`sv2 ≠ 0` this is the finite number `sqrt(sr2 / sv2)`, and the clamped step length is
`max(stepmin, min(stepmax, sqrt(sr2 / sv2)))`; for `sv2 = 0` it is `+inf` (NaN when `sr2`
is zero as well), and the clamped step length is `max(stepmin, stepmax)`.  Two settings of
the method in `{1, 2, 3}` give the same round on every state and the same output of
`theta_squarem2` and of `init_squarem2`, for every fixed-point map, starting vector and
other control settings. -/
theorem squarem_method_no_effect (lib : CLib α) (ctl : SquaremControl α) (m m' : Int)
    (hm : m = 1 ∨ m = 2 ∨ m = 3) (hm' : m' = 1 ∨ m' = 2 ∨ m' = 3)
    (F : List α → Option (List α)) (alpha0 : α) (par : List α) :
    (∀ (alpha : DoubleVal α) (sr2 sv2 srv : α),
      methodSwitch lib m alpha sr2 sv2 srv = DoubleVal.sqrt lib (DoubleVal.div sr2 sv2)) ∧
    (∀ sr2 sv2 : α, sv2 ≠ 0 → 0 ≤ sr2 / sv2 →
      DoubleVal.sqrt lib (DoubleVal.div sr2 sv2) = DoubleVal.finite (lib.sqrt (sr2 / sv2))) ∧
    (∀ sr2 : α, 0 < sr2 → DoubleVal.sqrt lib (DoubleVal.div sr2 0) = DoubleVal.posInf) ∧
    DoubleVal.sqrt lib (DoubleVal.div (0 : α) 0) = DoubleVal.nan ∧
    (∀ (s : SquaremState α) (p1 p2 : List α),
      methodSwitch lib m (DoubleVal.finite s.alpha) (sqSr2 par.length s.pcpp p1)
          (sqSv2 par.length s.pcpp p1 p2) (sqSrv par.length s.pcpp p1 p2)
        = DoubleVal.sqrt lib (DoubleVal.div
            (sumLoop par.length (fun i => (vecGet p1 i - vecGet s.pcpp i) ^ 2))
            (sumLoop par.length
              (fun i => (vecGet p2 i - 2 * vecGet p1 i + vecGet s.pcpp i) ^ 2))) ∧
      (sqSv2 par.length s.pcpp p1 p2 ≠ 0 →
        sqAlpha lib { ctl with method := m } par.length s p1 p2
          = stdMax s.stepmin (stdMin s.stepmax
              (lib.sqrt (sqSr2 par.length s.pcpp p1 / sqSv2 par.length s.pcpp p1 p2)))) ∧
      (sqSv2 par.length s.pcpp p1 p2 = 0 →
        sqAlpha lib { ctl with method := m } par.length s p1 p2
          = stdMax s.stepmin s.stepmax)) ∧
    (∀ s, theta_squarem2_round lib { ctl with method := m } F par.length s
      = theta_squarem2_round lib { ctl with method := m' } F par.length s) ∧
    theta_squarem2 lib { ctl with method := m } F alpha0 par
      = theta_squarem2 lib { ctl with method := m' } F alpha0 par ∧
    init_squarem2 lib { ctl with method := m } F alpha0 par
      = init_squarem2 lib { ctl with method := m' } F alpha0 par := by
  have ht : theta_squarem2 lib { ctl with method := m } F alpha0 par
      = theta_squarem2 lib { ctl with method := m' } F alpha0 par := by
    unfold theta_squarem2
    simp only
    rw [theta_loop_method lib ctl m m' hm hm']
    rfl
  refine ⟨fun alpha sr2 sv2 srv => methodSwitch_eq lib m hm alpha sr2 sv2 srv, ?_, ?_, ?_,
    fun s p1 p2 => ⟨methodSwitch_eq lib m hm _ _ _ _, fun hv => ?_, fun hv => ?_⟩,
    fun s => theta_round_method lib ctl m m' hm hm' F _ s, ht, ?_⟩
  · intro sr2 sv2 hv hq
    unfold DoubleVal.div
    rw [if_neg hv]
    unfold DoubleVal.sqrt
    simp only [if_neg (not_lt.2 hq)]
  · intro sr2 h
    unfold DoubleVal.div
    rw [if_pos rfl, if_pos h]
    rfl
  · unfold DoubleVal.div
    rw [if_pos rfl, if_neg (lt_irrefl 0), if_neg (lt_irrefl 0)]
    rfl
  · have h1 : 0 ≤ sqSr2 par.length s.pcpp p1 := sumLoop_nonneg _ _ (fun i => sq_nonneg _)
    have h2 : 0 ≤ sqSv2 par.length s.pcpp p1 p2 := sumLoop_nonneg _ _ (fun i => sq_nonneg _)
    exact sqAlpha_of_ne_zero lib { ctl with method := m } par.length s p1 p2 hm hv
      (not_lt.2 (div_nonneg h1 h2))
  · exact sqAlpha_of_zero lib { ctl with method := m } par.length s p1 p2 hm hv
  · rw [init_eq_theta, init_eq_theta, ht]

end SquaremSame

section SquaremSameReal

/-- Witness of C22: the methods `1` and `3` with the settings of `SquaremDefault`, the
halving map and the start `[1]`. -/
theorem squarem_method_no_effect_witness :
    ((1 : Int) = 1 ∨ (1 : Int) = 2 ∨ (1 : Int) = 3) ∧
    ((3 : Int) = 1 ∨ (3 : Int) = 2 ∨ (3 : Int) = 3) ∧
    theta_squarem2 ⟨Real.sqrt, Real.log, 2⁻¹ ^ 52, Real.pi⟩
        { (SquaremDefault : SquaremControl ℝ) with method := 1 } exampleHalving 0 [1]
      = theta_squarem2 ⟨Real.sqrt, Real.log, 2⁻¹ ^ 52, Real.pi⟩
        { (SquaremDefault : SquaremControl ℝ) with method := 3 } exampleHalving 0 [1] :=
  ⟨by decide, by decide,
    (squarem_method_no_effect ⟨Real.sqrt, Real.log, 2⁻¹ ^ 52, Real.pi⟩ SquaremDefault 1 3
      (by decide) (by decide) exampleHalving 0 [1]).2.2.2.2.2.2.1⟩

end SquaremSameReal

/-! ## The proposed point and the stabilization -/

section SquaremPropose

variable {α : Type} [LinearOrderedField α]

/-- A loop that assigns `v[i] = f(i)` for `i < k` leaves the first `k` entries of `v`
assigned and the others as they were. -/
theorem foldl_set_range {β : Type} (f : Nat → β) (v : List β) :
    ∀ k, k ≤ v.length →
      (List.range k).foldl (fun acc i => acc.set i (f i)) v
        = (List.range k).map f ++ v.drop k := by
  intro k
  induction k with
  | zero => intro _; simp
  | succ k ih =>
    intro hk
    rw [foldl_range_succ_apply, ih (by omega)]
    have hl : ((List.range k).map f).length = k := by simp
    rw [List.set_append_right _ _ (by rw [hl]), hl, Nat.sub_self,
      List.drop_eq_getElem_cons (by omega : k < v.length), List.set_cons_zero,
      List.range_succ, List.map_append]
    simp

/-- The proposed point of a round has the length of the vector and holds
`p + 2 alpha (p1 - p) + alpha² (p2 - 2 p1 + p)` in every entry. -/
theorem sqPnew_entries (len : Nat) (s : SquaremState α) (p1 p2 : List α) (alpha : α)
    (hl : s.pnew.length = len) :
    sqPnew len s p1 p2 alpha
      = (List.range len).map (fun i =>
          vecGet s.pcpp i + 2 * alpha * (vecGet p1 i - vecGet s.pcpp i)
            + alpha ^ 2 * (vecGet p2 i - 2 * vecGet p1 i + vecGet s.pcpp i)) := by
  unfold sqPnew
  rw [foldl_set_range _ _ len (by omega), ← hl, List.drop_length, List.append_nil]

end SquaremPropose

section SquaremStabilize

/-- The sum of a loop, as the sum of the list of its terms. -/
theorem sumLoop_eq_sum (len : Nat) (term : Nat → ℝ) :
    sumLoop len term = ((List.range len).map term).sum := by
  unfold sumLoop
  induction len with
  | zero => simp
  | succ n ih =>
    rw [List.range_succ, List.foldl_append, ih]
    simp

/-- C21. A round of the accelerator (`theta_squarem2` and `init_squarem2`, with the real
square root, on vectors of a length `len ≥ 1`) in which both evaluations succeed with
residuals not below `tol`, the clamped step length `alpha` has `|alpha - 1| > 0.01`, and the
stabilization evaluation `ptmp = F(p_new)` succeeds: the proposed point `p_new` holds
`p + 2 alpha (p1 - p) + alpha² (p2 - 2 p1 + p)` in every entry; the bound is
`kres = kr (1 + ‖p2‖ / sqrt(len)) + ‖p2 - p1‖`, where `sqrt(len) > 0`; the round ends after
three evaluations with the next iterate `ptmp` and the step length `alpha` if
`‖ptmp - p_new‖ ≤ kres`, and with the next iterate `p2` and the step length `1` otherwise.
The step length `alpha` is the one of
the code: the clamp of the `double` value of `sqrt(sr2 / sv2)`, which for `sv2 = 0` is
`+inf` or NaN, so that `alpha = max(stepmin, stepmax)` there. -/
theorem squarem_stabilization (lib : CLib ℝ) (hs : lib.sqrt = Real.sqrt)
    (ctl : SquaremControl ℝ) (F : List ℝ → Option (List ℝ)) (len : Nat) (s : SquaremState ℝ)
    (p1 p2 ptmp : List ℝ) (hlen : 0 < len) (hl : s.pnew.length = len)
    (h1 : F s.pcpp = some p1) (r1 : ¬ lib.sqrt (sqSr2 len s.pcpp p1) < ctl.tol)
    (h2 : F p1 = some p2) (r2 : ¬ sqSq2 lib len p1 p2 < ctl.tol)
    (ha : |sqAlpha lib ctl len s p1 p2 - 1| > 1 / 100)
    (h3 : F (sqPnew len s p1 p2 (sqAlpha lib ctl len s p1 p2)) = some ptmp) :
    sqPnew len s p1 p2 (sqAlpha lib ctl len s p1 p2)
      = (List.range len).map (fun i =>
          vecGet s.pcpp i + 2 * sqAlpha lib ctl len s p1 p2 * (vecGet p1 i - vecGet s.pcpp i)
            + sqAlpha lib ctl len s p1 p2 ^ 2
              * (vecGet p2 i - 2 * vecGet p1 i + vecGet s.pcpp i)) ∧
    sqKres lib ctl len p1 p2
      = ctl.kr * (1 + Real.sqrt (((List.range len).map (fun i => vecGet p2 i ^ 2)).sum)
            / Real.sqrt (len : ℝ))
          + Real.sqrt (((List.range len).map (fun i => (vecGet p2 i - vecGet p1 i) ^ 2)).sum) ∧
    0 < Real.sqrt (len : ℝ) ∧
    sqRes lib len ptmp (sqPnew len s p1 p2 (sqAlpha lib ctl len s p1 p2))
      = Real.sqrt (((List.range len).map (fun i =>
          (vecGet ptmp i - vecGet (sqPnew len s p1 p2 (sqAlpha lib ctl len s p1 p2)) i) ^ 2)).sum) ∧
    ∃ s1, theta_squarem2_round lib ctl F len s = SquaremStep.next s1 ∧
      init_squarem2_round lib ctl F len s = SquaremStep.next s1 ∧
      s1.feval = s.feval + 3 ∧ s1.iter = s.iter + 1 ∧ s1.pnew = s1.pcpp ∧
      (sqRes lib len ptmp (sqPnew len s p1 p2 (sqAlpha lib ctl len s p1 p2))
          ≤ sqKres lib ctl len p1 p2 →
        s1.pcpp = ptmp ∧ s1.alpha = sqAlpha lib ctl len s p1 p2 ∧ s1.extrap = true) ∧
      (¬ sqRes lib len ptmp (sqPnew len s p1 p2 (sqAlpha lib ctl len s p1 p2))
          ≤ sqKres lib ctl len p1 p2 →
        s1.pcpp = p2 ∧ s1.alpha = 1 ∧ s1.extrap = false) ∧
      ((ctl.method = 1 ∨ ctl.method = 2 ∨ ctl.method = 3) →
        (sqSv2 len s.pcpp p1 p2 = 0 →
          sqAlpha lib ctl len s p1 p2 = stdMax s.stepmin s.stepmax) ∧
        (sqSv2 len s.pcpp p1 p2 ≠ 0 →
          sqAlpha lib ctl len s p1 p2
            = stdMax s.stepmin (stdMin s.stepmax
                (Real.sqrt (sqSr2 len s.pcpp p1 / sqSv2 len s.pcpp p1 p2))))) := by
  have hal : (ctl.method = 1 ∨ ctl.method = 2 ∨ ctl.method = 3) →
      (sqSv2 len s.pcpp p1 p2 = 0 →
        sqAlpha lib ctl len s p1 p2 = stdMax s.stepmin s.stepmax) ∧
      (sqSv2 len s.pcpp p1 p2 ≠ 0 →
        sqAlpha lib ctl len s p1 p2
          = stdMax s.stepmin (stdMin s.stepmax
              (Real.sqrt (sqSr2 len s.pcpp p1 / sqSv2 len s.pcpp p1 p2)))) := by
    intro hm
    refine ⟨fun hv => sqAlpha_of_zero lib ctl len s p1 p2 hm hv, fun hv => ?_⟩
    have a1 : 0 ≤ sqSr2 len s.pcpp p1 := sumLoop_nonneg _ _ (fun i => sq_nonneg _)
    have a2 : 0 ≤ sqSv2 len s.pcpp p1 p2 := sumLoop_nonneg _ _ (fun i => sq_nonneg _)
    rw [sqAlpha_of_ne_zero lib ctl len s p1 p2 hm hv (not_lt.2 (div_nonneg a1 a2)), hs]
  refine ⟨sqPnew_entries len s p1 p2 _ hl, ?_, Real.sqrt_pos.2 (Nat.cast_pos.2 hlen), ?_, ?_⟩
  · unfold sqKres sqSq2
    rw [hs, sumLoop_eq_sum, sumLoop_eq_sum, Real.sqrt_div' _ (Nat.cast_nonneg len)]
  · unfold sqRes
    rw [hs, sumLoop_eq_sum]
  · by_cases c4 : sqRes lib len ptmp (sqPnew len s p1 p2 (sqAlpha lib ctl len s p1 p2))
        ≤ sqKres lib ctl len p1 p2
    · refine ⟨sqTail ctl s (sqAlpha lib ctl len s p1 p2) s.stepmax ptmp (s.feval + 1 + 1 + 1)
        true, ?_, ?_, rfl, rfl, rfl, fun _ => ⟨rfl, rfl, rfl⟩, fun h => absurd c4 h, hal⟩
      · rw [theta_round_view]
        simp only [h1, h2, h3, if_neg r1, if_neg r2, if_pos ha, if_pos c4]
      · rw [init_round_eq_theta_round, theta_round_view]
        simp only [h1, h2, h3, if_neg r1, if_neg r2, if_pos ha, if_pos c4]
    · refine ⟨sqTail ctl s 1 (if sqAlpha lib ctl len s p1 p2 = s.stepmax
          then ctl.mstep * s.stepmax else s.stepmax) p2 (s.feval + 1 + 1 + 1) false,
        ?_, ?_, rfl, rfl, rfl, fun h => absurd h c4, fun _ => ⟨rfl, rfl, rfl⟩, hal⟩
      · rw [theta_round_view]
        simp only [h1, h2, h3, if_neg r1, if_neg r2, if_pos ha, if_neg c4]
      · rw [init_round_eq_theta_round, theta_round_view]
        simp only [h1, h2, h3, if_neg r1, if_neg r2, if_pos ha, if_neg c4]

end SquaremStabilize
section SquaremConverged

variable {α : Type} [LinearOrderedField α]

/-- C24. Whenever the accelerator (`theta_squarem2` or `init_squarem2`) returns with
`convergence = true`, the loop was left through `break` with `feval < maxiter`, in a round
started after some number `n` of completed rounds with the iterate `p`; the returned `par`
is this `p`, neither `F(p)` nor `F(F(p))` is stored in it, and `‖F(p) - p‖ < tol` or
`‖F(F(p)) - F(p)‖ < tol`. -/
theorem squarem_converged_par (lib : CLib α) (ctl : SquaremControl α)
    (F : List α → Option (List α)) (alpha0 : α) (par : List α)
    (hc : (theta_squarem2 lib ctl F alpha0 par).convergence = true ∨
      (init_squarem2 lib ctl F alpha0 par).convergence = true) :
    ∃ (n : Nat) (s sf : SquaremState α) (p1 : List α),
      theta_squarem2_after lib ctl F par.length n (squaremStart ctl alpha0 par) = some s ∧
      init_squarem2_after lib ctl F par.length n (squaremStart ctl alpha0 par) = some s ∧
      s.feval < ctl.maxiter ∧
      theta_squarem2_round lib ctl F par.length s = SquaremStep.leave sf ∧
      (theta_squarem2 lib ctl F alpha0 par).par = s.pcpp ∧
      (init_squarem2 lib ctl F alpha0 par).par = s.pcpp ∧
      (theta_squarem2 lib ctl F alpha0 par).pfevals < ctl.maxiter ∧
      F s.pcpp = some p1 ∧
      (lib.sqrt (sumLoop par.length (fun i => (vecGet p1 i - vecGet s.pcpp i) ^ 2)) < ctl.tol ∨
        ∃ p2, F p1 = some p2 ∧
          lib.sqrt (sumLoop par.length (fun i => (vecGet p2 i - vecGet p1 i) ^ 2))
            < ctl.tol) := by
  have hc' : (theta_squarem2 lib ctl F alpha0 par).convergence = true := by
    rcases hc with h | h
    · exact h
    · rw [← init_eq_theta]
      exact h
  have key : ∃ sf, theta_squarem2_loop lib ctl F par.length ctl.maxiter
      (squaremStart ctl alpha0 par) = some sf ∧ sf.feval < ctl.maxiter := by
    unfold theta_squarem2 at hc'
    simp only at hc'
    cases h : theta_squarem2_loop lib ctl F par.length ctl.maxiter
      (squaremStart ctl alpha0 par) with
    | none =>
      rw [h] at hc'
      simp [sqobjnull] at hc'
    | some sf =>
      rw [h] at hc'
      by_cases hs : sf.feval ≥ ctl.maxiter
      · simp [hs] at hc'
      · exact ⟨sf, rfl, by omega⟩
  obtain ⟨sf, hsf, hlt⟩ := key
  obtain ⟨n, s, e1, e2, e3⟩ := theta_loop_break lib ctl F par.length ctl.maxiter
    (squaremStart ctl alpha0 par) sf (by omega) hsf hlt
  obtain ⟨_, hp, _, p1, hp1, hres⟩ := theta_round_leave lib ctl F par.length s sf e3
  have hpar : (theta_squarem2 lib ctl F alpha0 par).par = s.pcpp := by
    unfold theta_squarem2
    simp only [hsf]
    exact hp
  have hfe : (theta_squarem2 lib ctl F alpha0 par).pfevals < ctl.maxiter := by
    unfold theta_squarem2
    simp only [hsf]
    exact hlt
  refine ⟨n, s, sf, p1, e1, ?_, e2, e3, hpar, ?_, hfe, hp1, hres⟩
  · rw [init_after_eq_theta_after]
    exact e1
  · rw [init_eq_theta]
    exact hpar

end SquaremConverged

section SquaremRoundsReal

/-- Witness of C24: the identity map started at `[3, 2, 1/2]` with the settings of
`SquaremDefault` returns with `convergence = true`. -/
theorem squarem_converged_par_witness :
    ((theta_squarem2 ⟨Real.sqrt, Real.log, 2⁻¹ ^ 52, Real.pi⟩ SquaremDefault
          (fun p => some p) 0 [(3 : ℝ), 2, 1 / 2]).convergence = true ∨
      (init_squarem2 ⟨Real.sqrt, Real.log, 2⁻¹ ^ 52, Real.pi⟩ SquaremDefault
          (fun p => some p) 0 [(3 : ℝ), 2, 1 / 2]).convergence = true) ∧
    ∃ (n : Nat) (s sf : SquaremState ℝ) (p1 : List ℝ),
      theta_squarem2_after ⟨Real.sqrt, Real.log, 2⁻¹ ^ 52, Real.pi⟩ SquaremDefault
          (fun p => some p) [(3 : ℝ), 2, 1 / 2].length n
          (squaremStart SquaremDefault 0 [3, 2, 1 / 2]) = some s ∧
      init_squarem2_after ⟨Real.sqrt, Real.log, 2⁻¹ ^ 52, Real.pi⟩ SquaremDefault
          (fun p => some p) [(3 : ℝ), 2, 1 / 2].length n
          (squaremStart SquaremDefault 0 [3, 2, 1 / 2]) = some s ∧
      s.feval < (SquaremDefault : SquaremControl ℝ).maxiter ∧
      theta_squarem2_round ⟨Real.sqrt, Real.log, 2⁻¹ ^ 52, Real.pi⟩ SquaremDefault
          (fun p => some p) [(3 : ℝ), 2, 1 / 2].length s = SquaremStep.leave sf ∧
      (theta_squarem2 ⟨Real.sqrt, Real.log, 2⁻¹ ^ 52, Real.pi⟩ SquaremDefault
          (fun p => some p) 0 [(3 : ℝ), 2, 1 / 2]).par = s.pcpp ∧
      (init_squarem2 ⟨Real.sqrt, Real.log, 2⁻¹ ^ 52, Real.pi⟩ SquaremDefault
          (fun p => some p) 0 [(3 : ℝ), 2, 1 / 2]).par = s.pcpp ∧
      (theta_squarem2 ⟨Real.sqrt, Real.log, 2⁻¹ ^ 52, Real.pi⟩ SquaremDefault
          (fun p => some p) 0 [(3 : ℝ), 2, 1 / 2]).pfevals
        < (SquaremDefault : SquaremControl ℝ).maxiter ∧
      (fun p : List ℝ => some p) s.pcpp = some p1 ∧
      ((⟨Real.sqrt, Real.log, 2⁻¹ ^ 52, Real.pi⟩ : CLib ℝ).sqrt
          (sumLoop [(3 : ℝ), 2, 1 / 2].length (fun i => (vecGet p1 i - vecGet s.pcpp i) ^ 2))
          < (SquaremDefault : SquaremControl ℝ).tol ∨
        ∃ p2, (fun p : List ℝ => some p) p1 = some p2 ∧
          (⟨Real.sqrt, Real.log, 2⁻¹ ^ 52, Real.pi⟩ : CLib ℝ).sqrt
            (sumLoop [(3 : ℝ), 2, 1 / 2].length (fun i => (vecGet p2 i - vecGet p1 i) ^ 2))
            < (SquaremDefault : SquaremControl ℝ).tol) := by
  have hc : (theta_squarem2 ⟨Real.sqrt, Real.log, 2⁻¹ ^ 52, Real.pi⟩ SquaremDefault
      (fun p => some p) 0 [(3 : ℝ), 2, 1 / 2]).convergence = true := by
    rw [theta_identity ⟨Real.sqrt, Real.log, 2⁻¹ ^ 52, Real.pi⟩ SquaremDefault 0 [3, 2, 1 / 2]
      Real.sqrt_zero (by simp [SquaremDefault]) (by simp [SquaremDefault])]
  exact ⟨Or.inl hc, squarem_converged_par ⟨Real.sqrt, Real.log, 2⁻¹ ^ 52, Real.pi⟩
    SquaremDefault (fun p => some p) 0 [3, 2, 1 / 2] (Or.inl hc)⟩

end SquaremRoundsReal

/-! ## How often the pattern is analysed and the matrix factorized -/

section HandleCallsProps

variable {α : Type} [LinearOrderedField α]

/-- The calls of `k` evaluations of `theta_fixpt` hold no symbolic analysis and `k` numeric
factorizations. -/
theorem fixpt_calls_count (k : Nat) :
    (((List.replicate k theta_fixpt_calls).flatten).map CholCall.symbolic).sum = 0 ∧
    (((List.replicate k theta_fixpt_calls).flatten).map CholCall.numeric).sum = k := by
  induction k with
  | zero => simp
  | succ k ih =>
    rw [List.replicate_succ, List.flatten_cons, List.map_append, List.map_append,
      List.sum_append, List.sum_append, ih.1, ih.2]
    simp [theta_fixpt_calls, CholCall.symbolic, CholCall.numeric]
    omega

/-- The calls of `j` evaluations followed by those of `k` evaluations. -/
theorem fixpt_calls_add (j k : Nat) :
    (List.replicate j theta_fixpt_calls).flatten ++ (List.replicate k theta_fixpt_calls).flatten
      = (List.replicate (j + k) theta_fixpt_calls).flatten := by
  rw [List.replicate_add, List.flatten_append]

/-- The calls of a round are those of its evaluations of `theta_fixpt`, of which there are
at least as many as the round adds to `feval`. -/
theorem theta_round_calls_shape (lib : CLib α) (ctl : SquaremControl α)
    (F : List α → Option (List α)) (len : Nat) (s : SquaremState α) :
    ∃ k, theta_round_calls lib ctl F len s = (List.replicate k theta_fixpt_calls).flatten ∧
      1 ≤ k ∧ k ≤ 3 ∧
      ∀ s1, (theta_squarem2_round lib ctl F len s = SquaremStep.next s1 ∨
          theta_squarem2_round lib ctl F len s = SquaremStep.leave s1) →
        s1.feval ≤ s.feval + k := by
  have e1 : theta_fixpt_calls = (List.replicate 1 theta_fixpt_calls).flatten := by simp
  have e2 : theta_fixpt_calls ++ theta_fixpt_calls
      = (List.replicate 2 theta_fixpt_calls).flatten := by simp [List.replicate]
  have e3 : theta_fixpt_calls ++ theta_fixpt_calls ++ theta_fixpt_calls
      = (List.replicate 3 theta_fixpt_calls).flatten := by simp [List.replicate]
  unfold theta_round_calls
  rw [theta_round_view]
  cases h1 : F s.pcpp with
  | none =>
    refine ⟨1, e1, by omega, by omega, fun s1 h => ?_⟩
    rcases h with h | h <;> cases h
  | some p1 =>
    simp only
    by_cases c1 : lib.sqrt (sqSr2 len s.pcpp p1) < ctl.tol
    · simp only [if_pos c1]
      refine ⟨1, e1, by omega, by omega, fun s1 h => ?_⟩
      rcases h with h | h
      · cases h
      · injection h with h
        subst h
        exact le_refl _
    · simp only [if_neg c1]
      cases h2 : F p1 with
      | none =>
        refine ⟨2, e2, by omega, by omega, fun s1 h => ?_⟩
        rcases h with h | h <;> cases h
      | some p2 =>
        simp only
        by_cases c2 : sqSq2 lib len p1 p2 < ctl.tol
        · simp only [if_pos c2]
          refine ⟨2, e2, by omega, by omega, fun s1 h => ?_⟩
          rcases h with h | h
          · cases h
          · injection h with h
            subst h
            exact le_refl _
        · simp only [if_neg c2]
          by_cases c3 : |sqAlpha lib ctl len s p1 p2 - 1| > 1 / 100
          · simp only [if_pos c3]
            refine ⟨3, e3, by omega, by omega, fun s1 h => ?_⟩
            cases h3 : F (sqPnew len s p1 p2 (sqAlpha lib ctl len s p1 p2)) with
            | none =>
              rw [h3] at h
              rcases h with h | h
              · injection h with h
                subst h
                simp only [sqTail]
                omega
              · cases h
            | some ptmp =>
              rw [h3] at h
              simp only at h
              by_cases c4 : sqRes lib len ptmp (sqPnew len s p1 p2 (sqAlpha lib ctl len s p1 p2))
                  ≤ sqKres lib ctl len p1 p2
              · rw [if_pos c4] at h
                rcases h with h | h
                · injection h with h
                  subst h
                  exact le_refl _
                · cases h
              · rw [if_neg c4] at h
                rcases h with h | h
                · injection h with h
                  subst h
                  exact le_refl _
                · cases h
          · simp only [if_neg c3]
            refine ⟨2, e2, by omega, by omega, fun s1 h => ?_⟩
            rcases h with h | h
            · injection h with h
              subst h
              exact le_refl _
            · cases h

/-- The calls of the loop are those of its evaluations of `theta_fixpt`, of which there are
at least as many as the loop adds to `feval`. -/
theorem theta_squarem2_calls_shape (lib : CLib α) (ctl : SquaremControl α)
    (F : List α → Option (List α)) (len : Nat) :
    ∀ (fuel : Nat) (s : SquaremState α),
      ∃ k, theta_squarem2_calls lib ctl F len fuel s
          = (List.replicate k theta_fixpt_calls).flatten ∧
        ∀ sf, theta_squarem2_loop lib ctl F len fuel s = some sf → sf.feval ≤ s.feval + k := by
  intro fuel
  induction fuel with
  | zero =>
    intro s
    refine ⟨0, by simp [theta_squarem2_calls], fun sf h => ?_⟩
    unfold theta_squarem2_loop at h
    injection h with h
    subst h
    omega
  | succ fuel ih =>
    intro s
    unfold theta_squarem2_calls theta_squarem2_loop
    by_cases hg : s.feval < ctl.maxiter
    · simp only [if_pos hg]
      obtain ⟨j, hj, _, _, hfe⟩ := theta_round_calls_shape lib ctl F len s
      cases hr : theta_squarem2_round lib ctl F len s with
      | abort =>
        refine ⟨j, by simp [hj], fun sf h => ?_⟩
        cases h
      | leave s1 =>
        refine ⟨j, by simp [hj], fun sf h => ?_⟩
        injection h with h
        subst h
        exact hfe _ (Or.inr hr)
      | next s1 =>
        obtain ⟨k, hk, hfe2⟩ := ih s1
        refine ⟨j + k, ?_, fun sf h => ?_⟩
        · simp only [hj, hk]
          exact fixpt_calls_add j k
        · have a1 := hfe s1 (Or.inl hr)
          have a2 := hfe2 sf h
          omega
    · simp only [if_neg hg]
      refine ⟨0, by simp, fun sf h => ?_⟩
      injection h with h
      subst h
      omega

/-- C26, amended. In every run of `findTheta` the first two calls on the handle are
`compute` and `analyzePattern`, each of which analyses the sparsity pattern of
`QK + A / sigma2`: the symbolic analysis is performed exactly twice, and not once.  No later
call analyses the pattern.  The calls that follow are those of the `k` evaluations of
`theta_fixpt` that the accelerator runs, each a `factorize` and two `solve`, and then the
`factorize` and the `solve` of the final solve: the matrix is factorized once in `compute`,
once in every evaluation and once more at the end, `k + 2` times, where `k` is at least the
number `pfevals` of evaluations that the accelerator reports. -/
theorem findTheta_handle_calls (lib : CLib α)
    (ldlt : SparseMatrix α → SimplicialLDLT α) (llt : SparseMatrix α → List α → List α)
    (ctl : SquaremControl α) (fuel : Nat) (w0 : List α → Nat → α) (alpha0 : α)
    (theta : List α) (spde : Spde α) (y : List α) (X QK Psi A : SparseMatrix α)
    (Vh : List (List α)) (tol : α) :
    ∃ k,
      findTheta_calls lib ldlt llt ctl fuel w0 alpha0 theta spde y X QK Psi A Vh tol
        = [CholCall.compute, CholCall.analyzePattern]
          ++ (List.replicate k theta_fixpt_calls).flatten
          ++ [CholCall.factorize, CholCall.solve] ∧
      (theta_squarem2 lib { ctl with tol := tol }
        (fun p => theta_fixpt lib ldlt llt fuel (w0 p) p A QK ((X.mul Psi).transpose.mulVec y)
          (X.mul Psi) Vh (A.mulMat Vh) y (dot y y) spde tol) alpha0 theta).pfevals ≤ k ∧
      ((findTheta_calls lib ldlt llt ctl fuel w0 alpha0 theta spde y X QK Psi A Vh tol).map
        CholCall.symbolic).sum = 2 ∧
      (((findTheta_calls lib ldlt llt ctl fuel w0 alpha0 theta spde y X QK Psi A Vh tol).drop
        2).map CholCall.symbolic).sum = 0 ∧
      ((findTheta_calls lib ldlt llt ctl fuel w0 alpha0 theta spde y X QK Psi A Vh tol).map
        CholCall.numeric).sum = k + 2 := by
  obtain ⟨k, hk, hfe⟩ := theta_squarem2_calls_shape lib { ctl with tol := tol }
    (fun p => theta_fixpt lib ldlt llt fuel (w0 p) p A QK ((X.mul Psi).transpose.mulVec y)
      (X.mul Psi) Vh (A.mulMat Vh) y (dot y y) spde tol) theta.length
    ({ ctl with tol := tol } : SquaremControl α).maxiter
    (squaremStart { ctl with tol := tol } alpha0 theta)
  obtain ⟨c1, c2⟩ := fixpt_calls_count k
  have hc : findTheta_calls lib ldlt llt ctl fuel w0 alpha0 theta spde y X QK Psi A Vh tol
      = [CholCall.compute, CholCall.analyzePattern]
        ++ (List.replicate k theta_fixpt_calls).flatten
        ++ [CholCall.factorize, CholCall.solve] := by
    unfold findTheta_calls
    simp only
    rw [hk]
  refine ⟨k, hc, ?_, ?_, ?_, ?_⟩
  · unfold theta_squarem2
    simp only
    cases hl : theta_squarem2_loop lib { ctl with tol := tol }
      (fun p => theta_fixpt lib ldlt llt fuel (w0 p) p A QK ((X.mul Psi).transpose.mulVec y)
        (X.mul Psi) Vh (A.mulMat Vh) y (dot y y) spde tol) theta.length
      ({ ctl with tol := tol } : SquaremControl α).maxiter
      (squaremStart { ctl with tol := tol } alpha0 theta) with
    | none => simp [sqobjnull]
    | some sf =>
      have := hfe sf hl
      simp only [squaremStart] at this
      simpa using this
  · rw [hc]
    simp only [List.map_append, List.sum_append, c1]
    simp [CholCall.symbolic]
  · rw [hc]
    simp only [List.append_assoc, List.cons_append, List.nil_append, List.drop_succ_cons,
      List.drop_zero, List.map_append, List.sum_append, c1]
    simp [CholCall.symbolic]
  · rw [hc]
    simp only [List.map_append, List.sum_append, c2]
    simp [CholCall.numeric]
    omega

end HandleCallsProps
section HandleCallsReal

/-- The calls of a round that evaluates `theta_fixpt` twice: the second residual is below
`tol`, or the step length is within `0.01` of `1`. -/
theorem theta_round_calls_two (lib : CLib ℝ) (ctl : SquaremControl ℝ)
    (F : List ℝ → Option (List ℝ)) (len : Nat) (s : SquaremState ℝ) (p1 p2 : List ℝ)
    (h1 : F s.pcpp = some p1) (c1 : ¬ lib.sqrt (sqSr2 len s.pcpp p1) < ctl.tol)
    (h2 : F p1 = some p2)
    (c2 : sqSq2 lib len p1 p2 < ctl.tol ∨ ¬ |sqAlpha lib ctl len s p1 p2 - 1| > 1 / 100) :
    theta_round_calls lib ctl F len s = theta_fixpt_calls ++ theta_fixpt_calls := by
  unfold theta_round_calls
  simp only [h1, h2, if_neg c1]
  rcases c2 with c2 | c2
  · rw [if_pos c2]
  · by_cases c3 : sqSq2 lib len p1 p2 < ctl.tol
    · rw [if_pos c3]
    · rw [if_neg c3, if_neg c2]

/-- The calls on the handle in a run of `theta_squarem2` of two rounds, as in
`squarem_two_rounds`: those of four evaluations of `theta_fixpt`. -/
theorem squarem_two_rounds_calls (tol alpha0 : ℝ) (F : List ℝ → Option (List ℝ))
    (a0 a1 a2 b0 b1 b2 c0 c1 c2 : ℝ) (p3 p4 : List ℝ)
    (h1 : F [a0, a1, a2] = some [b0, b1, b2]) (h2 : F [b0, b1, b2] = some [c0, c1, c2])
    (h3 : F [c0, c1, c2] = some p3) (h4 : F p3 = some p4)
    (r1 : tol ≤ Real.sqrt (sqSr2 3 [a0, a1, a2] [b0, b1, b2]))
    (r2 : tol ≤ sqSq2 ⟨Real.sqrt, Real.log, 2⁻¹ ^ 52, Real.pi⟩ 3 [b0, b1, b2] [c0, c1, c2])
    (r3 : tol ≤ Real.sqrt (sqSr2 3 [c0, c1, c2] p3))
    (r4 : sqSq2 ⟨Real.sqrt, Real.log, 2⁻¹ ^ 52, Real.pi⟩ 3 p3 p4 < tol) :
    theta_squarem2_calls ⟨Real.sqrt, Real.log, 2⁻¹ ^ 52, Real.pi⟩
        { (SquaremDefault : SquaremControl ℝ) with tol := tol } F 3
        ({ (SquaremDefault : SquaremControl ℝ) with tol := tol } : SquaremControl ℝ).maxiter
        (squaremStart { (SquaremDefault : SquaremControl ℝ) with tol := tol } alpha0
          [a0, a1, a2])
      = theta_fixpt_calls ++ theta_fixpt_calls ++ (theta_fixpt_calls ++ theta_fixpt_calls) := by
  obtain ⟨hr1, hr2⟩ := squarem_two_rounds_steps tol alpha0 F a0 a1 a2 b0 b1 b2 c0 c1 c2 p3 p4
    h1 h2 h3 h4 r1 r2 r3 r4
  have e3 : sqAlpha ⟨Real.sqrt, Real.log, 2⁻¹ ^ 52, Real.pi⟩
      { (SquaremDefault : SquaremControl ℝ) with tol := tol } 3
      (squaremStart { (SquaremDefault : SquaremControl ℝ) with tol := tol } alpha0
        [a0, a1, a2]) [b0, b1, b2] [c0, c1, c2] = 1 :=
    sqAlpha_eq_one _ _ _ _ _ _ rfl rfl
  have k1 := theta_round_calls_two ⟨Real.sqrt, Real.log, 2⁻¹ ^ 52, Real.pi⟩
    { (SquaremDefault : SquaremControl ℝ) with tol := tol } F 3
    (squaremStart { (SquaremDefault : SquaremControl ℝ) with tol := tol } alpha0 [a0, a1, a2])
    [b0, b1, b2] [c0, c1, c2] h1 (not_lt.2 r1) h2 (Or.inr (by rw [e3]; norm_num))
  have k2 := theta_round_calls_two ⟨Real.sqrt, Real.log, 2⁻¹ ^ 52, Real.pi⟩
    { (SquaremDefault : SquaremControl ℝ) with tol := tol } F 3
    (SquaremState.mk [c0, c1, c2] [c0, c1, c2] 1 1 4 2 2 true) p3 p4 h3 (not_lt.2 r3) h4
    (Or.inl r4)
  rw [show ({ (SquaremDefault : SquaremControl ℝ) with tol := tol } : SquaremControl ℝ).maxiter
      = 1498 + 1 + 1 from rfl, theta_squarem2_calls,
    if_pos (by simp [squaremStart, SquaremDefault]), hr1, k1]
  simp only
  rw [theta_squarem2_calls, if_pos (by simp [SquaremDefault]), hr2, k2]
  simp

/-- C26, as stated, fails.  In the run of `findTheta` on the one-vertex prior with
`X = Psi = A = QK = [1]`, `y = [40]`, one probe column `[1]`, `tol = 100` and the initial
`theta = (1, 1 / (4 pi), 1)`, which returns after four evaluations of `theta_fixpt`, the
calls on the handle are `compute`, `analyzePattern`, four times `factorize`, `solve`,
`solve`, and then `factorize`, `solve`: the pattern is analysed twice, by `compute` and
again by `analyzePattern`, and the matrix is factorized six times. -/
theorem findTheta_analyses_twice_counterexample :
    (findTheta ⟨Real.sqrt, Real.log, 2⁻¹ ^ 52, Real.pi⟩ (exampleUnitLDLT ℝ) (exampleUnitLLT ℝ)
        SquaremDefault 1 (fun _ _ => 0) 0 [1, 1 / (4 * Real.pi), 1] (exampleUnitSpde ℝ) [40]
        (exampleOne ℝ) (exampleOne ℝ) (exampleOne ℝ) (exampleOne ℝ) [[1]] 100).isSome = true ∧
    findTheta_calls ⟨Real.sqrt, Real.log, 2⁻¹ ^ 52, Real.pi⟩ (exampleUnitLDLT ℝ)
        (exampleUnitLLT ℝ) SquaremDefault 1 (fun _ _ => 0) 0 [1, 1 / (4 * Real.pi), 1]
        (exampleUnitSpde ℝ) [40] (exampleOne ℝ) (exampleOne ℝ) (exampleOne ℝ) (exampleOne ℝ)
        [[1]] 100
      = [CholCall.compute, CholCall.analyzePattern,
          CholCall.factorize, CholCall.solve, CholCall.solve,
          CholCall.factorize, CholCall.solve, CholCall.solve,
          CholCall.factorize, CholCall.solve, CholCall.solve,
          CholCall.factorize, CholCall.solve, CholCall.solve,
          CholCall.factorize, CholCall.solve] ∧
    ((findTheta_calls ⟨Real.sqrt, Real.log, 2⁻¹ ^ 52, Real.pi⟩ (exampleUnitLDLT ℝ)
        (exampleUnitLLT ℝ) SquaremDefault 1 (fun _ _ => 0) 0 [1, 1 / (4 * Real.pi), 1]
        (exampleUnitSpde ℝ) [40] (exampleOne ℝ) (exampleOne ℝ) (exampleOne ℝ) (exampleOne ℝ)
        [[1]] 100).map CholCall.symbolic).sum = 2 ∧
    ((findTheta_calls ⟨Real.sqrt, Real.log, 2⁻¹ ^ 52, Real.pi⟩ (exampleUnitLDLT ℝ)
        (exampleUnitLLT ℝ) SquaremDefault 1 (fun _ _ => 0) 0 [1, 1 / (4 * Real.pi), 1]
        (exampleUnitSpde ℝ) [40] (exampleOne ℝ) (exampleOne ℝ) (exampleOne ℝ) (exampleOne ℝ)
        [[1]] 100).map CholCall.symbolic).sum ≠ 1 ∧
    ((findTheta_calls ⟨Real.sqrt, Real.log, 2⁻¹ ^ 52, Real.pi⟩ (exampleUnitLDLT ℝ)
        (exampleUnitLLT ℝ) SquaremDefault 1 (fun _ _ => 0) 0 [1, 1 / (4 * Real.pi), 1]
        (exampleUnitSpde ℝ) [40] (exampleOne ℝ) (exampleOne ℝ) (exampleOne ℝ) (exampleOne ℝ)
        [[1]] 100).map CholCall.numeric).sum = 6 := by
  have hc : findTheta_calls ⟨Real.sqrt, Real.log, 2⁻¹ ^ 52, Real.pi⟩ (exampleUnitLDLT ℝ)
      (exampleUnitLLT ℝ) SquaremDefault 1 (fun _ _ => 0) 0 [1, 1 / (4 * Real.pi), 1]
      (exampleUnitSpde ℝ) [40] (exampleOne ℝ) (exampleOne ℝ) (exampleOne ℝ) (exampleOne ℝ)
      [[1]] 100
      = [CholCall.compute, CholCall.analyzePattern,
          CholCall.factorize, CholCall.solve, CholCall.solve,
          CholCall.factorize, CholCall.solve, CholCall.solve,
          CholCall.factorize, CholCall.solve, CholCall.solve,
          CholCall.factorize, CholCall.solve, CholCall.solve,
          CholCall.factorize, CholCall.solve] := by
    obtain ⟨hX, hXY, hAvh, hyy⟩ := example_one_products
    obtain ⟨r1, r2, r3, r4⟩ := example_unit_residuals
    unfold findTheta_calls
    simp only [List.length_cons, List.length_nil, hXY, hAvh, hyy]
    rw [squarem_two_rounds_calls 100 0 _ _ _ _ _ _ _ _ _ _ _ _
      (example_unit_fixpt_start _ _ _ 0 hX)
      (example_unit_fixpt_pt (400 + 1 / 2) _ _ _ 0 (by norm_num) hX)
      (example_unit_fixpt_pt (400 + (400 + 1 / 2) / 2) _ _ _ 0 (by norm_num) hX)
      (example_unit_fixpt_pt (400 + (400 + (400 + 1 / 2) / 2) / 2) _ _ _ 0 (by norm_num) hX)
      r1 r2 r3 r4]
    rfl
  refine ⟨?_, hc, ?_, ?_, ?_⟩
  · rw [example_unit_findTheta]
    rfl
  · rw [hc]
    rfl
  · rw [hc]
    decide
  · rw [hc]
    rfl

end HandleCallsReal

/-! ## Rounds with `sv2 = 0` -/

section SquaremShiftReal

/-- The first round on a map that sends `[0]` to `[1]` and `[1]` to `[2]`, started at `[0]`
with the settings of `SquaremDefault`: `sv2 = 0`, the step length is clamped to `[1, 1]`,
and the round ends at `[2]` with `stepmax = 4`. -/
theorem example_shift_round_one (F : List ℝ → Option (List ℝ)) (h1 : F [0] = some [1])
    (h2 : F [1] = some [2]) :
    theta_squarem2_round ⟨Real.sqrt, Real.log, 2⁻¹ ^ 52, Real.pi⟩ SquaremDefault F 1
      (squaremStart SquaremDefault 0 [0])
    = SquaremStep.next (SquaremState.mk [2] [2] 1 1 4 2 2 true : SquaremState ℝ) := by
  rw [theta_round_view]
  have e1 : sqSr2 1 [0] [(1 : ℝ)] = 1 := by
    simp [sqSr2, sumLoop_one, vecGet]
  have e2 : sqSq2 ⟨Real.sqrt, Real.log, 2⁻¹ ^ 52, Real.pi⟩ 1 [(1 : ℝ)] [(2 : ℝ)] = 1 := by
    simp only [sqSq2, sumLoop_one, vecGet]
    exact real_sqrt_of_mul_self 1 _ (by norm_num) (by norm_num)
  have e3 : sqAlpha ⟨Real.sqrt, Real.log, 2⁻¹ ^ 52, Real.pi⟩ SquaremDefault 1
      (squaremStart SquaremDefault 0 [0]) [(1 : ℝ)] [(2 : ℝ)] = 1 :=
    sqAlpha_eq_one _ _ _ _ _ _ rfl rfl
  have e4 : sqPnew 1 (squaremStart SquaremDefault 0 [0]) [(1 : ℝ)] [(2 : ℝ)] 1 = [2] := by
    simp [sqPnew, squaremStart, vecGet, List.range_succ]
  simp only [squaremStart] at e1 e2 e3 e4 ⊢
  simp only [h1, h2, e1, e2, e3, e4, Real.sqrt_one]
  simp [SquaremDefault, sqTail]
  norm_num

/-- The second round of that run: `p = [2]`, `p1 = [3]`, `p2 = [4]` have `sv2 = 0`, the
value of `sqrt(sr2 / sv2)` is `+inf`, and the clamp leaves `alpha = stepmax = 4`. -/
theorem example_shift_alpha_two :
    sqSv2 1 [2] [(3 : ℝ)] [(4 : ℝ)] = 0 ∧
    methodSwitch ⟨Real.sqrt, Real.log, 2⁻¹ ^ 52, Real.pi⟩ 3 (DoubleVal.finite 1)
      (sqSr2 1 [2] [(3 : ℝ)]) (sqSv2 1 [2] [(3 : ℝ)] [(4 : ℝ)]) (sqSrv 1 [2] [(3 : ℝ)] [(4 : ℝ)])
      = DoubleVal.posInf ∧
    sqAlpha ⟨Real.sqrt, Real.log, 2⁻¹ ^ 52, Real.pi⟩ SquaremDefault 1
      (SquaremState.mk [2] [2] 1 1 4 2 2 true) [(3 : ℝ)] [(4 : ℝ)] = 4 := by
  have v : sqSv2 1 [2] [(3 : ℝ)] [(4 : ℝ)] = 0 := by
    simp [sqSv2, sumLoop_one, vecGet]
    norm_num
  have e1 : sqSr2 1 [2] [(3 : ℝ)] = 1 := by
    simp [sqSr2, sumLoop_one, vecGet]
    norm_num
  refine ⟨v, ?_, ?_⟩
  · rw [methodSwitch_eq _ _ (Or.inr (Or.inr rfl)), v, e1]
    unfold DoubleVal.div
    rw [if_pos rfl, if_pos one_pos]
    rfl
  · rw [sqAlpha_of_zero _ _ _ _ _ _ (Or.inr (Or.inr rfl)) v]
    simp [stdMax]

/-- The proposed point of the second round: `2 + 2 * 4 * 1 + 16 * 0 = 10`. -/
theorem example_shift_pnew :
    sqPnew 1 (SquaremState.mk [2] [2] 1 1 4 2 2 true) [(3 : ℝ)] [(4 : ℝ)] 4 = [10] := by
  simp [sqPnew, vecGet, List.range_succ]
  norm_num

/-- The two residuals of the second round, the residual of its stabilization and the bound
`kres`. -/
theorem example_shift_residuals :
    Real.sqrt (sqSr2 1 [2] [(3 : ℝ)]) = 1 ∧
    sqSq2 ⟨Real.sqrt, Real.log, 2⁻¹ ^ 52, Real.pi⟩ 1 [(3 : ℝ)] [(4 : ℝ)] = 1 ∧
    sqRes ⟨Real.sqrt, Real.log, 2⁻¹ ^ 52, Real.pi⟩ 1 [(11 : ℝ)] [(10 : ℝ)] = 1 ∧
    sqKres ⟨Real.sqrt, Real.log, 2⁻¹ ^ 52, Real.pi⟩ SquaremDefault 1 [(3 : ℝ)] [(4 : ℝ)]
      = 6 := by
  have e2 : sqSq2 ⟨Real.sqrt, Real.log, 2⁻¹ ^ 52, Real.pi⟩ 1 [(3 : ℝ)] [(4 : ℝ)] = 1 := by
    simp only [sqSq2, sumLoop_one, vecGet]
    exact real_sqrt_of_mul_self 1 _ (by norm_num) (by norm_num)
  refine ⟨?_, e2, ?_, ?_⟩
  · simp only [sqSr2, sumLoop_one, vecGet]
    exact real_sqrt_of_mul_self 1 _ (by norm_num) (by norm_num)
  · simp only [sqRes, sumLoop_one, vecGet]
    exact real_sqrt_of_mul_self 1 _ (by norm_num) (by norm_num)
  · simp only [sqKres, e2, sumLoop_one, vecGet]
    rw [real_sqrt_of_mul_self 4 _ (by norm_num) (by norm_num)]
    simp [SquaremDefault]
    norm_num

/-- The second round on `exampleShift`: the stabilization is run at `p_new = [10]` and
accepted, and the round ends at `[11]` with `alpha = 4`, `stepmax = 16` and `feval = 5`. -/
theorem example_shift_round_two :
    theta_squarem2_round ⟨Real.sqrt, Real.log, 2⁻¹ ^ 52, Real.pi⟩ SquaremDefault
      exampleShift 1 (SquaremState.mk [2] [2] 1 1 4 2 2 true)
    = SquaremStep.next (SquaremState.mk [11] [11] 4 1 16 3 5 true : SquaremState ℝ) := by
  rw [theta_round_view]
  obtain ⟨r1, r2, r3, r4⟩ := example_shift_residuals
  have e3 := example_shift_alpha_two.2.2
  have e4 := example_shift_pnew
  have f1 : exampleShift [(2 : ℝ)] = some [3] := by
    simp [exampleShift]
    norm_num
  have f2 : exampleShift [(3 : ℝ)] = some [4] := by
    simp [exampleShift]
    norm_num
  have f3 : exampleShift [(10 : ℝ)] = some [11] := by
    simp [exampleShift]
    norm_num
  simp only [f1, f2, r1, r2, e3, e4, f3, r3, r4]
  simp [SquaremDefault, sqTail]
  norm_num

/-- The run on `exampleShift` started at `[0]`, after two rounds. -/
theorem example_shift_after_two :
    theta_squarem2_after ⟨Real.sqrt, Real.log, 2⁻¹ ^ 52, Real.pi⟩ SquaremDefault
      exampleShift 1 2 (squaremStart SquaremDefault 0 [0])
    = some (SquaremState.mk [11] [11] 4 1 16 3 5 true : SquaremState ℝ) := by
  have f0 : exampleShift [(0 : ℝ)] = some [1] := by simp [exampleShift]
  have f1 : exampleShift [(1 : ℝ)] = some [2] := by
    simp [exampleShift]
    norm_num
  unfold theta_squarem2_after theta_squarem2_after theta_squarem2_after
  simp only
  rw [if_pos (by simp [squaremStart, SquaremDefault]), example_shift_round_one _ f0 f1]
  simp only
  rw [if_pos (by simp [SquaremDefault]), example_shift_round_two]

/-- The run on `exampleShiftFailing` started at `[0]`, after one round. -/
theorem example_shift_failing_after_one :
    theta_squarem2_after ⟨Real.sqrt, Real.log, 2⁻¹ ^ 52, Real.pi⟩ SquaremDefault
      exampleShiftFailing 1 1 (squaremStart SquaremDefault 0 [0])
    = some (SquaremState.mk [2] [2] 1 1 4 2 2 true : SquaremState ℝ) := by
  have f0 : exampleShiftFailing [(0 : ℝ)] = some [1] := by simp [exampleShiftFailing]
  have f1 : exampleShiftFailing [(1 : ℝ)] = some [2] := by
    simp [exampleShiftFailing]
    norm_num
  unfold theta_squarem2_after theta_squarem2_after
  simp only
  rw [if_pos (by simp [squaremStart, SquaremDefault]), example_shift_round_one _ f0 f1]

/-- Witness of C9: the end of the second round of the run on `exampleShift` started at
`[0]`, a round with `sv2 = 0`, in which the clamp of `+inf` leaves `alpha = stepmax = 4`,
the stabilization is accepted and `stepmax` grows to `16`. -/
theorem squarem_alpha_within_bounds_witness :
    ((SquaremDefault : SquaremControl ℝ).stepmin0 = 1 ∧
      1 ≤ (SquaremDefault : SquaremControl ℝ).stepmax0 ∧
      1 ≤ (SquaremDefault : SquaremControl ℝ).mstep ∧
      (theta_squarem2_after ⟨Real.sqrt, Real.log, 2⁻¹ ^ 52, Real.pi⟩ SquaremDefault
          exampleShift [(0 : ℝ)].length (1 + 1) (squaremStart SquaremDefault 0 [0])
          = some (SquaremState.mk [11] [11] 4 1 16 3 5 true) ∨
        init_squarem2_after ⟨Real.sqrt, Real.log, 2⁻¹ ^ 52, Real.pi⟩ SquaremDefault
          exampleShift [(0 : ℝ)].length (1 + 1) (squaremStart SquaremDefault 0 [0])
          = some (SquaremState.mk [11] [11] 4 1 16 3 5 true))) ∧
    ((SquaremState.mk [11] [11] 4 1 16 3 5 true : SquaremState ℝ).stepmin
        ≤ (SquaremState.mk [11] [11] 4 1 16 3 5 true : SquaremState ℝ).alpha ∧
      (SquaremState.mk [11] [11] 4 1 16 3 5 true : SquaremState ℝ).alpha
        ≤ (SquaremState.mk [11] [11] 4 1 16 3 5 true : SquaremState ℝ).stepmax ∧
      (SquaremState.mk [11] [11] 4 1 16 3 5 true : SquaremState ℝ).stepmin = 1 ∧
      1 ≤ (SquaremState.mk [11] [11] 4 1 16 3 5 true : SquaremState ℝ).stepmax) :=
  ⟨⟨rfl, by simp [SquaremDefault], by simp [SquaremDefault], Or.inl example_shift_after_two⟩,
    squarem_alpha_within_bounds ⟨Real.sqrt, Real.log, 2⁻¹ ^ 52, Real.pi⟩ SquaremDefault
      exampleShift 0 [0] 1 (SquaremState.mk [11] [11] 4 1 16 3 5 true) rfl
      (by simp [SquaremDefault]) (by simp [SquaremDefault]) (Or.inl example_shift_after_two)⟩

/-- Witness of C13, amended: the second round of the run on `exampleShiftFailing` started at
`[0]`, a round with `sv2 = 0`.  The clamp of `+inf` leaves `alpha = 4`, the stabilization
evaluation at `p_new = [10]` fails, and the handler falls back to `p2 = [4]` with
`alpha = 1`, `stepmax = 4` and `feval = 4`. -/
theorem squarem_failed_evaluation_witness :
    (theta_squarem2_after ⟨Real.sqrt, Real.log, 2⁻¹ ^ 52, Real.pi⟩ SquaremDefault
        exampleShiftFailing [(0 : ℝ)].length 1 (squaremStart SquaremDefault 0 [0])
      = some (SquaremState.mk [2] [2] 1 1 4 2 2 true) ∧
      (SquaremState.mk [2] [2] 1 1 4 2 2 true : SquaremState ℝ).feval
        < (SquaremDefault : SquaremControl ℝ).maxiter ∧
      exampleShiftFailing (SquaremState.mk [2] [2] 1 1 4 2 2 true : SquaremState ℝ).pcpp
        = some [3] ∧
      ¬ (⟨Real.sqrt, Real.log, 2⁻¹ ^ 52, Real.pi⟩ : CLib ℝ).sqrt
          (sqSr2 [(0 : ℝ)].length
            (SquaremState.mk [2] [2] 1 1 4 2 2 true : SquaremState ℝ).pcpp [3])
          < (SquaremDefault : SquaremControl ℝ).tol ∧
      exampleShiftFailing [(3 : ℝ)] = some [4] ∧
      ¬ sqSq2 ⟨Real.sqrt, Real.log, 2⁻¹ ^ 52, Real.pi⟩ [(0 : ℝ)].length [(3 : ℝ)] [4]
          < (SquaremDefault : SquaremControl ℝ).tol ∧
      |sqAlpha ⟨Real.sqrt, Real.log, 2⁻¹ ^ 52, Real.pi⟩ SquaremDefault [(0 : ℝ)].length
          (SquaremState.mk [2] [2] 1 1 4 2 2 true) [(3 : ℝ)] [4] - 1| > 1 / 100 ∧
      exampleShiftFailing (sqPnew [(0 : ℝ)].length (SquaremState.mk [2] [2] 1 1 4 2 2 true)
          [(3 : ℝ)] [4]
          (sqAlpha ⟨Real.sqrt, Real.log, 2⁻¹ ^ 52, Real.pi⟩ SquaremDefault [(0 : ℝ)].length
            (SquaremState.mk [2] [2] 1 1 4 2 2 true) [(3 : ℝ)] [4])) = none ∧
      (SquaremDefault : SquaremControl ℝ).mstep ≠ 0) ∧
    theta_squarem2_round ⟨Real.sqrt, Real.log, 2⁻¹ ^ 52, Real.pi⟩ SquaremDefault
        exampleShiftFailing [(0 : ℝ)].length (SquaremState.mk [2] [2] 1 1 4 2 2 true)
      = SquaremStep.next (SquaremState.mk [4] [4] 1 1 4 3 4 false) := by
  obtain ⟨r1, r2, _, _⟩ := example_shift_residuals
  have e3 := example_shift_alpha_two.2.2
  have g : (SquaremState.mk [2] [2] 1 1 4 2 2 true : SquaremState ℝ).feval
      < (SquaremDefault : SquaremControl ℝ).maxiter := by simp [SquaremDefault]
  have f1 : exampleShiftFailing (SquaremState.mk [2] [2] 1 1 4 2 2 true : SquaremState ℝ).pcpp
      = some [3] := by
    simp [exampleShiftFailing]
    norm_num
  have f2 : exampleShiftFailing [(3 : ℝ)] = some [4] := by
    simp [exampleShiftFailing]
    norm_num
  have c1 : ¬ (⟨Real.sqrt, Real.log, 2⁻¹ ^ 52, Real.pi⟩ : CLib ℝ).sqrt
      (sqSr2 [(0 : ℝ)].length
        (SquaremState.mk [2] [2] 1 1 4 2 2 true : SquaremState ℝ).pcpp [3])
      < (SquaremDefault : SquaremControl ℝ).tol := by
    show ¬ Real.sqrt (sqSr2 1 [2] [(3 : ℝ)]) < _
    rw [r1]
    simp [SquaremDefault]
    norm_num
  have c2 : ¬ sqSq2 ⟨Real.sqrt, Real.log, 2⁻¹ ^ 52, Real.pi⟩ [(0 : ℝ)].length [(3 : ℝ)] [4]
      < (SquaremDefault : SquaremControl ℝ).tol := by
    show ¬ sqSq2 ⟨Real.sqrt, Real.log, 2⁻¹ ^ 52, Real.pi⟩ 1 [(3 : ℝ)] [4] < _
    rw [r2]
    simp [SquaremDefault]
    norm_num
  have c3 : |sqAlpha ⟨Real.sqrt, Real.log, 2⁻¹ ^ 52, Real.pi⟩ SquaremDefault [(0 : ℝ)].length
      (SquaremState.mk [2] [2] 1 1 4 2 2 true) [(3 : ℝ)] [4] - 1| > 1 / 100 := by
    show |sqAlpha ⟨Real.sqrt, Real.log, 2⁻¹ ^ 52, Real.pi⟩ SquaremDefault 1
      (SquaremState.mk [2] [2] 1 1 4 2 2 true) [(3 : ℝ)] [4] - 1| > 1 / 100
    rw [e3]
    norm_num
  have f3 : exampleShiftFailing (sqPnew [(0 : ℝ)].length
      (SquaremState.mk [2] [2] 1 1 4 2 2 true) [(3 : ℝ)] [4]
      (sqAlpha ⟨Real.sqrt, Real.log, 2⁻¹ ^ 52, Real.pi⟩ SquaremDefault [(0 : ℝ)].length
        (SquaremState.mk [2] [2] 1 1 4 2 2 true) [(3 : ℝ)] [4])) = none := by
    show exampleShiftFailing (sqPnew 1 (SquaremState.mk [2] [2] 1 1 4 2 2 true) [(3 : ℝ)] [4]
      (sqAlpha ⟨Real.sqrt, Real.log, 2⁻¹ ^ 52, Real.pi⟩ SquaremDefault 1
        (SquaremState.mk [2] [2] 1 1 4 2 2 true) [(3 : ℝ)] [4])) = none
    rw [e3, example_shift_pnew]
    simp [exampleShiftFailing]
  have hm : (SquaremDefault : SquaremControl ℝ).mstep ≠ 0 := by simp [SquaremDefault]
  refine ⟨⟨example_shift_failing_after_one, g, f1, c1, f2, c2, c3, f3, hm⟩, ?_⟩
  rw [((squarem_failed_evaluation ⟨Real.sqrt, Real.log, 2⁻¹ ^ 52, Real.pi⟩ SquaremDefault
    exampleShiftFailing 0 [(0 : ℝ)] 1 (SquaremState.mk [2] [2] 1 1 4 2 2 true)
    example_shift_failing_after_one g).2.2.1 [3] [4] f1 c1 f2 c2 c3 f3 hm).1]
  show SquaremStep.next (sqTail SquaremDefault (SquaremState.mk [2] [2] 1 1 4 2 2 true) 1
    (if sqAlpha ⟨Real.sqrt, Real.log, 2⁻¹ ^ 52, Real.pi⟩ SquaremDefault 1
        (SquaremState.mk [2] [2] 1 1 4 2 2 true) [(3 : ℝ)] [4]
        = (SquaremState.mk [2] [2] 1 1 4 2 2 true : SquaremState ℝ).stepmax
      then stdMax (SquaremDefault : SquaremControl ℝ).stepmax0
        ((SquaremState.mk [2] [2] 1 1 4 2 2 true : SquaremState ℝ).stepmax
          / (SquaremDefault : SquaremControl ℝ).mstep)
      else (SquaremState.mk [2] [2] 1 1 4 2 2 true : SquaremState ℝ).stepmax)
    [4] (2 + 1 + 1) false) = _
  rw [e3]
  simp [SquaremDefault, sqTail, stdMax]

/-- Witness of C21: the second round of the run on `exampleShift` started at `[0]`, a round
with `sv2 = 0`: `p = [2]`, `p1 = [3]`, `p2 = [4]`, the clamp of `+inf` leaves
`alpha = stepmax = 4`, the stabilization is run at `p_new = [10]` with `ptmp = [11]`, the
residual `1` is within `kres = 6`, and the next iterate is `ptmp`. -/
theorem squarem_stabilization_witness :
    ((⟨Real.sqrt, Real.log, 2⁻¹ ^ 52, Real.pi⟩ : CLib ℝ).sqrt = Real.sqrt ∧
      0 < 1 ∧
      (SquaremState.mk [2] [2] 1 1 4 2 2 true : SquaremState ℝ).pnew.length = 1 ∧
      exampleShift (SquaremState.mk [2] [2] 1 1 4 2 2 true : SquaremState ℝ).pcpp
        = some [3] ∧
      ¬ (⟨Real.sqrt, Real.log, 2⁻¹ ^ 52, Real.pi⟩ : CLib ℝ).sqrt
          (sqSr2 1 (SquaremState.mk [2] [2] 1 1 4 2 2 true : SquaremState ℝ).pcpp [3])
          < (SquaremDefault : SquaremControl ℝ).tol ∧
      exampleShift [(3 : ℝ)] = some [4] ∧
      ¬ sqSq2 ⟨Real.sqrt, Real.log, 2⁻¹ ^ 52, Real.pi⟩ 1 [(3 : ℝ)] [4]
          < (SquaremDefault : SquaremControl ℝ).tol ∧
      |sqAlpha ⟨Real.sqrt, Real.log, 2⁻¹ ^ 52, Real.pi⟩ SquaremDefault 1
          (SquaremState.mk [2] [2] 1 1 4 2 2 true) [(3 : ℝ)] [4] - 1| > 1 / 100 ∧
      exampleShift (sqPnew 1 (SquaremState.mk [2] [2] 1 1 4 2 2 true) [(3 : ℝ)] [4]
          (sqAlpha ⟨Real.sqrt, Real.log, 2⁻¹ ^ 52, Real.pi⟩ SquaremDefault 1
            (SquaremState.mk [2] [2] 1 1 4 2 2 true) [(3 : ℝ)] [4])) = some [11]) ∧
    ∃ s1 : SquaremState ℝ,
      theta_squarem2_round ⟨Real.sqrt, Real.log, 2⁻¹ ^ 52, Real.pi⟩ SquaremDefault
          exampleShift 1 (SquaremState.mk [2] [2] 1 1 4 2 2 true) = SquaremStep.next s1 ∧
      s1.pcpp = [11] ∧ s1.alpha = 4 ∧ s1.feval = 5 := by
  obtain ⟨r1, r2, r3, r4⟩ := example_shift_residuals
  have e3 := example_shift_alpha_two.2.2
  have f1 : exampleShift (SquaremState.mk [2] [2] 1 1 4 2 2 true : SquaremState ℝ).pcpp
      = some [3] := by
    simp [exampleShift]
    norm_num
  have f2 : exampleShift [(3 : ℝ)] = some [4] := by
    simp [exampleShift]
    norm_num
  have c1 : ¬ (⟨Real.sqrt, Real.log, 2⁻¹ ^ 52, Real.pi⟩ : CLib ℝ).sqrt
      (sqSr2 1 (SquaremState.mk [2] [2] 1 1 4 2 2 true : SquaremState ℝ).pcpp [3])
      < (SquaremDefault : SquaremControl ℝ).tol := by
    show ¬ Real.sqrt (sqSr2 1 [2] [(3 : ℝ)]) < _
    rw [r1]
    simp [SquaremDefault]
    norm_num
  have c2 : ¬ sqSq2 ⟨Real.sqrt, Real.log, 2⁻¹ ^ 52, Real.pi⟩ 1 [(3 : ℝ)] [4]
      < (SquaremDefault : SquaremControl ℝ).tol := by
    rw [r2]
    simp [SquaremDefault]
    norm_num
  have c3 : |sqAlpha ⟨Real.sqrt, Real.log, 2⁻¹ ^ 52, Real.pi⟩ SquaremDefault 1
      (SquaremState.mk [2] [2] 1 1 4 2 2 true) [(3 : ℝ)] [4] - 1| > 1 / 100 := by
    rw [e3]
    norm_num
  have f3 : exampleShift (sqPnew 1 (SquaremState.mk [2] [2] 1 1 4 2 2 true) [(3 : ℝ)] [4]
      (sqAlpha ⟨Real.sqrt, Real.log, 2⁻¹ ^ 52, Real.pi⟩ SquaremDefault 1
        (SquaremState.mk [2] [2] 1 1 4 2 2 true) [(3 : ℝ)] [4])) = some [11] := by
    rw [e3, example_shift_pnew]
    simp [exampleShift]
    norm_num
  refine ⟨⟨rfl, by norm_num, rfl, f1, c1, f2, c2, c3, f3⟩, ?_⟩
  obtain ⟨s1, h1, _, h3, _, _, h6, _⟩ :=
    (squarem_stabilization ⟨Real.sqrt, Real.log, 2⁻¹ ^ 52, Real.pi⟩ rfl SquaremDefault
      exampleShift 1 (SquaremState.mk [2] [2] 1 1 4 2 2 true) [3] [4] [11] (by norm_num) rfl
      f1 c1 f2 c2 c3 f3).2.2.2.2
  have hle : sqRes ⟨Real.sqrt, Real.log, 2⁻¹ ^ 52, Real.pi⟩ 1 [(11 : ℝ)]
      (sqPnew 1 (SquaremState.mk [2] [2] 1 1 4 2 2 true) [(3 : ℝ)] [4]
        (sqAlpha ⟨Real.sqrt, Real.log, 2⁻¹ ^ 52, Real.pi⟩ SquaremDefault 1
          (SquaremState.mk [2] [2] 1 1 4 2 2 true) [(3 : ℝ)] [4]))
      ≤ sqKres ⟨Real.sqrt, Real.log, 2⁻¹ ^ 52, Real.pi⟩ SquaremDefault 1 [(3 : ℝ)] [4] := by
    rw [e3, example_shift_pnew, r3, r4]
    norm_num
  obtain ⟨a1, a2, _⟩ := h6 hle
  exact ⟨s1, h1, a1, a2.trans e3, h3⟩

end SquaremShiftReal

end BayesGLMfMRI
